import Mathlib

/-!
# The `nfts` contract: ledger model

A shallow embedding of `src/src/nfts.cpp` / `src/include/nfts.hpp`.

* Every table of the contract is a list of rows; `tfind`, `templace`,
  `tmodify` and `terase` are the keyed-table primitives of the platform
  (`find`/`get`, `emplace`, `modify`, `erase`).  `emplace` aborts on a
  primary key that is already stored.
* An action is a function `State → Option State`; `none` is an aborted
  transaction (a failed `check`, a failed `get`, a missing authorization),
  which leaves the stored ledger as it was.
* `asset` amounts are 64-bit signed integers: arithmetic goes through `i64`
  and the range checks of the platform's `asset` operators.
-/

set_option linter.dupNamespace false
set_option linter.unusedVariables false

namespace Nfts

/-! ## Platform types -/

/-- An account or table name: a 64-bit value. -/
abbrev name := Nat

/-- An IEEE-754 binary64 value, kept as its bit pattern. -/
abbrev double := Nat

/-- The check `0.0 <= d && d <= 1.0` on a binary64 bit pattern: the patterns
of `+0.0 .. 1.0` are `0 .. 0x3FF0000000000000` in numeric order, and `-0.0`
compares equal to zero; every NaN and every other negative value fails. -/
def double_in_unit (d : double) : Prop :=
  d ≤ 4607182418800017408 ∨ d = 9223372036854775808

instance (d : double) : Decidable (double_in_unit d) :=
  inferInstanceAs (Decidable (d ≤ 4607182418800017408 ∨ d = 9223372036854775808))

/-- Wrap an integer into the range of `int64_t`. -/
def i64 (x : Int) : Int := (x + 9223372036854775808) % 18446744073709551616 - 9223372036854775808

/-- Conversion of an `int64_t` to `uint64_t`. -/
def u64 (x : Int) : Nat := (x % 18446744073709551616).toNat

/-- The bound `asset::max_amount = (1 << 62) - 1`. -/
def max_amount : Int := 4611686018427387903

/-- Bytes of a symbol code, least significant first, up to `n` of them. -/
def code_bytes : Nat → Nat → List Nat
  | 0, _ => []
  | n + 1, v => (v % 256) :: code_bytes n (v / 256)

/-- A symbol code is valid when it is one to seven letters `A`..`Z` followed
only by zero bytes. -/
def symbol_code_is_valid (v : Nat) : Bool :=
  let bs := code_bytes 8 v
  let letters := bs.takeWhile (fun b => decide (65 ≤ b ∧ b ≤ 90))
  decide (0 < letters.length) && decide (letters.length ≤ 7) &&
    (bs.drop letters.length).all (fun b => decide (b = 0)) && decide (v < 18446744073709551616)

/-- A symbol: code and decimal precision. -/
structure symbol where
  code : Nat
  precision : Nat
deriving DecidableEq, Repr

/-- The raw code of `"COME"`. -/
def COME_code : Nat := 1162694467

/-- The raw code of `"CTT"`. -/
def CTT_code : Nat := 5526595

/-- The payment symbol `symbol("COME", 2)`. -/
def COME : symbol := ⟨COME_code, 2⟩

/-- The platform test `symbol::is_valid`. -/
def symbol.is_valid (s : symbol) : Bool := symbol_code_is_valid s.code

/-- An `eosio::asset`. -/
structure asset where
  amount : Int
  symbol : Nfts.symbol
deriving DecidableEq, Repr

/-- The platform test `asset::is_amount_within_range`. -/
def asset.is_amount_within_range (a : asset) : Prop :=
  -max_amount ≤ a.amount ∧ a.amount ≤ max_amount

instance (a : asset) : Decidable a.is_amount_within_range :=
  inferInstanceAs (Decidable (-max_amount ≤ a.amount ∧ a.amount ≤ max_amount))

/-- The platform test `asset::is_valid`. -/
def asset.is_valid (a : asset) : Prop :=
  a.is_amount_within_range ∧ a.symbol.is_valid = true

instance (a : asset) : Decidable a.is_valid :=
  inferInstanceAs (Decidable (a.is_amount_within_range ∧ a.symbol.is_valid = true))

/-- The call `check(p, msg)` followed by `k`: a failed check aborts. -/
def check {α : Type} (p : Prop) [Decidable p] (k : Option α) : Option α :=
  if p then k else none

/-- A step that may abort, followed by `k` on its result. -/
def andThen {α β : Type} (o : Option α) (k : α → Option β) : Option β :=
  match o with
  | none => none
  | some a => k a

/-- The constructor `asset(amount, symbol)`, which checks range and symbol. -/
def asset.make (a : Int) (s : Nfts.symbol) : Option asset :=
  check (asset.is_amount_within_range ⟨a, s⟩) <|
  check (s.is_valid = true) <|
  some ⟨a, s⟩

/-- The operator `a += b` on assets. -/
def asset.add (a b : asset) : Option asset :=
  check (b.symbol = a.symbol) <|
  check (-max_amount ≤ i64 (a.amount + b.amount)) <|
  check (i64 (a.amount + b.amount) ≤ max_amount) <|
  some ⟨i64 (a.amount + b.amount), a.symbol⟩

/-- The operator `a -= b` on assets. -/
def asset.sub (a b : asset) : Option asset :=
  check (b.symbol = a.symbol) <|
  check (-max_amount ≤ i64 (a.amount - b.amount)) <|
  check (i64 (a.amount - b.amount) ≤ max_amount) <|
  some ⟨i64 (a.amount - b.amount), a.symbol⟩

/-- The operator `a / n` of an asset by an `int64_t`. -/
def asset.div (a : asset) (n : Int) : Option asset :=
  check (n ≠ 0) <|
  check (¬ (a.amount = -9223372036854775808 ∧ n = -1)) <|
  some ⟨Int.tdiv a.amount n, a.symbol⟩

/-- The comparison `a > b` on assets, which aborts on different symbols. -/
def asset.gt (a b : asset) : Option Bool :=
  check (a.symbol = b.symbol) <|
  some (decide (a.amount > b.amount))

/-- The comparison `a >= b` on assets, which aborts on different symbols. -/
def asset.ge (a b : asset) : Option Bool :=
  check (a.symbol = b.symbol) <|
  some (decide (a.amount ≥ b.amount))

/-! ## Keyed tables -/

section Table
variable {α : Type} {κ : Type} [DecidableEq κ]

/-- Look a row up by primary key (`find`, `get`). -/
def tfind (key : α → κ) (t : List α) (k : κ) : Option α :=
  t.find? (fun r => decide (key r = k))

/-- Store a new row; aborts when the primary key is already stored. -/
def templace (key : α → κ) (t : List α) (r : α) : Option (List α) :=
  if (tfind key t (key r)).isSome then none else some (t ++ [r])

/-- Rewrite the row stored under a key. -/
def tmodify (key : α → κ) (t : List α) (k : κ) (f : α → α) : List α :=
  t.map (fun r => if key r = k then f r else r)

/-- Remove the row stored under a key. -/
def terase (key : α → κ) (t : List α) (k : κ) : List α :=
  t.filter (fun r => decide (key r ≠ k))

end Table

/-! ## Rows (`nfts.hpp`) -/

/-- The singleton `tokenconfigs`. -/
structure tokenconfigs where
  standard : name
  version : String
  nft_category_id : Nat
deriving DecidableEq, Repr

/-- A row of `events`. -/
structure event where
  event : Nat
  creator : name
deriving DecidableEq, Repr

/-- A row of `nftstats`; the table scope (the event) is kept beside the row. -/
structure nft_stat where
  nft_category_id : Nat
  burnable : Bool
  sellable : Bool
  transferable : Bool
  issuer : name
  nft_name : name
  price : asset
  max_per_account : Fin 256
  max_supply : asset
  current_supply : asset
  issued_supply : asset
  sale_split : double
  base_uri : String
deriving DecidableEq, Repr

/-- A row of `users`. -/
structure user where
  id : Nat
  signature : Nat
deriving DecidableEq, Repr

/-- A row of `nfts`. -/
structure nft where
  id : Nat
  serial_number : Nat
  event : Nat
  owner : Nat
  nft_name : name
  resale_price : asset
  shared_with : Nat
  relative_uri : Option String
deriving DecidableEq, Repr

/-- A row of `accounts`; the table scope (the owner) is kept beside the row. -/
structure account where
  nft_category_id : Nat
  event : Nat
  nft_name : name
  amount : asset
deriving DecidableEq, Repr

/-- A row of `asks`. -/
structure ask where
  batch_id : Nat
  event : Nat
  nft_ids : List Nat
  seller : Nat
  ask_price : asset
  expiration : Nat
deriving DecidableEq, Repr

/-- A row of `lockednfts`: the one field `nft_id`. -/
abbrev lockednft := Nat

/-- A row of `auctions`. -/
structure auction where
  nft_id : Nat
  event : Nat
  seller : Nat
  target_price : asset
  min_bid_price : asset
  current_price : asset
  bidder : Nat
  expiration : Nat
deriving DecidableEq, Repr

/-- The stored ledger: every table of the contract. -/
structure State where
  config : Option tokenconfigs
  events : List Nfts.event
  stats : List (Nat × nft_stat)
  users : List user
  nfts : List nft
  accounts : List (Nat × account)
  asks : List ask
  lockednfts : List lockednft
  auctions : List auction
deriving DecidableEq, Repr

/-- What an action sees of its transaction and of the chain; `now` is the
chain clock in seconds, which the contract reads through
`time_point_sec(current_time_point())`, a 32-bit value: the clock modulo
`2^32`. -/
structure Env where
  self : name
  now : Nat
  auths : List name
  chain_accounts : List name
deriving DecidableEq, Repr

/-- The ledger before any action. -/
def State.empty : State :=
  { config := none, events := [], stats := [], users := [], nfts := [],
    accounts := [], asks := [], lockednfts := [], auctions := [] }

/-- The call `require_auth(n)` followed by `k`. -/
def require_auth {α : Type} (env : Env) (n : name) (k : Option α) : Option α :=
  check (n ∈ env.auths) k

/-- A `for` loop over token ids whose body may abort. -/
def forEach (body : State → Nat → Option State) : List Nat → State → Option State
  | [], s => some s
  | nft_id :: rest, s => andThen (body s nft_id) (forEach body rest)

/-- Primary key of a scoped `nftstats` row: scope and `nft_name.value`. -/
def stat_key (r : Nat × nft_stat) : Nat × Nat := (r.1, r.2.nft_name)

/-- Primary key of a scoped `accounts` row: scope and `nft_category_id`. -/
def acct_key (r : Nat × account) : Nat × Nat := (r.1, r.2.nft_category_id)

/-- Primary key of an `events` row. -/
def event_key (r : Nfts.event) : Nat := r.event

/-- Primary key of a `users` row. -/
def user_key (r : user) : Nat := r.id

/-- Primary key of an `nfts` row. -/
def nft_key (r : nft) : Nat := r.id

/-- Primary key of an `asks` row. -/
def ask_key (r : ask) : Nat := r.batch_id

/-- Primary key of a `lockednfts` row. -/
def lock_key (r : lockednft) : Nat := r

/-- Primary key of an `auctions` row. -/
def auction_key (r : auction) : Nat := r.nft_id

/-- The constant `WEEK_SEC`. -/
def WEEK_SEC : Nat := 604800

/-- The name `"cometogether"_n`. -/
def cometogether : name := 4982297103755335024

/-! ## Private helpers of the contract -/

/-- `nfts::checkasset` followed by `k`. -/
def checkasset {α : Type} (amount : asset) (k : Option α) : Option α :=
  check (amount.symbol.precision = 0) <|
  check (amount.amount ≥ 1) <|
  check (amount.symbol.code = CTT_code) <|
  check amount.is_valid k

/-- The platform call `available_primary_key` on `nfts`: zero on an empty
table, else the largest stored key plus one; aborts at the autoincrement
limit `2^64 - 2`. -/
def available_primary_key (t : List nft) : Option Nat :=
  let k := match t with
    | [] => 0
    | _ => (t.map nft_key).foldr max 0 + 1
  if k < 18446744073709551614 then some k else none

/-- `nfts::mint`.  Fields the constructor does not assign (`shared_with`,
and `relative_uri` for an empty uri) hold the zero value of a fresh row. -/
def mint (to_ : Nat) (issuer : name) (event : Nat) (nft_name : name)
    (issued_supply : asset) (relative_uri : String) (s : State) : Option State :=
  andThen (available_primary_key s.nfts) fun nft_id =>
  andThen (asset.make 0 COME) fun price =>
  andThen (templace nft_key s.nfts
    { id := nft_id, serial_number := u64 (i64 (issued_supply.amount + 1)), event := event,
      owner := to_, nft_name := nft_name, resale_price := price, shared_with := 0,
      relative_uri := if relative_uri.isEmpty then none else some relative_uri }) fun nfts =>
  some { s with nfts := nfts }

/-- `nfts::add_balance`. -/
def add_balance (owner : Nat) (ram_payer : name) (event : Nat) (nft_name : name)
    (nft_category_id : Nat) (quantity : asset) (s : State) : Option State :=
  match tfind acct_key s.accounts (owner, nft_category_id) with
  | none =>
    andThen (templace acct_key s.accounts
      (owner, { nft_category_id := nft_category_id, event := event, nft_name := nft_name,
                amount := quantity })) fun accounts =>
    some { s with accounts := accounts }
  | some to_ =>
    andThen (asset.add to_.2.amount quantity) fun amount =>
    some { s with accounts := tmodify acct_key s.accounts (owner, nft_category_id)
                    (fun a => (a.1, { a.2 with amount := amount })) }

/-- `nfts::sub_balance`.  When no row is stored for the owner the iterator
is `end()`: whatever the dereference reads, the action then aborts, in the
`check` or in `erase`/`modify`, which both reject an end iterator. -/
def sub_balance (owner : Nat) (nft_category_id : Nat) (quantity : asset) (s : State) :
    Option State :=
  andThen (tfind acct_key s.accounts (owner, nft_category_id)) fun from_ =>
  check (from_.2.amount.amount ≥ quantity.amount) <|
  if from_.2.amount.amount = quantity.amount then
    some { s with accounts := terase acct_key s.accounts (owner, nft_category_id) }
  else
    andThen (asset.sub from_.2.amount quantity) fun amount =>
    some { s with accounts := tmodify acct_key s.accounts (owner, nft_category_id)
                    (fun a => (a.1, { a.2 with amount := amount })) }

/-- One round of the loop of `nfts::changeowner`. -/
def changeowner_step (env : Env) (from_ to_ : Nat) (istransfer : Bool) (s : State)
    (nft_id : Nat) : Option State :=
  andThen (tfind nft_key s.nfts nft_id) fun nft =>
  andThen (tfind stat_key s.stats (nft.event, nft.nft_name)) fun nft_stat =>
  require_auth env nft_stat.2.issuer <|
  check (istransfer = true →
    nft.owner = from_ ∧ nft_stat.2.transferable = true ∧
      tfind lock_key s.lockednfts nft_id = none) <|
  andThen (asset.make 1 nft_stat.2.max_supply.symbol) fun quantity =>
  andThen (sub_balance from_ nft_stat.2.nft_category_id quantity
    { s with nfts := tmodify nft_key s.nfts nft_id (fun t => { t with owner := to_ }) })
    fun s2 =>
  add_balance to_ env.self nft.event nft.nft_name nft_stat.2.nft_category_id quantity s2

/-- `nfts::changeowner`. -/
def changeowner (env : Env) (from_ to_ : Nat) (nft_ids : List Nat) (memo : String)
    (istransfer : Bool) (s : State) : Option State :=
  forEach (changeowner_step env from_ to_ istransfer) nft_ids s

/-! ## Actions -/

/-- `nfts::setconfig`. -/
def setconfig (env : Env) (version : String) (s : State) : Option State :=
  require_auth env env.self <|
  let config_singleton := s.config.getD
    { standard := cometogether, version := version, nft_category_id := 0 }
  some { s with config := some { config_singleton with version := version } }

/-- `nfts::createacc`. -/
def createacc (env : Env) (id : Nat) (signature : Nat) (caller : name) (s : State) :
    Option State :=
  require_auth env caller <|
  check (tfind user_key s.users id = none) <|
  andThen (templace user_key s.users { id := id, signature := signature }) fun users =>
  some { s with users := users }

/-- The event branch of `nfts::createnft`: a new event is stored with the
issuer as creator, an existing one must have been created by the issuer. -/
def createnft_event (issuer : name) (event : Nat) (events : List Nfts.event) :
    Option (List Nfts.event) :=
  match tfind event_key events event with
  | none => templace event_key events { event := event, creator := issuer }
  | some existing_event => check (existing_event.creator = issuer) (some events)

/-- `nfts::createnft`; the increment of the `uint64_t` counter wraps. -/
def createnft (env : Env) (issuer : name) (event : Nat) (nft_name : name)
    (burnable sellable transferable : Bool) (price : asset) (max_per_account : Fin 256)
    (sale_split : double) (base_uri : String) (max_supply : asset) (s : State) :
    Option State :=
  require_auth env issuer <|
  check (max_per_account.val > 0) <|
  check (price.amount > 0) <|
  check (price.symbol = COME) <|
  checkasset max_supply <|
  check (issuer ∈ env.chain_accounts) <|
  check (double_in_unit sale_split) <|
  andThen s.config fun config_singleton =>
  andThen (createnft_event issuer event s.events) fun events =>
  andThen (asset.make 0 ⟨CTT_code, max_supply.symbol.precision⟩) fun current_supply =>
  andThen (asset.make 0 ⟨CTT_code, max_supply.symbol.precision⟩) fun issued_supply =>
  check (tfind stat_key s.stats (event, nft_name) = none) <|
  andThen (templace stat_key s.stats
    (event, { nft_category_id := config_singleton.nft_category_id, issuer := issuer,
              nft_name := nft_name, burnable := burnable, sellable := sellable,
              transferable := transferable, price := price,
              max_per_account := max_per_account, current_supply := current_supply,
              issued_supply := issued_supply, sale_split := sale_split,
              base_uri := base_uri, max_supply := max_supply })) fun stats =>
  some { s with
    events := events, stats := stats,
    config := some { config_singleton with
      nft_category_id := (config_singleton.nft_category_id + 1) % 18446744073709551616 } }

/-- `nfts::deleteeve`. -/
def deleteeve (env : Env) (event : Nat) (s : State) : Option State :=
  andThen (tfind event_key s.events event) fun selected_event =>
  require_auth env selected_event.creator <|
  some { s with events := terase event_key s.events event }

/-- `nfts::deletestats`; the decrement of the `uint64_t` counter wraps. -/
def deletestats (env : Env) (event : Nat) (nft_name : name) (s : State) : Option State :=
  andThen (tfind stat_key s.stats (event, nft_name)) fun stats =>
  require_auth env stats.2.issuer <|
  andThen s.config fun config_singleton =>
  some { s with
    stats := terase stat_key s.stats (event, nft_name),
    config := some { config_singleton with
      nft_category_id :=
        (config_singleton.nft_category_id + 18446744073709551615) % 18446744073709551616 } }

/-- The `for` loop of `nfts::issue`, run `n` more times: mint, then advance
the local copy of `issued_supply` by one token. -/
def issue_loop (to_ : Nat) (issuer : name) (event : Nat) (nft_name : name) (one_token : asset)
    (relative_uri : String) : Nat → asset → State → Option State
  | 0, _, s => some s
  | n + 1, issued_supply, s =>
    andThen (mint to_ issuer event nft_name issued_supply relative_uri s) fun s1 =>
    andThen (asset.add issued_supply one_token) fun issued_supply1 =>
    issue_loop to_ issuer event nft_name one_token relative_uri n issued_supply1 s1

/-- The per-account test of `nfts::issue`, on the stored balance row if any. -/
def issue_cap_ok (quantity : asset) (nft_stats : nft_stat) (account : Option (Nat × account)) :
    Prop :=
  match account with
  | none => quantity.amount ≤ (nft_stats.max_per_account.val : Int)
  | some a => i64 (quantity.amount + a.2.amount.amount) ≤ (nft_stats.max_per_account.val : Int)

instance (quantity : asset) (nft_stats : nft_stat) (account : Option (Nat × account)) :
    Decidable (issue_cap_ok quantity nft_stats account) :=
  match account with
  | none => inferInstanceAs (Decidable (quantity.amount ≤ (nft_stats.max_per_account.val : Int)))
  | some a => inferInstanceAs
      (Decidable (i64 (quantity.amount + a.2.amount.amount)
        ≤ (nft_stats.max_per_account.val : Int)))

/-- The minting branch of `nfts::issue`: the loop for a quantity above one,
a single `mint` otherwise. -/
def issue_mint (to_ : Nat) (event : Nat) (nft_name : name) (quantity : asset)
    (relative_uri : String) (nft_stats : nft_stat) (s : State) : Option State :=
  if quantity.amount > 1 then
    andThen (asset.make 1 nft_stats.max_supply.symbol) fun one_token =>
    issue_loop to_ nft_stats.issuer event nft_name one_token relative_uri
      (u64 quantity.amount) nft_stats.issued_supply s
  else
    mint to_ nft_stats.issuer event nft_name nft_stats.issued_supply relative_uri s

/-- `nfts::issue`. -/
def issue (env : Env) (to_ : Nat) (event : Nat) (nft_name : name) (quantity : asset)
    (relative_uri : String) (memo : String) (s : State) : Option State :=
  check (memo.utf8ByteSize ≤ 256) <|
  andThen (tfind user_key s.users to_) fun user =>
  andThen (tfind stat_key s.stats (event, nft_name)) fun nft_stats =>
  check (issue_cap_ok quantity nft_stats.2
    (tfind acct_key s.accounts (to_, nft_stats.2.nft_category_id))) <|
  require_auth env nft_stats.2.issuer <|
  checkasset quantity <|
  check (quantity.symbol = nft_stats.2.max_supply.symbol) <|
  check (quantity.amount ≤
    i64 (nft_stats.2.max_supply.amount - nft_stats.2.current_supply.amount)) <|
  andThen (issue_mint to_ event nft_name quantity relative_uri nft_stats.2 s) fun s1 =>
  andThen (add_balance to_ env.self event nft_name nft_stats.2.nft_category_id quantity s1)
    fun s2 =>
  andThen (asset.add nft_stats.2.current_supply quantity) fun current_supply =>
  andThen (asset.add nft_stats.2.issued_supply quantity) fun issued_supply =>
  some { s2 with stats := tmodify stat_key s2.stats (event, nft_name)
                    (fun r => (r.1, { r.2 with current_supply := current_supply,
                                               issued_supply := issued_supply })) }

/-- `nfts::transfer`. -/
def transfer (env : Env) (from_ to_ : Nat) (nft_ids : List Nat) (memo : String) (s : State) :
    Option State :=
  check (from_ ≠ to_) <|
  andThen (tfind user_key s.users from_) fun _ =>
  andThen (tfind user_key s.users to_) fun _ =>
  check (memo.utf8ByteSize ≤ 256) <|
  changeowner env from_ to_ nft_ids memo true s

/-- One round of the loop of `nfts::listsale`; `n` is `nft_ids.size()`. -/
def listsale_step (env : Env) (seller : Nat) (event : Nat) (nft_name : name)
    (net_sale_price : asset) (n : Nat) (s : State) (nft_id : Nat) : Option State :=
  andThen (tfind nft_key s.nfts nft_id) fun nft =>
  andThen (tfind stat_key s.stats (nft.event, nft.nft_name)) fun nft_stats =>
  require_auth env nft_stats.2.issuer <|
  check (nft.shared_with = 0) <|
  check (nft_stats.2.sellable = true) <|
  check (nft.owner = seller) <|
  check (nft.event = event) <|
  check (nft.nft_name = nft_name) <|
  check (tfind lock_key s.lockednfts nft_id = none) <|
  andThen (asset.div net_sale_price (n : Int)) fun resale_price =>
  andThen (templace lock_key s.lockednfts nft_id) fun lockednfts =>
  some { s with
    nfts := tmodify nft_key s.nfts nft_id (fun t => { t with resale_price := resale_price }),
    lockednfts := lockednfts }

/-- `nfts::listsale`.  `nft_ids[0]` is read after the loop; on an empty
vector that read is undefined, and the action is taken to abort. -/
def listsale (env : Env) (seller : Nat) (event : Nat) (nft_name : name) (nft_ids : List Nat)
    (net_sale_price : asset) (s : State) : Option State :=
  andThen (tfind user_key s.users seller) fun _ =>
  check (net_sale_price.amount > 0) <|
  check (net_sale_price.symbol = COME) <|
  andThen (forEach (listsale_step env seller event nft_name net_sale_price nft_ids.length)
    nft_ids s) fun s1 =>
  andThen nft_ids.head? fun batch_id =>
  andThen (templace ask_key s1.asks
    { batch_id := batch_id, nft_ids := nft_ids, event := event, seller := seller,
      ask_price := net_sale_price, expiration := (env.now + WEEK_SEC) % 4294967296 })
    fun asks =>
  some { s1 with asks := asks }

/-- One round of the first loop of `nfts::closesale`. -/
def closesale_step (env : Env) (s : State) (nft_id : Nat) : Option State :=
  andThen (tfind nft_key s.nfts nft_id) fun nft =>
  andThen (tfind stat_key s.stats (nft.event, nft.nft_name)) fun nft_stats =>
  require_auth env nft_stats.2.issuer <|
  andThen (asset.make 0 COME) fun zero =>
  some { s with
    nfts := tmodify nft_key s.nfts nft_id (fun t => { t with resale_price := zero }) }

/-- Release of one lock: `get` on `lockednfts`, then `erase`. -/
def unlock_step (s : State) (nft_id : Nat) : Option State :=
  andThen (tfind lock_key s.lockednfts nft_id) fun _ =>
  some { s with lockednfts := terase lock_key s.lockednfts nft_id }

/-- The two branches of `nfts::closesale` end alike: every lock of the batch
is released and the ask is erased. -/
def closesale_release (a : ask) (s : State) : Option State :=
  andThen (forEach unlock_step a.nft_ids s) fun s2 =>
  some { s2 with asks := terase ask_key s2.asks a.batch_id }

/-- `nfts::closesale`. -/
def closesale (env : Env) (seller : Nat) (batch_id : Nat) (s : State) : Option State :=
  andThen (tfind ask_key s.asks batch_id) fun ask =>
  andThen (tfind user_key s.users seller) fun _ =>
  andThen (forEach (closesale_step env) ask.nft_ids s) fun s1 =>
  if env.now % 4294967296 > ask.expiration then
    closesale_release ask s1
  else
    check (ask.seller = seller) <|
    closesale_release ask s1

/-- `nfts::share`. -/
def share (env : Env) (from_ : Nat) (nft_id : Nat) (to_ : Nat) (s : State) : Option State :=
  check (from_ ≠ to_) <|
  check (tfind lock_key s.lockednfts nft_id = none) <|
  andThen (tfind nft_key s.nfts nft_id) fun nft =>
  andThen (tfind stat_key s.stats (nft.event, nft.nft_name)) fun nft_stats =>
  require_auth env nft_stats.2.issuer <|
  some { s with
    nfts := tmodify nft_key s.nfts nft_id (fun t => { t with shared_with := to_ }) }

/-- `nfts::unshare`. -/
def unshare (env : Env) (nft_id : Nat) (s : State) : Option State :=
  andThen (tfind nft_key s.nfts nft_id) fun nft =>
  andThen (tfind stat_key s.stats (nft.event, nft.nft_name)) fun nft_stats =>
  require_auth env nft_stats.2.issuer <|
  some { s with nfts := tmodify nft_key s.nfts nft_id (fun t => { t with shared_with := 0 }) }

/-- One round of the loop of `nfts::buy`. -/
def buy_step (s : State) (nft_id : Nat) : Option State :=
  andThen (tfind nft_key s.nfts nft_id) fun nft =>
  andThen (asset.make 0 COME) fun zero =>
  unlock_step
    { s with nfts := tmodify nft_key s.nfts nft_id (fun t => { t with resale_price := zero }) }
    nft_id

/-- `nfts::buy`. -/
def buy (env : Env) (to_ : Nat) (batch_id : Nat) (memo : String) (s : State) : Option State :=
  andThen (tfind user_key s.users to_) fun _ =>
  check (memo.utf8ByteSize ≤ 32) <|
  andThen (tfind ask_key s.asks batch_id) fun ask =>
  check (ask.expiration > env.now % 4294967296) <|
  andThen (changeowner env ask.seller to_ ask.nft_ids ("bought by: " ++ toString to_) false s)
    fun s1 =>
  andThen (forEach buy_step ask.nft_ids s1) fun s2 =>
  some { s2 with asks := terase ask_key s2.asks batch_id }

/-- `nfts::createauctn`.  Both pairs of price validations in the source test
`target_price`.  The field `bidder`, which the constructor does not assign,
holds the zero value of a fresh row. -/
def createauctn (env : Env) (seller : Nat) (event : Nat) (nft_id : Nat) (target_price : asset)
    (min_bid_price : asset) (expiration : Nat) (s : State) : Option State :=
  require_auth env env.self <|
  andThen (tfind user_key s.users seller) fun _ =>
  check (target_price.amount > 0) <|
  check (target_price.symbol = COME) <|
  check (target_price.amount > 0) <|
  check (target_price.symbol = COME) <|
  andThen (tfind nft_key s.nfts nft_id) fun nft =>
  andThen (tfind stat_key s.stats (nft.event, nft.nft_name)) fun nft_stats =>
  check (nft.shared_with = 0) <|
  check (nft_stats.2.sellable = true) <|
  check (nft.owner = seller) <|
  check (nft.event = event) <|
  check (tfind lock_key s.lockednfts nft_id = none) <|
  andThen (templace lock_key s.lockednfts nft_id) fun lockednfts =>
  andThen (asset.make 0 COME) fun current_price =>
  andThen (templace auction_key s.auctions
    { nft_id := nft_id, event := event, seller := seller, target_price := target_price,
      min_bid_price := min_bid_price, current_price := current_price, bidder := 0,
      expiration := expiration }) fun auctions =>
  some { s with lockednfts := lockednfts, auctions := auctions }

/-- The end shared by `closeauctn`, the instant-buy `bid` and `finalize`:
the lock is released and the auction erased. -/
def auction_release (nft_id : Nat) (s : State) : Option State :=
  andThen (unlock_step s nft_id) fun s1 =>
  some { s1 with auctions := terase auction_key s1.auctions nft_id }

/-- `nfts::closeauctn`. -/
def closeauctn (env : Env) (seller : Nat) (nft_id : Nat) (s : State) : Option State :=
  require_auth env env.self <|
  andThen (tfind auction_key s.auctions nft_id) fun auction =>
  andThen (tfind user_key s.users seller) fun _ =>
  check (env.now % 4294967296 < auction.expiration) <|
  check (auction.seller = seller) <|
  auction_release nft_id s

/-- `nfts::bid`. -/
def bid (env : Env) (nft_id : Nat) (bidder : Nat) (bid_price : asset) (s : State) :
    Option State :=
  require_auth env env.self <|
  andThen (tfind auction_key s.auctions nft_id) fun auction =>
  andThen (tfind user_key s.users bidder) fun _ =>
  check (bid_price.amount > 0) <|
  check (bid_price.symbol = COME) <|
  check (env.now % 4294967296 < auction.expiration) <|
  check (bidder ≠ auction.seller) <|
  andThen (asset.gt bid_price auction.current_price) fun higher =>
  check (higher = true) <|
  andThen (asset.ge bid_price auction.target_price) fun instant =>
  if instant = true then
    andThen (changeowner env auction.seller bidder [nft_id]
      ("auction bought by: " ++ toString auction.bidder) false s) fun s1 =>
    auction_release nft_id s1
  else
    andThen (asset.sub bid_price auction.current_price) fun increment =>
    andThen (asset.ge increment auction.min_bid_price) fun enough =>
    check (enough = true) <|
    some { s with auctions := tmodify auction_key s.auctions nft_id
                    (fun t => { t with current_price := bid_price, bidder := bidder }) }

/-- `nfts::finalize`. -/
def finalize (env : Env) (nft_id : Nat) (seller : Nat) (s : State) : Option State :=
  require_auth env env.self <|
  andThen (tfind auction_key s.auctions nft_id) fun auction =>
  andThen (tfind user_key s.users seller) fun _ =>
  check (auction.seller = seller) <|
  check (env.now % 4294967296 > auction.expiration) <|
  andThen (if auction.bidder ≠ 0 then
      changeowner env seller auction.bidder [nft_id]
        ("auction bought by: " ++ toString auction.bidder) false s
    else some s) fun s1 =>
  auction_release nft_id s1

/-! ## Transactions and reachable ledgers -/

/-- One action of the contract with its arguments. -/
inductive Action where
  | setconfig (version : String)
  | createacc (id : Nat) (signature : Nat) (caller : name)
  | createnft (issuer : name) (event : Nat) (nft_name : name)
      (burnable sellable transferable : Bool) (price : asset) (max_per_account : Fin 256)
      (sale_split : double) (base_uri : String) (max_supply : asset)
  | deleteeve (event : Nat)
  | deletestats (event : Nat) (nft_name : name)
  | issue (to_ : Nat) (event : Nat) (nft_name : name) (quantity : asset)
      (relative_uri : String) (memo : String)
  | transfer (from_ to_ : Nat) (nft_ids : List Nat) (memo : String)
  | listsale (seller : Nat) (event : Nat) (nft_name : name) (nft_ids : List Nat)
      (net_sale_price : asset)
  | closesale (seller : Nat) (batch_id : Nat)
  | share (from_ : Nat) (nft_id : Nat) (to_ : Nat)
  | unshare (nft_id : Nat)
  | buy (to_ : Nat) (batch_id : Nat) (memo : String)
  | createauctn (seller : Nat) (event : Nat) (nft_id : Nat) (target_price : asset)
      (min_bid_price : asset) (expiration : Nat)
  | closeauctn (seller : Nat) (nft_id : Nat)
  | bid (nft_id : Nat) (bidder : Nat) (bid_price : asset)
  | finalize (nft_id : Nat) (seller : Nat)

/-- Dispatch of an action in the environment of its transaction. -/
def Action.run (env : Env) : Action → State → Option State
  | .setconfig version => Nfts.setconfig env version
  | .createacc id signature caller => Nfts.createacc env id signature caller
  | .createnft issuer event nft_name burnable sellable transferable price max_per_account
      sale_split base_uri max_supply =>
    Nfts.createnft env issuer event nft_name burnable sellable transferable price
      max_per_account sale_split base_uri max_supply
  | .deleteeve event => Nfts.deleteeve env event
  | .deletestats event nft_name => Nfts.deletestats env event nft_name
  | .issue to_ event nft_name quantity relative_uri memo =>
    Nfts.issue env to_ event nft_name quantity relative_uri memo
  | .transfer from_ to_ nft_ids memo => Nfts.transfer env from_ to_ nft_ids memo
  | .listsale seller event nft_name nft_ids net_sale_price =>
    Nfts.listsale env seller event nft_name nft_ids net_sale_price
  | .closesale seller batch_id => Nfts.closesale env seller batch_id
  | .share from_ nft_id to_ => Nfts.share env from_ nft_id to_
  | .unshare nft_id => Nfts.unshare env nft_id
  | .buy to_ batch_id memo => Nfts.buy env to_ batch_id memo
  | .createauctn seller event nft_id target_price min_bid_price expiration =>
    Nfts.createauctn env seller event nft_id target_price min_bid_price expiration
  | .closeauctn seller nft_id => Nfts.closeauctn env seller nft_id
  | .bid nft_id bidder bid_price => Nfts.bid env nft_id bidder bid_price
  | .finalize nft_id seller => Nfts.finalize env nft_id seller

/-- The ledger after a transaction: an aborted one leaves it as it was. -/
def commit (result : Option State) (s : State) : State := result.getD s

/-- Ledgers reached from the empty one by successful actions that satisfy
`allowed`, each run in an environment of its own. -/
inductive ReachableBy (allowed : Action → Prop) : State → Prop where
  | start : ReachableBy allowed State.empty
  | step {s s' : State} (env : Env) (a : Action) :
      ReachableBy allowed s → allowed a → a.run env s = some s' → ReachableBy allowed s'

/-- Ledgers reached from the empty one by successful actions. -/
def Reachable (s : State) : Prop := ReachableBy (fun _ => True) s

/-- Whether an action is `deletestats`. -/
def Action.is_deletestats : Action → Bool
  | .deletestats _ _ => true
  | _ => false

/-- Ledgers reached from the empty one without ever deleting a category. -/
def ReachableKeeping (s : State) : Prop := ReachableBy (fun a => a.is_deletestats = false) s

/-! ## Observations on a ledger -/

/-- Token ids held by a stored ask or auction. -/
def held (s : State) : List Nat :=
  s.asks.flatMap ask.nft_ids ++ s.auctions.map auction.nft_id

/-- Balance of an owner in a category: the stored amount, zero without a row. -/
def balance (s : State) (owner : Nat) (nft_category_id : Nat) : Int :=
  match tfind acct_key s.accounts (owner, nft_category_id) with
  | none => 0
  | some r => r.2.amount.amount

/-- Sum over all owners of the balance rows keyed by a category id. -/
def balance_sum (s : State) (nft_category_id : Nat) : Int :=
  ((s.accounts.filter (fun r => decide (r.2.nft_category_id = nft_category_id))).map
    (fun r => r.2.amount.amount)).sum

/-- The symbol of category quantities: `CTT` with precision zero. -/
def CTT : symbol := ⟨CTT_code, 0⟩

/-- The resale price of a token that is not listed. -/
def zero_price : asset := ⟨0, COME⟩

/-- What never changes of a token: id, event and category name. -/
def nft_core (t : nft) : Nat × Nat × Nat := (t.id, t.event, t.nft_name)

end Nfts

/-!
# Closed forms of the loops, and invariants of reachable ledgers
-/

namespace Nfts

/-- The token table after the resale price of every listed id is set. -/
def set_price (ids : List Nat) (p : asset) (nfts : List nft) : List nft :=
  nfts.map (fun t => if t.id ∈ ids then { t with resale_price := p } else t)

/-- The token table after every listed id is handed to a new owner. -/
def set_owner (ids : List Nat) (to_ : Nat) (nfts : List nft) : List nft :=
  nfts.map (fun t => if t.id ∈ ids then { t with owner := to_ } else t)

/-- The lock table after the locks of the listed ids are released. -/
def release (ids : List Nat) (locks : List lockednft) : List lockednft :=
  locks.filter (fun x => decide (x ∉ ids))

/-- The row stored by `mint` under key `k` for a local `issued_supply` of
amount `issued`. -/
def minted_token (to_ : Nat) (event : Nat) (nft_name : name) (relative_uri : String) (k : Nat)
    (issued : Int) : nft :=
  { id := k, serial_number := u64 (i64 (issued + 1)), event := event, owner := to_,
    nft_name := nft_name, resale_price := zero_price, shared_with := 0,
    relative_uri := if relative_uri.isEmpty then none else some relative_uri }

/-- The rows stored by `n` rounds of minting from key `k` and amount `issued`. -/
def minted (to_ : Nat) (event : Nat) (nft_name : name) (relative_uri : String) :
    Nat → Nat → Int → List nft
  | 0, _, _ => []
  | n + 1, k, issued =>
    minted_token to_ event nft_name relative_uri k issued ::
      minted to_ event nft_name relative_uri n (k + 1) (issued + 1)

/-- What a token needs for `listsale` or `closesale` to go through on it:
it is stored, and its category is stored with an issuer who authorizes. -/
def token_authorized (env : Env) (s : State) (nft_id : Nat) : Prop :=
  ∃ t st, tfind nft_key s.nfts nft_id = some t ∧
    tfind stat_key s.stats (t.event, t.nft_name) = some st ∧ st.2.issuer ∈ env.auths

/-- What `listsale` checks of a token before it locks it. -/
def listable (env : Env) (seller : Nat) (event : Nat) (nft_name : name) (s : State)
    (nft_id : Nat) : Prop :=
  ∃ t st, tfind nft_key s.nfts nft_id = some t ∧
    tfind stat_key s.stats (t.event, t.nft_name) = some st ∧ st.2.issuer ∈ env.auths ∧
    t.shared_with = 0 ∧ st.2.sellable = true ∧ t.owner = seller ∧ t.event = event ∧
    t.nft_name = nft_name

/-- The share of one balance row in the sum of a category id. -/
def share_of (nft_category_id : Nat) (r : Nat × account) : Int :=
  if r.2.nft_category_id = nft_category_id then r.2.amount.amount else 0

/-- Balance rows have distinct keys and hold valid positive `CTT` amounts. -/
structure AcctInv (s : State) : Prop where
  keys_nodup : (s.accounts.map acct_key).Nodup
  amount_ok : ∀ r ∈ s.accounts,
    r.2.amount.symbol = CTT ∧ 1 ≤ r.2.amount.amount ∧ r.2.amount.amount ≤ max_amount

/-- Category rows have distinct keys, `CTT` supplies within the cap, and
`issued_supply` level with `current_supply`. -/
structure SupplyInv (s : State) : Prop where
  keys_nodup : (s.stats.map stat_key).Nodup
  row_ok : ∀ r ∈ s.stats,
    r.2.max_supply.symbol = CTT ∧ r.2.current_supply.symbol = CTT ∧
    r.2.issued_supply.symbol = CTT ∧ 0 ≤ r.2.current_supply.amount ∧
    r.2.current_supply.amount ≤ r.2.max_supply.amount ∧
    r.2.max_supply.amount ≤ max_amount ∧
    r.2.issued_supply.amount = r.2.current_supply.amount

/-- Token ids are `0, 1, 2, ..` in storage order; a token outside every ask
has no resale price; the tokens of an ask are stored and share the event of
the ask and one category name. -/
structure TokenInv (s : State) : Prop where
  keys : s.nfts.map nft_key = List.range s.nfts.length
  unlisted_price : ∀ t ∈ s.nfts, (∀ a ∈ s.asks, t.id ∉ a.nft_ids) → t.resale_price = zero_price
  ask_tokens : ∀ a ∈ s.asks, ∃ nm, ∀ id ∈ a.nft_ids, (id, a.event, nm) ∈ s.nfts.map nft_core

/-- The lock table mirrors the stored asks and auctions. -/
structure LockInv (s : State) : Prop where
  locks_nodup : s.lockednfts.Nodup
  held_nodup : (held s).Nodup
  lock_iff : ∀ id, id ∈ s.lockednfts ↔ id ∈ held s
  ask_head : ∀ a ∈ s.asks, a.nft_ids.head? = some a.batch_id

/-- The id of a category row. -/
def stat_id (r : Nat × nft_stat) : Nat := r.2.nft_category_id

/-- While no category is deleted: the counter is the number of categories,
the ids are `0, 1, 2, ..` in storage order, no balance is keyed by an id not
yet given out, and the balances of each category add up to its
`current_supply`. -/
structure CatInv (s : State) : Prop where
  counter : ∀ cfg, s.config = some cfg → cfg.nft_category_id = s.stats.length
  no_config : s.config = none → s.stats = []
  ids : s.stats.map stat_id = List.range s.stats.length
  beyond : ∀ c, s.stats.length ≤ c → balance_sum s c = 0
  sums : ∀ r ∈ s.stats, balance_sum s r.2.nft_category_id = r.2.current_supply.amount

/-- The invariant of reachable ledgers. -/
structure Inv (s : State) : Prop where
  lock : LockInv s
  supply : SupplyInv s
  acct : AcctInv s
  token : TokenInv s

end Nfts

/-!
# Concrete ledgers used to exercise the theorems
-/

namespace Nfts

/-- A run of actions, each in the same environment; aborts with the first
action that aborts. -/
def run_all (env : Env) : List Action → State → Option State
  | [], s => some s
  | a :: rest, s => andThen (a.run env s) (run_all env rest)

/-- The ledger after a run of actions from the empty ledger. -/
def state_after (env : Env) (l : List Action) : State :=
  commit (run_all env l State.empty) State.empty

/-- An environment in which the contract account `1` and the issuer `7`
authorize, at time 1000. -/
def demo_env : Env := { self := 1, now := 1000, auths := [1, 7], chain_accounts := [7] }

/-- Configuration, two users (10 and 11), and one category of event 100
named 5: sellable, transferable, at most 10 per account, `max_supply` 5. -/
def demo_setup : List Action :=
  [ .setconfig "v1",
    .createacc 10 0 1,
    .createacc 11 0 1,
    .createnft 7 100 5 false true true ⟨100, COME⟩ 10 0 "uri" ⟨5, CTT⟩ ]

/-- The setup, then three tokens issued to user 10. -/
def demo_issued : List Action :=
  demo_setup ++ [ .issue 10 100 5 ⟨3, CTT⟩ "" "" ]

/-- The category row stored after that issue: three of five issued. -/
def demo_issued_row : Nat × nft_stat :=
  (100, { nft_category_id := 0, burnable := false, sellable := true, transferable := true,
          issuer := 7, nft_name := 5, price := ⟨100, COME⟩, max_per_account := 10,
          max_supply := ⟨5, CTT⟩, current_supply := ⟨3, CTT⟩, issued_supply := ⟨3, CTT⟩,
          sale_split := 0, base_uri := "uri" })

/-- The balance row stored after that issue: user 10 holds three. -/
def demo_issued_balance : Nat × account :=
  (10, { nft_category_id := 0, event := 100, nft_name := 5, amount := ⟨3, CTT⟩ })

/-- Then tokens 0 and 1 listed by user 10 for 101. -/
def demo_listed : List Action :=
  demo_issued ++ [ .listsale 10 100 5 [0, 1] ⟨101, COME⟩ ]

/-- A category is created, one token issued, the category deleted and
created again under the same name. -/
def demo_recreated : List Action :=
  demo_setup ++
  [ .issue 10 100 5 ⟨1, CTT⟩ "" "",
    .deletestats 100 5,
    .createnft 7 100 5 false true true ⟨100, COME⟩ 10 0 "uri" ⟨5, CTT⟩ ]

/-- The ask stored by that listing: it expires a week after time 1000. -/
def demo_ask : ask :=
  { batch_id := 0, event := 100, nft_ids := [0, 1], seller := 10, ask_price := ⟨101, COME⟩,
    expiration := 605800 }

/-- Then the batch bought by user 11. -/
def demo_bought : List Action :=
  demo_listed ++ [ .buy 11 0 "" ]

/-- A second category, named 6, capped at three per account, with two tokens
issued to user 10. -/
def demo_capped : List Action :=
  demo_setup ++
  [ .createnft 7 100 6 false true true ⟨100, COME⟩ 3 0 "uri" ⟨5, CTT⟩,
    .issue 10 100 6 ⟨2, CTT⟩ "" "" ]

/-- The row of the capped category after that issue. -/
def demo_capped_row : Nat × nft_stat :=
  (100, { nft_category_id := 1, burnable := false, sellable := true, transferable := true,
          issuer := 7, nft_name := 6, price := ⟨100, COME⟩, max_per_account := 3,
          max_supply := ⟨5, CTT⟩, current_supply := ⟨2, CTT⟩, issued_supply := ⟨2, CTT⟩,
          sale_split := 0, base_uri := "uri" })

/-- The row of the category of `demo_setup` before anything is issued. -/
def demo_setup_row : Nat × nft_stat :=
  (100, { nft_category_id := 0, burnable := false, sellable := true, transferable := true,
          issuer := 7, nft_name := 5, price := ⟨100, COME⟩, max_per_account := 10,
          max_supply := ⟨5, CTT⟩, current_supply := ⟨0, CTT⟩, issued_supply := ⟨0, CTT⟩,
          sale_split := 0, base_uri := "uri" })

/-- The category row stored after the category was created again: it has
the id 0 of the deleted one, and nothing issued. -/
def demo_recreated_row : Nat × nft_stat :=
  (100, { nft_category_id := 0, burnable := false, sellable := true, transferable := true,
          issuer := 7, nft_name := 5, price := ⟨100, COME⟩, max_per_account := 10,
          max_supply := ⟨5, CTT⟩, current_supply := ⟨0, CTT⟩, issued_supply := ⟨0, CTT⟩,
          sale_split := 0, base_uri := "uri" })

end Nfts

/-!
# Auctions, categories of tokens, runs from a ledger, and further ledgers
-/

namespace Nfts

/-- Stored auctions carry `COME` target and current prices, a current price
from zero up to but below the target, and no bidder while the current price
is zero. -/
structure AuctInv (s : State) : Prop where
  row_ok : ∀ au ∈ s.auctions,
    au.target_price.symbol = COME ∧ au.current_price.symbol = COME ∧
    0 ≤ au.current_price.amount ∧ au.current_price.amount < au.target_price.amount ∧
    (au.current_price.amount = 0 → au.bidder = 0)

/-- The category id of a stored token: the `nft_category_id` of the category
row stored under its event and name. -/
def category_of (s : State) (nft_id : Nat) : Option Nat :=
  andThen (tfind nft_key s.nfts nft_id) fun t =>
  andThen (tfind stat_key s.stats (t.event, t.nft_name)) fun st =>
  some st.2.nft_category_id

/-- How many ids of a list are tokens of the category with id `c`. -/
def count_in (s : State) (ids : List Nat) (c : Nat) : Nat :=
  (ids.filter (fun id => decide (category_of s id = some c))).length

/-- The owner recorded for a token id, if the token is stored. -/
def owner_of (s : State) (nft_id : Nat) : Option Nat :=
  (tfind nft_key s.nfts nft_id).map nft.owner

/-- Ledgers reached from `s` by successful actions that satisfy `allowed`,
each run in an environment of its own. -/
inductive RunsBy (allowed : Action → Prop) (s : State) : State → Prop where
  | here : RunsBy allowed s s
  | step {s1 s2 : State} (env : Env) (a : Action) :
      RunsBy allowed s s1 → allowed a → a.run env s1 = some s2 → RunsBy allowed s s2

/-- Whether an action, when it succeeds, resets `shared_with` of the token
to the value `NULL`: `unshare` of the token, or `share` of it with identity
zero. -/
def Action.clears_share (nft_id : Nat) : Action → Bool
  | .unshare i => decide (i = nft_id)
  | .share _ i to_ => decide (i = nft_id) && decide (to_ = 0)
  | _ => false

/-- A token is stored with a `shared_with` other than `NULL`. -/
def delegated (s : State) (nft_id : Nat) : Prop :=
  ∃ t, tfind nft_key s.nfts nft_id = some t ∧ t.shared_with ≠ 0

/-! ## Concrete ledgers -/

/-- The environment of `demo_env` at time 700000, after the ask of
`demo_listed` and the auctions below have expired. -/
def demo_late_env : Env := { self := 1, now := 700000, auths := [1, 7], chain_accounts := [7] }

/-- Token 2 of user 10 put up for auction: target 100, minimum bid step 5,
expiring at time 5000. -/
def demo_auction : List Action :=
  demo_issued ++ [ .createauctn 10 100 2 ⟨100, COME⟩ ⟨5, COME⟩ 5000 ]

/-- The auction row stored by `demo_auction`. -/
def demo_auction_row : auction :=
  { nft_id := 2, event := 100, seller := 10, target_price := ⟨100, COME⟩,
    min_bid_price := ⟨5, COME⟩, current_price := ⟨0, COME⟩, bidder := 0, expiration := 5000 }

/-- Then a bid of 50 by user 11. -/
def demo_bid50 : List Action :=
  demo_auction ++ [ .bid 2 11 ⟨50, COME⟩ ]

/-- The auction row after the bid of 50 by user 11. -/
def demo_bid50_row : auction :=
  { nft_id := 2, event := 100, seller := 10, target_price := ⟨100, COME⟩,
    min_bid_price := ⟨5, COME⟩, current_price := ⟨50, COME⟩, bidder := 11,
    expiration := 5000 }

/-- Then a bid of 100, the target, by user 11. -/
def demo_bid100 : List Action :=
  demo_bid50 ++ [ .bid 2 11 ⟨100, COME⟩ ]

/-- The ledger after the auction with the standing bid of 50 is finalized by
the seller at time 700000. -/
def demo_finalized : State :=
  commit (finalize demo_late_env 2 10 (state_after demo_env demo_bid50))
    (state_after demo_env demo_bid50)

/-- Identity 0 is registered and token 2 of user 10 is put up for auction. -/
def demo_auction_zero : List Action :=
  demo_issued ++
  [ .createacc 0 0 1,
    .createauctn 10 100 2 ⟨100, COME⟩ ⟨5, COME⟩ 5000 ]

/-- Then identity 0 bids 50. -/
def demo_bid_zero : List Action :=
  demo_auction_zero ++ [ .bid 2 0 ⟨50, COME⟩ ]

/-- The auction row after the bid of 50 by identity 0. -/
def demo_bid_zero_row : auction :=
  { nft_id := 2, event := 100, seller := 10, target_price := ⟨100, COME⟩,
    min_bid_price := ⟨5, COME⟩, current_price := ⟨50, COME⟩, bidder := 0,
    expiration := 5000 }

/-- The ledger after that auction is finalized by the seller at time 700000. -/
def demo_zero_finalized : State :=
  commit (finalize demo_late_env 2 10 (state_after demo_env demo_bid_zero))
    (state_after demo_env demo_bid_zero)

/-- Token 2 put up for auction with a minimum bid step given in `CTT`. -/
def demo_auction_ctt : List Action :=
  demo_issued ++ [ .createauctn 10 100 2 ⟨100, COME⟩ ⟨5, CTT⟩ 5000 ]

/-- The auction row stored by `demo_auction_ctt`. -/
def demo_auction_ctt_row : auction :=
  { nft_id := 2, event := 100, seller := 10, target_price := ⟨100, COME⟩,
    min_bid_price := ⟨5, CTT⟩, current_price := ⟨0, COME⟩, bidder := 0, expiration := 5000 }

/-- Token 2 put up for auction with the largest 64-bit target. -/
def demo_auction_big : List Action :=
  demo_issued ++ [ .createauctn 10 100 2 ⟨9223372036854775807, COME⟩ ⟨5, COME⟩ 5000 ]

/-- The auction row stored by `demo_auction_big`. -/
def demo_auction_big_row : auction :=
  { nft_id := 2, event := 100, seller := 10, target_price := ⟨9223372036854775807, COME⟩,
    min_bid_price := ⟨5, COME⟩, current_price := ⟨0, COME⟩, bidder := 0, expiration := 5000 }

/-- Tokens 0 and 1 of user 10 transferred to user 11. -/
def demo_transferred : List Action :=
  demo_issued ++ [ .transfer 10 11 [0, 1] "" ]

/-- Token 2 of user 10 shared with user 11. -/
def demo_shared : List Action :=
  demo_issued ++ [ .share 10 2 11 ]

/-- Then token 0 transferred to user 11. -/
def demo_shared_then : List Action :=
  demo_shared ++ [ .transfer 10 11 [0] "" ]

/-- Token 2 of user 10 shared with identity 0. -/
def demo_shared_zero : List Action :=
  demo_issued ++ [ .share 10 2 0 ]

/-- Categories 5 and 6 are created, category 5 is deleted, and category 8 is
created. -/
def demo_two_ids : List Action :=
  demo_setup ++
  [ .createnft 7 100 6 false true true ⟨100, COME⟩ 3 0 "uri" ⟨5, CTT⟩,
    .deletestats 100 5,
    .createnft 7 100 8 false true true ⟨100, COME⟩ 3 0 "uri" ⟨5, CTT⟩ ]

/-- The row of category 6 in `demo_two_ids`. -/
def demo_two_ids_first : Nat × nft_stat :=
  (100, { nft_category_id := 1, burnable := false, sellable := true, transferable := true,
          issuer := 7, nft_name := 6, price := ⟨100, COME⟩, max_per_account := 3,
          max_supply := ⟨5, CTT⟩, current_supply := ⟨0, CTT⟩, issued_supply := ⟨0, CTT⟩,
          sale_split := 0, base_uri := "uri" })

/-- The row of category 8 in `demo_two_ids`. -/
def demo_two_ids_second : Nat × nft_stat :=
  (100, { nft_category_id := 1, burnable := false, sellable := true, transferable := true,
          issuer := 7, nft_name := 8, price := ⟨100, COME⟩, max_per_account := 3,
          max_supply := ⟨5, CTT⟩, current_supply := ⟨0, CTT⟩, issued_supply := ⟨0, CTT⟩,
          sale_split := 0, base_uri := "uri" })

/-- The setup, then a second category, named 6, of the same event. -/
def demo_second : List Action :=
  demo_setup ++ [ .createnft 7 100 6 false true true ⟨100, COME⟩ 3 0 "uri" ⟨5, CTT⟩ ]

/-- The row of category 6 in `demo_second`. -/
def demo_second_row : Nat × nft_stat :=
  (100, { nft_category_id := 1, burnable := false, sellable := true, transferable := true,
          issuer := 7, nft_name := 6, price := ⟨100, COME⟩, max_per_account := 3,
          max_supply := ⟨5, CTT⟩, current_supply := ⟨0, CTT⟩, issued_supply := ⟨0, CTT⟩,
          sale_split := 0, base_uri := "uri" })

end Nfts

/-!
# Sellers as owners, the category counter, bid histories, and further ledgers
-/

namespace Nfts

/-- Every token held by a stored ask or auction is owned by its seller. -/
structure OwnInv (s : State) : Prop where
  asks : ∀ a ∈ s.asks, ∀ id ∈ a.nft_ids, owner_of s id = some a.seller
  auctions : ∀ au ∈ s.auctions, owner_of s au.nft_id = some au.seller

/-- The category counter follows the number of stored categories, as a
64-bit value; without a configuration no category is stored. -/
structure CountInv (s : State) : Prop where
  no_config : s.config = none → s.stats = []
  counter : ∀ cfg, s.config = some cfg →
    cfg.nft_category_id = s.stats.length % 18446744073709551616

/-- The amounts of the bids accepted on the auction that is open for each
token id, latest first, after one more successful action: `createauctn` opens
an auction with no bid, an accepted `bid` is put in front. -/
def bid_log (a : Action) (log : Nat → List Int) : Nat → List Int :=
  match a with
  | .createauctn _ _ nft_id _ _ _ => fun k => if k = nft_id then [] else log k
  | .bid nft_id _ bid_price => fun k => if k = nft_id then bid_price.amount :: log k else log k
  | _ => log

/-- Ledgers reached from the empty one by successful actions, together with
the accepted bids of their open auctions. -/
inductive Logged : State → (Nat → List Int) → Prop where
  | start : Logged State.empty (fun _ => [])
  | step {s s' : State} {log : Nat → List Int} (env : Env) (a : Action) :
      Logged s log → a.run env s = some s' → Logged s' (bid_log a log)

/-- The accepted bids after a list of successful actions. -/
def log_all : List Action → (Nat → List Int) → Nat → List Int
  | [], log => log
  | a :: rest, log => log_all rest (bid_log a log)

/-- What the auction rows say of the accepted bids: the current price is the
latest accepted bid, or zero when none was accepted; the accepted bids are
positive and each is above the one before. -/
def log_agrees (au : auction) (l : List Int) : Prop :=
  (l = [] ∧ au.current_price.amount = 0 ∨
    ∃ rest, l = au.current_price.amount :: rest ∧ 0 < au.current_price.amount) ∧
  l.Pairwise (fun later earlier => later > earlier) ∧ ∀ x ∈ l, 0 < x

/-! ## Concrete ledgers -/

/-- The auction of token 2 with the standing bid of 50, closed by the
seller. -/
def demo_closed : List Action :=
  demo_bid50 ++ [ .closeauctn 10 2 ]

/-- Categories 5 and 6 are created, in that order, and category 5 is
deleted. -/
def demo_non_lifo : List Action :=
  demo_second ++ [ .deletestats 100 5 ]

/-- After the bid of 50 on token 2, a bid of 60. -/
def demo_bid60 : List Action :=
  demo_bid50 ++ [ .bid 2 11 ⟨60, COME⟩ ]

/-- The auction row after the bids of 50 and 60 by user 11. -/
def demo_bid60_row : auction :=
  { nft_id := 2, event := 100, seller := 10, target_price := ⟨100, COME⟩,
    min_bid_price := ⟨5, COME⟩, current_price := ⟨60, COME⟩, bidder := 11,
    expiration := 5000 }

/-- In the category named 6, capped at three per account, two tokens are
issued to user 10 (ids 0 and 1) and two to user 11 (ids 2 and 3). -/
def demo_two_holders : List Action :=
  demo_capped ++ [ .issue 11 100 6 ⟨2, CTT⟩ "" "" ]

/-- Then user 10 transfers both tokens to user 11. -/
def demo_over_cap : List Action :=
  demo_two_holders ++ [ .transfer 10 11 [0, 1] "" ]

/-- The row of the capped category with four tokens issued. -/
def demo_over_cap_row : Nat × nft_stat :=
  (100, { nft_category_id := 1, burnable := false, sellable := true, transferable := true,
          issuer := 7, nft_name := 6, price := ⟨100, COME⟩, max_per_account := 3,
          max_supply := ⟨5, CTT⟩, current_supply := ⟨4, CTT⟩, issued_supply := ⟨4, CTT⟩,
          sale_split := 0, base_uri := "uri" })

end Nfts

/-!
# Settlement of a token, the clock past the 32-bit range, and further ledgers
-/

namespace Nfts

/-- What `changeowner`, run without the checks of a direct transfer, needs to
hand one token over: the token is stored, its category is stored with an
issuer who authorizes, `from_` holds a balance of the category, and the
balance of `to_` is below the largest amount of an `asset`. -/
def settleable (env : Env) (s : State) (from_ to_ nft_id : Nat) : Prop :=
  ∃ t st, tfind nft_key s.nfts nft_id = some t ∧
    tfind stat_key s.stats (t.event, t.nft_name) = some st ∧ st.2.issuer ∈ env.auths ∧
    0 < balance s from_ st.2.nft_category_id ∧
    balance s to_ st.2.nft_category_id < max_amount

/-! ## Concrete ledgers -/

/-- Token 2 as stored after the issue of three tokens to user 10. -/
def demo_token2 : nft :=
  { id := 2, serial_number := 3, event := 100, owner := 10, nft_name := 5,
    resale_price := zero_price, shared_with := 0, relative_uri := none }

/-- After the bid of 50 on token 2, a bid of 98. -/
def demo_bid98 : List Action :=
  demo_bid50 ++ [ .bid 2 11 ⟨98, COME⟩ ]

/-- The auction row after the bids of 50 and 98 by user 11. -/
def demo_bid98_row : auction :=
  { nft_id := 2, event := 100, seller := 10, target_price := ⟨100, COME⟩,
    min_bid_price := ⟨5, COME⟩, current_price := ⟨98, COME⟩, bidder := 11,
    expiration := 5000 }

/-- Then a bid of 100, the target, two above the standing bid. -/
def demo_bid98_target : List Action :=
  demo_bid98 ++ [ .bid 2 11 ⟨100, COME⟩ ]

end Nfts

/-!
# Basic facts: control combinators, tables, asset arithmetic
-/

namespace Nfts

/-! ## Control -/

theorem check_eq_some {α : Type} {p : Prop} [Decidable p] {k : Option α} {r : α} :
    check p k = some r ↔ p ∧ k = some r := by
  unfold check
  by_cases hp : p <;> simp [hp]

theorem check_eq_none {α : Type} {p : Prop} [Decidable p] {k : Option α} :
    check p k = none ↔ (p → k = none) := by
  unfold check
  by_cases hp : p <;> simp [hp]

theorem check_false {α : Type} {p : Prop} [Decidable p] {k : Option α} (h : ¬ p) :
    check p k = none := by
  unfold check
  simp [h]

theorem check_true {α : Type} {p : Prop} [Decidable p] {k : Option α} (h : p) :
    check p k = k := by
  unfold check
  simp [h]

theorem andThen_eq_some {α β : Type} {o : Option α} {k : α → Option β} {r : β} :
    andThen o k = some r ↔ ∃ a, o = some a ∧ k a = some r := by
  cases o <;> simp [andThen]

theorem andThen_some {α β : Type} (a : α) (k : α → Option β) :
    andThen (some a) k = k a := rfl

theorem andThen_none {α β : Type} (k : α → Option β) :
    andThen (none : Option α) k = none := rfl

theorem andThen_of_eq {α β : Type} {o : Option α} {a : α} (k : α → Option β) (h : o = some a) :
    andThen o k = k a := by
  subst h; rfl

theorem andThen_of_none {α β : Type} {o : Option α} (k : α → Option β) (h : o = none) :
    andThen o k = none := by
  subst h; rfl

theorem require_auth_eq_some {α : Type} {env : Env} {n : name} {k : Option α} {r : α} :
    require_auth env n k = some r ↔ n ∈ env.auths ∧ k = some r := by
  unfold require_auth
  exact check_eq_some

theorem checkasset_eq_some {α : Type} {a : asset} {k : Option α} {r : α} :
    checkasset a k = some r ↔
      (a.symbol.precision = 0 ∧ a.amount ≥ 1 ∧ a.symbol.code = CTT_code ∧ a.is_valid) ∧
        k = some r := by
  unfold checkasset
  simp only [check_eq_some]
  tauto

theorem forEach_nil (body : State → Nat → Option State) (s : State) :
    forEach body [] s = some s := rfl

theorem forEach_cons (body : State → Nat → Option State) (x : Nat) (l : List Nat) (s : State) :
    forEach body (x :: l) s = andThen (body s x) (forEach body l) := rfl

theorem forEach_cons_eq_some {body : State → Nat → Option State} {x : Nat} {l : List Nat}
    {s s' : State} :
    forEach body (x :: l) s = some s' ↔ ∃ s1, body s x = some s1 ∧ forEach body l s1 = some s' := by
  rw [forEach_cons, andThen_eq_some]

/-- A relation kept by every round of a loop is kept by the loop. -/
theorem forEach_rel {body : State → Nat → Option State} (R : State → State → Prop)
    (hrefl : ∀ s, R s s) (htrans : ∀ a b c, R a b → R b c → R a c)
    (hstep : ∀ s x s', body s x = some s' → R s s') :
    ∀ (l : List Nat) (s s' : State), forEach body l s = some s' → R s s' := by
  intro l
  induction l with
  | nil =>
    intro s s' h
    simp only [forEach_nil, Option.some.injEq] at h
    subst h
    exact hrefl s
  | cons x l ih =>
    intro s s' h
    obtain ⟨s1, h1, h2⟩ := forEach_cons_eq_some.mp h
    exact htrans _ _ _ (hstep _ _ _ h1) (ih _ _ h2)

/-- A property kept by every round of a loop is kept by the loop. -/
theorem forEach_inv {body : State → Nat → Option State} (P : State → Prop)
    (hstep : ∀ s x s', body s x = some s' → P s → P s') :
    ∀ (l : List Nat) (s s' : State), forEach body l s = some s' → P s → P s' := by
  intro l
  induction l with
  | nil =>
    intro s s' h hp
    simp only [forEach_nil, Option.some.injEq] at h
    subst h
    exact hp
  | cons x l ih =>
    intro s s' h hp
    obtain ⟨s1, h1, h2⟩ := forEach_cons_eq_some.mp h
    exact ih _ _ h2 (hstep _ _ _ h1 hp)

/-! ## Tables -/

section Table
variable {α : Type} {κ : Type} [DecidableEq κ]

theorem tfind_some {key : α → κ} {t : List α} {k : κ} {r : α} (h : tfind key t k = some r) :
    r ∈ t ∧ key r = k := by
  unfold tfind at h
  refine ⟨List.mem_of_find?_eq_some h, ?_⟩
  have := List.find?_some h
  simpa using this

theorem tfind_eq_none {key : α → κ} {t : List α} {k : κ} :
    tfind key t k = none ↔ ∀ r ∈ t, key r ≠ k := by
  unfold tfind
  simp [List.find?_eq_none]

theorem tfind_isSome {key : α → κ} {t : List α} {k : κ} :
    (tfind key t k).isSome = true ↔ ∃ r ∈ t, key r = k := by
  constructor
  · intro h
    obtain ⟨r, hr⟩ := Option.isSome_iff_exists.mp h
    exact ⟨r, tfind_some hr⟩
  · rintro ⟨r, hr, hk⟩
    cases h : tfind key t k with
    | none => exact absurd hk (tfind_eq_none.mp h r hr)
    | some _ => rfl

theorem tfind_nil (key : α → κ) (k : κ) : tfind key ([] : List α) k = none := rfl

theorem tfind_cons (key : α → κ) (a : α) (t : List α) (k : κ) :
    tfind key (a :: t) k = if key a = k then some a else tfind key t k := by
  unfold tfind
  by_cases h : key a = k <;> simp [List.find?_cons, h]

/-- With distinct keys the row found under a key is the only row with it. -/
theorem tfind_of_mem {key : α → κ} {t : List α} {k : κ} {r : α}
    (hnd : (t.map key).Nodup) (hr : r ∈ t) (hk : key r = k) : tfind key t k = some r := by
  induction t with
  | nil => cases hr
  | cons a t ih =>
    rw [tfind_cons]
    rw [List.map_cons, List.nodup_cons] at hnd
    rcases List.mem_cons.mp hr with rfl | hr'
    · simp [hk]
    · have hne : key a ≠ k := by
        intro h
        apply hnd.1
        rw [h, ← hk]
        exact List.mem_map_of_mem key hr'
      simp only [hne, if_false]
      exact ih hnd.2 hr'

theorem tfind_unique {key : α → κ} {t : List α} {k : κ} {r r' : α}
    (hnd : (t.map key).Nodup) (h : tfind key t k = some r) (hr : r' ∈ t) (hk : key r' = k) :
    r' = r := by
  have := tfind_of_mem hnd hr hk
  rw [h] at this
  exact (Option.some.inj this).symm

theorem templace_eq_some {key : α → κ} {t t' : List α} {r : α} :
    templace key t r = some t' ↔ (∀ x ∈ t, key x ≠ key r) ∧ t' = t ++ [r] := by
  unfold templace
  cases h : tfind key t (key r) with
  | none =>
    have := tfind_eq_none.mp h
    simp only [Option.isSome_none, Bool.false_eq_true, if_false, Option.some.injEq]
    constructor
    · intro e; exact ⟨this, e.symm⟩
    · intro e; exact e.2.symm
  | some x =>
    have := tfind_some h
    simp only [Option.isSome_some, if_true]
    constructor
    · intro e; cases e
    · intro e; exact absurd this.2 (e.1 x this.1)

theorem templace_of_fresh {key : α → κ} {t : List α} {r : α} (h : ∀ x ∈ t, key x ≠ key r) :
    templace key t r = some (t ++ [r]) :=
  templace_eq_some.mpr ⟨h, rfl⟩

theorem mem_tmodify {key : α → κ} {t : List α} {k : κ} {f : α → α} {x : α} :
    x ∈ tmodify key t k f ↔ ∃ r ∈ t, x = if key r = k then f r else r := by
  unfold tmodify
  simp only [List.mem_map]
  constructor
  · rintro ⟨r, hr, rfl⟩; exact ⟨r, hr, rfl⟩
  · rintro ⟨r, hr, rfl⟩; exact ⟨r, hr, rfl⟩

theorem mem_terase {key : α → κ} {t : List α} {k : κ} {x : α} :
    x ∈ terase key t k ↔ x ∈ t ∧ key x ≠ k := by
  unfold terase
  simp [List.mem_filter]

theorem tmodify_length (key : α → κ) (t : List α) (k : κ) (f : α → α) :
    (tmodify key t k f).length = t.length := by
  unfold tmodify
  simp

/-- Rewriting rows without touching an observation leaves its list as it was. -/
theorem tmodify_map_eq {β : Type} (key : α → κ) (t : List α) (k : κ) (f : α → α) (g : α → β)
    (h : ∀ r, g (f r) = g r) : (tmodify key t k f).map g = t.map g := by
  unfold tmodify
  rw [List.map_map]
  apply List.map_congr_left
  intro r _
  simp only [Function.comp]
  split
  · exact h r
  · rfl

theorem tmodify_of_absent (key : α → κ) (t : List α) (k : κ) (f : α → α)
    (h : ∀ r ∈ t, key r ≠ k) : tmodify key t k f = t := by
  unfold tmodify
  conv_rhs => rw [← List.map_id t]
  apply List.map_congr_left
  intro r hr
  simp [h r hr]

theorem terase_of_absent (key : α → κ) (t : List α) (k : κ)
    (h : ∀ r ∈ t, key r ≠ k) : terase key t k = t := by
  unfold terase
  rw [List.filter_eq_self]
  intro r hr
  simpa using h r hr

theorem terase_append_single (key : α → κ) (t : List α) (r : α)
    (h : ∀ x ∈ t, key x ≠ key r) : terase key (t ++ [r]) (key r) = t := by
  unfold terase
  rw [List.filter_append]
  have h1 : List.filter (fun x => decide (key x ≠ key r)) t = t := by
    rw [List.filter_eq_self]
    intro x hx
    simpa using h x hx
  rw [h1]
  simp

theorem tfind_tmodify {key : α → κ} (t : List α) (k k' : κ) (f : α → α)
    (hf : ∀ r, key (f r) = key r) :
    tfind key (tmodify key t k f) k' =
      (tfind key t k').map (fun r => if key r = k then f r else r) := by
  induction t with
  | nil => rfl
  | cons a t ih =>
    unfold tmodify at ih ⊢
    rw [List.map_cons, tfind_cons, tfind_cons]
    have hk : key (if key a = k then f a else a) = key a := by
      split
      · exact hf a
      · rfl
    rw [hk]
    by_cases h : key a = k'
    · simp [h]
    · simp only [h, if_false]
      exact ih

theorem tfind_terase_ne {key : α → κ} (t : List α) (k k' : κ) (h : k' ≠ k) :
    tfind key (terase key t k) k' = tfind key t k' := by
  induction t with
  | nil => rfl
  | cons a t ih =>
    unfold terase at ih ⊢
    by_cases ha : key a = k
    · have hne : key a ≠ k' := by rw [ha]; exact fun e => h e.symm
      simp only [List.filter_cons, ha, ne_eq, not_true_eq_false, decide_False,
        Bool.false_eq_true, if_false]
      rw [tfind_cons]
      simp only [hne, if_false]
      exact ih
    · simp only [List.filter_cons, ha, ne_eq, not_false_eq_true, decide_True, if_true]
      rw [tfind_cons, tfind_cons]
      by_cases hk : key a = k'
      · simp [hk]
      · simp only [hk, if_false]
        exact ih

theorem tfind_terase_self {key : α → κ} (t : List α) (k : κ) :
    tfind key (terase key t k) k = none := by
  rw [tfind_eq_none]
  intro r hr
  exact (mem_terase.mp hr).2

theorem tfind_append {key : α → κ} (t u : List α) (k : κ) :
    tfind key (t ++ u) k = (tfind key t k).or (tfind key u k) := by
  induction t with
  | nil => simp [tfind_nil]
  | cons a t ih =>
    rw [List.cons_append, tfind_cons, tfind_cons]
    by_cases h : key a = k
    · simp [h]
    · simp only [h, if_false]
      exact ih

theorem terase_map_nodup (key : α → κ) (t : List α) (k : κ) (h : (t.map key).Nodup) :
    ((terase key t k).map key).Nodup := by
  unfold terase
  exact List.Nodup.sublist (List.Sublist.map key (List.filter_sublist t)) h

theorem templace_map_nodup {key : α → κ} {t t' : List α} {r : α}
    (he : templace key t r = some t') (h : (t.map key).Nodup) : (t'.map key).Nodup := by
  obtain ⟨hf, rfl⟩ := templace_eq_some.mp he
  rw [List.map_append, List.map_singleton]
  apply List.Nodup.append h (List.nodup_singleton _)
  intro x hx hx'
  rw [List.mem_singleton] at hx'
  obtain ⟨y, hy, rfl⟩ := List.mem_map.mp hx
  exact hf y hy hx'

end Table

/-! ## Asset arithmetic -/

theorem i64_of_range {x : Int} (h1 : -9223372036854775808 ≤ x) (h2 : x < 9223372036854775808) :
    i64 x = x := by
  unfold i64
  omega

theorem u64_of_nonneg {x : Int} (h1 : 0 ≤ x) (h2 : x < 18446744073709551616) :
    (u64 x : Int) = x := by
  unfold u64
  omega

theorem COME_is_valid : COME.is_valid = true := by decide

theorem CTT_is_valid : CTT.is_valid = true := by decide

theorem asset_make_eq_some {a : Int} {sy : symbol} {r : asset} :
    asset.make a sy = some r ↔
      (-max_amount ≤ a ∧ a ≤ max_amount) ∧ sy.is_valid = true ∧ r = ⟨a, sy⟩ := by
  unfold asset.make asset.is_amount_within_range
  simp only [check_eq_some, Option.some.injEq]
  constructor
  · rintro ⟨h1, h2, h3⟩; exact ⟨h1, h2, h3.symm⟩
  · rintro ⟨h1, h2, h3⟩; exact ⟨h1, h2, h3.symm⟩

theorem asset_make_zero_COME : asset.make 0 COME = some zero_price := by decide

theorem asset_make_one_CTT : asset.make 1 CTT = some ⟨1, CTT⟩ := by decide

theorem asset_make_zero_CTT : asset.make 0 ⟨CTT_code, 0⟩ = some ⟨0, CTT⟩ := by decide

theorem asset_add_eq_some {a b r : asset} :
    asset.add a b = some r ↔
      b.symbol = a.symbol ∧ -max_amount ≤ i64 (a.amount + b.amount) ∧
        i64 (a.amount + b.amount) ≤ max_amount ∧ r = ⟨i64 (a.amount + b.amount), a.symbol⟩ := by
  unfold asset.add
  simp only [check_eq_some, Option.some.injEq]
  constructor
  · rintro ⟨h1, h2, h3, h4⟩; exact ⟨h1, h2, h3, h4.symm⟩
  · rintro ⟨h1, h2, h3, h4⟩; exact ⟨h1, h2, h3, h4.symm⟩

theorem asset_sub_eq_some {a b r : asset} :
    asset.sub a b = some r ↔
      b.symbol = a.symbol ∧ -max_amount ≤ i64 (a.amount - b.amount) ∧
        i64 (a.amount - b.amount) ≤ max_amount ∧ r = ⟨i64 (a.amount - b.amount), a.symbol⟩ := by
  unfold asset.sub
  simp only [check_eq_some, Option.some.injEq]
  constructor
  · rintro ⟨h1, h2, h3, h4⟩; exact ⟨h1, h2, h3, h4.symm⟩
  · rintro ⟨h1, h2, h3, h4⟩; exact ⟨h1, h2, h3, h4.symm⟩

/-- Adding two amounts that are within the asset range never wraps. -/
theorem asset_add_in_range {a b r : asset} (h : asset.add a b = some r)
    (ha : -max_amount ≤ a.amount ∧ a.amount ≤ max_amount)
    (hb : -max_amount ≤ b.amount ∧ b.amount ≤ max_amount) :
    r.amount = a.amount + b.amount ∧ r.symbol = a.symbol ∧ b.symbol = a.symbol ∧
      -max_amount ≤ r.amount ∧ r.amount ≤ max_amount := by
  obtain ⟨h1, h2, h3, rfl⟩ := asset_add_eq_some.mp h
  have e : i64 (a.amount + b.amount) = a.amount + b.amount := by
    apply i64_of_range <;> (unfold max_amount at ha hb; omega)
  exact ⟨e, rfl, h1, h2, h3⟩

theorem asset_add_of_range {a b : asset} (hs : b.symbol = a.symbol)
    (ha : -max_amount ≤ a.amount ∧ a.amount ≤ max_amount)
    (hb : -max_amount ≤ b.amount ∧ b.amount ≤ max_amount)
    (hsum : -max_amount ≤ a.amount + b.amount ∧ a.amount + b.amount ≤ max_amount) :
    asset.add a b = some ⟨a.amount + b.amount, a.symbol⟩ := by
  have e : i64 (a.amount + b.amount) = a.amount + b.amount := by
    apply i64_of_range <;> (unfold max_amount at ha hb; omega)
  rw [asset_add_eq_some, e]
  exact ⟨hs, hsum.1, hsum.2, rfl⟩

theorem asset_sub_in_range {a b r : asset} (h : asset.sub a b = some r)
    (ha : -max_amount ≤ a.amount ∧ a.amount ≤ max_amount)
    (hb : -max_amount ≤ b.amount ∧ b.amount ≤ max_amount) :
    r.amount = a.amount - b.amount ∧ r.symbol = a.symbol ∧ b.symbol = a.symbol ∧
      -max_amount ≤ r.amount ∧ r.amount ≤ max_amount := by
  obtain ⟨h1, h2, h3, rfl⟩ := asset_sub_eq_some.mp h
  have e : i64 (a.amount - b.amount) = a.amount - b.amount := by
    apply i64_of_range <;> (unfold max_amount at ha hb; omega)
  exact ⟨e, rfl, h1, h2, h3⟩

end Nfts

/-!
# Closed forms of the release and price loops
-/

namespace Nfts

theorem tfind_lock {locks : List lockednft} {id x : Nat} :
    tfind lock_key locks id = some x ↔ x = id ∧ id ∈ locks := by
  constructor
  · intro h
    obtain ⟨hm, hk⟩ := tfind_some h
    unfold lock_key at hk
    subst hk
    exact ⟨rfl, hm⟩
  · rintro ⟨rfl, hm⟩
    cases h : tfind lock_key locks x with
    | none => exact absurd rfl (tfind_eq_none.mp h x hm)
    | some y =>
      obtain ⟨_, hk⟩ := tfind_some h
      unfold lock_key at hk
      rw [hk]

theorem tfind_lock_none {locks : List lockednft} {id : Nat} :
    tfind lock_key locks id = none ↔ id ∉ locks := by
  rw [tfind_eq_none]
  unfold lock_key
  constructor
  · intro h hm; exact h id hm rfl
  · intro h r hr e; subst e; exact h hr

theorem terase_lock (locks : List lockednft) (id : Nat) :
    terase lock_key locks id = release [id] locks := by
  unfold terase release lock_key
  apply List.filter_congr
  intro x _
  simp

theorem release_nil (locks : List lockednft) : release [] locks = locks := by
  unfold release
  simp

theorem release_cons (id : Nat) (ids : List Nat) (locks : List lockednft) :
    release (id :: ids) locks = release ids (release [id] locks) := by
  unfold release
  rw [List.filter_filter]
  apply List.filter_congr
  intro x _
  simp only [List.mem_cons, not_or, List.mem_singleton, Bool.decide_and, Bool.and_comm,
    List.not_mem_nil, or_false]

theorem mem_release {ids : List Nat} {locks : List lockednft} {x : Nat} :
    x ∈ release ids locks ↔ x ∈ locks ∧ x ∉ ids := by
  unfold release
  simp [List.mem_filter]

theorem release_nodup (ids : List Nat) {locks : List lockednft} (h : locks.Nodup) :
    (release ids locks).Nodup :=
  List.Nodup.sublist (List.filter_sublist locks) h

theorem unlock_step_eq_some {s s' : State} {id : Nat} :
    unlock_step s id = some s' ↔
      id ∈ s.lockednfts ∧ s' = { s with lockednfts := release [id] s.lockednfts } := by
  unfold unlock_step
  rw [andThen_eq_some]
  constructor
  · rintro ⟨x, hx, h⟩
    rw [terase_lock] at h
    exact ⟨(tfind_lock.mp hx).2, (Option.some.inj h).symm⟩
  · rintro ⟨hm, rfl⟩
    exact ⟨id, tfind_lock.mpr ⟨rfl, hm⟩, by rw [terase_lock]⟩

/-- The release loop goes through exactly when the ids are distinct and all
locked, and then removes exactly their locks. -/
theorem unlock_loop_eq_some {ids : List Nat} {s s' : State} :
    forEach unlock_step ids s = some s' ↔
      (∀ id ∈ ids, id ∈ s.lockednfts) ∧ ids.Nodup ∧
        s' = { s with lockednfts := release ids s.lockednfts } := by
  induction ids generalizing s with
  | nil =>
    simp only [forEach_nil, Option.some.injEq, List.not_mem_nil, false_implies, implies_true,
      List.nodup_nil, true_and, release_nil]
    constructor
    · intro h; exact h.symm
    · intro h; exact h.symm
  | cons x l ih =>
    rw [forEach_cons_eq_some]
    constructor
    · rintro ⟨s1, h1, h2⟩
      obtain ⟨hx, rfl⟩ := unlock_step_eq_some.mp h1
      obtain ⟨hall, hnd, rfl⟩ := ih.mp h2
      refine ⟨?_, ?_, ?_⟩
      · intro id hid
        rcases List.mem_cons.mp hid with rfl | hid
        · exact hx
        · exact (mem_release.mp (hall id hid)).1
      · rw [List.nodup_cons]
        refine ⟨fun hxl => ?_, hnd⟩
        have := (mem_release.mp (hall x hxl)).2
        exact this (List.mem_singleton.mpr rfl)
      · rw [release_cons x l]
    · rintro ⟨hall, hnd, rfl⟩
      rw [List.nodup_cons] at hnd
      refine ⟨_, unlock_step_eq_some.mpr ⟨hall x (List.mem_cons_self _ _), rfl⟩, ?_⟩
      rw [ih]
      refine ⟨?_, hnd.2, ?_⟩
      · intro id hid
        rw [mem_release]
        refine ⟨hall id (List.mem_cons_of_mem _ hid), ?_⟩
        rw [List.mem_singleton]
        rintro rfl
        exact hnd.1 hid
      · rw [release_cons x l]

/-- A conditional change of the resale price keeps the key of the category. -/
theorem price_ite_key (c : Prop) [Decidable c] (t : nft) (p : asset) :
    ((if c then { t with resale_price := p } else t).event,
      (if c then { t with resale_price := p } else t).nft_name) = (t.event, t.nft_name) := by
  split <;> rfl

/-- A conditional change of the owner keeps the key of the category. -/
theorem owner_ite_key (c : Prop) [Decidable c] (t : nft) (o : Nat) :
    ((if c then { t with owner := o } else t).event,
      (if c then { t with owner := o } else t).nft_name) = (t.event, t.nft_name) := by
  split <;> rfl

/-! ## Price loops -/

theorem set_price_nil (p : asset) (nfts : List nft) : set_price [] p nfts = nfts := by
  unfold set_price
  simp

theorem tmodify_price (nfts : List nft) (id : Nat) (p : asset) :
    tmodify nft_key nfts id (fun t => { t with resale_price := p }) = set_price [id] p nfts := by
  unfold tmodify set_price nft_key
  apply List.map_congr_left
  intro t _
  simp only [List.mem_singleton]

theorem set_price_cons (id : Nat) (ids : List Nat) (p : asset) (nfts : List nft) :
    set_price (id :: ids) p nfts = set_price ids p (set_price [id] p nfts) := by
  unfold set_price
  rw [List.map_map]
  apply List.map_congr_left
  intro t _
  simp only [Function.comp, List.mem_cons, List.mem_singleton, List.not_mem_nil, or_false]
  by_cases h1 : t.id = id <;> by_cases h2 : t.id ∈ ids <;> simp [h1, h2]

theorem set_price_map_core (ids : List Nat) (p : asset) (nfts : List nft) :
    (set_price ids p nfts).map nft_core = nfts.map nft_core := by
  unfold set_price
  rw [List.map_map]
  apply List.map_congr_left
  intro t _
  simp only [Function.comp]
  split <;> rfl

theorem set_price_map_key (ids : List Nat) (p : asset) (nfts : List nft) :
    (set_price ids p nfts).map nft_key = nfts.map nft_key := by
  unfold set_price
  rw [List.map_map]
  apply List.map_congr_left
  intro t _
  simp only [Function.comp]
  split <;> rfl

theorem tfind_set_price (ids : List Nat) (p : asset) (nfts : List nft) (id : Nat) :
    tfind nft_key (set_price ids p nfts) id =
      (tfind nft_key nfts id).map
        (fun t => if t.id ∈ ids then { t with resale_price := p } else t) := by
  induction nfts with
  | nil => rfl
  | cons a t ih =>
    unfold set_price at ih ⊢
    rw [List.map_cons, tfind_cons, tfind_cons]
    have hk : nft_key (if a.id ∈ ids then { a with resale_price := p } else a) = nft_key a := by
      split <;> rfl
    rw [hk]
    by_cases h : nft_key a = id
    · simp [h]
    · simp only [h, if_false]
      exact ih

/-- Setting prices does not change which tokens are stored with an
authorizing category. -/
theorem token_authorized_set_price (env : Env) (s : State) (ids : List Nat) (p : asset)
    (id : Nat) :
    token_authorized env { s with nfts := set_price ids p s.nfts } id ↔
      token_authorized env s id := by
  unfold token_authorized
  simp only [tfind_set_price]
  constructor
  · rintro ⟨t, st, h1, h2, h3⟩
    cases h : tfind nft_key s.nfts id with
    | none => rw [h] at h1; cases h1
    | some t0 =>
      rw [h] at h1
      simp only [Option.map_some', Option.some.injEq] at h1
      refine ⟨t0, st, rfl, ?_, h3⟩
      rw [← h1] at h2
      simp only [price_ite_key] at h2
      exact h2
  · rintro ⟨t, st, h1, h2, h3⟩
    rw [h1]
    refine ⟨_, st, rfl, ?_, h3⟩
    simp only [price_ite_key]
    exact h2

theorem closesale_step_eq_some {env : Env} {s s' : State} {id : Nat} :
    closesale_step env s id = some s' ↔
      token_authorized env s id ∧ s' = { s with nfts := set_price [id] zero_price s.nfts } := by
  unfold closesale_step token_authorized
  simp only [andThen_eq_some, require_auth_eq_some, asset_make_zero_COME, Option.some.injEq,
    tmodify_price]
  constructor
  · rintro ⟨t, ht, st, hst, hauth, z, rfl, rfl⟩
    exact ⟨⟨t, st, ht, hst, hauth⟩, rfl⟩
  · rintro ⟨⟨t, st, ht, hst, hauth⟩, rfl⟩
    exact ⟨t, ht, st, hst, hauth, _, rfl, rfl⟩

/-- The first loop of `closesale` goes through exactly when every token of
the batch is stored with an authorizing category, and then clears exactly
their resale prices. -/
theorem closesale_loop_eq_some {env : Env} {ids : List Nat} {s s' : State} :
    forEach (closesale_step env) ids s = some s' ↔
      (∀ id ∈ ids, token_authorized env s id) ∧
        s' = { s with nfts := set_price ids zero_price s.nfts } := by
  induction ids generalizing s with
  | nil =>
    simp only [forEach_nil, Option.some.injEq, List.not_mem_nil, false_implies, implies_true,
      true_and, set_price_nil]
    constructor
    · intro h; exact h.symm
    · intro h; exact h.symm
  | cons x l ih =>
    rw [forEach_cons_eq_some]
    constructor
    · rintro ⟨s1, h1, h2⟩
      obtain ⟨hx, rfl⟩ := closesale_step_eq_some.mp h1
      obtain ⟨hall, rfl⟩ := ih.mp h2
      refine ⟨?_, ?_⟩
      · intro id hid
        rcases List.mem_cons.mp hid with rfl | hid
        · exact hx
        · exact (token_authorized_set_price env s _ _ id).mp (hall id hid)
      · rw [set_price_cons x l]
    · rintro ⟨hall, rfl⟩
      refine ⟨_, closesale_step_eq_some.mpr ⟨hall x (List.mem_cons_self _ _), rfl⟩, ?_⟩
      rw [ih]
      refine ⟨?_, ?_⟩
      · intro id hid
        exact (token_authorized_set_price env s _ _ id).mpr (hall id (List.mem_cons_of_mem _ hid))
      · rw [set_price_cons x l]

end Nfts

/-!
# Balance rows under `add_balance` and `sub_balance`
-/

namespace Nfts

section Sums
variable {α : Type} {κ : Type} [DecidableEq κ]

theorem sum_terase {key : α → κ} {t : List α} {k : κ} {r : α} (f : α → Int)
    (hnd : (t.map key).Nodup) (h : tfind key t k = some r) :
    ((terase key t k).map f).sum = (t.map f).sum - f r := by
  induction t with
  | nil => cases h
  | cons a t ih =>
    rw [tfind_cons] at h
    rw [List.map_cons, List.nodup_cons] at hnd
    unfold terase at ih ⊢
    by_cases ha : key a = k
    · simp only [ha, if_true, Option.some.injEq] at h
      subst h
      have habs : ∀ x ∈ t, key x ≠ k := by
        intro x hx e
        apply hnd.1
        rw [ha, ← e]
        exact List.mem_map_of_mem key hx
      have := terase_of_absent key t k habs
      unfold terase at this
      simp only [List.filter_cons, ha, ne_eq, not_true_eq_false, decide_False,
        Bool.false_eq_true, if_false, this, List.map_cons, List.sum_cons]
      omega
    · simp only [ha, if_false] at h
      simp only [List.filter_cons, ha, ne_eq, not_false_eq_true, decide_True, if_true,
        List.map_cons, List.sum_cons]
      rw [ih hnd.2 h]
      omega

theorem sum_tmodify {key : α → κ} {t : List α} {k : κ} {r : α} (f : α → Int) (g : α → α)
    (hnd : (t.map key).Nodup) (h : tfind key t k = some r) :
    ((tmodify key t k g).map f).sum = (t.map f).sum - f r + f (g r) := by
  induction t with
  | nil => cases h
  | cons a t ih =>
    rw [tfind_cons] at h
    rw [List.map_cons, List.nodup_cons] at hnd
    unfold tmodify at ih ⊢
    by_cases ha : key a = k
    · simp only [ha, if_true, Option.some.injEq] at h
      subst h
      have habs : ∀ x ∈ t, key x ≠ k := by
        intro x hx e
        apply hnd.1
        rw [ha, ← e]
        exact List.mem_map_of_mem key hx
      have := tmodify_of_absent key t k g habs
      unfold tmodify at this
      simp only [List.map_cons, ha, if_true, this, List.sum_cons]
      omega
    · simp only [ha, if_false] at h
      simp only [List.map_cons, ha, if_false, List.sum_cons]
      rw [ih hnd.2 h]
      omega

end Sums

theorem balance_sum_eq (s : State) (c : Nat) :
    balance_sum s c = (s.accounts.map (share_of c)).sum := by
  unfold balance_sum
  generalize s.accounts = l
  induction l with
  | nil => rfl
  | cons a l ih =>
    by_cases h : a.2.nft_category_id = c
    · simp only [List.filter_cons, h, decide_True, if_true, List.map_cons, List.sum_cons, ih,
        share_of]
    · simp only [List.filter_cons, h, decide_False, Bool.false_eq_true, if_false, List.map_cons,
        List.sum_cons, ih, share_of, zero_add]

theorem share_of_eq {c : Nat} {r : Nat × account} (h : r.2.nft_category_id = c) :
    share_of c r = r.2.amount.amount := by
  unfold share_of
  simp [h]

theorem share_of_ne {c : Nat} {r : Nat × account} (h : ¬ r.2.nft_category_id = c) :
    share_of c r = 0 := by
  unfold share_of
  simp [h]

theorem balance_of_find {s : State} {o c : Nat} {r : Nat × account}
    (h : tfind acct_key s.accounts (o, c) = some r) : balance s o c = r.2.amount.amount := by
  unfold balance
  rw [h]

theorem balance_of_none {s : State} {o c : Nat}
    (h : tfind acct_key s.accounts (o, c) = none) : balance s o c = 0 := by
  unfold balance
  rw [h]

theorem acct_key_eq {r : Nat × account} {o c : Nat} (h : acct_key r = (o, c)) :
    r.1 = o ∧ r.2.nft_category_id = c := by
  unfold acct_key at h
  exact ⟨congrArg Prod.fst h, congrArg Prod.snd h⟩

/-- What `sub_balance` does to the balances, for a valid `CTT` quantity. -/
theorem sub_balance_effect {s s' : State} {o c : Nat} {q : asset} (hinv : AcctInv s)
    (hq : q.symbol = CTT) (hq1 : 1 ≤ q.amount) (hq2 : q.amount ≤ max_amount)
    (h : sub_balance o c q s = some s') :
    (∃ acc, s' = { s with accounts := acc }) ∧ AcctInv s' ∧ q.amount ≤ balance s o c ∧
    (∀ o' c', balance s' o' c' =
      if o' = o ∧ c' = c then balance s o c - q.amount else balance s o' c') ∧
    (∀ c', balance_sum s' c' =
      if c' = c then balance_sum s c - q.amount else balance_sum s c') := by
  unfold sub_balance at h
  obtain ⟨r, hr, h⟩ := andThen_eq_some.mp h
  obtain ⟨hge, h⟩ := check_eq_some.mp h
  have hbal := balance_of_find hr
  obtain ⟨hrm, hrk⟩ := tfind_some hr
  obtain ⟨hr1, hrc⟩ := acct_key_eq hrk
  obtain ⟨hsym, hlo, hhi⟩ := hinv.amount_ok r hrm
  by_cases heq : r.2.amount.amount = q.amount
  · simp only [heq, if_true, Option.some.injEq] at h
    subst h
    refine ⟨⟨_, rfl⟩, ⟨?_, ?_⟩, ?_, ?_, ?_⟩
    · exact terase_map_nodup _ _ _ hinv.keys_nodup
    · intro x hx
      exact hinv.amount_ok x (mem_terase.mp hx).1
    · rw [hbal]; omega
    · intro o' c'
      by_cases hk : o' = o ∧ c' = c
      · obtain ⟨rfl, rfl⟩ := hk
        simp only [and_self, if_true]
        rw [hbal]
        unfold balance
        simp only [tfind_terase_self]
        omega
      · simp only [hk, if_false]
        unfold balance
        simp only
        rw [tfind_terase_ne]
        intro e
        apply hk
        exact ⟨congrArg Prod.fst e, congrArg Prod.snd e⟩
    · intro c'
      simp only [balance_sum_eq]
      rw [sum_terase _ hinv.keys_nodup hr]
      by_cases hc : c' = c
      · subst hc
        simp only [if_true]
        rw [share_of_eq hrc]
        omega
      · simp only [hc, if_false]
        have : ¬ r.2.nft_category_id = c' := by rw [hrc]; exact fun e => hc e.symm
        rw [share_of_ne this]
        omega
  · simp only [heq, if_false] at h
    obtain ⟨amt, hamt, h⟩ := andThen_eq_some.mp h
    simp only [Option.some.injEq] at h
    subst h
    have hqr : -max_amount ≤ q.amount ∧ q.amount ≤ max_amount := by
      unfold max_amount at hq2 ⊢; omega
    have hrr : -max_amount ≤ r.2.amount.amount ∧ r.2.amount.amount ≤ max_amount := by
      unfold max_amount at hhi ⊢; omega
    obtain ⟨ha1, ha2, _, _, ha5⟩ := asset_sub_in_range hamt hrr hqr
    have hkey : ∀ a : Nat × account,
        acct_key ((fun a : Nat × account => (a.1, { a.2 with amount := amt })) a) = acct_key a :=
      fun a => rfl
    refine ⟨⟨_, rfl⟩, ⟨?_, ?_⟩, ?_, ?_, ?_⟩
    · simp only
      rw [tmodify_map_eq acct_key _ _ _ acct_key hkey]
      exact hinv.keys_nodup
    · intro x hx
      obtain ⟨y, hy, rfl⟩ := mem_tmodify.mp hx
      split
      · simp only
        refine ⟨by rw [ha2, hsym], ?_, ha5⟩
        rw [ha1]; omega
      · exact hinv.amount_ok y hy
    · rw [hbal]; omega
    · intro o' c'
      unfold balance
      simp only
      rw [tfind_tmodify _ _ _ _ hkey]
      by_cases hk : o' = o ∧ c' = c
      · obtain ⟨rfl, rfl⟩ := hk
        simp only [and_self, if_true, hr, Option.map_some', hrk]
        exact ha1
      · simp only [hk, if_false]
        cases hf : tfind acct_key s.accounts (o', c') with
        | none => rfl
        | some y =>
          have hyk := (tfind_some hf).2
          have : ¬ acct_key y = (o, c) := by
            rw [hyk]
            intro e
            exact hk ⟨congrArg Prod.fst e, congrArg Prod.snd e⟩
          simp only [Option.map_some', this, if_false]
    · intro c'
      simp only [balance_sum_eq]
      rw [sum_tmodify _ _ hinv.keys_nodup hr]
      by_cases hc : c' = c
      · subst hc
        simp only [if_true]
        rw [share_of_eq hrc, share_of_eq (r := (r.1, { r.2 with amount := amt })) hrc]
        simp only
        omega
      · simp only [hc, if_false]
        have : ¬ r.2.nft_category_id = c' := by rw [hrc]; exact fun e => hc e.symm
        rw [share_of_ne this, share_of_ne (r := (r.1, { r.2 with amount := amt })) this]
        omega

/-- What `add_balance` does to the balances, for a valid `CTT` quantity. -/
theorem add_balance_effect {s s' : State} {o c : Nat} {payer : name} {ev : Nat} {nm : name}
    {q : asset} (hinv : AcctInv s)
    (hq : q.symbol = CTT) (hq1 : 1 ≤ q.amount) (hq2 : q.amount ≤ max_amount)
    (h : add_balance o payer ev nm c q s = some s') :
    (∃ acc, s' = { s with accounts := acc }) ∧ AcctInv s' ∧
    (∀ o' c', balance s' o' c' =
      if o' = o ∧ c' = c then balance s o c + q.amount else balance s o' c') ∧
    (∀ c', balance_sum s' c' =
      if c' = c then balance_sum s c + q.amount else balance_sum s c') := by
  unfold add_balance at h
  cases hr : tfind acct_key s.accounts (o, c) with
  | none =>
    rw [hr] at h
    simp only at h
    obtain ⟨acc, hacc, h⟩ := andThen_eq_some.mp h
    simp only [Option.some.injEq] at h
    subst h
    have hnd := templace_map_nodup hacc hinv.keys_nodup
    obtain ⟨hfresh, rfl⟩ := templace_eq_some.mp hacc
    have hbal := balance_of_none hr
    refine ⟨⟨_, rfl⟩, ⟨hnd, ?_⟩, ?_, ?_⟩
    · intro x hx
      simp only [List.mem_append, List.mem_singleton] at hx
      rcases hx with hx | rfl
      · exact hinv.amount_ok x hx
      · exact ⟨hq, hq1, hq2⟩
    · intro o' c'
      unfold balance
      simp only
      rw [tfind_append]
      by_cases hk : o' = o ∧ c' = c
      · obtain ⟨rfl, rfl⟩ := hk
        simp only [and_self, if_true, hr, Option.none_or, tfind_cons, acct_key, tfind_nil]
        omega
      · simp only [hk, if_false]
        cases hf : tfind acct_key s.accounts (o', c') with
        | some y => rfl
        | none =>
          have : ¬ ((o, c) = (o', c')) := by
            intro e
            exact hk ⟨(congrArg Prod.fst e).symm, (congrArg Prod.snd e).symm⟩
          simp only [Option.none_or, tfind_cons, acct_key, this, if_false, tfind_nil]
    · intro c'
      simp only [balance_sum_eq, List.map_append, List.sum_append, List.map_cons, List.map_nil, List.sum_cons,
        List.sum_nil, add_zero]
      unfold share_of
      by_cases hc : c' = c
      · subst hc
        simp only [if_true]
      · have : ¬ c = c' := fun e => hc e.symm
        simp only [hc, this, if_false, add_zero]
  | some r =>
    rw [hr] at h
    simp only at h
    obtain ⟨amt, hamt, h⟩ := andThen_eq_some.mp h
    simp only [Option.some.injEq] at h
    subst h
    have hbal := balance_of_find hr
    obtain ⟨hrm, hrk⟩ := tfind_some hr
    obtain ⟨hr1, hrc⟩ := acct_key_eq hrk
    obtain ⟨hsym, hlo, hhi⟩ := hinv.amount_ok r hrm
    have hqr : -max_amount ≤ q.amount ∧ q.amount ≤ max_amount := by
      unfold max_amount at hq2 ⊢; omega
    have hrr : -max_amount ≤ r.2.amount.amount ∧ r.2.amount.amount ≤ max_amount := by
      unfold max_amount at hhi ⊢; omega
    obtain ⟨ha1, ha2, _, _, ha5⟩ := asset_add_in_range hamt hrr hqr
    have hkey : ∀ a : Nat × account,
        acct_key ((fun a : Nat × account => (a.1, { a.2 with amount := amt })) a) = acct_key a :=
      fun a => rfl
    refine ⟨⟨_, rfl⟩, ⟨?_, ?_⟩, ?_, ?_⟩
    · simp only
      rw [tmodify_map_eq acct_key _ _ _ acct_key hkey]
      exact hinv.keys_nodup
    · intro x hx
      obtain ⟨y, hy, rfl⟩ := mem_tmodify.mp hx
      split
      · simp only
        refine ⟨by rw [ha2, hsym], ?_, ha5⟩
        rw [ha1]; omega
      · exact hinv.amount_ok y hy
    · intro o' c'
      unfold balance
      simp only
      rw [tfind_tmodify _ _ _ _ hkey]
      by_cases hk : o' = o ∧ c' = c
      · obtain ⟨rfl, rfl⟩ := hk
        simp only [and_self, if_true, hr, Option.map_some', hrk]
        exact ha1
      · simp only [hk, if_false]
        cases hf : tfind acct_key s.accounts (o', c') with
        | none => rfl
        | some y =>
          have hyk := (tfind_some hf).2
          have : ¬ acct_key y = (o, c) := by
            rw [hyk]
            intro e
            exact hk ⟨congrArg Prod.fst e, congrArg Prod.snd e⟩
          simp only [Option.map_some', this, if_false]
    · intro c'
      simp only [balance_sum_eq]
      rw [sum_tmodify _ _ hinv.keys_nodup hr]
      by_cases hc : c' = c
      · subst hc
        simp only [if_true]
        rw [share_of_eq hrc, share_of_eq (r := (r.1, { r.2 with amount := amt })) hrc]
        simp only
        omega
      · simp only [hc, if_false]
        have : ¬ r.2.nft_category_id = c' := by rw [hrc]; exact fun e => hc e.symm
        rw [share_of_ne this, share_of_ne (r := (r.1, { r.2 with amount := amt })) this]
        omega

end Nfts

/-!
# The ownership loop
-/

namespace Nfts

theorem set_owner_nil (to_ : Nat) (nfts : List nft) : set_owner [] to_ nfts = nfts := by
  unfold set_owner
  simp

theorem tmodify_owner (nfts : List nft) (id : Nat) (to_ : Nat) :
    tmodify nft_key nfts id (fun t => { t with owner := to_ }) = set_owner [id] to_ nfts := by
  unfold tmodify set_owner nft_key
  apply List.map_congr_left
  intro t _
  simp only [List.mem_singleton]

theorem set_owner_cons (id : Nat) (ids : List Nat) (to_ : Nat) (nfts : List nft) :
    set_owner (id :: ids) to_ nfts = set_owner ids to_ (set_owner [id] to_ nfts) := by
  unfold set_owner
  rw [List.map_map]
  apply List.map_congr_left
  intro t _
  simp only [Function.comp, List.mem_cons, List.mem_singleton, List.not_mem_nil, or_false]
  by_cases h1 : t.id = id <;> by_cases h2 : t.id ∈ ids <;> simp [h1, h2]

theorem set_owner_map_core (ids : List Nat) (to_ : Nat) (nfts : List nft) :
    (set_owner ids to_ nfts).map nft_core = nfts.map nft_core := by
  unfold set_owner
  rw [List.map_map]
  apply List.map_congr_left
  intro t _
  simp only [Function.comp]
  split <;> rfl

theorem set_owner_map_key (ids : List Nat) (to_ : Nat) (nfts : List nft) :
    (set_owner ids to_ nfts).map nft_key = nfts.map nft_key := by
  unfold set_owner
  rw [List.map_map]
  apply List.map_congr_left
  intro t _
  simp only [Function.comp]
  split <;> rfl

theorem tfind_set_owner (ids : List Nat) (to_ : Nat) (nfts : List nft) (id : Nat) :
    tfind nft_key (set_owner ids to_ nfts) id =
      (tfind nft_key nfts id).map (fun t => if t.id ∈ ids then { t with owner := to_ } else t) := by
  induction nfts with
  | nil => rfl
  | cons a t ih =>
    unfold set_owner at ih ⊢
    rw [List.map_cons, tfind_cons, tfind_cons]
    have hk : nft_key (if a.id ∈ ids then { a with owner := to_ } else a) = nft_key a := by
      split <;> rfl
    rw [hk]
    by_cases h : nft_key a = id
    · simp [h]
    · simp only [h, if_false]
      exact ih

theorem SupplyInv_of_stats {s s' : State} (h : s'.stats = s.stats) (hs : SupplyInv s) :
    SupplyInv s' := by
  constructor
  · rw [h]; exact hs.keys_nodup
  · rw [h]; exact hs.row_ok

theorem AcctInv_of_accounts {s s' : State} (h : s'.accounts = s.accounts) (hs : AcctInv s) :
    AcctInv s' := by
  constructor
  · rw [h]; exact hs.keys_nodup
  · rw [h]; exact hs.amount_ok

theorem balance_of_accounts {s s' : State} (h : s'.accounts = s.accounts) (o c : Nat) :
    balance s' o c = balance s o c := by
  unfold balance
  rw [h]

theorem balance_sum_of_accounts {s s' : State} (h : s'.accounts = s.accounts) (c : Nat) :
    balance_sum s' c = balance_sum s c := by
  unfold balance_sum
  rw [h]

/-- The category of a stored token: the id of the category row found under
its event and name. -/
theorem asset_make_one_of_CTT {sy : symbol} {q : asset} (hsy : sy = CTT)
    (h : asset.make 1 sy = some q) : q = ⟨1, CTT⟩ := by
  subst hsy
  rw [asset_make_one_CTT] at h
  exact (Option.some.inj h).symm

/-- One round of `changeowner`: what it requires and what it changes. -/
theorem changeowner_step_effect {env : Env} {from_ to_ : Nat} {ist : Bool} {s s' : State}
    {id : Nat} (hs : SupplyInv s) (ha : AcctInv s)
    (h : changeowner_step env from_ to_ ist s id = some s') :
    ∃ t st acc, tfind nft_key s.nfts id = some t ∧
      tfind stat_key s.stats (t.event, t.nft_name) = some st ∧ st.2.issuer ∈ env.auths ∧
      (ist = true → t.owner = from_ ∧ st.2.transferable = true ∧ id ∉ s.lockednfts) ∧
      s' = { s with nfts := set_owner [id] to_ s.nfts, accounts := acc } ∧ AcctInv s' ∧
      1 ≤ balance s from_ st.2.nft_category_id ∧
      (∀ o c, balance s' o c =
        balance s o c - (if o = from_ ∧ c = st.2.nft_category_id then 1 else 0)
          + (if o = to_ ∧ c = st.2.nft_category_id then 1 else 0)) ∧
      (∀ c, balance_sum s' c = balance_sum s c) := by
  unfold changeowner_step at h
  obtain ⟨t, ht, h⟩ := andThen_eq_some.mp h
  obtain ⟨st, hst, h⟩ := andThen_eq_some.mp h
  obtain ⟨hauth, h⟩ := require_auth_eq_some.mp h
  obtain ⟨hist, h⟩ := check_eq_some.mp h
  obtain ⟨q, hq, h⟩ := andThen_eq_some.mp h
  obtain ⟨s2, hsub, hadd⟩ := andThen_eq_some.mp h
  have hsym := (hs.row_ok st (tfind_some hst).1).1
  have hq' := asset_make_one_of_CTT hsym hq
  subst hq'
  rw [tmodify_owner] at hsub
  have hmax : (1 : Int) ≤ max_amount := by decide
  have ha1 : AcctInv { s with nfts := set_owner [id] to_ s.nfts } :=
    AcctInv_of_accounts (s := s) rfl ha
  obtain ⟨⟨acc2, rfl⟩, ha2, hb2, hbal2, hsum2⟩ :=
    sub_balance_effect ha1 rfl (le_refl _) hmax hsub
  obtain ⟨⟨acc3, rfl⟩, ha3, hbal3, hsum3⟩ :=
    add_balance_effect ha2 rfl (le_refl _) hmax hadd
  have hb2' : 1 ≤ balance s from_ st.2.nft_category_id := hb2
  have hbal2' : ∀ o' c', balance
      { s with nfts := set_owner [id] to_ s.nfts, accounts := acc2 } o' c' =
      if o' = from_ ∧ c' = st.2.nft_category_id then balance s from_ st.2.nft_category_id - 1
      else balance s o' c' := hbal2
  have hsum2' : ∀ c', balance_sum
      { s with nfts := set_owner [id] to_ s.nfts, accounts := acc2 } c' =
      if c' = st.2.nft_category_id then balance_sum s st.2.nft_category_id - 1
      else balance_sum s c' := hsum2
  have hbal3' : ∀ o' c', balance
      { s with nfts := set_owner [id] to_ s.nfts, accounts := acc3 } o' c' =
      if o' = to_ ∧ c' = st.2.nft_category_id then
        balance { s with nfts := set_owner [id] to_ s.nfts, accounts := acc2 } to_
          st.2.nft_category_id + 1
      else balance { s with nfts := set_owner [id] to_ s.nfts, accounts := acc2 } o' c' := hbal3
  have hsum3' : ∀ c', balance_sum
      { s with nfts := set_owner [id] to_ s.nfts, accounts := acc3 } c' =
      if c' = st.2.nft_category_id then
        balance_sum { s with nfts := set_owner [id] to_ s.nfts, accounts := acc2 }
          st.2.nft_category_id + 1
      else balance_sum { s with nfts := set_owner [id] to_ s.nfts, accounts := acc2 } c' := hsum3
  refine ⟨t, st, acc3, ht, hst, hauth, ?_, rfl, ha3, hb2', ?_, ?_⟩
  · intro hi
    obtain ⟨h1, h2, h3⟩ := hist hi
    exact ⟨h1, h2, tfind_lock_none.mp h3⟩
  · intro o c
    rw [hbal3', hbal2', hbal2']
    by_cases e3 : c = st.2.nft_category_id
    · subst e3
      by_cases e1 : o = from_
      · subst e1
        by_cases e2 : o = to_
        · subst e2; simp
        · have e2' : ¬ to_ = o := fun h => e2 h.symm
          simp [e2, e2']
      · by_cases e2 : o = to_
        · subst e2; simp [e1]
        · simp [e1, e2]
    · simp [e3]
  · intro c
    rw [hsum3', hsum2', hsum2']
    by_cases e3 : c = st.2.nft_category_id
    · subst e3; simp
    · simp [e3]

/-- The tokens of a list all belong to the category row with id `cat`. -/
theorem tokens_in_category_step {s : State} {cat : Nat} {ids : List Nat} {x to_ : Nat}
    {acc : List (Nat × account)}
    (h : ∀ id ∈ ids, ∃ t st, tfind nft_key s.nfts id = some t ∧
      tfind stat_key s.stats (t.event, t.nft_name) = some st ∧ st.2.nft_category_id = cat) :
    ∀ id ∈ ids, ∃ t st,
      tfind nft_key
        ({ s with nfts := set_owner [x] to_ s.nfts, accounts := acc } : State).nfts id = some t ∧
      tfind stat_key
        ({ s with nfts := set_owner [x] to_ s.nfts, accounts := acc } : State).stats
        (t.event, t.nft_name) = some st ∧ st.2.nft_category_id = cat := by
  intro id hid
  obtain ⟨t, st, h1, h2, h3⟩ := h id hid
  simp only [tfind_set_owner, h1, Option.map_some']
  refine ⟨_, st, rfl, ?_, h3⟩
  simp only [owner_ite_key]
  exact h2

/-- The loop of `changeowner`: what it requires and what it changes. -/
theorem changeowner_effect {env : Env} {from_ to_ : Nat} {ist : Bool} {memo : String}
    {ids : List Nat} {s s' : State} (hs : SupplyInv s) (ha : AcctInv s)
    (h : changeowner env from_ to_ ids memo ist s = some s') :
    ∃ acc, s' = { s with nfts := set_owner ids to_ s.nfts, accounts := acc } ∧ AcctInv s' ∧
      (∀ c, balance_sum s' c = balance_sum s c) ∧
      (ist = true → ∀ id ∈ ids, id ∉ s.lockednfts) ∧
      (∀ id ∈ ids, token_authorized env s id) ∧
      (∀ cat, (∀ id ∈ ids, ∃ t st, tfind nft_key s.nfts id = some t ∧
          tfind stat_key s.stats (t.event, t.nft_name) = some st ∧
          st.2.nft_category_id = cat) →
        ∀ o c, balance s' o c =
          balance s o c - (if o = from_ ∧ c = cat then (ids.length : Int) else 0)
            + (if o = to_ ∧ c = cat then (ids.length : Int) else 0)) := by
  unfold changeowner at h
  induction ids generalizing s with
  | nil =>
    simp only [forEach_nil, Option.some.injEq] at h
    subst h
    refine ⟨s.accounts, ?_, ha, fun _ => rfl, ?_, ?_, ?_⟩
    · rw [set_owner_nil]
    · intro _ id hid; cases hid
    · intro id hid; cases hid
    · intro cat _ o c
      simp
  | cons x l ih =>
    obtain ⟨s1, h1, h2⟩ := forEach_cons_eq_some.mp h
    obtain ⟨t, st, acc1, ht, hst, hauth, hist, rfl, ha1, hb1, hbal1, hsum1⟩ :=
      changeowner_step_effect hs ha h1
    have hs1 : SupplyInv { s with nfts := set_owner [x] to_ s.nfts, accounts := acc1 } :=
      SupplyInv_of_stats (s := s) rfl hs
    obtain ⟨acc2, rfl, ha2, hsum2, hist2, hauth2, hbal2⟩ := ih hs1 ha1 h2
    refine ⟨acc2, ?_, ha2, ?_, ?_, ?_, ?_⟩
    · simp only [set_owner_cons x l]
    · intro c
      rw [hsum2, hsum1]
    · intro hi id hid
      rcases List.mem_cons.mp hid with rfl | hid
      · exact (hist hi).2.2
      · exact hist2 hi id hid
    · intro id hid
      rcases List.mem_cons.mp hid with rfl | hid
      · exact ⟨t, st, ht, hst, hauth⟩
      · obtain ⟨t', st', h1', h2', h3'⟩ := hauth2 id hid
        simp only [tfind_set_owner] at h1'
        cases hf : tfind nft_key s.nfts id with
        | none => rw [hf] at h1'; cases h1'
        | some t0 =>
          rw [hf] at h1'
          simp only [Option.map_some', Option.some.injEq] at h1'
          refine ⟨t0, st', hf, ?_, h3'⟩
          rw [← h1'] at h2'
          simp only [owner_ite_key] at h2'
          exact h2'
    · intro cat hcat o c
      have hx := hcat x (List.mem_cons_self _ _)
      obtain ⟨tx, stx, hx1, hx2, hx3⟩ := hx
      rw [ht] at hx1
      cases hx1
      rw [hst] at hx2
      cases hx2
      have hrest := @tokens_in_category_step s cat l x to_ acc1
        (fun id hid => hcat id (List.mem_cons_of_mem _ hid))
      rw [hbal2 cat hrest o c, hbal1 o c, hx3]
      simp only [List.length_cons, Nat.cast_add, Nat.cast_one]
      split <;> split <;> omega

end Nfts

/-!
# Minting
-/

namespace Nfts

theorem foldr_max_range (n : Nat) : (List.range (n + 1)).foldr max 0 = n := by
  induction n with
  | zero => rfl
  | succ n ih =>
    rw [List.range_succ, List.foldr_append]
    simp only [List.foldr_cons, List.foldr_nil, Nat.max_zero]
    have key : ∀ (l : List Nat) (a b : Nat), a ≤ b →
        List.foldr max b l = max (List.foldr max a l) b := by
      intro l
      induction l with
      | nil => intro a b hab; simp [Nat.max_eq_right hab]
      | cons x l ihl =>
        intro a b hab
        simp only [List.foldr_cons]
        rw [ihl a b hab]
        omega
    rw [key (List.range (n + 1)) 0 (n + 1) (Nat.zero_le _), ih]
    omega

/-- With keys `0 .. n-1` stored, the next free key is `n`, up to the limit. -/
theorem available_primary_key_of_range {t : List nft} (h : t.map nft_key = List.range t.length) :
    available_primary_key t =
      if t.length < 18446744073709551614 then some t.length else none := by
  unfold available_primary_key
  cases t with
  | nil => rfl
  | cons a t =>
    simp only
    rw [h, List.length_cons, foldr_max_range]

theorem fresh_of_range {t : List nft} (h : t.map nft_key = List.range t.length) :
    ∀ x ∈ t, nft_key x ≠ t.length := by
  intro x hx e
  have : nft_key x ∈ t.map nft_key := List.mem_map_of_mem nft_key hx
  rw [h, List.mem_range, e] at this
  exact Nat.lt_irrefl _ this

theorem range_append_key {t : List nft} {x : nft} (h : t.map nft_key = List.range t.length)
    (hx : nft_key x = t.length) :
    (t ++ [x]).map nft_key = List.range (t ++ [x]).length := by
  rw [List.map_append, h, List.length_append, List.length_singleton, List.range_succ,
    List.map_singleton, hx]

/-- `mint` on a table with keys `0 .. n-1`: it appends one row under key `n`. -/
theorem mint_eq_some {to_ : Nat} {issuer : name} {ev : Nat} {nm : name} {issued : asset}
    {uri : String} {s s' : State} (hk : s.nfts.map nft_key = List.range s.nfts.length) :
    mint to_ issuer ev nm issued uri s = some s' ↔
      s.nfts.length < 18446744073709551614 ∧
        s' = { s with nfts := s.nfts ++
          [minted_token to_ ev nm uri s.nfts.length issued.amount] } := by
  unfold mint
  rw [available_primary_key_of_range hk]
  by_cases hlt : s.nfts.length < 18446744073709551614
  · simp only [hlt, if_true, andThen_some, asset_make_zero_COME, true_and]
    rw [templace_of_fresh]
    · simp only [andThen_some, Option.some.injEq, minted_token]
      constructor
      · intro h; exact h.symm
      · intro h; exact h.symm
    · exact fresh_of_range hk
  · simp only [hlt, if_false, andThen_none, false_and]
    exact ⟨fun h => (by cases h), fun h => h.elim⟩

theorem minted_length (to_ ev : Nat) (nm : name) (uri : String) (n k : Nat) (issued : Int) :
    (minted to_ ev nm uri n k issued).length = n := by
  induction n generalizing k issued with
  | zero => rfl
  | succ n ih => simp only [minted, List.length_cons, ih]

theorem minted_map_key (to_ ev : Nat) (nm : name) (uri : String) (n k : Nat) (issued : Int) :
    (minted to_ ev nm uri n k issued).map nft_key = (List.range n).map (fun i => k + i) := by
  induction n generalizing k issued with
  | zero => rfl
  | succ n ih =>
    simp only [minted, List.map_cons, ih, List.range_succ_eq_map, List.map_map]
    refine congrArg₂ _ rfl ?_
    apply List.map_congr_left
    intro i _
    simp only [Function.comp]
    omega

/-- The rows of `minted`, one by one. -/
theorem minted_get (to_ ev : Nat) (nm : name) (uri : String) (n k : Nat) (issued : Int)
    (i : Nat) (hi : i < n) :
    (minted to_ ev nm uri n k issued)[i]? =
      some (minted_token to_ ev nm uri (k + i) (issued + i)) := by
  induction n generalizing k issued i with
  | zero => omega
  | succ n ih =>
    cases i with
    | zero => simp [minted]
    | succ i =>
      simp only [minted, List.getElem?_cons_succ]
      rw [ih (k + 1) (issued + 1) i (by omega)]
      have e1 : k + 1 + i = k + (i + 1) := by omega
      have e2 : issued + 1 + (i : Int) = issued + ((i + 1 : Nat) : Int) := by
        push_cast; omega
      rw [e1, e2]

/-- The minting loop on a table with keys `0 .. len-1`, for a local
`issued_supply` that stays within the asset range: it appends `n` rows. -/
theorem issue_loop_eq_some {to_ : Nat} {issuer : name} {ev : Nat} {nm : name} (one : asset)
    {uri : String} (hone : one.amount = 1) :
    ∀ (n : Nat) (issued : asset) (s s' : State),
      s.nfts.map nft_key = List.range s.nfts.length →
      one.symbol = issued.symbol → 0 ≤ issued.amount → issued.amount + n ≤ max_amount →
      (issue_loop to_ issuer ev nm one uri n issued s = some s' ↔
        (n = 0 ∨ s.nfts.length + n ≤ 18446744073709551614) ∧
          s' = { s with nfts := s.nfts ++ minted to_ ev nm uri n s.nfts.length issued.amount })
  | 0, issued, s, s', _, _, _, _ => by
    simp only [issue_loop, Option.some.injEq, minted, List.append_nil, true_or, true_and]
    constructor
    · intro h; exact h.symm
    · intro h; exact h.symm
  | n + 1, issued, s, s', hk, hsym, h0, hmax => by
    have hadd : asset.add issued one = some ⟨issued.amount + 1, issued.symbol⟩ := by
      have := asset_add_of_range (a := issued) (b := one) hsym
        (by unfold max_amount at hmax ⊢; omega) (by rw [hone]; decide)
        (by rw [hone]; unfold max_amount at hmax ⊢; push_cast at hmax; omega)
      rw [hone] at this
      exact this
    simp only [issue_loop]
    rw [andThen_eq_some]
    constructor
    · rintro ⟨s1, h1, h2⟩
      obtain ⟨hlt, rfl⟩ := (mint_eq_some hk).mp h1
      rw [hadd, andThen_some] at h2
      have hk1 := range_append_key (x := minted_token to_ ev nm uri s.nfts.length issued.amount)
        hk rfl
      obtain ⟨hn, rfl⟩ := (issue_loop_eq_some one hone n ⟨issued.amount + 1, issued.symbol⟩ _ _ hk1
        hsym (by simp only; omega) (by simp only; push_cast at hmax; omega)).mp h2
      refine ⟨Or.inr ?_, ?_⟩
      · rcases hn with rfl | hn
        · omega
        · simp only [List.length_append, List.length_singleton] at hn
          omega
      · simp only [minted, List.append_assoc, List.singleton_append, List.length_append,
          List.length_singleton]
    · rintro ⟨hn, rfl⟩
      have hlt : s.nfts.length < 18446744073709551614 := by
        rcases hn with hn | hn <;> omega
      refine ⟨_, (mint_eq_some hk).mpr ⟨hlt, rfl⟩, ?_⟩
      rw [hadd, andThen_some]
      have hk1 := range_append_key (x := minted_token to_ ev nm uri s.nfts.length issued.amount)
        hk rfl
      rw [issue_loop_eq_some one hone n ⟨issued.amount + 1, issued.symbol⟩ _ _ hk1
        hsym (by simp only; omega) (by simp only; push_cast at hmax; omega)]
      refine ⟨?_, ?_⟩
      · rcases hn with hn | hn
        · omega
        · right
          simp only [List.length_append, List.length_singleton]
          omega
      · simp only [minted, List.append_assoc, List.singleton_append, List.length_append,
          List.length_singleton]

end Nfts

/-!
# The loops of `listsale` and `buy`
-/

namespace Nfts

theorem price_ite_shared (c : Prop) [Decidable c] (t : nft) (p : asset) :
    (if c then { t with resale_price := p } else t).shared_with = t.shared_with := by
  split <;> rfl

theorem price_ite_owner (c : Prop) [Decidable c] (t : nft) (p : asset) :
    (if c then { t with resale_price := p } else t).owner = t.owner := by
  split <;> rfl

theorem price_ite_event (c : Prop) [Decidable c] (t : nft) (p : asset) :
    (if c then { t with resale_price := p } else t).event = t.event := by
  split <;> rfl

theorem price_ite_name (c : Prop) [Decidable c] (t : nft) (p : asset) :
    (if c then { t with resale_price := p } else t).nft_name = t.nft_name := by
  split <;> rfl

theorem price_ite_id (c : Prop) [Decidable c] (t : nft) (p : asset) :
    (if c then { t with resale_price := p } else t).id = t.id := by
  split <;> rfl

/-- Division of a price by a positive batch size. -/
theorem asset_div_nat (P : asset) {n : Nat} (hn : n ≠ 0) :
    asset.div P (n : Int) = some ⟨Int.tdiv P.amount n, P.symbol⟩ := by
  unfold asset.div
  rw [check_true, check_true]
  · intro h
    have := h.2
    omega
  · exact_mod_cast hn

/-- Setting prices and changing locks does not change what is listable. -/
theorem listable_set_price (env : Env) (seller ev : Nat) (nm : name) (s : State)
    (ids : List Nat) (p : asset) (locks : List lockednft) (id : Nat) :
    listable env seller ev nm
        { s with nfts := set_price ids p s.nfts, lockednfts := locks } id ↔
      listable env seller ev nm s id := by
  unfold listable
  simp only [tfind_set_price]
  constructor
  · rintro ⟨t, st, h1, h2, h3, h4, h5, h6, h7, h8⟩
    cases h : tfind nft_key s.nfts id with
    | none => rw [h] at h1; cases h1
    | some t0 =>
      rw [h] at h1
      simp only [Option.map_some', Option.some.injEq] at h1
      subst h1
      simp only [price_ite_key, price_ite_shared, price_ite_owner, price_ite_event,
        price_ite_name] at h2 h4 h6 h7 h8
      exact ⟨t0, st, rfl, h2, h3, h4, h5, h6, h7, h8⟩
  · rintro ⟨t, st, h1, h2, h3, h4, h5, h6, h7, h8⟩
    rw [h1]
    refine ⟨_, st, rfl, ?_, h3, ?_, h5, ?_, ?_, ?_⟩
    · simp only [price_ite_key]; exact h2
    · simp only [price_ite_shared]; exact h4
    · simp only [price_ite_owner]; exact h6
    · simp only [price_ite_event]; exact h7
    · simp only [price_ite_name]; exact h8

theorem listsale_step_eq_some {env : Env} {seller ev : Nat} {nm : name} {P : asset} {n : Nat}
    {s s' : State} {id : Nat} :
    listsale_step env seller ev nm P n s id = some s' ↔
      listable env seller ev nm s id ∧ id ∉ s.lockednfts ∧
        ∃ p, asset.div P (n : Int) = some p ∧
          s' = { s with nfts := set_price [id] p s.nfts,
                        lockednfts := s.lockednfts ++ [id] } := by
  unfold listsale_step listable
  simp only [andThen_eq_some, require_auth_eq_some, check_eq_some, Option.some.injEq,
    tmodify_price, tfind_lock_none]
  constructor
  · rintro ⟨t, ht, st, hst, hauth, h4, h5, h6, h7, h8, hl, p, hp, locks, hlocks, rfl⟩
    obtain ⟨_, rfl⟩ := templace_eq_some.mp hlocks
    exact ⟨⟨t, st, ht, hst, hauth, h4, h5, h6, h7, h8⟩, hl, p, hp, rfl⟩
  · rintro ⟨⟨t, st, ht, hst, hauth, h4, h5, h6, h7, h8⟩, hl, p, hp, rfl⟩
    refine ⟨t, ht, st, hst, hauth, h4, h5, h6, h7, h8, hl, p, hp, _, ?_, rfl⟩
    apply templace_of_fresh
    intro x hx e
    unfold lock_key at e
    subst e
    exact hl hx

/-- The loop of `listsale`, for a price share `p`: it goes through exactly
when the ids are distinct, unlocked and listable, and then prices and locks
exactly them. -/
theorem listsale_loop_eq_some {env : Env} {seller ev : Nat} {nm : name} {P p : asset} {n : Nat}
    (hp : asset.div P (n : Int) = some p) {ids : List Nat} {s s' : State} :
    forEach (listsale_step env seller ev nm P n) ids s = some s' ↔
      (∀ id ∈ ids, listable env seller ev nm s id) ∧ (∀ id ∈ ids, id ∉ s.lockednfts) ∧
        ids.Nodup ∧
        s' = { s with nfts := set_price ids p s.nfts, lockednfts := s.lockednfts ++ ids } := by
  induction ids generalizing s with
  | nil =>
    simp only [forEach_nil, Option.some.injEq, List.not_mem_nil, false_implies, implies_true,
      List.nodup_nil, true_and, set_price_nil, List.append_nil]
    constructor
    · intro h; exact h.symm
    · intro h; exact h.symm
  | cons x l ih =>
    rw [forEach_cons_eq_some]
    constructor
    · rintro ⟨s1, h1, h2⟩
      obtain ⟨hx, hxl, p', hp', rfl⟩ := listsale_step_eq_some.mp h1
      rw [hp] at hp'
      cases hp'
      obtain ⟨hall, hlock, hnd, rfl⟩ := ih.mp h2
      refine ⟨?_, ?_, ?_, ?_⟩
      · intro id hid
        rcases List.mem_cons.mp hid with rfl | hid
        · exact hx
        · exact (listable_set_price env seller ev nm s _ _ _ id).mp (hall id hid)
      · intro id hid
        rcases List.mem_cons.mp hid with rfl | hid
        · exact hxl
        · intro hm
          exact hlock id hid (List.mem_append_left _ hm)
      · rw [List.nodup_cons]
        refine ⟨fun hm => ?_, hnd⟩
        exact hlock x hm (List.mem_append_right _ (List.mem_singleton.mpr rfl))
      · rw [set_price_cons x l]
        simp only [List.append_assoc, List.singleton_append]
    · rintro ⟨hall, hlock, hnd, rfl⟩
      rw [List.nodup_cons] at hnd
      refine ⟨_, listsale_step_eq_some.mpr
        ⟨hall x (List.mem_cons_self _ _), hlock x (List.mem_cons_self _ _), p, hp, rfl⟩, ?_⟩
      rw [ih]
      refine ⟨?_, ?_, hnd.2, ?_⟩
      · intro id hid
        exact (listable_set_price env seller ev nm s _ _ _ id).mpr
          (hall id (List.mem_cons_of_mem _ hid))
      · intro id hid hm
        simp only [List.mem_append, List.mem_singleton] at hm
        rcases hm with hm | rfl
        · exact hlock id (List.mem_cons_of_mem _ hid) hm
        · exact hnd.1 hid
      · rw [set_price_cons x l]
        simp only [List.append_assoc, List.singleton_append]

theorem buy_step_eq_some {s s' : State} {id : Nat} :
    buy_step s id = some s' ↔
      (∃ t, tfind nft_key s.nfts id = some t) ∧ id ∈ s.lockednfts ∧
        s' = { s with nfts := set_price [id] zero_price s.nfts,
                      lockednfts := release [id] s.lockednfts } := by
  unfold buy_step
  simp only [andThen_eq_some, asset_make_zero_COME, Option.some.injEq, tmodify_price,
    unlock_step_eq_some]
  constructor
  · rintro ⟨t, ht, z, rfl, hl, rfl⟩
    exact ⟨⟨t, ht⟩, hl, rfl⟩
  · rintro ⟨⟨t, ht⟩, hl, rfl⟩
    exact ⟨t, ht, _, rfl, hl, rfl⟩

/-- The loop of `buy`: it goes through exactly when the ids are distinct,
stored and locked, and then clears their prices and releases their locks. -/
theorem buy_loop_eq_some {ids : List Nat} {s s' : State} :
    forEach buy_step ids s = some s' ↔
      (∀ id ∈ ids, ∃ t, tfind nft_key s.nfts id = some t) ∧ (∀ id ∈ ids, id ∈ s.lockednfts) ∧
        ids.Nodup ∧
        s' = { s with nfts := set_price ids zero_price s.nfts,
                      lockednfts := release ids s.lockednfts } := by
  induction ids generalizing s with
  | nil =>
    simp only [forEach_nil, Option.some.injEq, List.not_mem_nil, false_implies, implies_true,
      List.nodup_nil, true_and, set_price_nil, release_nil]
    constructor
    · intro h; exact h.symm
    · intro h; exact h.symm
  | cons x l ih =>
    rw [forEach_cons_eq_some]
    constructor
    · rintro ⟨s1, h1, h2⟩
      obtain ⟨hx, hxl, rfl⟩ := buy_step_eq_some.mp h1
      obtain ⟨hall, hlock, hnd, rfl⟩ := ih.mp h2
      refine ⟨?_, ?_, ?_, ?_⟩
      · intro id hid
        rcases List.mem_cons.mp hid with rfl | hid
        · exact hx
        · obtain ⟨t, ht⟩ := hall id hid
          simp only [tfind_set_price] at ht
          cases hf : tfind nft_key s.nfts id with
          | none => rw [hf] at ht; cases ht
          | some t0 => exact ⟨t0, rfl⟩
      · intro id hid
        rcases List.mem_cons.mp hid with rfl | hid
        · exact hxl
        · exact (mem_release.mp (hlock id hid)).1
      · rw [List.nodup_cons]
        refine ⟨fun hm => ?_, hnd⟩
        exact (mem_release.mp (hlock x hm)).2 (List.mem_singleton.mpr rfl)
      · rw [set_price_cons x l, release_cons x l]
    · rintro ⟨hall, hlock, hnd, rfl⟩
      rw [List.nodup_cons] at hnd
      refine ⟨_, buy_step_eq_some.mpr
        ⟨hall x (List.mem_cons_self _ _), hlock x (List.mem_cons_self _ _), rfl⟩, ?_⟩
      rw [ih]
      refine ⟨?_, ?_, hnd.2, ?_⟩
      · intro id hid
        obtain ⟨t, ht⟩ := hall id (List.mem_cons_of_mem _ hid)
        simp only [tfind_set_price, ht, Option.map_some']
        exact ⟨_, rfl⟩
      · intro id hid
        rw [mem_release]
        refine ⟨hlock id (List.mem_cons_of_mem _ hid), ?_⟩
        rw [List.mem_singleton]
        rintro rfl
        exact hnd.1 hid
      · rw [set_price_cons x l, release_cons x l]

end Nfts

/-!
# The lock table mirrors asks and auctions: how the mirror is kept
-/

namespace Nfts

theorem flatMap_filter_sublist {α β : Type} (f : α → List β) (p : α → Bool) (l : List α) :
    List.Sublist ((l.filter p).flatMap f) (l.flatMap f) := by
  induction l with
  | nil => exact List.Sublist.refl _
  | cons a l ih =>
    rw [List.flatMap_cons]
    by_cases h : p a = true
    · rw [List.filter_cons_of_pos h, List.flatMap_cons]
      exact List.Sublist.append (List.Sublist.refl _) ih
    · rw [List.filter_cons_of_neg h]
      exact ih.trans (List.sublist_append_right _ _)

/-- In a duplicate-free concatenation, two rows that share an element are
the same row. -/
theorem flatMap_nodup_unique {α β : Type} (f : α → List β) :
    ∀ (l : List α), (l.flatMap f).Nodup → ∀ a ∈ l, ∀ a' ∈ l, ∀ x, x ∈ f a → x ∈ f a' → a = a'
  | [], _, a, ha, _, _, _, _, _ => by cases ha
  | b :: l, hnd, a, ha, a', ha', x, hx, hx' => by
    rw [List.flatMap_cons, List.nodup_append] at hnd
    obtain ⟨_, hl, hdis⟩ := hnd
    rcases List.mem_cons.mp ha with rfl | ha1 <;> rcases List.mem_cons.mp ha' with rfl | ha1'
    · rfl
    · exact absurd (List.mem_flatMap.mpr ⟨a', ha1', hx'⟩) (fun h => hdis hx h)
    · exact absurd (List.mem_flatMap.mpr ⟨a, ha1, hx⟩) (fun h => hdis hx' h)
    · exact flatMap_nodup_unique f l hl a ha1 a' ha1' x hx hx'

theorem mem_held {s : State} {x : Nat} :
    x ∈ held s ↔ (∃ a ∈ s.asks, x ∈ a.nft_ids) ∨ (∃ au ∈ s.auctions, au.nft_id = x) := by
  unfold held
  simp only [List.mem_append, List.mem_flatMap, List.mem_map]

theorem held_asks_nodup {s : State} (h : (held s).Nodup) :
    (s.asks.flatMap ask.nft_ids).Nodup := by
  unfold held at h
  exact (List.nodup_append.mp h).1

theorem held_disjoint {s : State} (h : (held s).Nodup) {x : Nat} {a : ask} {au : auction}
    (ha : a ∈ s.asks) (hx : x ∈ a.nft_ids) (hau : au ∈ s.auctions) : au.nft_id ≠ x := by
  unfold held at h
  intro e
  have hd := (List.nodup_append.mp h).2.2
  exact hd (List.mem_flatMap.mpr ⟨a, ha, hx⟩) (List.mem_map.mpr ⟨au, hau, e⟩)

theorem head_mem {a : ask} (h : a.nft_ids.head? = some a.batch_id) : a.batch_id ∈ a.nft_ids := by
  obtain ⟨ys, hys⟩ := List.head?_eq_some_iff.mp h
  rw [hys]
  exact List.mem_cons_self _ _

/-- Asks are told apart by their batch id. -/
theorem ask_unique_of_batch {s : State} (hl : LockInv s) {a a' : ask} (ha : a ∈ s.asks)
    (ha' : a' ∈ s.asks) (hb : a.batch_id = a'.batch_id) : a = a' := by
  have h1 := head_mem (hl.ask_head a ha)
  have h2 := head_mem (hl.ask_head a' ha')
  rw [hb] at h1
  exact flatMap_nodup_unique ask.nft_ids s.asks (held_asks_nodup hl.held_nodup) a ha a' ha'
    _ h1 h2

theorem LockInv_empty : LockInv State.empty := by
  constructor
  · exact List.nodup_nil
  · exact List.nodup_nil
  · intro id
    simp [State.empty, held]
  · intro a ha
    cases ha

/-- Actions that leave asks, auction keys and locks alone keep the mirror. -/
theorem LockInv_frame {s s' : State} (hl : LockInv s) (h1 : s'.asks = s.asks)
    (h2 : s'.auctions.map auction.nft_id = s.auctions.map auction.nft_id)
    (h3 : s'.lockednfts = s.lockednfts) : LockInv s' := by
  have hh : held s' = held s := by
    unfold held
    rw [h1, h2]
  constructor
  · rw [h3]; exact hl.locks_nodup
  · rw [hh]; exact hl.held_nodup
  · intro id; rw [h3, hh]; exact hl.lock_iff id
  · rw [h1]; exact hl.ask_head

/-- A new ask over distinct unlocked tokens, locked with it, keeps the mirror. -/
theorem LockInv_list {s s' : State} (hl : LockInv s) {a : ask} (hnd : a.nft_ids.Nodup)
    (hfree : ∀ id ∈ a.nft_ids, id ∉ s.lockednfts)
    (hhead : a.nft_ids.head? = some a.batch_id)
    (h1 : s'.asks = s.asks ++ [a]) (h2 : s'.auctions = s.auctions)
    (h3 : s'.lockednfts = s.lockednfts ++ a.nft_ids) : LockInv s' := by
  have hmem : ∀ x, x ∈ held s' ↔ x ∈ held s ∨ x ∈ a.nft_ids := by
    intro x
    rw [mem_held, mem_held, h1, h2]
    simp only [List.mem_append, List.mem_singleton]
    constructor
    · rintro (⟨b, hb | rfl, hx⟩ | h)
      · exact Or.inl (Or.inl ⟨b, hb, hx⟩)
      · exact Or.inr hx
      · exact Or.inl (Or.inr h)
    · rintro ((⟨b, hb, hx⟩ | h) | hx)
      · exact Or.inl ⟨b, Or.inl hb, hx⟩
      · exact Or.inr h
      · exact Or.inl ⟨a, Or.inr rfl, hx⟩
  constructor
  · rw [h3]
    apply List.Nodup.append hl.locks_nodup hnd
    intro x hx hx'
    exact hfree x hx' hx
  · have hperm : List.Perm (held s') (held s ++ a.nft_ids) := by
      unfold held
      rw [h1, h2, List.flatMap_append]
      simp only [List.flatMap_cons, List.flatMap_nil, List.append_nil, List.append_assoc]
      exact List.Perm.append_left _ List.perm_append_comm
    rw [hperm.nodup_iff]
    apply List.Nodup.append hl.held_nodup hnd
    intro x hx hx'
    exact hfree x hx' ((hl.lock_iff x).mpr hx)
  · intro id
    rw [h3, hmem, List.mem_append, hl.lock_iff]
  · intro b hb
    rw [h1, List.mem_append, List.mem_singleton] at hb
    rcases hb with hb | rfl
    · exact hl.ask_head b hb
    · exact hhead

/-- Erasing an ask and releasing the locks of its tokens keeps the mirror. -/
theorem LockInv_unlist {s s' : State} (hl : LockInv s) {a : ask} {b : Nat}
    (ha : tfind ask_key s.asks b = some a)
    (h1 : s'.asks = terase ask_key s.asks b) (h2 : s'.auctions = s.auctions)
    (h3 : s'.lockednfts = release a.nft_ids s.lockednfts) : LockInv s' := by
  obtain ⟨ham, hak⟩ := tfind_some ha
  unfold ask_key at hak
  have hmem : ∀ x, x ∈ held s' ↔ x ∈ held s ∧ x ∉ a.nft_ids := by
    intro x
    rw [mem_held, mem_held, h1, h2]
    constructor
    · rintro (⟨a', ha', hx⟩ | ⟨au, hau, hx⟩)
      · obtain ⟨ha'm, ha'k⟩ := mem_terase.mp ha'
        refine ⟨Or.inl ⟨a', ha'm, hx⟩, fun hxa => ?_⟩
        have := flatMap_nodup_unique ask.nft_ids s.asks (held_asks_nodup hl.held_nodup)
          a' ha'm a ham x hx hxa
        subst this
        exact ha'k hak
      · refine ⟨Or.inr ⟨au, hau, hx⟩, fun hxa => ?_⟩
        exact held_disjoint hl.held_nodup ham hxa hau hx
    · rintro ⟨(⟨a', ha', hx⟩ | h), hxa⟩
      · refine Or.inl ⟨a', mem_terase.mpr ⟨ha', fun e => ?_⟩, hx⟩
        unfold ask_key at e
        have := ask_unique_of_batch hl ha' ham (e.trans hak.symm)
        subst this
        exact hxa hx
      · exact Or.inr h
  constructor
  · rw [h3]; exact release_nodup _ hl.locks_nodup
  · have hsub : List.Sublist (held s') (held s) := by
      unfold held
      rw [h1, h2]
      unfold terase
      exact List.Sublist.append (flatMap_filter_sublist _ _ _) (List.Sublist.refl _)
    exact List.Nodup.sublist hsub hl.held_nodup
  · intro id
    rw [h3, mem_release, hmem, hl.lock_iff]
  · intro a' ha'
    rw [h1] at ha'
    exact hl.ask_head a' (mem_terase.mp ha').1

/-- A new auction on an unlocked token, locked with it, keeps the mirror. -/
theorem LockInv_open {s s' : State} (hl : LockInv s) {u : auction}
    (hfree : u.nft_id ∉ s.lockednfts)
    (h1 : s'.asks = s.asks) (h2 : s'.auctions = s.auctions ++ [u])
    (h3 : s'.lockednfts = s.lockednfts ++ [u.nft_id]) : LockInv s' := by
  have hh : held s' = held s ++ [u.nft_id] := by
    unfold held
    rw [h1, h2, List.map_append, List.map_singleton, List.append_assoc]
  constructor
  · rw [h3]
    apply List.Nodup.append hl.locks_nodup (List.nodup_singleton _)
    intro x hx hx'
    rw [List.mem_singleton] at hx'
    subst hx'
    exact hfree hx
  · rw [hh]
    apply List.Nodup.append hl.held_nodup (List.nodup_singleton _)
    intro x hx hx'
    rw [List.mem_singleton] at hx'
    subst hx'
    exact hfree ((hl.lock_iff _).mpr hx)
  · intro id
    rw [h3, hh, List.mem_append, List.mem_append, hl.lock_iff]
  · rw [h1]; exact hl.ask_head

/-- Erasing an auction and releasing the lock of its token keeps the mirror. -/
theorem LockInv_close {s s' : State} (hl : LockInv s) {au : auction} {id : Nat}
    (hau : tfind auction_key s.auctions id = some au)
    (h1 : s'.asks = s.asks) (h2 : s'.auctions = terase auction_key s.auctions id)
    (h3 : s'.lockednfts = release [id] s.lockednfts) : LockInv s' := by
  obtain ⟨haum, hauk⟩ := tfind_some hau
  unfold auction_key at hauk
  have hmem : ∀ x, x ∈ held s' ↔ x ∈ held s ∧ x ∉ [id] := by
    intro x
    rw [mem_held, mem_held, h1, h2, List.mem_singleton]
    constructor
    · rintro (⟨a, ha, hx⟩ | ⟨au', hau', hx⟩)
      · refine ⟨Or.inl ⟨a, ha, hx⟩, fun e => ?_⟩
        subst e
        exact held_disjoint hl.held_nodup ha hx haum hauk
      · obtain ⟨hm, hk⟩ := mem_terase.mp hau'
        refine ⟨Or.inr ⟨au', hm, hx⟩, fun e => ?_⟩
        subst e
        exact hk hx
    · rintro ⟨(h | ⟨au', hau', hx⟩), hne⟩
      · exact Or.inl h
      · refine Or.inr ⟨au', mem_terase.mpr ⟨hau', fun e => ?_⟩, hx⟩
        unfold auction_key at e
        exact hne (hx.symm.trans e)
  constructor
  · rw [h3]; exact release_nodup _ hl.locks_nodup
  · have hsub : List.Sublist (held s') (held s) := by
      unfold held
      rw [h1, h2]
      unfold terase
      exact List.Sublist.append (List.Sublist.refl _)
        (List.Sublist.map _ (List.filter_sublist _))
    exact List.Nodup.sublist hsub hl.held_nodup
  · intro x
    rw [h3, mem_release, hmem, hl.lock_iff]
  · rw [h1]; exact hl.ask_head

end Nfts

/-!
# What each action requires and changes
-/

namespace Nfts

/-! ## Sale listings -/

/-- `listsale` in closed form. -/
theorem listsale_eq_some {env : Env} {seller ev : Nat} {nm : name} {ids : List Nat} {P : asset}
    {s s' : State} :
    listsale env seller ev nm ids P s = some s' ↔
      (∃ u, tfind user_key s.users seller = some u) ∧ P.amount > 0 ∧ P.symbol = COME ∧
      ∃ b, ids.head? = some b ∧ (∀ a ∈ s.asks, a.batch_id ≠ b) ∧
        (∀ id ∈ ids, listable env seller ev nm s id) ∧ (∀ id ∈ ids, id ∉ s.lockednfts) ∧
        ids.Nodup ∧
        s' = { s with
          nfts := set_price ids ⟨Int.tdiv P.amount ids.length, P.symbol⟩ s.nfts,
          lockednfts := s.lockednfts ++ ids,
          asks := s.asks ++ [{ batch_id := b, nft_ids := ids, event := ev, seller := seller,
                               ask_price := P,
                               expiration := (env.now + WEEK_SEC) % 4294967296 }] } := by
  unfold listsale
  simp only [andThen_eq_some, check_eq_some]
  cases ids with
  | nil =>
    constructor
    · rintro ⟨_, _, _, _, _, _, b, hb, _⟩
      exact absurd hb (by simp)
    · rintro ⟨_, _, _, b, hb, _⟩
      exact absurd hb (by simp)
  | cons x l =>
    have hp := asset_div_nat P (n := (x :: l).length) (by simp)
    simp only [listsale_loop_eq_some hp, List.head?_cons, Option.some.injEq]
    constructor
    · rintro ⟨u, hu, h1, h2, s1, ⟨h3, h4, h5, rfl⟩, b, rfl, asks, hasks, rfl⟩
      obtain ⟨hf, rfl⟩ := templace_eq_some.mp hasks
      exact ⟨⟨u, hu⟩, h1, h2, _, rfl, fun a ha => hf a ha, h3, h4, h5, rfl⟩
    · rintro ⟨⟨u, hu⟩, h1, h2, b, rfl, hf, h3, h4, h5, rfl⟩
      refine ⟨u, hu, h1, h2, _, ⟨h3, h4, h5, rfl⟩, _, rfl, _, ?_, rfl⟩
      exact templace_of_fresh (fun a ha => hf a ha)

theorem closesale_release_eq_some {a : ask} {s s' : State} :
    closesale_release a s = some s' ↔
      (∀ id ∈ a.nft_ids, id ∈ s.lockednfts) ∧ a.nft_ids.Nodup ∧
        s' = { s with lockednfts := release a.nft_ids s.lockednfts,
                      asks := terase ask_key s.asks a.batch_id } := by
  unfold closesale_release
  simp only [andThen_eq_some, unlock_loop_eq_some, Option.some.injEq]
  constructor
  · rintro ⟨s2, ⟨h1, h2, rfl⟩, rfl⟩
    exact ⟨h1, h2, rfl⟩
  · rintro ⟨h1, h2, rfl⟩
    exact ⟨_, ⟨h1, h2, rfl⟩, rfl⟩

/-- `closesale` in closed form. -/
theorem closesale_eq_some {env : Env} {seller b : Nat} {s s' : State} :
    closesale env seller b s = some s' ↔
      ∃ a, tfind ask_key s.asks b = some a ∧ (∃ u, tfind user_key s.users seller = some u) ∧
        (∀ id ∈ a.nft_ids, token_authorized env s id) ∧
        (env.now % 4294967296 > a.expiration ∨ a.seller = seller) ∧
        (∀ id ∈ a.nft_ids, id ∈ s.lockednfts) ∧ a.nft_ids.Nodup ∧
        s' = { s with nfts := set_price a.nft_ids zero_price s.nfts,
                      lockednfts := release a.nft_ids s.lockednfts,
                      asks := terase ask_key s.asks a.batch_id } := by
  unfold closesale
  simp only [andThen_eq_some, closesale_loop_eq_some]
  constructor
  · rintro ⟨a, ha, u, hu, s1, ⟨hauth, rfl⟩, h⟩
    refine ⟨a, ha, ⟨u, hu⟩, hauth, ?_⟩
    by_cases hexp : env.now % 4294967296 > a.expiration
    · simp only [hexp, if_true] at h
      obtain ⟨h1, h2, rfl⟩ := closesale_release_eq_some.mp h
      exact ⟨Or.inl hexp, h1, h2, rfl⟩
    · simp only [hexp, if_false] at h
      obtain ⟨hs, h⟩ := check_eq_some.mp h
      obtain ⟨h1, h2, rfl⟩ := closesale_release_eq_some.mp h
      exact ⟨Or.inr hs, h1, h2, rfl⟩
  · rintro ⟨a, ha, ⟨u, hu⟩, hauth, hor, h1, h2, rfl⟩
    refine ⟨a, ha, u, hu, _, ⟨hauth, rfl⟩, ?_⟩
    by_cases hexp : env.now % 4294967296 > a.expiration
    · simp only [hexp, if_true]
      exact closesale_release_eq_some.mpr ⟨h1, h2, rfl⟩
    · simp only [hexp, if_false]
      rcases hor with hor | hor
      · exact absurd hor hexp
      · rw [check_true hor]
        exact closesale_release_eq_some.mpr ⟨h1, h2, rfl⟩

/-- `buy`: what it requires and what it changes. -/
theorem buy_effect {env : Env} {to_ b : Nat} {memo : String} {s s' : State}
    (hs : SupplyInv s) (hacc : AcctInv s) (h : buy env to_ b memo s = some s') :
    ∃ a acc, tfind ask_key s.asks b = some a ∧
      (∃ u, tfind user_key s.users to_ = some u) ∧ memo.utf8ByteSize ≤ 32 ∧
      a.expiration > env.now % 4294967296 ∧
      (∀ id ∈ a.nft_ids, id ∈ s.lockednfts) ∧ a.nft_ids.Nodup ∧
      (∀ id ∈ a.nft_ids, token_authorized env s id) ∧
      s' = { s with nfts := set_price a.nft_ids zero_price (set_owner a.nft_ids to_ s.nfts),
                    accounts := acc,
                    lockednfts := release a.nft_ids s.lockednfts,
                    asks := terase ask_key s.asks b } ∧
      AcctInv s' ∧ (∀ c, balance_sum s' c = balance_sum s c) ∧
      (∀ cat, (∀ id ∈ a.nft_ids, ∃ t st, tfind nft_key s.nfts id = some t ∧
          tfind stat_key s.stats (t.event, t.nft_name) = some st ∧
          st.2.nft_category_id = cat) →
        ∀ o c, balance s' o c =
          balance s o c - (if o = a.seller ∧ c = cat then (a.nft_ids.length : Int) else 0)
            + (if o = to_ ∧ c = cat then (a.nft_ids.length : Int) else 0)) := by
  unfold buy at h
  obtain ⟨u, hu, h⟩ := andThen_eq_some.mp h
  obtain ⟨hmemo, h⟩ := check_eq_some.mp h
  obtain ⟨a, ha, h⟩ := andThen_eq_some.mp h
  obtain ⟨hexp, h⟩ := check_eq_some.mp h
  obtain ⟨s1, hco, h⟩ := andThen_eq_some.mp h
  obtain ⟨s2, hloop, h⟩ := andThen_eq_some.mp h
  simp only [Option.some.injEq] at h
  subst h
  obtain ⟨acc, rfl, hacc1, hsum, _, hauth, hbal⟩ := changeowner_effect hs hacc hco
  obtain ⟨_, hlock, hnd, rfl⟩ := buy_loop_eq_some.mp hloop
  exact ⟨a, acc, ha, ⟨u, hu⟩, hmemo, hexp, hlock, hnd, hauth, rfl,
    AcctInv_of_accounts
      (s := { s with nfts := set_owner a.nft_ids to_ s.nfts, accounts := acc }) rfl hacc1,
    hsum, hbal⟩

/-! ## Auctions -/

theorem auction_release_eq_some {id : Nat} {s s' : State} :
    auction_release id s = some s' ↔
      id ∈ s.lockednfts ∧
        s' = { s with lockednfts := release [id] s.lockednfts,
                      auctions := terase auction_key s.auctions id } := by
  unfold auction_release
  simp only [andThen_eq_some, unlock_step_eq_some, Option.some.injEq]
  constructor
  · rintro ⟨s1, ⟨h1, rfl⟩, rfl⟩
    exact ⟨h1, rfl⟩
  · rintro ⟨h1, rfl⟩
    exact ⟨_, ⟨h1, rfl⟩, rfl⟩

/-- `createauctn` in closed form. -/
theorem createauctn_eq_some {env : Env} {seller ev id : Nat} {target minbid : asset}
    {expiration : Nat} {s s' : State} :
    createauctn env seller ev id target minbid expiration s = some s' ↔
      env.self ∈ env.auths ∧ (∃ u, tfind user_key s.users seller = some u) ∧
      target.amount > 0 ∧ target.symbol = COME ∧
      (∃ t st, tfind nft_key s.nfts id = some t ∧
        tfind stat_key s.stats (t.event, t.nft_name) = some st ∧ t.shared_with = 0 ∧
        st.2.sellable = true ∧ t.owner = seller ∧ t.event = ev) ∧
      id ∉ s.lockednfts ∧ (∀ x ∈ s.auctions, x.nft_id ≠ id) ∧
      s' = { s with
        lockednfts := s.lockednfts ++ [id],
        auctions := s.auctions ++ [{ nft_id := id, event := ev, seller := seller,
                                     target_price := target, min_bid_price := minbid,
                                     current_price := zero_price, bidder := 0,
                                     expiration := expiration }] } := by
  unfold createauctn
  simp only [andThen_eq_some, require_auth_eq_some, check_eq_some, asset_make_zero_COME,
    Option.some.injEq, tfind_lock_none]
  constructor
  · rintro ⟨h0, u, hu, h1, h2, _, _, t, ht, st, hst, h3, h4, h5, h6, h7, locks, hlocks, z, rfl,
      aucs, haucs, rfl⟩
    obtain ⟨_, rfl⟩ := templace_eq_some.mp hlocks
    obtain ⟨hf, rfl⟩ := templace_eq_some.mp haucs
    exact ⟨h0, ⟨u, hu⟩, h1, h2, ⟨t, st, ht, hst, h3, h4, h5, h6⟩, h7, fun x hx => hf x hx, rfl⟩
  · rintro ⟨h0, ⟨u, hu⟩, h1, h2, ⟨t, st, ht, hst, h3, h4, h5, h6⟩, h7, hf, rfl⟩
    refine ⟨h0, u, hu, h1, h2, h1, h2, t, ht, st, hst, h3, h4, h5, h6, h7, _, ?_, _, rfl, _, ?_,
      rfl⟩
    · apply templace_of_fresh
      intro x hx e
      unfold lock_key at e
      subst e
      exact h7 hx
    · exact templace_of_fresh (fun x hx => hf x hx)

/-- `closeauctn` in closed form. -/
theorem closeauctn_eq_some {env : Env} {seller id : Nat} {s s' : State} :
    closeauctn env seller id s = some s' ↔
      env.self ∈ env.auths ∧
      ∃ au, tfind auction_key s.auctions id = some au ∧
        (∃ u, tfind user_key s.users seller = some u) ∧
        env.now % 4294967296 < au.expiration ∧
        au.seller = seller ∧ id ∈ s.lockednfts ∧
        s' = { s with lockednfts := release [id] s.lockednfts,
                      auctions := terase auction_key s.auctions id } := by
  unfold closeauctn
  simp only [andThen_eq_some, require_auth_eq_some, check_eq_some, auction_release_eq_some]
  constructor
  · rintro ⟨h0, au, hau, u, hu, h1, h2, h3, rfl⟩
    exact ⟨h0, au, hau, ⟨u, hu⟩, h1, h2, h3, rfl⟩
  · rintro ⟨h0, au, hau, ⟨u, hu⟩, h1, h2, h3, rfl⟩
    exact ⟨h0, au, hau, u, hu, h1, h2, h3, rfl⟩

/-- Settlement of one auctioned token: the ownership loop on the single id,
then the release. -/
theorem settle_effect {env : Env} {from_ to_ id : Nat} {memo : String} {s s1 s' : State}
    (hs : SupplyInv s) (hacc : AcctInv s)
    (hco : changeowner env from_ to_ [id] memo false s = some s1)
    (hrel : auction_release id s1 = some s') :
    ∃ acc, id ∈ s.lockednfts ∧
      s' = { s with nfts := set_owner [id] to_ s.nfts, accounts := acc,
                    lockednfts := release [id] s.lockednfts,
                    auctions := terase auction_key s.auctions id } ∧
      AcctInv s' ∧ (∀ c, balance_sum s' c = balance_sum s c) ∧
      token_authorized env s id ∧
      (∀ cat, (∃ t st, tfind nft_key s.nfts id = some t ∧
          tfind stat_key s.stats (t.event, t.nft_name) = some st ∧
          st.2.nft_category_id = cat) →
        ∀ o c, balance s' o c =
          balance s o c - (if o = from_ ∧ c = cat then 1 else 0)
            + (if o = to_ ∧ c = cat then 1 else 0)) := by
  obtain ⟨acc, rfl, hacc1, hsum, _, hauth, hbal⟩ := changeowner_effect hs hacc hco
  obtain ⟨hl, rfl⟩ := auction_release_eq_some.mp hrel
  refine ⟨acc, hl, rfl,
    AcctInv_of_accounts
      (s := { s with nfts := set_owner [id] to_ s.nfts, accounts := acc }) rfl hacc1,
    hsum, hauth id (List.mem_singleton.mpr rfl), ?_⟩
  intro cat hcat o c
  have := hbal cat (by
    intro x hx
    rw [List.mem_singleton] at hx
    subst hx
    exact hcat) o c
  simpa using this

/-- `bid`: an instant buy settles the token, any other accepted bid only
rewrites the auction row. -/
theorem bid_effect {env : Env} {id bidder : Nat} {price : asset} {s s' : State}
    (hs : SupplyInv s) (hacc : AcctInv s) (h : bid env id bidder price s = some s') :
    ∃ au, tfind auction_key s.auctions id = some au ∧ env.self ∈ env.auths ∧
      (∃ u, tfind user_key s.users bidder = some u) ∧ price.amount > 0 ∧
      price.symbol = COME ∧ env.now % 4294967296 < au.expiration ∧ bidder ≠ au.seller ∧
      price.symbol = au.current_price.symbol ∧ price.amount > au.current_price.amount ∧
      price.symbol = au.target_price.symbol ∧
      ((price.amount ≥ au.target_price.amount ∧
          ∃ acc, id ∈ s.lockednfts ∧
            s' = { s with nfts := set_owner [id] bidder s.nfts, accounts := acc,
                          lockednfts := release [id] s.lockednfts,
                          auctions := terase auction_key s.auctions id } ∧
            AcctInv s' ∧ (∀ c, balance_sum s' c = balance_sum s c) ∧
            token_authorized env s id ∧
            (∀ cat, (∃ t st, tfind nft_key s.nfts id = some t ∧
                tfind stat_key s.stats (t.event, t.nft_name) = some st ∧
                st.2.nft_category_id = cat) →
              ∀ o c, balance s' o c =
                balance s o c - (if o = au.seller ∧ c = cat then 1 else 0)
                  + (if o = bidder ∧ c = cat then 1 else 0))) ∨
       (price.amount < au.target_price.amount ∧
          (∃ inc, asset.sub price au.current_price = some inc ∧
            inc.symbol = au.min_bid_price.symbol ∧ inc.amount ≥ au.min_bid_price.amount) ∧
          s' = { s with auctions := tmodify auction_key s.auctions id
                                      (fun t => { t with current_price := price,
                                                         bidder := bidder }) })) := by
  unfold bid at h
  obtain ⟨h0, h⟩ := require_auth_eq_some.mp h
  obtain ⟨au, hau, h⟩ := andThen_eq_some.mp h
  obtain ⟨u, hu, h⟩ := andThen_eq_some.mp h
  obtain ⟨h1, h⟩ := check_eq_some.mp h
  obtain ⟨h2, h⟩ := check_eq_some.mp h
  obtain ⟨h3, h⟩ := check_eq_some.mp h
  obtain ⟨h4, h⟩ := check_eq_some.mp h
  obtain ⟨higher, hhigher, h⟩ := andThen_eq_some.mp h
  obtain ⟨h5, h⟩ := check_eq_some.mp h
  obtain ⟨instant, hinstant, h⟩ := andThen_eq_some.mp h
  unfold asset.gt at hhigher
  obtain ⟨hsy1, hhigher⟩ := check_eq_some.mp hhigher
  simp only [Option.some.injEq] at hhigher
  subst hhigher
  simp only [decide_eq_true_eq] at h5
  unfold asset.ge at hinstant
  obtain ⟨hsy2, hinstant⟩ := check_eq_some.mp hinstant
  simp only [Option.some.injEq] at hinstant
  subst hinstant
  refine ⟨au, hau, h0, ⟨u, hu⟩, h1, h2, h3, h4, hsy1, h5, hsy2, ?_⟩
  by_cases hge : price.amount ≥ au.target_price.amount
  · left
    simp only [hge, decide_True, if_true] at h
    obtain ⟨s1, hco, hrel⟩ := andThen_eq_some.mp h
    exact ⟨hge, settle_effect hs hacc hco hrel⟩
  · right
    simp only [hge, decide_False, Bool.false_eq_true, if_false] at h
    obtain ⟨inc, hinc, hk1⟩ := andThen_eq_some.mp h
    obtain ⟨ok, hok, hk2⟩ := andThen_eq_some.mp hk1
    obtain ⟨h6, hk3⟩ := check_eq_some.mp hk2
    unfold asset.ge at hok
    obtain ⟨hsy3, hok'⟩ := check_eq_some.mp hok
    simp only [Option.some.injEq] at hok' hk3
    rw [← hok'] at h6
    simp only [decide_eq_true_eq] at h6
    exact ⟨by omega, ⟨inc, hinc, hsy3, h6⟩, hk3.symm⟩

/-- `finalize`: the token goes to the recorded bidder unless that is zero;
lock and auction go either way. -/
theorem finalize_effect {env : Env} {id seller : Nat} {s s' : State}
    (hs : SupplyInv s) (hacc : AcctInv s) (h : finalize env id seller s = some s') :
    ∃ au acc, tfind auction_key s.auctions id = some au ∧ env.self ∈ env.auths ∧
      (∃ u, tfind user_key s.users seller = some u) ∧ au.seller = seller ∧
      env.now % 4294967296 > au.expiration ∧ id ∈ s.lockednfts ∧
      s' = { s with
        nfts := if au.bidder ≠ 0 then set_owner [id] au.bidder s.nfts else s.nfts,
        accounts := acc,
        lockednfts := release [id] s.lockednfts,
        auctions := terase auction_key s.auctions id } ∧
      AcctInv s' ∧ (∀ c, balance_sum s' c = balance_sum s c) ∧
      (au.bidder = 0 → acc = s.accounts) ∧
      (au.bidder ≠ 0 → token_authorized env s id ∧
        ∀ cat, (∃ t st, tfind nft_key s.nfts id = some t ∧
            tfind stat_key s.stats (t.event, t.nft_name) = some st ∧
            st.2.nft_category_id = cat) →
          ∀ o c, balance s' o c =
            balance s o c - (if o = seller ∧ c = cat then 1 else 0)
              + (if o = au.bidder ∧ c = cat then 1 else 0)) := by
  unfold finalize at h
  obtain ⟨h0, h⟩ := require_auth_eq_some.mp h
  obtain ⟨au, hau, h⟩ := andThen_eq_some.mp h
  obtain ⟨u, hu, h⟩ := andThen_eq_some.mp h
  obtain ⟨h1, h⟩ := check_eq_some.mp h
  obtain ⟨h2, h⟩ := check_eq_some.mp h
  obtain ⟨s1, hco, hrel⟩ := andThen_eq_some.mp h
  by_cases hb : au.bidder ≠ 0
  · rw [if_pos hb] at hco
    obtain ⟨acc, hl, rfl, ha', hsum, hauth, hbal⟩ := settle_effect hs hacc hco hrel
    refine ⟨au, acc, hau, h0, ⟨u, hu⟩, h1, h2, hl, ?_, ha', hsum, fun e => absurd e hb,
      fun _ => ⟨hauth, hbal⟩⟩
    rw [if_pos hb]
  · rw [if_neg hb] at hco
    simp only [Option.some.injEq] at hco
    subst hco
    obtain ⟨hl, rfl⟩ := auction_release_eq_some.mp hrel
    refine ⟨au, s.accounts, hau, h0, ⟨u, hu⟩, h1, h2, hl, ?_,
      AcctInv_of_accounts (s := s) rfl hacc, fun c => rfl, fun _ => rfl,
      fun e => absurd e hb⟩
    rw [if_neg hb]

/-! ## Transfers and sharing -/

/-- `transfer`: what it requires and what it changes. -/
theorem transfer_effect {env : Env} {from_ to_ : Nat} {ids : List Nat} {memo : String}
    {s s' : State} (hs : SupplyInv s) (hacc : AcctInv s)
    (h : transfer env from_ to_ ids memo s = some s') :
    from_ ≠ to_ ∧
    ∃ acc, s' = { s with nfts := set_owner ids to_ s.nfts, accounts := acc } ∧ AcctInv s' ∧
      (∀ c, balance_sum s' c = balance_sum s c) ∧ (∀ id ∈ ids, id ∉ s.lockednfts) := by
  unfold transfer at h
  obtain ⟨h0, h⟩ := check_eq_some.mp h
  obtain ⟨_, _, h⟩ := andThen_eq_some.mp h
  obtain ⟨_, _, h⟩ := andThen_eq_some.mp h
  obtain ⟨_, h⟩ := check_eq_some.mp h
  obtain ⟨acc, rfl, hacc1, hsum, hlock, _, _⟩ := changeowner_effect hs hacc h
  exact ⟨h0, acc, rfl, hacc1, hsum, hlock rfl⟩

theorem share_eq_some {env : Env} {from_ id to_ : Nat} {s s' : State} :
    share env from_ id to_ s = some s' ↔
      from_ ≠ to_ ∧ id ∉ s.lockednfts ∧ token_authorized env s id ∧
        s' = { s with nfts := tmodify nft_key s.nfts id
                                (fun t => { t with shared_with := to_ }) } := by
  unfold share token_authorized
  simp only [andThen_eq_some, require_auth_eq_some, check_eq_some, Option.some.injEq,
    tfind_lock_none]
  constructor
  · rintro ⟨h0, h1, t, ht, st, hst, hauth, rfl⟩
    exact ⟨h0, h1, ⟨t, st, ht, hst, hauth⟩, rfl⟩
  · rintro ⟨h0, h1, ⟨t, st, ht, hst, hauth⟩, rfl⟩
    exact ⟨h0, h1, t, ht, st, hst, hauth, rfl⟩

theorem unshare_eq_some {env : Env} {id : Nat} {s s' : State} :
    unshare env id s = some s' ↔
      token_authorized env s id ∧
        s' = { s with nfts := tmodify nft_key s.nfts id
                                (fun t => { t with shared_with := 0 }) } := by
  unfold unshare token_authorized
  simp only [andThen_eq_some, require_auth_eq_some, Option.some.injEq]
  constructor
  · rintro ⟨t, ht, st, hst, hauth, rfl⟩
    exact ⟨⟨t, st, ht, hst, hauth⟩, rfl⟩
  · rintro ⟨⟨t, st, ht, hst, hauth⟩, rfl⟩
    exact ⟨t, ht, st, hst, hauth, rfl⟩

end Nfts

/-!
# `issue`, `createnft` and `deletestats`
-/

namespace Nfts

theorem u64_toNat {x : Int} (h1 : 0 ≤ x) (h2 : x ≤ max_amount) : u64 x = x.toNat := by
  unfold u64
  unfold max_amount at h2
  congr 1
  omega

theorem minted_one (to_ ev : Nat) (nm : name) (uri : String) (k : Nat) (issued : Int) :
    minted to_ ev nm uri 1 k issued = [minted_token to_ ev nm uri k issued] := rfl

/-- The minting branch of `issue` in closed form: `quantity` rows are appended. -/
theorem issue_mint_eq_some {to_ ev : Nat} {nm : name} {q : asset} {uri : String} {st : nft_stat}
    {s s' : State} (hk : s.nfts.map nft_key = List.range s.nfts.length)
    (hsym : st.max_supply.symbol = CTT) (hisym : st.issued_supply.symbol = CTT)
    (h0 : 0 ≤ st.issued_supply.amount) (hq1 : 1 ≤ q.amount)
    (hmax : st.issued_supply.amount + q.amount ≤ max_amount) :
    issue_mint to_ ev nm q uri st s = some s' ↔
      s.nfts.length + q.amount.toNat ≤ 18446744073709551614 ∧
        s' = { s with nfts := s.nfts ++ minted to_ ev nm uri q.amount.toNat s.nfts.length
                                          st.issued_supply.amount } := by
  unfold issue_mint
  have hq2 : q.amount ≤ max_amount := by omega
  by_cases hgt : q.amount > 1
  · simp only [hgt, if_true]
    rw [hsym, asset_make_one_CTT, andThen_some, u64_toNat (by omega) hq2]
    rw [issue_loop_eq_some ⟨1, CTT⟩ rfl q.amount.toNat st.issued_supply s s' hk
      hisym.symm h0 (by rw [Int.toNat_of_nonneg (by omega)]; exact hmax)]
    constructor
    · rintro ⟨hn | hn, rfl⟩
      · omega
      · exact ⟨hn, rfl⟩
    · rintro ⟨hn, rfl⟩
      exact ⟨Or.inr hn, rfl⟩
  · simp only [hgt, if_false]
    have he : q.amount = 1 := by omega
    rw [mint_eq_some hk, he]
    simp only [Int.toNat_one, minted_one]
    constructor
    · rintro ⟨hn, rfl⟩
      exact ⟨by omega, rfl⟩
    · rintro ⟨hn, rfl⟩
      exact ⟨by omega, rfl⟩

/-- The per-account test of `issue` compares the true sum with the cap. -/
theorem issue_cap_ok_iff {s : State} (hacc : AcctInv s) {q : asset} {st : nft_stat} {to_ : Nat}
    (hq1 : 1 ≤ q.amount) (hq2 : q.amount ≤ max_amount) :
    issue_cap_ok q st (tfind acct_key s.accounts (to_, st.nft_category_id)) ↔
      balance s to_ st.nft_category_id + q.amount ≤ (st.max_per_account.val : Int) := by
  unfold issue_cap_ok balance
  cases h : tfind acct_key s.accounts (to_, st.nft_category_id) with
  | none => simp only [zero_add]
  | some a =>
    simp only
    obtain ⟨_, hlo, hhi⟩ := hacc.amount_ok a (tfind_some h).1
    rw [i64_of_range (by unfold max_amount at hq2 hhi; omega)
      (by unfold max_amount at hq2 hhi; omega)]
    omega

theorem symbol_eq_CTT {sy : symbol} : sy = CTT ↔ sy.precision = 0 ∧ sy.code = CTT_code := by
  cases sy
  unfold CTT
  simp only [symbol.mk.injEq]
  tauto

/-- `checkasset` accepts exactly the `CTT` amounts from one to `max_amount`. -/
theorem checkasset_iff {α : Type} {a : asset} {k : Option α} {r : α} :
    checkasset a k = some r ↔
      (a.symbol = CTT ∧ 1 ≤ a.amount ∧ a.amount ≤ max_amount) ∧ k = some r := by
  rw [checkasset_eq_some]
  unfold asset.is_valid asset.is_amount_within_range
  rw [symbol_eq_CTT]
  constructor
  · rintro ⟨⟨h1, h2, h3, ⟨_, h4⟩, _⟩, hk⟩
    exact ⟨⟨⟨h1, h3⟩, h2, h4⟩, hk⟩
  · rintro ⟨⟨⟨h1, h3⟩, h2, h4⟩, hk⟩
    refine ⟨⟨h1, h2, h3, ⟨by unfold max_amount at h4 ⊢; omega, h4⟩, ?_⟩, hk⟩
    have : a.symbol = CTT := symbol_eq_CTT.mpr ⟨h1, h3⟩
    rw [this]
    exact CTT_is_valid

/-- `add_balance` goes through whenever the new balance stays in range. -/
theorem add_balance_success {s : State} {o c : Nat} {payer : name} {ev : Nat} {nm : name}
    {q : asset} (hinv : AcctInv s) (hq : q.symbol = CTT) (hq1 : 1 ≤ q.amount)
    (hsum : balance s o c + q.amount ≤ max_amount) :
    ∃ s', add_balance o payer ev nm c q s = some s' := by
  unfold add_balance
  cases hr : tfind acct_key s.accounts (o, c) with
  | none =>
    simp only
    rw [templace_of_fresh]
    · exact ⟨_, rfl⟩
    · intro x hx
      exact tfind_eq_none.mp hr x hx
  | some r =>
    simp only
    obtain ⟨hsym, hlo, hhi⟩ := hinv.amount_ok r (tfind_some hr).1
    rw [balance_of_find hr] at hsum
    rw [asset_add_of_range (hq.trans hsym.symm)
      (by unfold max_amount at hhi ⊢; omega) (by unfold max_amount at hsum ⊢; omega)
      (by unfold max_amount at hsum ⊢; omega)]
    exact ⟨_, rfl⟩

/-- `issue`: what it requires and what it changes. -/
theorem issue_effect {env : Env} {to_ ev : Nat} {nm : name} {q : asset} {uri memo : String}
    {s s' : State} (hk : s.nfts.map nft_key = List.range s.nfts.length)
    (hs : SupplyInv s) (hacc : AcctInv s)
    (h : issue env to_ ev nm q uri memo s = some s') :
    ∃ st acc, tfind stat_key s.stats (ev, nm) = some st ∧
      (∃ u, tfind user_key s.users to_ = some u) ∧ memo.utf8ByteSize ≤ 256 ∧
      st.2.issuer ∈ env.auths ∧ q.symbol = CTT ∧ 1 ≤ q.amount ∧ q.amount ≤ max_amount ∧
      balance s to_ st.2.nft_category_id + q.amount ≤ (st.2.max_per_account.val : Int) ∧
      st.2.current_supply.amount + q.amount ≤ st.2.max_supply.amount ∧
      s.nfts.length + q.amount.toNat ≤ 18446744073709551614 ∧
      s' = { s with
        nfts := s.nfts ++ minted to_ ev nm uri q.amount.toNat s.nfts.length
                            st.2.issued_supply.amount,
        accounts := acc,
        stats := tmodify stat_key s.stats (ev, nm)
                  (fun r => (r.1, { r.2 with
                    current_supply := ⟨st.2.current_supply.amount + q.amount, CTT⟩,
                    issued_supply := ⟨st.2.issued_supply.amount + q.amount, CTT⟩ })) } ∧
      AcctInv s' ∧
      (∀ o c, balance s' o c =
        if o = to_ ∧ c = st.2.nft_category_id then
          balance s to_ st.2.nft_category_id + q.amount
        else balance s o c) ∧
      (∀ c, balance_sum s' c =
        if c = st.2.nft_category_id then balance_sum s st.2.nft_category_id + q.amount
        else balance_sum s c) := by
  unfold issue at h
  obtain ⟨hmemo, h1⟩ := check_eq_some.mp h
  obtain ⟨u, hu, h2⟩ := andThen_eq_some.mp h1
  obtain ⟨st, hst, h3⟩ := andThen_eq_some.mp h2
  obtain ⟨hcap, h4⟩ := check_eq_some.mp h3
  obtain ⟨hauth, h5⟩ := require_auth_eq_some.mp h4
  obtain ⟨⟨hq, hq1, hq2⟩, h6⟩ := checkasset_iff.mp h5
  obtain ⟨hqs, h7⟩ := check_eq_some.mp h6
  obtain ⟨hsup, h8⟩ := check_eq_some.mp h7
  obtain ⟨s1, hmint, h9⟩ := andThen_eq_some.mp h8
  obtain ⟨s2, hadd, h10⟩ := andThen_eq_some.mp h9
  obtain ⟨cur, hcur, h11⟩ := andThen_eq_some.mp h10
  obtain ⟨iss, hiss, h12⟩ := andThen_eq_some.mp h11
  simp only [Option.some.injEq] at h12
  obtain ⟨hm1, hm2, hm3, hc0, hc1, hc2, hieq⟩ := hs.row_ok st (tfind_some hst).1
  rw [issue_cap_ok_iff hacc hq1 hq2] at hcap
  rw [i64_of_range (by unfold max_amount at hc2; omega)
    (by unfold max_amount at hc2; omega)] at hsup
  have hsup' : st.2.current_supply.amount + q.amount ≤ st.2.max_supply.amount := by omega
  obtain ⟨hroom, rfl⟩ := (issue_mint_eq_some hk hm1 hm3 (by omega) hq1 (by omega)).mp hmint
  have hacc1 : AcctInv { s with nfts := s.nfts ++ minted to_ ev nm uri q.amount.toNat s.nfts.length
                                     st.2.issued_supply.amount } :=
    AcctInv_of_accounts (s := s) rfl hacc
  obtain ⟨⟨acc, rfl⟩, hacc2, hbal, hsum⟩ := add_balance_effect hacc1 hq hq1 hq2 hadd
  have hqr : -max_amount ≤ q.amount ∧ q.amount ≤ max_amount := by
    unfold max_amount at hq2 ⊢; omega
  obtain ⟨hcur1, hcur2, _, _, _⟩ := asset_add_in_range hcur
    (by unfold max_amount at hc2 ⊢; omega) hqr
  obtain ⟨hiss1, hiss2, _, _, _⟩ := asset_add_in_range hiss
    (by unfold max_amount at hc2 ⊢; omega) hqr
  have ecur : cur = ⟨st.2.current_supply.amount + q.amount, CTT⟩ := by
    cases cur
    simp only at hcur1 hcur2
    rw [hcur1, hcur2, hm2]
  have eiss : iss = ⟨st.2.issued_supply.amount + q.amount, CTT⟩ := by
    cases iss
    simp only at hiss1 hiss2
    rw [hiss1, hiss2, hm3]
  subst ecur eiss
  refine ⟨st, acc, hst, ⟨u, hu⟩, hmemo, hauth, hq, hq1, hq2, hcap, hsup', hroom, h12.symm,
    AcctInv_of_accounts (s := { s with
      nfts := s.nfts ++ minted to_ ev nm uri q.amount.toNat s.nfts.length
                          st.2.issued_supply.amount,
      accounts := acc }) (by rw [← h12]) hacc2, ?_, ?_⟩
  · intro o c
    rw [← h12]
    exact hbal o c
  · intro c
    rw [← h12]
    exact hsum c

/-- `issue` goes through whenever its checks pass and the token table has
room for the new keys. -/
theorem issue_success {env : Env} {to_ ev : Nat} {nm : name} {q : asset} {uri memo : String}
    {s : State} {st : Nat × nft_stat} {u : user}
    (hk : s.nfts.map nft_key = List.range s.nfts.length)
    (hs : SupplyInv s) (hacc : AcctInv s)
    (hst : tfind stat_key s.stats (ev, nm) = some st)
    (hu : tfind user_key s.users to_ = some u) (hmemo : memo.utf8ByteSize ≤ 256)
    (hauth : st.2.issuer ∈ env.auths) (hq : q.symbol = CTT) (hq1 : 1 ≤ q.amount)
    (hq2 : q.amount ≤ max_amount)
    (hcap : balance s to_ st.2.nft_category_id + q.amount ≤ (st.2.max_per_account.val : Int))
    (hsup : st.2.current_supply.amount + q.amount ≤ st.2.max_supply.amount)
    (hroom : s.nfts.length + q.amount.toNat ≤ 18446744073709551614) :
    ∃ s', issue env to_ ev nm q uri memo s = some s' := by
  obtain ⟨hm1, hm2, hm3, hc0, hc1, hc2, hieq⟩ := hs.row_ok st (tfind_some hst).1
  unfold issue
  rw [check_true hmemo, hu, andThen_some, hst, andThen_some,
    check_true ((issue_cap_ok_iff hacc hq1 hq2).mpr hcap)]
  unfold require_auth
  rw [check_true hauth]
  have hca : ∀ k : Option State, checkasset q k = k := by
    intro k
    cases hk' : k with
    | none =>
      cases hc : checkasset q none with
      | none => rfl
      | some r => exact absurd (checkasset_iff.mp hc).2 (by simp)
    | some r => exact checkasset_iff.mpr ⟨⟨hq, hq1, hq2⟩, rfl⟩
  rw [hca, check_true (hq.trans hm1.symm)]
  rw [check_true (by
    rw [i64_of_range (by unfold max_amount at hc2; omega) (by unfold max_amount at hc2; omega)]
    omega)]
  have hmint := (@issue_mint_eq_some to_ ev nm q uri st.2 s _ hk hm1 hm3 (by omega) hq1
    (by omega)).mpr ⟨hroom, rfl⟩
  rw [hmint, andThen_some]
  have hacc1 : AcctInv { s with nfts := s.nfts ++ minted to_ ev nm uri q.amount.toNat s.nfts.length
                                     st.2.issued_supply.amount } :=
    AcctInv_of_accounts (s := s) rfl hacc
  have hcap255 : (st.2.max_per_account.val : Int) ≤ 255 := by
    have := st.2.max_per_account.isLt
    omega
  obtain ⟨s2, hadd⟩ := @add_balance_success _ to_ st.2.nft_category_id env.self ev nm q
    hacc1 hq hq1
    (by
      have e : balance { s with nfts := s.nfts ++ minted to_ ev nm uri q.amount.toNat s.nfts.length
                                         st.2.issued_supply.amount } to_
          st.2.nft_category_id = balance s to_ st.2.nft_category_id := rfl
      rw [e]
      unfold max_amount
      omega)
  rw [hadd, andThen_some]
  have hqr : -max_amount ≤ q.amount ∧ q.amount ≤ max_amount := by
    unfold max_amount at hq2 ⊢; omega
  rw [asset_add_of_range (hq.trans hm2.symm) (by unfold max_amount at hc2 ⊢; omega) hqr
    (by unfold max_amount at hc2 ⊢; omega), andThen_some]
  rw [asset_add_of_range (hq.trans hm3.symm) (by unfold max_amount at hc2 ⊢; omega) hqr
    (by unfold max_amount at hc2 ⊢; omega), andThen_some]
  exact ⟨_, rfl⟩

theorem u64_i64_of_range {x : Int} (h0 : 0 ≤ x) (h1 : x ≤ max_amount) :
    ((u64 (i64 x) : Nat) : Int) = x := by
  unfold max_amount at h1
  rw [i64_of_range (by omega) (by omega)]
  exact u64_of_nonneg h0 (by omega)

theorem minted_ids_fresh (to_ ev : Nat) (nm : name) (uri : String) (n k : Nat) (issued : Int) :
    ∀ t ∈ minted to_ ev nm uri n k issued, k ≤ t.id := by
  induction n generalizing k issued with
  | zero => intro t ht; cases ht
  | succ n ih =>
    intro t ht
    simp only [minted, List.mem_cons] at ht
    rcases ht with rfl | ht
    · exact le_refl _
    · exact le_trans (Nat.le_succ k) (ih _ _ t ht)

theorem minted_ids_nodup (to_ ev : Nat) (nm : name) (uri : String) (n k : Nat) (issued : Int) :
    ((minted to_ ev nm uri n k issued).map nft.id).Nodup := by
  induction n generalizing k issued with
  | zero => exact List.nodup_nil
  | succ n ih =>
    simp only [minted, List.map_cons, List.nodup_cons]
    refine ⟨?_, ih _ _⟩
    intro hmem
    obtain ⟨t, ht, hid⟩ := List.mem_map.mp hmem
    have := minted_ids_fresh to_ ev nm uri n (k + 1) (issued + 1) t ht
    have e : (minted_token to_ ev nm uri k issued).id = k := rfl
    rw [e] at hid
    omega

/-! ## Categories -/

/-- `createnft` in closed form. -/
theorem createnft_effect {env : Env} {issuer : name} {ev : Nat} {nm : name}
    {burnable sellable transferable : Bool} {price : asset} {cap : Fin 256} {split : double}
    {uri : String} {max_supply : asset} {s s' : State}
    (h : createnft env issuer ev nm burnable sellable transferable price cap split uri
      max_supply s = some s') :
    ∃ cfg events, s.config = some cfg ∧ createnft_event issuer ev s.events = some events ∧
      issuer ∈ env.auths ∧ cap.val > 0 ∧ price.amount > 0 ∧ price.symbol = COME ∧
      max_supply.symbol = CTT ∧ 1 ≤ max_supply.amount ∧ max_supply.amount ≤ max_amount ∧
      issuer ∈ env.chain_accounts ∧ double_in_unit split ∧
      (∀ r ∈ s.stats, stat_key r ≠ (ev, nm)) ∧
      s' = { s with
        events := events,
        stats := s.stats ++ [(ev,
          { nft_category_id := cfg.nft_category_id, issuer := issuer, nft_name := nm,
            burnable := burnable, sellable := sellable, transferable := transferable,
            price := price, max_per_account := cap, current_supply := ⟨0, CTT⟩,
            issued_supply := ⟨0, CTT⟩, sale_split := split, base_uri := uri,
            max_supply := max_supply })],
        config := some { cfg with
          nft_category_id := (cfg.nft_category_id + 1) % 18446744073709551616 } } := by
  unfold createnft at h
  obtain ⟨h0, h1⟩ := require_auth_eq_some.mp h
  obtain ⟨hcap, h2⟩ := check_eq_some.mp h1
  obtain ⟨hp1, h3⟩ := check_eq_some.mp h2
  obtain ⟨hp2, h4⟩ := check_eq_some.mp h3
  obtain ⟨⟨hm, hm1, hm2⟩, h5⟩ := checkasset_iff.mp h4
  obtain ⟨hacc, h6⟩ := check_eq_some.mp h5
  obtain ⟨hsplit, h7⟩ := check_eq_some.mp h6
  obtain ⟨cfg, hcfg, h8⟩ := andThen_eq_some.mp h7
  obtain ⟨events, hev, h9⟩ := andThen_eq_some.mp h8
  have hprec : max_supply.symbol.precision = 0 := (symbol_eq_CTT.mp hm).1
  rw [hprec, asset_make_zero_CTT, andThen_some, andThen_some] at h9
  obtain ⟨hfree, h10⟩ := check_eq_some.mp h9
  obtain ⟨stats, hstats, h11⟩ := andThen_eq_some.mp h10
  obtain ⟨hf, rfl⟩ := templace_eq_some.mp hstats
  simp only [Option.some.injEq] at h11
  exact ⟨cfg, events, hcfg, hev, h0, hcap, hp1, hp2, hm, hm1, hm2, hacc, hsplit,
    fun r hr => hf r hr, h11.symm⟩

/-- `deletestats` in closed form. -/
theorem deletestats_effect {env : Env} {ev : Nat} {nm : name} {s s' : State}
    (h : deletestats env ev nm s = some s') :
    ∃ st cfg, tfind stat_key s.stats (ev, nm) = some st ∧ s.config = some cfg ∧
      st.2.issuer ∈ env.auths ∧
      s' = { s with
        stats := terase stat_key s.stats (ev, nm),
        config := some { cfg with
          nft_category_id :=
            (cfg.nft_category_id + 18446744073709551615) % 18446744073709551616 } } := by
  unfold deletestats at h
  obtain ⟨st, hst, h1⟩ := andThen_eq_some.mp h
  obtain ⟨hauth, h2⟩ := require_auth_eq_some.mp h1
  obtain ⟨cfg, hcfg, h3⟩ := andThen_eq_some.mp h2
  simp only [Option.some.injEq] at h3
  exact ⟨st, cfg, hst, hcfg, hauth, h3.symm⟩

theorem deleteeve_effect {env : Env} {ev : Nat} {s s' : State}
    (h : deleteeve env ev s = some s') :
    s' = { s with events := terase event_key s.events ev } := by
  unfold deleteeve at h
  obtain ⟨e, _, h1⟩ := andThen_eq_some.mp h
  obtain ⟨_, h2⟩ := require_auth_eq_some.mp h1
  simp only [Option.some.injEq] at h2
  exact h2.symm

theorem setconfig_effect {env : Env} {version : String} {s s' : State}
    (h : setconfig env version s = some s') :
    ∃ cfg, s' = { s with config := some cfg } ∧
      cfg.nft_category_id = (s.config.map tokenconfigs.nft_category_id).getD 0 := by
  unfold setconfig at h
  obtain ⟨_, h1⟩ := require_auth_eq_some.mp h
  simp only [Option.some.injEq] at h1
  refine ⟨_, h1.symm, ?_⟩
  cases s.config <;> rfl

theorem createacc_effect {env : Env} {id sig : Nat} {caller : name} {s s' : State}
    (h : createacc env id sig caller s = some s') :
    s' = { s with users := s.users ++ [{ id := id, signature := sig }] } := by
  unfold createacc at h
  obtain ⟨_, h1⟩ := require_auth_eq_some.mp h
  obtain ⟨_, h2⟩ := check_eq_some.mp h1
  obtain ⟨users, hu, h3⟩ := andThen_eq_some.mp h2
  obtain ⟨_, rfl⟩ := templace_eq_some.mp hu
  simp only [Option.some.injEq] at h3
  exact h3.symm

end Nfts

/-!
# How the token and supply invariants are kept
-/

namespace Nfts

theorem set_price_eq_map (ids : List Nat) (p : asset) (nfts : List nft) :
    set_price ids p nfts =
      nfts.map (fun t => if t.id ∈ ids then { t with resale_price := p } else t) := rfl

theorem set_owner_eq_map (ids : List Nat) (to_ : Nat) (nfts : List nft) :
    set_owner ids to_ nfts =
      nfts.map (fun t => if t.id ∈ ids then { t with owner := to_ } else t) := rfl

theorem tmodify_eq_map (nfts : List nft) (id : Nat) (f : nft → nft) :
    tmodify nft_key nfts id f = nfts.map (fun t => if nft_key t = id then f t else t) := rfl

theorem owner_ite_core (c : Prop) [Decidable c] (t : nft) (o : Nat) :
    nft_core (if c then { t with owner := o } else t) = nft_core t := by
  split <;> rfl

theorem owner_ite_price (c : Prop) [Decidable c] (t : nft) (o : Nat) :
    (if c then { t with owner := o } else t).resale_price = t.resale_price := by
  split <;> rfl

theorem shared_ite_core (c : Prop) [Decidable c] (t : nft) (o : Nat) :
    nft_core (if c then { t with shared_with := o } else t) = nft_core t := by
  split <;> rfl

theorem shared_ite_price (c : Prop) [Decidable c] (t : nft) (o : Nat) :
    (if c then { t with shared_with := o } else t).resale_price = t.resale_price := by
  split <;> rfl

theorem core_key (t : nft) : nft_key t = (nft_core t).1 := rfl

theorem map_key_of_core {g : nft → nft} (hg : ∀ t, nft_core (g t) = nft_core t)
    (nfts : List nft) : (nfts.map g).map nft_key = nfts.map nft_key := by
  rw [List.map_map]
  apply List.map_congr_left
  intro t _
  simp only [Function.comp, core_key, hg]

theorem map_core_of_core {g : nft → nft} (hg : ∀ t, nft_core (g t) = nft_core t)
    (nfts : List nft) : (nfts.map g).map nft_core = nfts.map nft_core := by
  rw [List.map_map]
  apply List.map_congr_left
  intro t _
  simp only [Function.comp, hg]

theorem TokenInv_empty : TokenInv State.empty := by
  constructor
  · rfl
  · intro t ht; cases ht
  · intro a ha; cases ha

/-- Nothing about tokens or asks changed. -/
theorem TokenInv_frame {s s' : State} (ht : TokenInv s) (h1 : s'.nfts = s.nfts)
    (h2 : s'.asks = s.asks) : TokenInv s' := by
  constructor
  · rw [h1]; exact ht.keys
  · rw [h1, h2]; exact ht.unlisted_price
  · rw [h1, h2]; exact ht.ask_tokens

/-- Tokens rewritten without touching id, event, name or price; asks as before. -/
theorem TokenInv_map {s s' : State} (ht : TokenInv s) {g : nft → nft}
    (hg : ∀ t, nft_core (g t) = nft_core t) (hp : ∀ t, (g t).resale_price = t.resale_price)
    (h1 : s'.nfts = s.nfts.map g) (h2 : s'.asks = s.asks) : TokenInv s' := by
  constructor
  · rw [h1, map_key_of_core hg, List.length_map]; exact ht.keys
  · rw [h1, h2]
    intro t' ht' hno
    obtain ⟨t, htm, rfl⟩ := List.mem_map.mp ht'
    rw [hp]
    apply ht.unlisted_price t htm
    intro a ha
    have := hno a ha
    have hid : (g t).id = t.id := congrArg Prod.fst (hg t)
    rw [hid] at this
    exact this
  · rw [h1, h2, map_core_of_core hg]; exact ht.ask_tokens

/-- A new ask whose tokens are priced, over listable tokens. -/
theorem TokenInv_list {s s' : State} (ht : TokenInv s) {a : ask} {p : asset} (nm : name)
    (hcore : ∀ id ∈ a.nft_ids, (id, a.event, nm) ∈ s.nfts.map nft_core)
    (h1 : s'.nfts = set_price a.nft_ids p s.nfts) (h2 : s'.asks = s.asks ++ [a]) :
    TokenInv s' := by
  constructor
  · rw [h1, set_price_map_key]
    unfold set_price
    rw [List.length_map]
    exact ht.keys
  · rw [h1, h2]
    intro t' ht' hno
    unfold set_price at ht'
    obtain ⟨t, htm, rfl⟩ := List.mem_map.mp ht'
    have hna : t.id ∉ a.nft_ids := by
      have := hno a (List.mem_append_right _ (List.mem_singleton.mpr rfl))
      rw [price_ite_id] at this
      exact this
    simp only [hna, if_false]
    apply ht.unlisted_price t htm
    intro b hb
    have := hno b (List.mem_append_left _ hb)
    rw [price_ite_id] at this
    exact this
  · rw [h1, h2, set_price_map_core]
    intro b hb
    rw [List.mem_append, List.mem_singleton] at hb
    rcases hb with hb | rfl
    · exact ht.ask_tokens b hb
    · exact ⟨nm, hcore⟩

/-- An ask erased, the prices of its tokens cleared; meanwhile tokens may
have been rewritten without touching id, event, name or price. -/
theorem TokenInv_unlist {s s' : State} (ht : TokenInv s) (hl : LockInv s) {a : ask} {b : Nat}
    {g : nft → nft} (hg : ∀ t, nft_core (g t) = nft_core t)
    (hp : ∀ t, (g t).resale_price = t.resale_price)
    (ha : tfind ask_key s.asks b = some a)
    (h1 : s'.nfts = set_price a.nft_ids zero_price (s.nfts.map g))
    (h2 : s'.asks = terase ask_key s.asks b) : TokenInv s' := by
  obtain ⟨ham, hak⟩ := tfind_some ha
  unfold ask_key at hak
  constructor
  · rw [h1, set_price_map_key, map_key_of_core hg]
    unfold set_price
    rw [List.length_map, List.length_map]
    exact ht.keys
  · rw [h1, h2]
    intro t' ht' hno
    unfold set_price at ht'
    obtain ⟨t1, ht1, rfl⟩ := List.mem_map.mp ht'
    obtain ⟨t, htm, rfl⟩ := List.mem_map.mp ht1
    have hid : (g t).id = t.id := congrArg Prod.fst (hg t)
    by_cases hin : (g t).id ∈ a.nft_ids
    · simp only [hin, if_true]
    · simp only [hin, if_false]
      rw [hp]
      apply ht.unlisted_price t htm
      intro a' ha'
      by_cases hb : a'.batch_id = b
      · have := ask_unique_of_batch hl ha' ham (hb.trans hak.symm)
        subst this
        rw [← hid]
        exact hin
      · have := hno a' (mem_terase.mpr ⟨ha', hb⟩)
        rw [price_ite_id, hid] at this
        exact this
  · rw [h1, h2, set_price_map_core, map_core_of_core hg]
    intro a' ha'
    exact ht.ask_tokens a' (mem_terase.mp ha').1

theorem minted_zero_price (to_ ev : Nat) (nm : name) (uri : String) (n k : Nat) (issued : Int) :
    ∀ t ∈ minted to_ ev nm uri n k issued, t.resale_price = zero_price := by
  induction n generalizing k issued with
  | zero => intro t ht; cases ht
  | succ n ih =>
    intro t ht
    simp only [minted, List.mem_cons] at ht
    rcases ht with rfl | ht
    · rfl
    · exact ih _ _ t ht

/-- Freshly minted tokens appended; asks as before. -/
theorem TokenInv_mint {s s' : State} (ht : TokenInv s) {to_ ev : Nat} {nm : name}
    {uri : String} {n : Nat} {issued : Int}
    (h1 : s'.nfts = s.nfts ++ minted to_ ev nm uri n s.nfts.length issued)
    (h2 : s'.asks = s.asks) : TokenInv s' := by
  constructor
  · rw [h1, List.map_append, ht.keys, minted_map_key, List.length_append, minted_length,
      List.range_add]
  · rw [h1, h2]
    intro t htm hno
    rcases List.mem_append.mp htm with h | h
    · exact ht.unlisted_price t h hno
    · exact minted_zero_price _ _ _ _ _ _ _ t h
  · rw [h1, h2]
    intro a ha
    obtain ⟨nm', h⟩ := ht.ask_tokens a ha
    refine ⟨nm', fun id hid => ?_⟩
    rw [List.map_append]
    exact List.mem_append_left _ (h id hid)

/-! ## Supplies -/

theorem SupplyInv_empty : SupplyInv State.empty := by
  constructor
  · exact List.nodup_nil
  · intro r hr; cases hr

/-- A category row appended under a fresh key, with supplies at zero. -/
theorem SupplyInv_create {s s' : State} (hs : SupplyInv s) {ev : Nat} {st : nft_stat}
    (h1 : s'.stats = s.stats ++ [(ev, st)])
    (hfresh : ∀ r ∈ s.stats, stat_key r ≠ (ev, st.nft_name))
    (hm : st.max_supply.symbol = CTT) (hm1 : 1 ≤ st.max_supply.amount)
    (hm2 : st.max_supply.amount ≤ max_amount)
    (hc : st.current_supply = ⟨0, CTT⟩) (hi : st.issued_supply = ⟨0, CTT⟩) : SupplyInv s' := by
  constructor
  · rw [h1]
    exact templace_map_nodup (templace_of_fresh (r := (ev, st)) hfresh) hs.keys_nodup
  · rw [h1]
    intro r hr
    rw [List.mem_append, List.mem_singleton] at hr
    rcases hr with hr | rfl
    · exact hs.row_ok r hr
    · simp only [hm, hc, hi, true_and, le_refl]
      exact ⟨by omega, hm2, trivial⟩

theorem SupplyInv_delete {s s' : State} (hs : SupplyInv s) {k : Nat × Nat}
    (h1 : s'.stats = terase stat_key s.stats k) : SupplyInv s' := by
  constructor
  · rw [h1]; exact terase_map_nodup _ _ _ hs.keys_nodup
  · rw [h1]
    intro r hr
    exact hs.row_ok r (mem_terase.mp hr).1

/-- Both supplies of one category advanced by a quantity within the cap. -/
theorem SupplyInv_issue {s s' : State} (hs : SupplyInv s) {k : Nat × Nat} {st : Nat × nft_stat}
    {q : Int} (hst : tfind stat_key s.stats k = some st) (hq : 1 ≤ q)
    (hsup : st.2.current_supply.amount + q ≤ st.2.max_supply.amount)
    (h1 : s'.stats = tmodify stat_key s.stats k
      (fun r => (r.1, { r.2 with
        current_supply := ⟨st.2.current_supply.amount + q, CTT⟩,
        issued_supply := ⟨st.2.issued_supply.amount + q, CTT⟩ }))) : SupplyInv s' := by
  constructor
  · rw [h1]
    refine (congrArg List.Nodup (tmodify_map_eq stat_key s.stats k _ stat_key ?_)).mpr
      hs.keys_nodup
    intro r
    rfl
  · rw [h1]
    intro r hr
    obtain ⟨r0, hr0, rfl⟩ := mem_tmodify.mp hr
    by_cases hk : stat_key r0 = k
    · simp only [hk, if_true]
      have := tfind_unique hs.keys_nodup hst hr0 hk
      subst this
      obtain ⟨a1, a2, a3, a4, a5, a6, a7⟩ := hs.row_ok r0 hr0
      refine ⟨a1, ?_, ?_, ?_, hsup, a6, ?_⟩
      · trivial
      · trivial
      · show 0 ≤ r0.2.current_supply.amount + q
        omega
      · show r0.2.issued_supply.amount + q = r0.2.current_supply.amount + q
        omega
    · simp only [hk, if_false]
      exact hs.row_ok r0 hr0

theorem AcctInv_empty : AcctInv State.empty := by
  constructor
  · exact List.nodup_nil
  · intro r hr; cases hr

end Nfts

/-!
# The invariant holds in every reachable ledger
-/

namespace Nfts

theorem Inv_empty : Inv State.empty :=
  ⟨LockInv_empty, SupplyInv_empty, AcctInv_empty, TokenInv_empty⟩

/-- An action that leaves the tables of the invariant alone keeps it. -/
theorem Inv_frame {s s' : State} (hi : Inv s) (h1 : s'.nfts = s.nfts) (h2 : s'.asks = s.asks)
    (h3 : s'.auctions = s.auctions) (h4 : s'.lockednfts = s.lockednfts)
    (h5 : s'.stats = s.stats) (h6 : s'.accounts = s.accounts) : Inv s' :=
  ⟨LockInv_frame hi.lock h2 (by rw [h3]) h4, SupplyInv_of_stats h5 hi.supply,
    AcctInv_of_accounts h6 hi.acct, TokenInv_frame hi.token h1 h2⟩

theorem Inv_setconfig {env : Env} {version : String} {s s' : State} (hi : Inv s)
    (h : setconfig env version s = some s') : Inv s' := by
  obtain ⟨cfg, rfl, _⟩ := setconfig_effect h
  exact Inv_frame hi rfl rfl rfl rfl rfl rfl

theorem Inv_createacc {env : Env} {id sig : Nat} {caller : name} {s s' : State} (hi : Inv s)
    (h : createacc env id sig caller s = some s') : Inv s' := by
  have := createacc_effect h
  subst this
  exact Inv_frame hi rfl rfl rfl rfl rfl rfl

theorem Inv_deleteeve {env : Env} {ev : Nat} {s s' : State} (hi : Inv s)
    (h : deleteeve env ev s = some s') : Inv s' := by
  have := deleteeve_effect h
  subst this
  exact Inv_frame hi rfl rfl rfl rfl rfl rfl

theorem Inv_createnft {env : Env} {issuer : name} {ev : Nat} {nm : name}
    {burnable sellable transferable : Bool} {price : asset} {cap : Fin 256} {split : double}
    {uri : String} {max_supply : asset} {s s' : State} (hi : Inv s)
    (h : createnft env issuer ev nm burnable sellable transferable price cap split uri
      max_supply s = some s') : Inv s' := by
  obtain ⟨cfg, events, _, _, _, _, _, _, hm, hm1, hm2, _, _, hfresh, rfl⟩ := createnft_effect h
  exact ⟨LockInv_frame hi.lock rfl rfl rfl,
    SupplyInv_create hi.supply rfl (fun r hr => hfresh r hr) hm hm1 hm2 rfl rfl,
    AcctInv_of_accounts (s := s) rfl hi.acct, TokenInv_frame hi.token rfl rfl⟩

theorem Inv_deletestats {env : Env} {ev : Nat} {nm : name} {s s' : State} (hi : Inv s)
    (h : deletestats env ev nm s = some s') : Inv s' := by
  obtain ⟨st, cfg, _, _, _, rfl⟩ := deletestats_effect h
  exact ⟨LockInv_frame hi.lock rfl rfl rfl, SupplyInv_delete hi.supply rfl,
    AcctInv_of_accounts (s := s) rfl hi.acct, TokenInv_frame hi.token rfl rfl⟩

theorem Inv_issue {env : Env} {to_ ev : Nat} {nm : name} {q : asset} {uri memo : String}
    {s s' : State} (hi : Inv s) (h : issue env to_ ev nm q uri memo s = some s') : Inv s' := by
  obtain ⟨st, acc, hst, _, _, _, _, hq1, _, _, hsup, _, rfl, hacc, _, _⟩ :=
    issue_effect hi.token.keys hi.supply hi.acct h
  exact ⟨LockInv_frame hi.lock rfl rfl rfl, SupplyInv_issue hi.supply hst hq1 hsup rfl, hacc,
    TokenInv_mint hi.token rfl rfl⟩

theorem Inv_transfer {env : Env} {from_ to_ : Nat} {ids : List Nat} {memo : String}
    {s s' : State} (hi : Inv s) (h : transfer env from_ to_ ids memo s = some s') :
    Inv s' := by
  obtain ⟨_, acc, rfl, hacc, _, _⟩ := transfer_effect hi.supply hi.acct h
  exact ⟨LockInv_frame hi.lock rfl rfl rfl, SupplyInv_of_stats (s := s) rfl hi.supply, hacc,
    TokenInv_map hi.token (fun t => owner_ite_core _ t to_) (fun t => owner_ite_price _ t to_)
      (set_owner_eq_map ids to_ s.nfts) rfl⟩

theorem listable_core {env : Env} {seller ev : Nat} {nm : name} {s : State} {id : Nat}
    (h : listable env seller ev nm s id) : (id, ev, nm) ∈ s.nfts.map nft_core := by
  obtain ⟨t, st, ht, _, _, _, _, _, he, hn⟩ := h
  obtain ⟨htm, hk⟩ := tfind_some ht
  refine List.mem_map.mpr ⟨t, htm, ?_⟩
  unfold nft_core
  unfold nft_key at hk
  rw [hk, he, hn]

theorem Inv_listsale {env : Env} {seller ev : Nat} {nm : name} {ids : List Nat} {P : asset}
    {s s' : State} (hi : Inv s) (h : listsale env seller ev nm ids P s = some s') :
    Inv s' := by
  obtain ⟨_, _, _, b, hb, _, hlist, hfree, hnd, rfl⟩ := listsale_eq_some.mp h
  refine ⟨?_, SupplyInv_of_stats (s := s) rfl hi.supply, AcctInv_of_accounts (s := s) rfl hi.acct,
    ?_⟩
  · exact LockInv_list hi.lock
      (a := { batch_id := b, nft_ids := ids, event := ev, seller := seller, ask_price := P,
              expiration := (env.now + WEEK_SEC) % 4294967296 })
      hnd hfree hb rfl rfl rfl
  · exact TokenInv_list hi.token
      (a := { batch_id := b, nft_ids := ids, event := ev, seller := seller, ask_price := P,
              expiration := (env.now + WEEK_SEC) % 4294967296 })
      nm (fun id hid => listable_core (hlist id hid)) rfl rfl

theorem map_id_eq (nfts : List nft) : nfts = nfts.map (fun t => t) := by
  simp

theorem Inv_closesale {env : Env} {seller b : Nat} {s s' : State} (hi : Inv s)
    (h : closesale env seller b s = some s') : Inv s' := by
  obtain ⟨a, ha, _, _, _, _, _, rfl⟩ := closesale_eq_some.mp h
  have hak : a.batch_id = b := (tfind_some ha).2
  refine ⟨?_, SupplyInv_of_stats (s := s) rfl hi.supply, AcctInv_of_accounts (s := s) rfl hi.acct,
    ?_⟩
  · exact LockInv_unlist hi.lock ha (by rw [hak]) rfl rfl
  · refine TokenInv_unlist hi.token hi.lock (g := fun t => t) (fun _ => rfl) (fun _ => rfl) ha
      ?_ (by rw [hak])
    show set_price a.nft_ids zero_price s.nfts = _
    rw [← map_id_eq]

theorem Inv_share {env : Env} {from_ id to_ : Nat} {s s' : State} (hi : Inv s)
    (h : share env from_ id to_ s = some s') : Inv s' := by
  obtain ⟨_, _, _, rfl⟩ := share_eq_some.mp h
  exact ⟨LockInv_frame hi.lock rfl rfl rfl, SupplyInv_of_stats (s := s) rfl hi.supply,
    AcctInv_of_accounts (s := s) rfl hi.acct,
    TokenInv_map hi.token (fun t => shared_ite_core _ t to_) (fun t => shared_ite_price _ t to_)
      (tmodify_eq_map s.nfts id _) rfl⟩

theorem Inv_unshare {env : Env} {id : Nat} {s s' : State} (hi : Inv s)
    (h : unshare env id s = some s') : Inv s' := by
  obtain ⟨_, rfl⟩ := unshare_eq_some.mp h
  exact ⟨LockInv_frame hi.lock rfl rfl rfl, SupplyInv_of_stats (s := s) rfl hi.supply,
    AcctInv_of_accounts (s := s) rfl hi.acct,
    TokenInv_map hi.token (fun t => shared_ite_core _ t 0) (fun t => shared_ite_price _ t 0)
      (tmodify_eq_map s.nfts id _) rfl⟩

theorem Inv_buy {env : Env} {to_ b : Nat} {memo : String} {s s' : State} (hi : Inv s)
    (h : buy env to_ b memo s = some s') : Inv s' := by
  obtain ⟨a, acc, ha, _, _, _, _, _, _, rfl, hacc, _, _⟩ := buy_effect hi.supply hi.acct h
  refine ⟨?_, SupplyInv_of_stats (s := s) rfl hi.supply, hacc, ?_⟩
  · exact LockInv_unlist hi.lock ha rfl rfl rfl
  · exact TokenInv_unlist hi.token hi.lock
      (fun t => owner_ite_core _ t to_) (fun t => owner_ite_price _ t to_) ha
      (by rw [← set_owner_eq_map]) rfl

theorem Inv_createauctn {env : Env} {seller ev id : Nat} {target minbid : asset}
    {expiration : Nat} {s s' : State} (hi : Inv s)
    (h : createauctn env seller ev id target minbid expiration s = some s') : Inv s' := by
  obtain ⟨_, _, _, _, _, hfree, _, rfl⟩ := createauctn_eq_some.mp h
  refine ⟨?_, SupplyInv_of_stats (s := s) rfl hi.supply, AcctInv_of_accounts (s := s) rfl hi.acct,
    TokenInv_frame hi.token rfl rfl⟩
  exact LockInv_open hi.lock
    (u := { nft_id := id, event := ev, seller := seller, target_price := target,
             min_bid_price := minbid, current_price := zero_price, bidder := 0,
             expiration := expiration })
    hfree rfl rfl rfl

theorem Inv_closeauctn {env : Env} {seller id : Nat} {s s' : State} (hi : Inv s)
    (h : closeauctn env seller id s = some s') : Inv s' := by
  obtain ⟨_, au, hau, _, _, _, _, rfl⟩ := closeauctn_eq_some.mp h
  exact ⟨LockInv_close hi.lock hau rfl rfl rfl, SupplyInv_of_stats (s := s) rfl hi.supply,
    AcctInv_of_accounts (s := s) rfl hi.acct, TokenInv_frame hi.token rfl rfl⟩

theorem Inv_bid {env : Env} {id bidder : Nat} {price : asset} {s s' : State} (hi : Inv s)
    (h : bid env id bidder price s = some s') : Inv s' := by
  obtain ⟨au, hau, _, _, _, _, _, _, _, _, _, hcase⟩ := bid_effect hi.supply hi.acct h
  rcases hcase with ⟨_, acc, _, rfl, hacc, _, _, _⟩ | ⟨_, _, rfl⟩
  · exact ⟨LockInv_close hi.lock hau rfl rfl rfl, SupplyInv_of_stats (s := s) rfl hi.supply,
      hacc,
      TokenInv_map hi.token (fun t => owner_ite_core _ t bidder)
        (fun t => owner_ite_price _ t bidder) (set_owner_eq_map [id] bidder s.nfts) rfl⟩
  · refine ⟨LockInv_frame hi.lock rfl ?_ rfl, SupplyInv_of_stats (s := s) rfl hi.supply,
      AcctInv_of_accounts (s := s) rfl hi.acct, TokenInv_frame hi.token rfl rfl⟩
    exact tmodify_map_eq auction_key s.auctions id _ auction.nft_id (fun r => rfl)

theorem Inv_finalize {env : Env} {id seller : Nat} {s s' : State} (hi : Inv s)
    (h : finalize env id seller s = some s') : Inv s' := by
  obtain ⟨au, acc, hau, _, _, _, _, _, rfl, hacc, _, _, _⟩ :=
    finalize_effect hi.supply hi.acct h
  refine ⟨LockInv_close hi.lock hau rfl rfl rfl, SupplyInv_of_stats (s := s) rfl hi.supply,
    hacc, ?_⟩
  by_cases hb : au.bidder ≠ 0
  · exact TokenInv_map hi.token (fun t => owner_ite_core _ t au.bidder)
      (fun t => owner_ite_price _ t au.bidder)
      (by show (if au.bidder ≠ 0 then _ else _) = _
          rw [if_pos hb, set_owner_eq_map]) rfl
  · exact TokenInv_frame hi.token
      (by show (if au.bidder ≠ 0 then _ else _) = _
          rw [if_neg hb]) rfl

/-- Every successful action keeps the invariant. -/
theorem Inv_step {env : Env} {a : Action} {s s' : State} (hi : Inv s)
    (h : a.run env s = some s') : Inv s' := by
  cases a with
  | setconfig version => exact Inv_setconfig hi h
  | createacc id signature caller => exact Inv_createacc hi h
  | createnft issuer event nft_name burnable sellable transferable price max_per_account
      sale_split base_uri max_supply => exact Inv_createnft hi h
  | deleteeve event => exact Inv_deleteeve hi h
  | deletestats event nft_name => exact Inv_deletestats hi h
  | issue to_ event nft_name quantity relative_uri memo => exact Inv_issue hi h
  | transfer from_ to_ nft_ids memo => exact Inv_transfer hi h
  | listsale seller event nft_name nft_ids net_sale_price => exact Inv_listsale hi h
  | closesale seller batch_id => exact Inv_closesale hi h
  | share from_ nft_id to_ => exact Inv_share hi h
  | unshare nft_id => exact Inv_unshare hi h
  | buy to_ batch_id memo => exact Inv_buy hi h
  | createauctn seller event nft_id target_price min_bid_price expiration =>
    exact Inv_createauctn hi h
  | closeauctn seller nft_id => exact Inv_closeauctn hi h
  | bid nft_id bidder bid_price => exact Inv_bid hi h
  | finalize nft_id seller => exact Inv_finalize hi h

/-- The invariant holds in every ledger reached by successful actions,
whatever subset of the actions is allowed. -/
theorem Inv_of_reachableBy {allowed : Action → Prop} {s : State}
    (h : ReachableBy allowed s) : Inv s := by
  induction h with
  | start => exact Inv_empty
  | step env a _ _ hrun ih => exact Inv_step ih hrun

theorem Inv_of_reachable {s : State} (h : Reachable s) : Inv s :=
  Inv_of_reachableBy h

end Nfts

/-!
# Category ids and balance sums while no category is deleted
-/

namespace Nfts

theorem CatInv_empty : CatInv State.empty := by
  constructor
  · intro cfg h; cases h
  · intro _; rfl
  · rfl
  · intro c _; rfl
  · intro r hr; cases hr

/-- Configuration counter, categories and balance sums as before. -/
theorem CatInv_frame {s s' : State} (hc : CatInv s)
    (h1 : ∀ cfg', s'.config = some cfg' →
      (∃ cfg, s.config = some cfg ∧ cfg'.nft_category_id = cfg.nft_category_id) ∨
      (s.config = none ∧ cfg'.nft_category_id = 0))
    (h1' : s'.config = none → s.config = none)
    (h2 : s'.stats = s.stats) (h3 : ∀ c, balance_sum s' c = balance_sum s c) : CatInv s' := by
  constructor
  · intro cfg' hcfg'
    rw [h2]
    rcases h1 cfg' hcfg' with ⟨cfg, hcfg, e⟩ | ⟨hnone, e⟩
    · rw [e]; exact hc.counter cfg hcfg
    · rw [e, hc.no_config hnone]; rfl
  · intro h
    rw [h2]
    exact hc.no_config (h1' h)
  · rw [h2]; exact hc.ids
  · intro c hcl
    rw [h3]
    rw [h2] at hcl
    exact hc.beyond c hcl
  · rw [h2]
    intro r hr
    rw [h3]
    exact hc.sums r hr

theorem CatInv_same {s s' : State} (hc : CatInv s) (h1 : s'.config = s.config)
    (h2 : s'.stats = s.stats) (h3 : ∀ c, balance_sum s' c = balance_sum s c) : CatInv s' := by
  refine CatInv_frame hc ?_ ?_ h2 h3
  · intro cfg' hcfg'
    rw [h1] at hcfg'
    exact Or.inl ⟨cfg', hcfg', rfl⟩
  · intro h
    rw [← h1]
    exact h

theorem stat_id_lt {s : State} (hc : CatInv s) {r : Nat × nft_stat} (hr : r ∈ s.stats) :
    r.2.nft_category_id < s.stats.length := by
  have : stat_id r ∈ s.stats.map stat_id := List.mem_map_of_mem stat_id hr
  rw [hc.ids, List.mem_range] at this
  exact this

theorem stat_id_inj {s : State} (hc : CatInv s) {r r' : Nat × nft_stat} (hr : r ∈ s.stats)
    (hr' : r' ∈ s.stats) (h : r.2.nft_category_id = r'.2.nft_category_id) : r = r' := by
  have hnd : (s.stats.map stat_id).Nodup := by
    rw [hc.ids]
    exact List.nodup_range _
  exact List.inj_on_of_nodup_map hnd hr hr' h

theorem CatInv_createnft {env : Env} {issuer : name} {ev : Nat} {nm : name}
    {burnable sellable transferable : Bool} {price : asset} {cap : Fin 256} {split : double}
    {uri : String} {max_supply : asset} {s s' : State} (hc : CatInv s)
    (h : createnft env issuer ev nm burnable sellable transferable price cap split uri
      max_supply s = some s')
    (hlen : s'.stats.length < 18446744073709551616) : CatInv s' := by
  obtain ⟨cfg, events, hcfg, _, _, _, _, _, _, _, _, _, _, _, rfl⟩ := createnft_effect h
  have hcount := hc.counter cfg hcfg
  simp only [List.length_append, List.length_singleton] at hlen
  constructor
  · intro cfg' hcfg'
    simp only [Option.some.injEq] at hcfg'
    subst hcfg'
    simp only [List.length_append, List.length_singleton]
    rw [hcount]
    exact Nat.mod_eq_of_lt hlen
  · intro h
    cases h
  · simp only [List.map_append, List.map_singleton, List.length_append, List.length_singleton]
    rw [List.range_succ, hc.ids]
    unfold stat_id
    simp only [hcount]
  · intro c hcl
    simp only [List.length_append, List.length_singleton] at hcl
    have e : balance_sum
        { s with
          events := events,
          stats := s.stats ++ [(ev,
            { nft_category_id := cfg.nft_category_id, issuer := issuer, nft_name := nm,
              burnable := burnable, sellable := sellable, transferable := transferable,
              price := price, max_per_account := cap, current_supply := ⟨0, CTT⟩,
              issued_supply := ⟨0, CTT⟩, sale_split := split, base_uri := uri,
              max_supply := max_supply })],
          config := some { cfg with
            nft_category_id := (cfg.nft_category_id + 1) % 18446744073709551616 } } c =
        balance_sum s c := rfl
    rw [e]
    exact hc.beyond c (by omega)
  · intro r hr
    have e : ∀ c, balance_sum
        { s with
          events := events,
          stats := s.stats ++ [(ev,
            { nft_category_id := cfg.nft_category_id, issuer := issuer, nft_name := nm,
              burnable := burnable, sellable := sellable, transferable := transferable,
              price := price, max_per_account := cap, current_supply := ⟨0, CTT⟩,
              issued_supply := ⟨0, CTT⟩, sale_split := split, base_uri := uri,
              max_supply := max_supply })],
          config := some { cfg with
            nft_category_id := (cfg.nft_category_id + 1) % 18446744073709551616 } } c =
        balance_sum s c := fun _ => rfl
    rw [e]
    simp only [List.mem_append, List.mem_singleton] at hr
    rcases hr with hr | rfl
    · exact hc.sums r hr
    · simp only
      rw [hcount]
      exact hc.beyond _ (le_refl _)

theorem CatInv_issue {env : Env} {to_ ev : Nat} {nm : name} {q : asset} {uri memo : String}
    {s s' : State} (hi : Inv s) (hc : CatInv s)
    (h : issue env to_ ev nm q uri memo s = some s') : CatInv s' := by
  obtain ⟨st, acc, hst, _, _, _, _, _, _, _, _, _, rfl, _, _, hsum⟩ :=
    issue_effect hi.token.keys hi.supply hi.acct h
  obtain ⟨hstm, hstk⟩ := tfind_some hst
  have hlt := stat_id_lt hc hstm
  constructor
  · intro cfg hcfg
    simp only [tmodify_length]
    exact hc.counter cfg hcfg
  · intro hnone
    have := hc.no_config hnone
    rw [this] at hstm
    cases hstm
  · simp only [tmodify_length]
    refine Eq.trans (tmodify_map_eq stat_key s.stats (ev, nm) _ stat_id ?_) hc.ids
    intro r
    rfl
  · intro c hcl
    simp only [tmodify_length] at hcl
    rw [hsum c]
    have : ¬ c = st.2.nft_category_id := by omega
    simp only [this, if_false]
    exact hc.beyond c hcl
  · intro r hr
    obtain ⟨r0, hr0, rfl⟩ := mem_tmodify.mp hr
    by_cases hk : stat_key r0 = (ev, nm)
    · have := tfind_unique hi.supply.keys_nodup hst hr0 hk
      subst this
      simp only [hk, if_true]
      rw [hsum]
      simp only [if_true]
      rw [hc.sums r0 hr0]
    · simp only [hk, if_false]
      rw [hsum]
      have hne : ¬ r0.2.nft_category_id = st.2.nft_category_id := by
        intro e
        have := stat_id_inj hc hr0 hstm e
        subst this
        exact hk hstk
      simp only [hne, if_false]
      exact hc.sums r0 hr0

/-- No action other than `createnft` adds a category row, and only
`deletestats` removes one. -/
theorem CatInv_step {env : Env} {a : Action} {s s' : State} (hi : Inv s)
    (hc : s.stats.length < 18446744073709551616 → CatInv s)
    (hkeep : a.is_deletestats = false) (h : a.run env s = some s')
    (hlen : s'.stats.length < 18446744073709551616) : CatInv s' := by
  cases a with
  | setconfig version =>
    obtain ⟨cfg, rfl, hcfg⟩ := setconfig_effect h
    refine CatInv_frame (hc hlen) ?_ ?_ rfl (fun _ => rfl)
    · intro cfg' hcfg'
      simp only [Option.some.injEq] at hcfg'
      subst hcfg'
      cases hs : s.config with
      | none => right; rw [hs] at hcfg; exact ⟨rfl, hcfg⟩
      | some c0 => left; rw [hs] at hcfg; exact ⟨c0, rfl, hcfg⟩
    · intro h'
      cases h'
  | createacc id signature caller =>
    have := createacc_effect h
    subst this
    exact CatInv_same (hc hlen) rfl rfl (fun _ => rfl)
  | createnft issuer event nft_name burnable sellable transferable price max_per_account
      sale_split base_uri max_supply =>
    refine CatInv_createnft (hc ?_) h hlen
    obtain ⟨cfg, events, _, _, _, _, _, _, _, _, _, _, _, _, rfl⟩ := createnft_effect h
    simp only [List.length_append, List.length_singleton] at hlen
    omega
  | deleteeve event =>
    have := deleteeve_effect h
    subst this
    exact CatInv_same (hc hlen) rfl rfl (fun _ => rfl)
  | deletestats event nft_name => cases hkeep
  | issue to_ event nft_name quantity relative_uri memo =>
    refine CatInv_issue hi (hc ?_) h
    obtain ⟨st, acc, _, _, _, _, _, _, _, _, _, _, rfl, _, _, _⟩ :=
      issue_effect hi.token.keys hi.supply hi.acct h
    simp only [tmodify_length] at hlen
    exact hlen
  | transfer from_ to_ nft_ids memo =>
    obtain ⟨_, acc, rfl, _, hsum, _⟩ := transfer_effect hi.supply hi.acct h
    exact CatInv_same (hc hlen) rfl rfl hsum
  | listsale seller event nft_name nft_ids net_sale_price =>
    obtain ⟨_, _, _, b, _, _, _, _, _, rfl⟩ := listsale_eq_some.mp h
    exact CatInv_same (hc hlen) rfl rfl (fun _ => rfl)
  | closesale seller batch_id =>
    obtain ⟨a, _, _, _, _, _, _, rfl⟩ := closesale_eq_some.mp h
    exact CatInv_same (hc hlen) rfl rfl (fun _ => rfl)
  | share from_ nft_id to_ =>
    obtain ⟨_, _, _, rfl⟩ := share_eq_some.mp h
    exact CatInv_same (hc hlen) rfl rfl (fun _ => rfl)
  | unshare nft_id =>
    obtain ⟨_, rfl⟩ := unshare_eq_some.mp h
    exact CatInv_same (hc hlen) rfl rfl (fun _ => rfl)
  | buy to_ batch_id memo =>
    obtain ⟨a, acc, _, _, _, _, _, _, _, rfl, _, hsum, _⟩ := buy_effect hi.supply hi.acct h
    exact CatInv_same (hc hlen) rfl rfl hsum
  | createauctn seller event nft_id target_price min_bid_price expiration =>
    obtain ⟨_, _, _, _, _, _, _, rfl⟩ := createauctn_eq_some.mp h
    exact CatInv_same (hc hlen) rfl rfl (fun _ => rfl)
  | closeauctn seller nft_id =>
    obtain ⟨_, au, _, _, _, _, _, rfl⟩ := closeauctn_eq_some.mp h
    exact CatInv_same (hc hlen) rfl rfl (fun _ => rfl)
  | bid nft_id bidder bid_price =>
    obtain ⟨au, _, _, _, _, _, _, _, _, _, _, hcase⟩ := bid_effect hi.supply hi.acct h
    rcases hcase with ⟨_, acc, _, rfl, _, hsum, _, _⟩ | ⟨_, _, rfl⟩
    · exact CatInv_same (hc hlen) rfl rfl hsum
    · exact CatInv_same (hc hlen) rfl rfl (fun _ => rfl)
  | finalize nft_id seller =>
    obtain ⟨au, acc, _, _, _, _, _, _, rfl, _, hsum, _, _⟩ :=
      finalize_effect hi.supply hi.acct h
    exact CatInv_same (hc hlen) rfl rfl hsum

/-- While no category is deleted and fewer than `2^64` are stored, ids and
balance sums are in order. -/
theorem CatInv_of_keeping {s : State} (h : ReachableKeeping s)
    (hlen : s.stats.length < 18446744073709551616) : CatInv s := by
  unfold ReachableKeeping at h
  induction h with
  | start => exact CatInv_empty
  | step env a hr hallow hrun ih =>
    exact CatInv_step (Inv_of_reachableBy hr) ih hallow hrun hlen

/-! ## Listing and closing again -/

theorem release_append_self (ids : List Nat) (locks : List lockednft)
    (hfree : ∀ id ∈ ids, id ∉ locks) : release ids (locks ++ ids) = locks := by
  unfold release
  rw [List.filter_append]
  have h1 : List.filter (fun x => decide (x ∉ ids)) locks = locks := by
    rw [List.filter_eq_self]
    intro x hx
    simp only [decide_eq_true_eq]
    intro hin
    exact hfree x hin hx
  have h2 : List.filter (fun x => decide (x ∉ ids)) ids = [] := by
    rw [List.filter_eq_nil_iff]
    intro x hx
    simp only [decide_eq_true_eq, not_not]
    exact hx
  rw [h1, h2, List.append_nil]

/-- Pricing tokens that had no price and clearing the price again gives the
table back. -/
theorem set_price_round_trip (ids : List Nat) (p : asset) (nfts : List nft)
    (hzero : ∀ t ∈ nfts, t.id ∈ ids → t.resale_price = zero_price) :
    set_price ids zero_price (set_price ids p nfts) = nfts := by
  unfold set_price
  rw [List.map_map]
  conv_rhs => rw [← List.map_id nfts]
  apply List.map_congr_left
  intro t ht
  simp only [Function.comp, id]
  by_cases hin : t.id ∈ ids
  · simp only [hin, if_true]
    have := hzero t ht hin
    cases t
    simp only at this
    simp only [this]
  · simp only [hin, if_false]

/-- In a ledger that satisfies the invariant, an unlocked token has no price. -/
theorem unlocked_price {s : State} (hi : Inv s) {t : nft} (ht : t ∈ s.nfts)
    (hfree : t.id ∉ s.lockednfts) : t.resale_price = zero_price := by
  apply hi.token.unlisted_price t ht
  intro a ha hin
  exact hfree ((hi.lock.lock_iff t.id).mpr (mem_held.mpr (Or.inl ⟨a, ha, hin⟩)))

theorem token_authorized_of_listable {env env' : Env} {seller ev : Nat} {nm : name} {s : State}
    {id : Nat} (hauth : ∀ n, n ∈ env.auths → n ∈ env'.auths)
    (h : listable env seller ev nm s id) : token_authorized env' s id := by
  obtain ⟨t, st, h1, h2, h3, _⟩ := h
  exact ⟨t, st, h1, h2, hauth _ h3⟩

theorem token_authorized_of_tables {env : Env} {s s' : State} {id : Nat}
    (h1 : s'.nfts = s.nfts) (h2 : s'.stats = s.stats) (h : token_authorized env s id) :
    token_authorized env s' id := by
  unfold token_authorized at h ⊢
  rw [h1, h2]
  exact h

/-! ## Locks block the ownership loop, in any ledger -/

theorem sub_balance_shape {o c : Nat} {q : asset} {s s' : State}
    (h : sub_balance o c q s = some s') : ∃ acc, s' = { s with accounts := acc } := by
  unfold sub_balance at h
  obtain ⟨r, _, h1⟩ := andThen_eq_some.mp h
  obtain ⟨_, h2⟩ := check_eq_some.mp h1
  by_cases heq : r.2.amount.amount = q.amount
  · rw [if_pos heq] at h2
    exact ⟨_, (Option.some.inj h2).symm⟩
  · rw [if_neg heq] at h2
    obtain ⟨amt, _, h3⟩ := andThen_eq_some.mp h2
    exact ⟨_, (Option.some.inj h3).symm⟩

theorem add_balance_shape {o c : Nat} {payer : name} {ev : Nat} {nm : name} {q : asset}
    {s s' : State} (h : add_balance o payer ev nm c q s = some s') :
    ∃ acc, s' = { s with accounts := acc } := by
  unfold add_balance at h
  cases hr : tfind acct_key s.accounts (o, c) with
  | none =>
    rw [hr] at h
    simp only at h
    obtain ⟨acc, _, h1⟩ := andThen_eq_some.mp h
    exact ⟨_, (Option.some.inj h1).symm⟩
  | some r =>
    rw [hr] at h
    simp only at h
    obtain ⟨amt, _, h1⟩ := andThen_eq_some.mp h
    exact ⟨_, (Option.some.inj h1).symm⟩

/-- One round of the ownership loop leaves the lock table alone, and in a
direct transfer it requires the token to be unlocked. -/
theorem changeowner_step_locks {env : Env} {from_ to_ : Nat} {ist : Bool} {s s' : State}
    {id : Nat} (h : changeowner_step env from_ to_ ist s id = some s') :
    s'.lockednfts = s.lockednfts ∧ (ist = true → id ∉ s.lockednfts) := by
  unfold changeowner_step at h
  obtain ⟨t, _, h1⟩ := andThen_eq_some.mp h
  obtain ⟨st, _, h2⟩ := andThen_eq_some.mp h1
  obtain ⟨_, h3⟩ := require_auth_eq_some.mp h2
  obtain ⟨hist, h4⟩ := check_eq_some.mp h3
  obtain ⟨q, _, h5⟩ := andThen_eq_some.mp h4
  obtain ⟨s2, hsub, hadd⟩ := andThen_eq_some.mp h5
  obtain ⟨acc2, rfl⟩ := sub_balance_shape hsub
  obtain ⟨acc3, rfl⟩ := add_balance_shape hadd
  exact ⟨rfl, fun hi => tfind_lock_none.mp (hist hi).2.2⟩

/-- A direct transfer goes through only if every listed token is unlocked. -/
theorem changeowner_transfer_unlocked {env : Env} {from_ to_ : Nat} :
    ∀ (ids : List Nat) (s s' : State),
      forEach (changeowner_step env from_ to_ true) ids s = some s' →
      ∀ id ∈ ids, id ∉ s.lockednfts
  | [], _, _, _, id, hid => by cases hid
  | x :: l, s, s', h, id, hid => by
    obtain ⟨s1, h1, h2⟩ := forEach_cons_eq_some.mp h
    obtain ⟨hl, hx⟩ := changeowner_step_locks h1
    rcases List.mem_cons.mp hid with rfl | hid'
    · exact hx rfl
    · rw [← hl]
      exact changeowner_transfer_unlocked l s1 s' h2 id hid'

theorem none_of_not_some {r : Option State} (h : ∀ s', r ≠ some s') : r = none := by
  cases r with
  | none => rfl
  | some s' => exact absurd rfl (h s')

/-! ## The tokens of an ask belong to one category -/

theorem keys_nodup_of_range {s : State} (h : s.nfts.map nft_key = List.range s.nfts.length) :
    (s.nfts.map nft_key).Nodup := by
  rw [h]
  exact List.nodup_range _

/-- In a ledger that satisfies the invariant, the stored tokens of an ask
carry the event of the ask and one common name. -/
theorem ask_tokens_uniform {s : State} (hi : Inv s) {a : ask} (ha : a ∈ s.asks) :
    ∃ nm, ∀ id ∈ a.nft_ids, ∀ t, tfind nft_key s.nfts id = some t →
      t.event = a.event ∧ t.nft_name = nm := by
  obtain ⟨nm, hnm⟩ := hi.token.ask_tokens a ha
  refine ⟨nm, fun id hid t ht => ?_⟩
  obtain ⟨t1, ht1, hcore⟩ := List.mem_map.mp (hnm id hid)
  unfold nft_core at hcore
  have hid1 : nft_key t1 = id := congrArg Prod.fst hcore
  have := tfind_unique (keys_nodup_of_range hi.token.keys) ht ht1 hid1
  subst this
  exact ⟨congrArg (fun p => p.2.1) hcore, congrArg (fun p => p.2.2) hcore⟩

theorem tfind_after_buy (ids : List Nat) (to_ : Nat) (nfts : List nft) (id : Nat) :
    tfind nft_key (set_price ids zero_price (set_owner ids to_ nfts)) id =
      (tfind nft_key nfts id).map (fun t =>
        if t.id ∈ ids then { t with owner := to_, resale_price := zero_price } else t) := by
  rw [tfind_set_price, tfind_set_owner, Option.map_map]
  congr 1
  funext t
  simp only [Function.comp]
  by_cases h : t.id ∈ ids <;> simp [h]

end Nfts

/-!
# Reachability of the concrete ledgers
-/

namespace Nfts

/-- A successful run of allowed actions leads from reachable to reachable. -/
theorem reachableBy_run_all {allowed : Action → Prop} (env : Env) :
    ∀ (l : List Action) (s s' : State), ReachableBy allowed s → (∀ a ∈ l, allowed a) →
      run_all env l s = some s' → ReachableBy allowed s'
  | [], s, s', hr, _, h => by
    simp only [run_all, Option.some.injEq] at h
    subst h
    exact hr
  | a :: rest, s, s', hr, hall, h => by
    simp only [run_all] at h
    obtain ⟨s1, h1, h2⟩ := andThen_eq_some.mp h
    exact reachableBy_run_all env rest s1 s'
      (ReachableBy.step env a hr (hall a (List.mem_cons_self _ _)) h1)
      (fun b hb => hall b (List.mem_cons_of_mem _ hb)) h2

/-- The ledger after a successful run from the empty ledger is reachable. -/
theorem reachable_state_after (env : Env) (l : List Action)
    (h : (run_all env l State.empty).isSome = true) : Reachable (state_after env l) := by
  obtain ⟨s', hs'⟩ := Option.isSome_iff_exists.mp h
  have : state_after env l = s' := by
    unfold state_after commit
    rw [hs']
    rfl
  rw [this]
  exact reachableBy_run_all env l State.empty s' ReachableBy.start (fun _ _ => trivial) hs'

/-- The ledger after a successful run without `deletestats`. -/
theorem keeping_state_after (env : Env) (l : List Action)
    (hkeep : ∀ a ∈ l, a.is_deletestats = false)
    (h : (run_all env l State.empty).isSome = true) : ReachableKeeping (state_after env l) := by
  obtain ⟨s', hs'⟩ := Option.isSome_iff_exists.mp h
  have : state_after env l = s' := by
    unfold state_after commit
    rw [hs']
    rfl
  rw [this]
  exact reachableBy_run_all env l State.empty s' ReachableBy.start hkeep hs'

theorem demo_issued_keeping : ReachableKeeping (state_after demo_env demo_issued) :=
  keeping_state_after demo_env demo_issued (by decide) (by decide)

theorem demo_setup_reachable : Reachable (state_after demo_env demo_setup) :=
  reachable_state_after demo_env demo_setup (by decide)

theorem demo_issued_reachable : Reachable (state_after demo_env demo_issued) :=
  reachable_state_after demo_env demo_issued (by decide)

theorem demo_listed_reachable : Reachable (state_after demo_env demo_listed) :=
  reachable_state_after demo_env demo_listed (by decide)

theorem demo_capped_reachable : Reachable (state_after demo_env demo_capped) :=
  reachable_state_after demo_env demo_capped (by decide)

theorem demo_bought_reachable : Reachable (state_after demo_env demo_bought) :=
  reachable_state_after demo_env demo_bought (by decide)

theorem demo_recreated_reachable : Reachable (state_after demo_env demo_recreated) :=
  reachable_state_after demo_env demo_recreated (by decide)

end Nfts

/-!
# The claims
-/

namespace Nfts

/-- C1: in every ledger reachable from the empty one by successful actions, a
token id is in the lock table exactly when it is listed in the `nft_ids` of
some stored ask or is the key of some stored auction. -/
theorem C1_lock_iff_listed (s : State) (hr : Reachable s) (id : Nat) :
    id ∈ s.lockednfts ↔
      (∃ a ∈ s.asks, id ∈ a.nft_ids) ∨ (∃ au ∈ s.auctions, au.nft_id = id) := by
  rw [(Inv_of_reachable hr).lock.lock_iff id]
  exact mem_held

/-- C1 at the ledger with tokens 0 and 1 listed: token 0 is locked and listed,
token 2 is neither. -/
theorem C1_lock_iff_listed_witness :
    Reachable (state_after demo_env demo_listed) ∧
    (0 ∈ (state_after demo_env demo_listed).lockednfts ↔
      (∃ a ∈ (state_after demo_env demo_listed).asks, 0 ∈ a.nft_ids) ∨
      (∃ au ∈ (state_after demo_env demo_listed).auctions, au.nft_id = 0)) ∧
    0 ∈ (state_after demo_env demo_listed).lockednfts ∧
    2 ∉ (state_after demo_env demo_listed).lockednfts :=
  ⟨demo_listed_reachable,
    C1_lock_iff_listed (state_after demo_env demo_listed) demo_listed_reachable 0,
    by decide, by decide⟩

/-- C2: in every reachable ledger every stored category has
`0 <= current_supply <= max_supply` and `issued_supply >= current_supply`. -/
theorem C2_supply_bounds (s : State) (hr : Reachable s) (r : Nat × nft_stat)
    (hrow : r ∈ s.stats) :
    0 ≤ r.2.current_supply.amount ∧ r.2.current_supply.amount ≤ r.2.max_supply.amount ∧
      r.2.issued_supply.amount ≥ r.2.current_supply.amount := by
  obtain ⟨_, _, _, h0, h1, _, h2⟩ := (Inv_of_reachable hr).supply.row_ok r hrow
  exact ⟨h0, h1, by omega⟩

/-- C2 at the ledger with three tokens issued out of five. -/
theorem C2_supply_bounds_witness :
    Reachable (state_after demo_env demo_issued) ∧
    demo_issued_row ∈ (state_after demo_env demo_issued).stats ∧
    (0 ≤ demo_issued_row.2.current_supply.amount ∧
      demo_issued_row.2.current_supply.amount ≤ demo_issued_row.2.max_supply.amount ∧
      demo_issued_row.2.issued_supply.amount ≥ demo_issued_row.2.current_supply.amount) :=
  ⟨demo_issued_reachable, by decide,
    C2_supply_bounds (state_after demo_env demo_issued) demo_issued_reachable demo_issued_row
      (by decide)⟩

/-- C3: in every reachable ledger a token is in at most one active listing or
auction: the ids held by all asks and auctions together are pairwise distinct,
so no id occurs twice in one ask, none occurs in two asks, and none occurs in
an ask and as the key of an auction. -/
theorem C3_single_listing (s : State) (hr : Reachable s) :
    (s.asks.flatMap ask.nft_ids ++ s.auctions.map auction.nft_id).Nodup ∧
    (∀ a ∈ s.asks, a.nft_ids.Nodup) ∧
    (∀ a ∈ s.asks, ∀ a' ∈ s.asks, ∀ id, id ∈ a.nft_ids → id ∈ a'.nft_ids → a = a') ∧
    (∀ a ∈ s.asks, ∀ au ∈ s.auctions, au.nft_id ∉ a.nft_ids) := by
  have hl := (Inv_of_reachable hr).lock
  have hnd := hl.held_nodup
  refine ⟨hnd, ?_, ?_, ?_⟩
  · intro a ha
    exact (List.nodup_flatMap.mp (held_asks_nodup hnd)).1 a ha
  · intro a ha a' ha' id h1 h2
    exact flatMap_nodup_unique ask.nft_ids s.asks (held_asks_nodup hnd) a ha a' ha' id h1 h2
  · intro a ha au hau hin
    exact held_disjoint hnd ha hin hau rfl

/-- C3 at the ledger with tokens 0 and 1 listed in one ask. -/
theorem C3_single_listing_witness :
    Reachable (state_after demo_env demo_listed) ∧
    ((state_after demo_env demo_listed).asks.flatMap ask.nft_ids ++
      (state_after demo_env demo_listed).auctions.map auction.nft_id).Nodup ∧
    (state_after demo_env demo_listed).asks.flatMap ask.nft_ids = [0, 1] :=
  ⟨demo_listed_reachable,
    (C3_single_listing (state_after demo_env demo_listed) demo_listed_reachable).1,
    by decide⟩

/-- C4 fails as stated: after a category is created, one token issued, the
category deleted and created again, the new category reuses id 0, has
`current_supply` 0, and the balances keyed by id 0 add up to 1. -/
theorem C4_balance_sum_counterexample :
    Reachable (state_after demo_env demo_recreated) ∧
    demo_recreated_row ∈ (state_after demo_env demo_recreated).stats ∧
    demo_recreated_row.2.nft_category_id = 0 ∧
    demo_recreated_row.2.current_supply.amount = 0 ∧
    balance_sum (state_after demo_env demo_recreated) 0 = 1 :=
  ⟨demo_recreated_reachable, by decide, rfl, rfl, by decide⟩

/-- C4 (amended): in every reachable ledger no stored balance row has
quantity zero (each holds at least one); and in every ledger reached without
`deletestats` that stores fewer than `2^64` categories, the balance rows
keyed by the `nft_category_id` of a stored category add up, over all owners,
to its `current_supply`. -/
theorem C4_balance_sum_while_kept (s : State) :
    (Reachable s → ∀ r ∈ s.accounts, r.2.amount.amount ≠ 0 ∧ 1 ≤ r.2.amount.amount) ∧
    (ReachableKeeping s → s.stats.length < 18446744073709551616 →
      ∀ r ∈ s.stats, balance_sum s r.2.nft_category_id = r.2.current_supply.amount) := by
  constructor
  · intro hr r hrow
    have := ((Inv_of_reachable hr).acct.amount_ok r hrow).2.1
    exact ⟨by omega, this⟩
  · intro hk hlen
    exact (CatInv_of_keeping hk hlen).sums

/-- C4 (amended) at the ledger with three tokens issued to user 10. -/
theorem C4_balance_sum_while_kept_witness :
    Reachable (state_after demo_env demo_issued) ∧
    ReachableKeeping (state_after demo_env demo_issued) ∧
    demo_issued_balance ∈ (state_after demo_env demo_issued).accounts ∧
    demo_issued_row ∈ (state_after demo_env demo_issued).stats ∧
    (demo_issued_balance.2.amount.amount ≠ 0 ∧ 1 ≤ demo_issued_balance.2.amount.amount) ∧
    balance_sum (state_after demo_env demo_issued) demo_issued_row.2.nft_category_id =
      demo_issued_row.2.current_supply.amount :=
  ⟨demo_issued_reachable, demo_issued_keeping, by decide, by decide,
    (C4_balance_sum_while_kept (state_after demo_env demo_issued)).1 demo_issued_reachable
      demo_issued_balance (by decide),
    (C4_balance_sum_while_kept (state_after demo_env demo_issued)).2 demo_issued_keeping
      (by decide) demo_issued_row (by decide)⟩

/-- C5: in a reachable ledger, for a registered identity `to_`, a stored
category whose issuer authorizes, a valid `CTT` quantity `q >= 1` with
`current_supply + q <= max_supply`, a memo of at most 256 bytes (and room in
the 64-bit key space of the token table), `issue` succeeds exactly when
`b + q <= max_per_account`, `b` being the stored balance of the account for
the category (zero without a row).  In particular it succeeds at
`b + q = max_per_account` and fails at `b + q = max_per_account + 1`. -/
theorem C5_issue_iff_within_cap (env : Env) (s : State) (to_ ev : Nat) (nm : name) (q : asset)
    (uri memo : String) (u : user) (st : Nat × nft_stat) (hr : Reachable s)
    (hu : tfind user_key s.users to_ = some u)
    (hst : tfind stat_key s.stats (ev, nm) = some st)
    (hauth : st.2.issuer ∈ env.auths)
    (hq : q.symbol = CTT) (hq1 : 1 ≤ q.amount) (hq2 : q.amount ≤ max_amount)
    (hsup : st.2.current_supply.amount + q.amount ≤ st.2.max_supply.amount)
    (hmemo : memo.utf8ByteSize ≤ 256)
    (hroom : s.nfts.length + q.amount.toNat ≤ 18446744073709551614) :
    ((issue env to_ ev nm q uri memo s).isSome = true ↔
      balance s to_ st.2.nft_category_id + q.amount ≤ (st.2.max_per_account.val : Int)) ∧
    (balance s to_ st.2.nft_category_id + q.amount = (st.2.max_per_account.val : Int) →
      (issue env to_ ev nm q uri memo s).isSome = true) ∧
    (balance s to_ st.2.nft_category_id + q.amount = (st.2.max_per_account.val : Int) + 1 →
      issue env to_ ev nm q uri memo s = none) := by
  have hi := Inv_of_reachable hr
  have hiff : (issue env to_ ev nm q uri memo s).isSome = true ↔
      balance s to_ st.2.nft_category_id + q.amount ≤ (st.2.max_per_account.val : Int) := by
    constructor
    · intro h
      obtain ⟨s', hs'⟩ := Option.isSome_iff_exists.mp h
      obtain ⟨st0, _, hst0, _, _, _, _, _, _, hcap, _⟩ :=
        issue_effect hi.token.keys hi.supply hi.acct hs'
      rw [hst] at hst0
      cases hst0
      exact hcap
    · intro hcap
      obtain ⟨s', hs'⟩ := issue_success hi.token.keys hi.supply hi.acct hst hu hmemo hauth hq
        hq1 hq2 hcap hsup hroom
      rw [hs']
      rfl
  refine ⟨hiff, fun e => hiff.mpr (by omega), fun e => ?_⟩
  cases h : issue env to_ ev nm q uri memo s with
  | none => rfl
  | some s' =>
    have := hiff.mp (by rw [h]; rfl)
    omega

/-- C5 at a category capped at three per account of which user 10 holds two:
issuing one more (`2 + 1 = 3`) succeeds. -/
theorem C5_issue_iff_within_cap_witness :
    balance (state_after demo_env demo_capped) 10 1 = 2 ∧
    (demo_capped_row.2.max_per_account.val : Int) = 3 ∧
    (issue demo_env 10 100 6 ⟨1, CTT⟩ "" "" (state_after demo_env demo_capped)).isSome = true :=
  ⟨by decide, by decide,
    (C5_issue_iff_within_cap demo_env (state_after demo_env demo_capped) 10 100 6 ⟨1, CTT⟩ "" ""
      ⟨10, 0⟩ demo_capped_row demo_capped_reachable (by decide) (by decide) (by decide)
      (by decide) (by decide) (by decide) (by decide) (by decide) (by decide)).2.1
      (by decide)⟩

/-- C6: in a reachable ledger `issue` of a quantity `q` fails whenever
`current_supply + q > max_supply`, and the ledger is then as before; every
successful `issue` of `q` raises both `current_supply` and `issued_supply` of
the category by exactly `q`. -/
theorem C6_issue_supply_cap (env : Env) (s : State) (to_ ev : Nat) (nm : name) (q : asset)
    (uri memo : String) (st : Nat × nft_stat) (hr : Reachable s)
    (hst : tfind stat_key s.stats (ev, nm) = some st) :
    (st.2.current_supply.amount + q.amount > st.2.max_supply.amount →
      issue env to_ ev nm q uri memo s = none ∧
        commit (issue env to_ ev nm q uri memo s) s = s) ∧
    (∀ s', issue env to_ ev nm q uri memo s = some s' →
      ∃ st', tfind stat_key s'.stats (ev, nm) = some st' ∧
        st'.2.current_supply.amount = st.2.current_supply.amount + q.amount ∧
        st'.2.issued_supply.amount = st.2.issued_supply.amount + q.amount) := by
  have hi := Inv_of_reachable hr
  constructor
  · intro hgt
    have hnone : issue env to_ ev nm q uri memo s = none := by
      cases h : issue env to_ ev nm q uri memo s with
      | none => rfl
      | some s' =>
        obtain ⟨st0, _, hst0, _, _, _, _, _, _, _, hsup, _⟩ :=
          issue_effect hi.token.keys hi.supply hi.acct h
        rw [hst] at hst0
        cases hst0
        omega
    refine ⟨hnone, ?_⟩
    rw [hnone]
    rfl
  · intro s' h
    obtain ⟨st0, acc, hst0, _, _, _, _, _, _, _, _, _, rfl, _⟩ :=
      issue_effect hi.token.keys hi.supply hi.acct h
    rw [hst] at hst0
    cases hst0
    have hk : stat_key st = (ev, nm) := (tfind_some hst).2
    refine ⟨(st.1, { st.2 with
      current_supply := ⟨st.2.current_supply.amount + q.amount, CTT⟩,
      issued_supply := ⟨st.2.issued_supply.amount + q.amount, CTT⟩ }), ?_, rfl, rfl⟩
    refine Eq.trans (tfind_tmodify s.stats (ev, nm) (ev, nm) _ ?_) ?_
    · intro r
      rfl
    · rw [hst]
      simp only [Option.map_some', hk, if_true]

/-- C6 on `max_supply = 5`: issuing 3 succeeds and gives `current_supply = 3`;
a second issue of 3 fails and leaves the ledger as it was. -/
theorem C6_issue_supply_cap_witness :
    demo_setup_row.2.max_supply.amount = 5 ∧
    (∃ st', tfind stat_key (state_after demo_env demo_issued).stats (100, 5) = some st' ∧
      st'.2.current_supply.amount = 0 + 3 ∧ st'.2.issued_supply.amount = 0 + 3) ∧
    (issue demo_env 10 100 5 ⟨3, CTT⟩ "" "" (state_after demo_env demo_issued) = none ∧
      commit (issue demo_env 10 100 5 ⟨3, CTT⟩ "" "" (state_after demo_env demo_issued))
        (state_after demo_env demo_issued) = state_after demo_env demo_issued) :=
  ⟨rfl,
    (C6_issue_supply_cap demo_env (state_after demo_env demo_setup) 10 100 5 ⟨3, CTT⟩ "" ""
      demo_setup_row demo_setup_reachable (by decide)).2 (state_after demo_env demo_issued)
      (by decide),
    (C6_issue_supply_cap demo_env (state_after demo_env demo_issued) 10 100 5 ⟨3, CTT⟩ "" ""
      demo_issued_row demo_issued_reachable (by decide)).1 (by decide)⟩

/-- C7: a successful `issue` of `q` to `to_`, in a category whose
`issued_supply` was `n`, appends exactly `q` rows to the token table and
changes no row stored before; the new ids are pairwise distinct and were not
stored; the row at position `i` has serial number `n + 1 + i`, owner `to_`, the
event and name of the category and resale price zero; and the balance of `to_`
for the category grows by exactly `q`. -/
theorem C7_issue_mints (env : Env) (s s' : State) (to_ ev : Nat) (nm : name) (q : asset)
    (uri memo : String) (st : Nat × nft_stat) (hr : Reachable s)
    (hst : tfind stat_key s.stats (ev, nm) = some st)
    (h : issue env to_ ev nm q uri memo s = some s') :
    ∃ minted_rows : List nft,
      s'.nfts = s.nfts ++ minted_rows ∧ (minted_rows.length : Int) = q.amount ∧
      (minted_rows.map nft.id).Nodup ∧
      (∀ t ∈ minted_rows, ∀ t0 ∈ s.nfts, t.id ≠ t0.id) ∧
      (∀ i, i < minted_rows.length → ∃ t, minted_rows[i]? = some t ∧
        (t.serial_number : Int) = st.2.issued_supply.amount + 1 + (i : Int) ∧
        t.owner = to_ ∧ t.event = ev ∧ t.nft_name = nm ∧ t.nft_name = st.2.nft_name ∧
        t.resale_price = zero_price) ∧
      balance s' to_ st.2.nft_category_id = balance s to_ st.2.nft_category_id + q.amount := by
  have hi := Inv_of_reachable hr
  obtain ⟨st0, acc, hst0, _, _, _, _, hq1, hq2, _, hsup, _, rfl, _, hbal, _⟩ :=
    issue_effect hi.token.keys hi.supply hi.acct h
  rw [hst] at hst0
  cases hst0
  obtain ⟨_, _, _, hc0, _, hc2, hieq⟩ := hi.supply.row_ok st (tfind_some hst).1
  have hn : ((q.amount.toNat : Nat) : Int) = q.amount := Int.toNat_of_nonneg (by omega)
  have hname : st.2.nft_name = nm := congrArg Prod.snd (tfind_some hst).2
  refine ⟨minted to_ ev nm uri q.amount.toNat s.nfts.length st.2.issued_supply.amount, rfl, ?_,
    minted_ids_nodup _ _ _ _ _ _ _, ?_, ?_, ?_⟩
  · rw [minted_length]
    exact hn
  · intro t ht t0 ht0 e
    have h1 := minted_ids_fresh _ _ _ _ _ _ _ t ht
    have h2 : nft_key t0 ∈ s.nfts.map nft_key := List.mem_map_of_mem nft_key ht0
    rw [hi.token.keys, List.mem_range] at h2
    unfold nft_key at h2
    omega
  · intro i hlt
    rw [minted_length] at hlt
    refine ⟨_, minted_get to_ ev nm uri _ _ _ i hlt, ?_, rfl, rfl, rfl, hname.symm, rfl⟩
    show ((u64 (i64 (st.2.issued_supply.amount + (i : Int) + 1)) : Nat) : Int) = _
    rw [u64_i64_of_range (by omega) (by omega)]
    omega
  · rw [hbal]
    simp only [and_self, if_true]

/-- C7 at the issue of three tokens to user 10 in a fresh category: serial
numbers 1, 2, 3 under the new ids 0, 1, 2. -/
theorem C7_issue_mints_witness :
    ∃ minted_rows : List nft,
      (state_after demo_env demo_issued).nfts =
        (state_after demo_env demo_setup).nfts ++ minted_rows ∧
      (minted_rows.length : Int) = 3 ∧
      (minted_rows.map nft.id).Nodup ∧
      (∀ t ∈ minted_rows, ∀ t0 ∈ (state_after demo_env demo_setup).nfts, t.id ≠ t0.id) ∧
      (∀ i, i < minted_rows.length → ∃ t, minted_rows[i]? = some t ∧
        (t.serial_number : Int) = 0 + 1 + (i : Int) ∧
        t.owner = 10 ∧ t.event = 100 ∧ t.nft_name = 5 ∧ t.nft_name = 5 ∧
        t.resale_price = zero_price) ∧
      balance (state_after demo_env demo_issued) 10 0 =
        balance (state_after demo_env demo_setup) 10 0 + 3 :=
  C7_issue_mints demo_env (state_after demo_env demo_setup) (state_after demo_env demo_issued)
    10 100 5 ⟨3, CTT⟩ "" "" demo_setup_row demo_setup_reachable (by decide) (by decide)

/-- C8: when `listsale` succeeds in a reachable ledger, a `closesale` by
the same seller on the batch id (the first listed id) that follows at once, at
a time not after the expiration of the listing and with the authorizations the
listing had, succeeds and gives back the ledger as it was before the listing:
token rows, lock table, asks, balances and categories. -/
theorem C8_list_then_close (env1 env2 : Env) (s s1 : State) (seller ev : Nat) (nm : name)
    (ids : List Nat) (P : asset) (b : Nat) (a : ask) (hr : Reachable s)
    (hlist : listsale env1 seller ev nm ids P s = some s1)
    (hb : ids.head? = some b)
    (ha : tfind ask_key s1.asks b = some a)
    (htime : env2.now ≤ a.expiration)
    (hauth : ∀ n, n ∈ env1.auths → n ∈ env2.auths) :
    closesale env2 seller b s1 = some s ∧ a.nft_ids = ids ∧ a.seller = seller ∧
      a.expiration = (env1.now + WEEK_SEC) % 4294967296 := by
  have hi := Inv_of_reachable hr
  obtain ⟨⟨u, hu⟩, _, _, b', hb', hfresh, hlistable, hfree, hnd, rfl⟩ := listsale_eq_some.mp hlist
  rw [hb] at hb'
  cases hb'
  have hnone : tfind ask_key s.asks b = none := tfind_eq_none.mpr (fun r hr' => hfresh r hr')
  have hfound : tfind ask_key
      (s.asks ++
        [{ batch_id := b, nft_ids := ids, event := ev, seller := seller, ask_price := P,
           expiration := (env1.now + WEEK_SEC) % 4294967296 }]) b =
      some
        { batch_id := b, nft_ids := ids, event := ev, seller := seller, ask_price := P,
          expiration := (env1.now + WEEK_SEC) % 4294967296 } := by
    rw [tfind_append, hnone, Option.none_or, tfind_cons]
    simp only [ask_key, if_true]
  have hae : a =
      { batch_id := b, nft_ids := ids, event := ev, seller := seller, ask_price := P,
        expiration := (env1.now + WEEK_SEC) % 4294967296 } := by
    have := ha
    simp only at this
    rw [hfound] at this
    exact (Option.some.inj this).symm
  subst hae
  refine ⟨?_, rfl, rfl, rfl⟩
  rw [closesale_eq_some]
  refine ⟨_, hfound, ⟨u, hu⟩, ?_, Or.inr rfl, ?_, hnd, ?_⟩
  · intro id hid
    have h1 := token_authorized_of_listable hauth (hlistable id hid)
    exact (token_authorized_set_price env2 s ids _ id).mpr h1
  · intro id hid
    exact List.mem_append_right _ hid
  · simp only
    rw [set_price_round_trip, release_append_self ids s.lockednfts hfree]
    · have := terase_append_single ask_key s.asks
        { batch_id := b, nft_ids := ids, event := ev, seller := seller, ask_price := P,
          expiration := (env1.now + WEEK_SEC) % 4294967296 } (fun x hx => hfresh x hx)
      simp only [ask_key] at this
      simp only [ask_key, this]
    · intro t ht hin
      exact unlocked_price hi ht (hfree t.id hin)

/-- C8 at the listing of tokens 0 and 1 by user 10: closing batch 0 at time
1000 gives back the ledger with the three issued tokens. -/
theorem C8_list_then_close_witness :
    closesale demo_env 10 0 (state_after demo_env demo_listed) =
      some (state_after demo_env demo_issued) ∧
    demo_ask.nft_ids = [0, 1] ∧ demo_ask.seller = 10 ∧
    demo_ask.expiration = (demo_env.now + WEEK_SEC) % 4294967296 :=
  C8_list_then_close demo_env demo_env (state_after demo_env demo_issued)
    (state_after demo_env demo_listed) 10 100 5 [0, 1] ⟨101, COME⟩ 0 demo_ask
    demo_issued_reachable (by decide) (by decide) (by decide) (by decide) (fun _ h => h)

/-- C9: in any ledger, for a token id that is in the lock table, a direct
`transfer` whose id list contains it, a `listsale` whose id list contains it,
a `createauctn` on it and a `share` of it all fail, and the ledger is then as
before. -/
theorem C9_locked_token_blocked (env : Env) (s : State) (id : Nat)
    (hlocked : id ∈ s.lockednfts) :
    (∀ from_ to_ ids memo, id ∈ ids →
      transfer env from_ to_ ids memo s = none ∧
        commit (transfer env from_ to_ ids memo s) s = s) ∧
    (∀ seller ev nm ids P, id ∈ ids →
      listsale env seller ev nm ids P s = none ∧
        commit (listsale env seller ev nm ids P s) s = s) ∧
    (∀ seller ev target minbid expiration,
      createauctn env seller ev id target minbid expiration s = none ∧
        commit (createauctn env seller ev id target minbid expiration s) s = s) ∧
    (∀ from_ to_, share env from_ id to_ s = none ∧ commit (share env from_ id to_ s) s = s) := by
  have hc : ∀ r : Option State, r = none → r = none ∧ commit r s = s := by
    intro r hr
    subst hr
    exact ⟨rfl, rfl⟩
  refine ⟨?_, ?_, ?_, ?_⟩
  · intro from_ to_ ids memo hin
    apply hc
    apply none_of_not_some
    intro s' h
    unfold transfer at h
    obtain ⟨_, h1⟩ := check_eq_some.mp h
    obtain ⟨_, _, h2⟩ := andThen_eq_some.mp h1
    obtain ⟨_, _, h3⟩ := andThen_eq_some.mp h2
    obtain ⟨_, h4⟩ := check_eq_some.mp h3
    unfold changeowner at h4
    exact changeowner_transfer_unlocked ids s s' h4 id hin hlocked
  · intro seller ev nm ids P hin
    apply hc
    apply none_of_not_some
    intro s' h
    obtain ⟨_, _, _, b, _, _, _, hfree, _, _⟩ := listsale_eq_some.mp h
    exact hfree id hin hlocked
  · intro seller ev target minbid expiration
    apply hc
    apply none_of_not_some
    intro s' h
    obtain ⟨_, _, _, _, _, hfree, _, _⟩ := createauctn_eq_some.mp h
    exact hfree hlocked
  · intro from_ to_
    apply hc
    apply none_of_not_some
    intro s' h
    obtain ⟨_, hfree, _, _⟩ := share_eq_some.mp h
    exact hfree hlocked

/-- C9 at the ledger where token 0 is listed and the listing is not closed:
a second `listsale` of token 0 fails, and so does its direct transfer. -/
theorem C9_locked_token_blocked_witness :
    0 ∈ (state_after demo_env demo_listed).lockednfts ∧
    (listsale demo_env 10 100 5 [0] ⟨50, COME⟩ (state_after demo_env demo_listed) = none ∧
      commit (listsale demo_env 10 100 5 [0] ⟨50, COME⟩ (state_after demo_env demo_listed))
        (state_after demo_env demo_listed) = state_after demo_env demo_listed) ∧
    (transfer demo_env 10 11 [2, 0] "" (state_after demo_env demo_listed) = none ∧
      commit (transfer demo_env 10 11 [2, 0] "" (state_after demo_env demo_listed))
        (state_after demo_env demo_listed) = state_after demo_env demo_listed) :=
  ⟨by decide,
    (C9_locked_token_blocked demo_env (state_after demo_env demo_listed) 0 (by decide)).2.1
      10 100 5 [0] ⟨50, COME⟩ (by decide),
    (C9_locked_token_blocked demo_env (state_after demo_env demo_listed) 0 (by decide)).1
      10 11 [2, 0] "" (by decide)⟩

/-- C10: after a successful `buy` by `to_` of the listing `a` stored under
`batch_id` in a reachable ledger, every token of the batch has owner `to_` and
resale price zero (its other fields as before) and is out of the lock table;
the ask is gone; the tokens of the batch belong to one stored category, and
the balance of the seller for it fell by the size of the batch while that of
`to_` rose by it (when `to_` is not the seller), all other balances being as
before; tokens, locks and asks outside the batch, auctions and categories are
unchanged. -/
theorem C10_buy_settles (env : Env) (s s' : State) (to_ b : Nat) (memo : String) (a : ask)
    (hr : Reachable s) (ha : tfind ask_key s.asks b = some a)
    (h : buy env to_ b memo s = some s') :
    (∀ id ∈ a.nft_ids, ∃ t, tfind nft_key s.nfts id = some t ∧
      tfind nft_key s'.nfts id = some { t with owner := to_, resale_price := zero_price }) ∧
    (∀ id ∈ a.nft_ids, id ∉ s'.lockednfts) ∧
    tfind ask_key s'.asks b = none ∧
    (∃ st, (∀ id ∈ a.nft_ids, ∃ t, tfind nft_key s.nfts id = some t ∧
        tfind stat_key s.stats (t.event, t.nft_name) = some st) ∧
      (∀ o c, balance s' o c =
        balance s o c
          - (if o = a.seller ∧ c = st.2.nft_category_id then (a.nft_ids.length : Int) else 0)
          + (if o = to_ ∧ c = st.2.nft_category_id then (a.nft_ids.length : Int) else 0)) ∧
      (to_ ≠ a.seller →
        balance s' a.seller st.2.nft_category_id =
          balance s a.seller st.2.nft_category_id - (a.nft_ids.length : Int) ∧
        balance s' to_ st.2.nft_category_id =
          balance s to_ st.2.nft_category_id + (a.nft_ids.length : Int))) ∧
    (∀ id, id ∉ a.nft_ids → tfind nft_key s'.nfts id = tfind nft_key s.nfts id) ∧
    s'.nfts.length = s.nfts.length ∧
    (∀ id, id ∉ a.nft_ids → (id ∈ s'.lockednfts ↔ id ∈ s.lockednfts)) ∧
    (∀ k, k ≠ b → tfind ask_key s'.asks k = tfind ask_key s.asks k) ∧
    s'.auctions = s.auctions ∧ s'.stats = s.stats := by
  have hi := Inv_of_reachable hr
  obtain ⟨a0, acc, ha0, _, _, _, hlock, hnd, hauth, rfl, _, _, hbal⟩ :=
    buy_effect hi.supply hi.acct h
  rw [ha] at ha0
  cases ha0
  obtain ⟨ham, hak⟩ := tfind_some ha
  obtain ⟨nm, huni⟩ := ask_tokens_uniform hi ham
  have hfind : ∀ id ∈ a.nft_ids, ∃ t, tfind nft_key s.nfts id = some t ∧ t.id = id ∧
      ∃ st, tfind stat_key s.stats (a.event, nm) = some st ∧
        tfind stat_key s.stats (t.event, t.nft_name) = some st := by
    intro id hid
    obtain ⟨t, st, h1, h2, _⟩ := hauth id hid
    obtain ⟨he, hn⟩ := huni id hid t h1
    refine ⟨t, h1, (tfind_some h1).2, st, ?_, h2⟩
    rw [he, hn] at h2
    exact h2
  obtain ⟨ys, hys⟩ := List.head?_eq_some_iff.mp (hi.lock.ask_head a ham)
  have hbm : a.batch_id ∈ a.nft_ids := by
    rw [hys]
    exact List.mem_cons_self _ _
  obtain ⟨t0, _, _, st, hst, _⟩ := hfind a.batch_id hbm
  have hcat : ∀ id ∈ a.nft_ids, ∃ t, tfind nft_key s.nfts id = some t ∧
      tfind stat_key s.stats (t.event, t.nft_name) = some st := by
    intro id hid
    obtain ⟨t, h1, _, st1, hst1, h2⟩ := hfind id hid
    rw [hst] at hst1
    cases hst1
    exact ⟨t, h1, h2⟩
  have hbal' := hbal st.2.nft_category_id (by
    intro id hid
    obtain ⟨t, h1, h2⟩ := hcat id hid
    exact ⟨t, st, h1, h2, rfl⟩)
  refine ⟨?_, ?_, ?_, ⟨st, hcat, hbal', ?_⟩, ?_, ?_, ?_, ?_, rfl, rfl⟩
  · intro id hid
    obtain ⟨t, h1, h2, _⟩ := hfind id hid
    refine ⟨t, h1, ?_⟩
    show tfind nft_key (set_price a.nft_ids zero_price (set_owner a.nft_ids to_ s.nfts)) id = _
    rw [tfind_after_buy, h1, Option.map_some']
    have : t.id ∈ a.nft_ids := by rw [h2]; exact hid
    simp only [this, if_true]
  · intro id hid hin
    exact (mem_release.mp hin).2 hid
  · exact tfind_terase_self _ _
  · intro hne
    have hne' : ¬ a.seller = to_ := fun e => hne e.symm
    constructor
    · rw [hbal']
      simp only [and_self, if_true, hne', false_and, if_false]
      omega
    · rw [hbal']
      simp only [and_self, if_true, hne, false_and, if_false]
      omega
  · intro id hid
    show tfind nft_key (set_price a.nft_ids zero_price (set_owner a.nft_ids to_ s.nfts)) id = _
    rw [tfind_after_buy]
    cases hf : tfind nft_key s.nfts id with
    | none => rfl
    | some t =>
      have : t.id ∉ a.nft_ids := by
        have e : t.id = id := (tfind_some hf).2
        rw [e]
        exact hid
      simp only [Option.map_some', this, if_false]
  · show (set_price a.nft_ids zero_price (set_owner a.nft_ids to_ s.nfts)).length = _
    unfold set_price set_owner
    rw [List.length_map, List.length_map]
  · intro id hid
    show id ∈ release a.nft_ids s.lockednfts ↔ _
    rw [mem_release]
    exact ⟨fun h => h.1, fun h => ⟨h, hid⟩⟩
  · intro k hk
    exact tfind_terase_ne _ _ _ hk

/-- C10 at the purchase by user 11 of the batch of tokens 0 and 1 listed by
user 10: both tokens leave the lock table, the ask is gone, and two units of
balance move from user 10 to user 11. -/
theorem C10_buy_settles_witness :
    (∀ id ∈ demo_ask.nft_ids, id ∉ (state_after demo_env demo_bought).lockednfts) ∧
    tfind ask_key (state_after demo_env demo_bought).asks 0 = none ∧
    balance (state_after demo_env demo_listed) 10 0 = 3 ∧
    balance (state_after demo_env demo_bought) 10 0 = 1 ∧
    balance (state_after demo_env demo_bought) 11 0 = 2 ∧
    (state_after demo_env demo_bought).auctions = (state_after demo_env demo_listed).auctions :=
  ⟨(C10_buy_settles demo_env (state_after demo_env demo_listed)
      (state_after demo_env demo_bought) 11 0 "" demo_ask demo_listed_reachable (by decide)
      (by decide)).2.1,
    (C10_buy_settles demo_env (state_after demo_env demo_listed)
      (state_after demo_env demo_bought) 11 0 "" demo_ask demo_listed_reachable (by decide)
      (by decide)).2.2.1,
    by decide, by decide, by decide,
    (C10_buy_settles demo_env (state_after demo_env demo_listed)
      (state_after demo_env demo_bought) 11 0 "" demo_ask demo_listed_reachable (by decide)
      (by decide)).2.2.2.2.2.2.2.2.1⟩

end Nfts

/-!
# Stored auctions in reachable ledgers
-/

namespace Nfts

theorem AuctInv_empty : AuctInv State.empty :=
  ⟨fun au h => by cases h⟩

/-- Auction rows that were all stored before are in order. -/
theorem AuctInv_sub {s s' : State} (ha : AuctInv s) (h : ∀ au ∈ s'.auctions, au ∈ s.auctions) :
    AuctInv s' :=
  ⟨fun au hau => ha.row_ok au (h au hau)⟩

theorem AuctInv_frame {s s' : State} (ha : AuctInv s) (h : s'.auctions = s.auctions) :
    AuctInv s' :=
  AuctInv_sub ha (fun au hau => by rw [h] at hau; exact hau)

theorem auction_keys_nodup {s : State} (hl : LockInv s) : (s.auctions.map auction_key).Nodup := by
  have h := hl.held_nodup
  unfold held at h
  exact (List.nodup_append.mp h).2.1

/-- Every successful action keeps the auction rows in order. -/
theorem AuctInv_step {env : Env} {a : Action} {s s' : State} (hi : Inv s) (ha : AuctInv s)
    (h : a.run env s = some s') : AuctInv s' := by
  cases a with
  | setconfig version =>
    obtain ⟨cfg, rfl, _⟩ := setconfig_effect h
    exact AuctInv_frame ha rfl
  | createacc id signature caller =>
    have := createacc_effect h
    subst this
    exact AuctInv_frame ha rfl
  | createnft issuer event nft_name burnable sellable transferable price max_per_account
      sale_split base_uri max_supply =>
    obtain ⟨cfg, events, _, _, _, _, _, _, _, _, _, _, _, _, rfl⟩ := createnft_effect h
    exact AuctInv_frame ha rfl
  | deleteeve event =>
    have := deleteeve_effect h
    subst this
    exact AuctInv_frame ha rfl
  | deletestats event nft_name =>
    obtain ⟨st, cfg, _, _, _, rfl⟩ := deletestats_effect h
    exact AuctInv_frame ha rfl
  | issue to_ event nft_name quantity relative_uri memo =>
    obtain ⟨st, acc, _, _, _, _, _, _, _, _, _, _, rfl, _, _, _⟩ :=
      issue_effect hi.token.keys hi.supply hi.acct h
    exact AuctInv_frame ha rfl
  | transfer from_ to_ nft_ids memo =>
    obtain ⟨_, acc, rfl, _, _, _⟩ := transfer_effect hi.supply hi.acct h
    exact AuctInv_frame ha rfl
  | listsale seller event nft_name nft_ids net_sale_price =>
    obtain ⟨_, _, _, b, _, _, _, _, _, rfl⟩ := listsale_eq_some.mp h
    exact AuctInv_frame ha rfl
  | closesale seller batch_id =>
    obtain ⟨a, _, _, _, _, _, _, rfl⟩ := closesale_eq_some.mp h
    exact AuctInv_frame ha rfl
  | share from_ nft_id to_ =>
    obtain ⟨_, _, _, rfl⟩ := share_eq_some.mp h
    exact AuctInv_frame ha rfl
  | unshare nft_id =>
    obtain ⟨_, rfl⟩ := unshare_eq_some.mp h
    exact AuctInv_frame ha rfl
  | buy to_ batch_id memo =>
    obtain ⟨a, acc, _, _, _, _, _, _, _, rfl, _, _, _⟩ := buy_effect hi.supply hi.acct h
    exact AuctInv_frame ha rfl
  | createauctn seller event nft_id target_price min_bid_price expiration =>
    obtain ⟨_, _, ht1, ht2, _, _, _, rfl⟩ := createauctn_eq_some.mp h
    constructor
    intro au hau
    rcases List.mem_append.mp hau with hau | hau
    · exact ha.row_ok au hau
    · rw [List.mem_singleton] at hau
      subst hau
      exact ⟨ht2, rfl, le_refl _, ht1, fun _ => rfl⟩
  | closeauctn seller nft_id =>
    obtain ⟨_, au, _, _, _, _, _, rfl⟩ := closeauctn_eq_some.mp h
    exact AuctInv_sub ha (fun x hx => (mem_terase.mp hx).1)
  | bid nft_id bidder bid_price =>
    obtain ⟨au, hau, _, _, hp1, hp2, _, _, _, _, _, hcase⟩ := bid_effect hi.supply hi.acct h
    rcases hcase with ⟨_, acc, _, rfl, _, _, _, _⟩ | ⟨hlt, _, rfl⟩
    · exact AuctInv_sub ha (fun x hx => (mem_terase.mp hx).1)
    · constructor
      intro x hx
      obtain ⟨r, hr, rfl⟩ := mem_tmodify.mp hx
      by_cases hk : auction_key r = nft_id
      · have e := tfind_unique (auction_keys_nodup hi.lock) hau hr hk
        subst e
        obtain ⟨h1, _, _, _, _⟩ := ha.row_ok r hr
        rw [if_pos hk]
        exact ⟨h1, hp2, by show 0 ≤ bid_price.amount; omega, hlt,
          fun e0 => by
            have e1 : bid_price.amount = 0 := e0
            omega⟩
      · rw [if_neg hk]
        exact ha.row_ok r hr
  | finalize nft_id seller =>
    obtain ⟨au, acc, _, _, _, _, _, _, rfl, _, _, _, _⟩ :=
      finalize_effect hi.supply hi.acct h
    exact AuctInv_sub ha (fun x hx => (mem_terase.mp hx).1)

/-- In every reachable ledger the stored auctions are in order. -/
theorem AuctInv_of_reachable {s : State} (h : Reachable s) : AuctInv s := by
  unfold Reachable at h
  induction h with
  | start => exact AuctInv_empty
  | step env a hr _ hrun ih => exact AuctInv_step (Inv_of_reachableBy hr) ih hrun

/-- A successful action leads from a reachable ledger to a reachable one. -/
theorem reachable_step {env : Env} {a : Action} {s s' : State} (hr : Reachable s)
    (h : a.run env s = some s') : Reachable s' :=
  ReachableBy.step env a hr trivial h

/-- A run of successful actions from a reachable ledger ends in one. -/
theorem reachable_of_runs {allowed : Action → Prop} {s s' : State} (hr : Reachable s)
    (h : RunsBy allowed s s') : Reachable s' := by
  induction h with
  | here => exact hr
  | step env a _ _ hrun ih => exact reachable_step ih hrun

/-! ## Reachability of the further concrete ledgers -/

theorem demo_auction_reachable : Reachable (state_after demo_env demo_auction) :=
  reachable_state_after demo_env demo_auction (by decide)

theorem demo_bid50_reachable : Reachable (state_after demo_env demo_bid50) :=
  reachable_state_after demo_env demo_bid50 (by decide)

theorem demo_auction_zero_reachable : Reachable (state_after demo_env demo_auction_zero) :=
  reachable_state_after demo_env demo_auction_zero (by decide)

theorem demo_bid_zero_reachable : Reachable (state_after demo_env demo_bid_zero) :=
  reachable_state_after demo_env demo_bid_zero (by decide)

theorem demo_auction_ctt_reachable : Reachable (state_after demo_env demo_auction_ctt) :=
  reachable_state_after demo_env demo_auction_ctt (by decide)

theorem demo_auction_big_reachable : Reachable (state_after demo_env demo_auction_big) :=
  reachable_state_after demo_env demo_auction_big (by decide)

theorem demo_shared_zero_reachable : Reachable (state_after demo_env demo_shared_zero) :=
  reachable_state_after demo_env demo_shared_zero (by decide)

theorem demo_two_ids_reachable : Reachable (state_after demo_env demo_two_ids) :=
  reachable_state_after demo_env demo_two_ids (by decide)

theorem demo_setup_keeping : ReachableKeeping (state_after demo_env demo_setup) :=
  keeping_state_after demo_env demo_setup (by decide) (by decide)

theorem demo_second_keeping : ReachableKeeping (state_after demo_env demo_second) :=
  keeping_state_after demo_env demo_second (by decide) (by decide)

end Nfts

/-!
# When the settlement of an auctioned token goes through
-/

namespace Nfts

/-- `sub_balance` of one unit succeeds on a balance that is stored. -/
theorem sub_balance_one_success {s : State} {o c : Nat} (ha : AcctInv s)
    (hb : 0 < balance s o c) : ∃ s2, sub_balance o c ⟨1, CTT⟩ s = some s2 := by
  unfold sub_balance
  cases hr : tfind acct_key s.accounts (o, c) with
  | none =>
    rw [balance_of_none hr] at hb
    exact absurd hb (lt_irrefl 0)
  | some r =>
    obtain ⟨hsym, hlo, hhi⟩ := ha.amount_ok r (tfind_some hr).1
    rw [andThen_some, check_true (show r.2.amount.amount ≥ (⟨1, CTT⟩ : asset).amount from hlo)]
    by_cases heq : r.2.amount.amount = (⟨1, CTT⟩ : asset).amount
    · rw [if_pos heq]
      exact ⟨_, rfl⟩
    · rw [if_neg heq]
      have e : i64 (r.2.amount.amount - 1) = r.2.amount.amount - 1 := by
        apply i64_of_range <;> (unfold max_amount at hhi; omega)
      have hsub : asset.sub r.2.amount ⟨1, CTT⟩ =
          some ⟨i64 (r.2.amount.amount - 1), r.2.amount.symbol⟩ := by
        rw [asset_sub_eq_some]
        refine ⟨hsym.symm, ?_, ?_, rfl⟩
        · show -max_amount ≤ i64 (r.2.amount.amount - 1)
          rw [e]
          unfold max_amount
          omega
        · show i64 (r.2.amount.amount - 1) ≤ max_amount
          rw [e]
          omega
      rw [hsub, andThen_some]
      exact ⟨_, rfl⟩

/-- `add_balance` of one unit succeeds on a balance below the largest
amount. -/
theorem add_balance_one_success {s : State} {o c : Nat} (payer : name) (ev : Nat) (nm : name)
    (ha : AcctInv s) (hb : balance s o c < max_amount) :
    ∃ s2, add_balance o payer ev nm c ⟨1, CTT⟩ s = some s2 := by
  unfold add_balance
  cases hr : tfind acct_key s.accounts (o, c) with
  | none =>
    simp only
    rw [templace_of_fresh (fun x hx => tfind_eq_none.mp hr x hx), andThen_some]
    exact ⟨_, rfl⟩
  | some r =>
    simp only
    obtain ⟨hsym, hlo, hhi⟩ := ha.amount_ok r (tfind_some hr).1
    rw [balance_of_find hr] at hb
    have h1 : -max_amount ≤ r.2.amount.amount := by
      unfold max_amount
      omega
    have h2 : -max_amount ≤ r.2.amount.amount + 1 := by
      unfold max_amount
      omega
    have hadd := asset_add_of_range (a := r.2.amount) (b := ⟨1, CTT⟩) hsym.symm
      ⟨h1, hhi⟩ ⟨by decide, by decide⟩ ⟨h2, by show r.2.amount.amount + 1 ≤ max_amount; omega⟩
    rw [hadd, andThen_some]
    exact ⟨_, rfl⟩

/-- The two balance moves of one round of `changeowner` succeed when `from_`
holds a balance and the balance of `to_` is below the largest amount. -/
theorem move_balance_success {s : State} {from_ to_ c : Nat} (payer : name) (ev : Nat)
    (nm : name) (ha : AcctInv s) (hfrom : 0 < balance s from_ c)
    (hto : balance s to_ c < max_amount) :
    ∃ s3, andThen (sub_balance from_ c ⟨1, CTT⟩ s)
      (fun s2 => add_balance to_ payer ev nm c ⟨1, CTT⟩ s2) = some s3 := by
  obtain ⟨s2, hsub⟩ := sub_balance_one_success ha hfrom
  obtain ⟨_, ha2, _, hbal2, _⟩ :=
    sub_balance_effect ha rfl (by decide) (by decide) hsub
  have hto2 : balance s2 to_ c < max_amount := by
    rw [hbal2]
    split
    · rename_i hc
      show balance s from_ c - 1 < max_amount
      rw [← hc.1]
      omega
    · exact hto
  obtain ⟨s3, hadd⟩ := add_balance_one_success payer ev nm ha2 hto2
  exact ⟨s3, by rw [hsub, andThen_some, hadd]⟩

/-- `changeowner` of one token, without the checks of a direct transfer,
succeeds when the token can be settled. -/
theorem changeowner_single_success {env : Env} {s : State} {from_ to_ id : Nat}
    (memo : String) (hs : SupplyInv s) (ha : AcctInv s)
    (h : settleable env s from_ to_ id) :
    ∃ s1, changeowner env from_ to_ [id] memo false s = some s1 := by
  obtain ⟨t, st, ht, hst, hauth, hfrom, hto⟩ := h
  obtain ⟨hsym, _⟩ := hs.row_ok st (tfind_some hst).1
  unfold changeowner
  rw [forEach_cons]
  unfold changeowner_step require_auth
  rw [ht, andThen_some, hst, andThen_some, check_true hauth,
    check_true (show (false = true → _) from fun e => absurd e (by decide)), hsym,
    asset_make_one_CTT, andThen_some]
  obtain ⟨s3, h3⟩ := move_balance_success env.self t.event t.nft_name
    (s := { s with nfts := tmodify nft_key s.nfts id (fun x => { x with owner := to_ }) })
    (AcctInv_of_accounts (s := s) rfl ha) hfrom hto
  exact ⟨s3, by rw [h3, andThen_some, forEach_nil]⟩

end Nfts

/-!
# The claims on expired listings and on auctions
-/

namespace Nfts

/-- Lookup of a token after the owner of the token `id` is rewritten. -/
theorem tfind_set_owner_single (id to_ : Nat) (nfts : List nft) (k : Nat) :
    tfind nft_key (set_owner [id] to_ nfts) k =
      if k = id then (tfind nft_key nfts k).map (fun t => { t with owner := to_ })
      else tfind nft_key nfts k := by
  rw [tfind_set_owner]
  cases hf : tfind nft_key nfts k with
  | none => split <;> rfl
  | some t =>
    have hk : t.id = k := (tfind_some hf).2
    by_cases e : k = id
    · simp [e, hk]
    · have : ¬ t.id = id := by rw [hk]; exact e
      simp [e, this]

/-- C12 fails as stated for the bidder identity 0: identity 0 is registered
and its bid of 50 is accepted, so that the auction records bidder 0 at price
50; after the expiration the seller finalizes, lock and auction go, and the
token is still owned by the seller, whose balance is as before. -/
theorem C12_finalize_bidder_zero_counterexample :
    Reachable (state_after demo_env demo_bid_zero) ∧
    bid demo_env 2 0 ⟨50, COME⟩ (state_after demo_env demo_auction_zero) =
      some (state_after demo_env demo_bid_zero) ∧
    tfind auction_key (state_after demo_env demo_bid_zero).auctions 2 = some demo_bid_zero_row ∧
    demo_bid_zero_row.bidder = 0 ∧ demo_bid_zero_row.current_price.amount = 50 ∧
    demo_late_env.now > demo_bid_zero_row.expiration ∧
    finalize demo_late_env 2 demo_bid_zero_row.seller (state_after demo_env demo_bid_zero) =
      some demo_zero_finalized ∧
    owner_of (state_after demo_env demo_bid_zero) 2 = some demo_bid_zero_row.seller ∧
    owner_of demo_zero_finalized 2 = some demo_bid_zero_row.seller ∧
    owner_of demo_zero_finalized 2 ≠ some demo_bid_zero_row.bidder ∧
    balance demo_zero_finalized 10 0 = balance (state_after demo_env demo_bid_zero) 10 0 ∧
    balance demo_zero_finalized 0 0 = 0 :=
  ⟨demo_bid_zero_reachable, by decide, by decide, rfl, rfl, by decide, by decide, by decide,
    by decide, by decide, by decide, by decide⟩

/-- C12 (amended): after a successful `finalize` by `seller` of the auction
`au` stored for token `id` in a reachable ledger (which requires the time to
be past the expiration and `seller` to be the seller of `au`), the lock of
the token and the auction row are gone and every other token is as before.
When the recorded bidder is not identity 0, the owner of the token is the
recorded bidder and one unit of balance of the category of the token has moved
from the seller to the bidder.  When the recorded bidder is 0, the token table
and the balances are as before; that is the case whenever the current price is
zero, that is, when no bid was accepted. -/
theorem C12_finalize_settles_recorded_bidder (env : Env) (s s' : State) (id seller : Nat)
    (au : auction) (hr : Reachable s) (hau : tfind auction_key s.auctions id = some au)
    (h : finalize env id seller s = some s') :
    env.now > au.expiration ∧ au.seller = seller ∧
    id ∉ s'.lockednfts ∧ tfind auction_key s'.auctions id = none ∧
    (∀ k, k ≠ id → tfind nft_key s'.nfts k = tfind nft_key s.nfts k) ∧
    (au.bidder ≠ 0 →
      ∃ t st, tfind nft_key s.nfts id = some t ∧
        tfind stat_key s.stats (t.event, t.nft_name) = some st ∧
        tfind nft_key s'.nfts id = some { t with owner := au.bidder } ∧
        (∀ o c, balance s' o c =
          balance s o c - (if o = seller ∧ c = st.2.nft_category_id then 1 else 0)
            + (if o = au.bidder ∧ c = st.2.nft_category_id then 1 else 0))) ∧
    (au.bidder = 0 → s'.nfts = s.nfts ∧ s'.accounts = s.accounts) ∧
    (au.current_price.amount = 0 → au.bidder = 0) := by
  have hi := Inv_of_reachable hr
  obtain ⟨au0, acc, hau0, _, _, hseller, hexp, _, rfl, _, _, hzero, hbid⟩ :=
    finalize_effect hi.supply hi.acct h
  rw [hau] at hau0
  cases hau0
  refine ⟨lt_of_lt_of_le hexp (Nat.mod_le _ _), hseller, ?_, tfind_terase_self _ _, ?_, ?_, ?_,
    ((AuctInv_of_reachable hr).row_ok au (tfind_some hau).1).2.2.2.2⟩
  · intro hin
    exact (mem_release.mp hin).2 (List.mem_singleton.mpr rfl)
  · intro k hk
    by_cases hb : au.bidder ≠ 0
    · show tfind nft_key (if au.bidder ≠ 0 then _ else _) k = _
      rw [if_pos hb, tfind_set_owner_single, if_neg hk]
    · show tfind nft_key (if au.bidder ≠ 0 then _ else _) k = _
      rw [if_neg hb]
  · intro hb
    obtain ⟨⟨t, st, ht, hst, _⟩, hbal⟩ := hbid hb
    refine ⟨t, st, ht, hst, ?_, hbal st.2.nft_category_id ⟨t, st, ht, hst, rfl⟩⟩
    show tfind nft_key (if au.bidder ≠ 0 then _ else _) id = _
    rw [if_pos hb, tfind_set_owner_single, if_pos rfl, ht, Option.map_some']
  · intro hb
    have hb' : ¬ au.bidder ≠ 0 := fun hne => hne hb
    refine ⟨?_, hzero hb⟩
    show (if au.bidder ≠ 0 then _ else _) = _
    rw [if_neg hb']

/-- C12 (amended) at the auction of token 2 with the standing bid of 50 by
user 11: finalized by the seller after the expiration, the token goes to user
11 with one unit of balance, and lock and auction are gone. -/
theorem C12_finalize_settles_recorded_bidder_witness :
    (demo_late_env.now > demo_bid50_row.expiration ∧ demo_bid50_row.seller = 10 ∧
      2 ∉ demo_finalized.lockednfts ∧ tfind auction_key demo_finalized.auctions 2 = none) ∧
    demo_bid50_row.bidder = 11 ∧ owner_of demo_finalized 2 = some 11 ∧
    balance (state_after demo_env demo_bid50) 10 0 = 3 ∧
    balance demo_finalized 10 0 = 2 ∧ balance demo_finalized 11 0 = 1 :=
  ⟨⟨(C12_finalize_settles_recorded_bidder demo_late_env (state_after demo_env demo_bid50)
        demo_finalized 2 10 demo_bid50_row demo_bid50_reachable (by decide) (by decide)).1,
      (C12_finalize_settles_recorded_bidder demo_late_env (state_after demo_env demo_bid50)
        demo_finalized 2 10 demo_bid50_row demo_bid50_reachable (by decide) (by decide)).2.1,
      (C12_finalize_settles_recorded_bidder demo_late_env (state_after demo_env demo_bid50)
        demo_finalized 2 10 demo_bid50_row demo_bid50_reachable (by decide) (by decide)).2.2.1,
      (C12_finalize_settles_recorded_bidder demo_late_env (state_after demo_env demo_bid50)
        demo_finalized 2 10 demo_bid50_row demo_bid50_reachable (by decide)
        (by decide)).2.2.2.1⟩,
    rfl, by decide, by decide, by decide, by decide⟩

end Nfts

/-!
# The claims on bids
-/

namespace Nfts

/-- A bid below the target on an auction with `COME` prices goes through
when it beats the current price by the minimum step. -/
theorem bid_below_target_success {env : Env} {s : State} {id bidder : Nat} {price : asset}
    {au : auction} {u : user} (hau : tfind auction_key s.auctions id = some au)
    (hself : env.self ∈ env.auths) (hu : tfind user_key s.users bidder = some u)
    (hnow : env.now % 4294967296 < au.expiration) (hne : bidder ≠ au.seller)
    (hsym : price.symbol = COME) (hpos : 0 < price.amount) (hmax : price.amount ≤ max_amount)
    (hlt : price.amount < au.target_price.amount)
    (hts : au.target_price.symbol = COME) (hcs : au.current_price.symbol = COME)
    (hc0 : 0 ≤ au.current_price.amount) (hmin : au.min_bid_price.symbol = COME)
    (hgt : price.amount > au.current_price.amount)
    (hstep : price.amount - au.current_price.amount ≥ au.min_bid_price.amount) :
    bid env id bidder price s =
      some { s with auctions := tmodify auction_key s.auctions id
                      (fun t => { t with current_price := price, bidder := bidder }) } := by
  have hsub : asset.sub price au.current_price =
      some ⟨price.amount - au.current_price.amount, price.symbol⟩ := by
    have e : i64 (price.amount - au.current_price.amount) =
        price.amount - au.current_price.amount := by
      apply i64_of_range <;> (unfold max_amount at hmax; omega)
    rw [asset_sub_eq_some, e]
    exact ⟨hcs.trans hsym.symm, by unfold max_amount; omega,
      by unfold max_amount at hmax ⊢; omega, rfl⟩
  unfold bid require_auth
  rw [check_true hself, hau, andThen_some, hu, andThen_some,
    check_true (show price.amount > 0 from hpos), check_true hsym, check_true hnow,
    check_true hne]
  unfold asset.gt
  rw [check_true (hsym.trans hcs.symm), andThen_some,
    check_true (show decide (price.amount > au.current_price.amount) = true from
      decide_eq_true hgt)]
  unfold asset.ge
  rw [check_true (hsym.trans hts.symm), andThen_some,
    if_neg (show ¬ decide (price.amount ≥ au.target_price.amount) = true by
      simp only [decide_eq_true_eq]; omega),
    hsub, andThen_some, check_true (show price.symbol = au.min_bid_price.symbol from
      hsym.trans hmin.symm), andThen_some,
    check_true (show decide (price.amount - au.current_price.amount ≥
      au.min_bid_price.amount) = true from decide_eq_true hstep)]

/-- C13 fails as stated.  First, by the range check of asset subtraction: on
an auction with target `2^63 - 1` and minimum step 5, a bid of `2^62` by the
registered user 11, above the current price 0 by more than the step, is
rejected.  Second, on an auction whose minimum step was stored in `CTT`, a bid
of 50 `COME` is rejected although it beats the current price 0 by more than
the step of 5. -/
theorem C13_bid_iff_counterexample :
    (Reachable (state_after demo_env demo_auction_big) ∧
      tfind auction_key (state_after demo_env demo_auction_big).auctions 2 =
        some demo_auction_big_row ∧
      demo_env.now < demo_auction_big_row.expiration ∧
      (4611686018427387904 : Int) < demo_auction_big_row.target_price.amount ∧
      (4611686018427387904 : Int) > demo_auction_big_row.current_price.amount ∧
      (4611686018427387904 : Int) - demo_auction_big_row.current_price.amount ≥
        demo_auction_big_row.min_bid_price.amount ∧
      bid demo_env 2 11 ⟨4611686018427387904, COME⟩ (state_after demo_env demo_auction_big) =
        none) ∧
    (Reachable (state_after demo_env demo_auction_ctt) ∧
      tfind auction_key (state_after demo_env demo_auction_ctt).auctions 2 =
        some demo_auction_ctt_row ∧
      demo_env.now < demo_auction_ctt_row.expiration ∧
      (50 : Int) < demo_auction_ctt_row.target_price.amount ∧
      (50 : Int) > demo_auction_ctt_row.current_price.amount ∧
      (50 : Int) - demo_auction_ctt_row.current_price.amount ≥
        demo_auction_ctt_row.min_bid_price.amount ∧
      bid demo_env 2 11 ⟨50, COME⟩ (state_after demo_env demo_auction_ctt) = none) :=
  ⟨⟨demo_auction_big_reachable, by decide, by decide, by decide, by decide, by decide,
      by decide⟩,
    ⟨demo_auction_ctt_reachable, by decide, by decide, by decide, by decide, by decide,
      by decide⟩⟩

/-- C13 (amended): in a reachable ledger, on an unexpired auction `au` whose
minimum step is a `COME` amount, with the contract account authorizing, a bid
by a registered bidder other than the seller of a `COME` amount `a` with
`0 < a <= max_amount` and `a < target_price` succeeds exactly when
`a > current_price` and `a - current_price >= min_bid_price`.  On success the
auction row has current price `a` and the bidder as bidder, every other
auction row and every other table is as before; on failure the ledger is as
before. -/
theorem C13_bid_below_target (env : Env) (s : State) (id bidder : Nat) (price : asset)
    (au : auction) (u : user) (hr : Reachable s)
    (hau : tfind auction_key s.auctions id = some au)
    (hself : env.self ∈ env.auths) (hu : tfind user_key s.users bidder = some u)
    (hnow : env.now < au.expiration) (hne : bidder ≠ au.seller)
    (hsym : price.symbol = COME) (hpos : 0 < price.amount) (hmax : price.amount ≤ max_amount)
    (hlt : price.amount < au.target_price.amount)
    (hmin : au.min_bid_price.symbol = COME) :
    ((bid env id bidder price s).isSome = true ↔
      price.amount > au.current_price.amount ∧
        price.amount - au.current_price.amount ≥ au.min_bid_price.amount) ∧
    (∀ s', bid env id bidder price s = some s' →
      tfind auction_key s'.auctions id =
        some { au with current_price := price, bidder := bidder } ∧
      (∀ k, k ≠ id → tfind auction_key s'.auctions k = tfind auction_key s.auctions k) ∧
      s' = { s with auctions := s'.auctions }) ∧
    (bid env id bidder price s = none → commit (bid env id bidder price s) s = s) := by
  have hi := Inv_of_reachable hr
  obtain ⟨hts, hcs, hc0, _, _⟩ := (AuctInv_of_reachable hr).row_ok au (tfind_some hau).1
  have hshape : ∀ s', bid env id bidder price s = some s' →
      price.amount > au.current_price.amount ∧
      price.amount - au.current_price.amount ≥ au.min_bid_price.amount ∧
      s' = { s with auctions := tmodify auction_key s.auctions id
                      (fun t => { t with current_price := price, bidder := bidder }) } := by
    intro s' h
    obtain ⟨au0, hau0, _, _, _, _, _, _, _, hgt, _, hcase⟩ := bid_effect hi.supply hi.acct h
    rw [hau] at hau0
    cases hau0
    rcases hcase with ⟨hge, _⟩ | ⟨_, ⟨inc, hinc, _, hstep⟩, rfl⟩
    · omega
    · obtain ⟨_, _, _, rfl⟩ := asset_sub_eq_some.mp hinc
      have e : i64 (price.amount - au.current_price.amount) =
          price.amount - au.current_price.amount := by
        apply i64_of_range <;> (unfold max_amount at hmax; omega)
      rw [e] at hstep
      exact ⟨hgt, hstep, rfl⟩
  refine ⟨⟨?_, ?_⟩, ?_, ?_⟩
  · intro h
    obtain ⟨s', hs'⟩ := Option.isSome_iff_exists.mp h
    obtain ⟨h1, h2, _⟩ := hshape s' hs'
    exact ⟨h1, h2⟩
  · rintro ⟨hgt, hstep⟩
    rw [bid_below_target_success hau hself hu (lt_of_le_of_lt (Nat.mod_le _ _) hnow) hne hsym
      hpos hmax hlt hts hcs hc0 hmin hgt hstep]
    rfl
  · intro s' h
    obtain ⟨_, _, rfl⟩ := hshape s' h
    refine ⟨?_, ?_, rfl⟩
    · refine Eq.trans (tfind_tmodify s.auctions id id _ ?_) ?_
      · intro r
        rfl
      · rw [hau, Option.map_some', if_pos (tfind_some hau).2]
    · intro k hk
      refine Eq.trans (tfind_tmodify s.auctions id k _ ?_) ?_
      · intro r
        rfl
      · cases hf : tfind auction_key s.auctions k with
        | none => rfl
        | some r =>
          have : ¬ auction_key r = id := by
            rw [(tfind_some hf).2]
            exact hk
          rw [Option.map_some', if_neg this]
  · intro h
    rw [h]
    rfl

/-- C13 (amended) on the auction with target 100 and minimum step 5: the bid
of 50 by user 11 succeeds and the current price is 50; the following bid of 52
fails because `52 - 50 < 5`. -/
theorem C13_bid_below_target_witness :
    (bid demo_env 2 11 ⟨50, COME⟩ (state_after demo_env demo_auction)).isSome = true ∧
    tfind auction_key (state_after demo_env demo_bid50).auctions 2 = some demo_bid50_row ∧
    demo_bid50_row.current_price.amount = 50 ∧
    ¬ ((bid demo_env 2 11 ⟨52, COME⟩ (state_after demo_env demo_bid50)).isSome = true) :=
  ⟨(C13_bid_below_target demo_env (state_after demo_env demo_auction) 2 11 ⟨50, COME⟩
      demo_auction_row ⟨11, 0⟩ demo_auction_reachable (by decide) (by decide) (by decide)
      (by decide) (by decide) (by decide) (by decide) (by decide) (by decide)
      (by decide)).1.mpr (by decide),
    by decide, rfl,
    fun h => absurd
      ((C13_bid_below_target demo_env (state_after demo_env demo_bid50) 2 11 ⟨52, COME⟩
        demo_bid50_row ⟨11, 0⟩ demo_bid50_reachable (by decide) (by decide) (by decide)
        (by decide) (by decide) (by decide) (by decide) (by decide) (by decide)
        (by decide)).1.mp h).2
      (by decide)⟩

/-- Balances of a ledger whose balance rows are in order lie between zero
and the largest amount. -/
theorem balance_range {s : State} (ha : AcctInv s) (o c : Nat) :
    0 ≤ balance s o c ∧ balance s o c ≤ max_amount := by
  cases hr : tfind acct_key s.accounts (o, c) with
  | none =>
    rw [balance_of_none hr]
    exact ⟨le_refl 0, by decide⟩
  | some r =>
    obtain ⟨_, hlo, hhi⟩ := ha.amount_ok r (tfind_some hr).1
    rw [balance_of_find hr]
    exact ⟨by omega, hhi⟩

/-- A bid at or above the target goes through when the token can be settled;
the minimum step of the auction plays no part. -/
theorem bid_at_target_success {env : Env} {s : State} {id bidder : Nat} {price : asset}
    {au : auction} {u : user} (hi : Inv s) (hai : AuctInv s)
    (hau : tfind auction_key s.auctions id = some au)
    (hself : env.self ∈ env.auths) (hu : tfind user_key s.users bidder = some u)
    (hnow : env.now % 4294967296 < au.expiration) (hne : bidder ≠ au.seller)
    (hsym : price.symbol = COME) (hge : price.amount ≥ au.target_price.amount)
    (hset : settleable env s au.seller bidder id) :
    ∃ s', bid env id bidder price s = some s' := by
  obtain ⟨ham, hak⟩ := tfind_some hau
  obtain ⟨hts, hcs, hc0, hct, _⟩ := hai.row_ok au ham
  have hlock : id ∈ s.lockednfts :=
    (hi.lock.lock_iff id).mpr (mem_held.mpr (Or.inr ⟨au, ham, hak⟩))
  obtain ⟨s1, hco⟩ := changeowner_single_success
    ("auction bought by: " ++ toString au.bidder) hi.supply hi.acct hset
  obtain ⟨acc, hs1, _⟩ := changeowner_effect hi.supply hi.acct hco
  have hlock1 : id ∈ s1.lockednfts := by
    rw [hs1]
    exact hlock
  unfold bid require_auth
  rw [check_true hself, hau, andThen_some, hu, andThen_some,
    check_true (show price.amount > 0 by omega), check_true hsym, check_true hnow,
    check_true hne]
  unfold asset.gt
  rw [check_true (hsym.trans hcs.symm), andThen_some,
    check_true (show decide (price.amount > au.current_price.amount) = true from
      decide_eq_true (by omega))]
  unfold asset.ge
  rw [check_true (hsym.trans hts.symm), andThen_some,
    if_pos (show decide (price.amount ≥ au.target_price.amount) = true from decide_eq_true hge),
    hco, andThen_some, auction_release_eq_some.mpr ⟨hlock1, rfl⟩]
  exact ⟨_, rfl⟩

/-- C14: in a reachable ledger with an auction `au` stored for the token `id`,
take a bid of an amount at or above the target.  The bid is accepted exactly
when the contract account authorizes, the bidder is registered and is not the
seller, the amount is in `COME`, the time read by the contract is before the
expiration, and the token can be settled (its category is stored with an
issuer who authorizes, the seller holds a balance of it, the balance of the
bidder is below the largest amount): the minimum step of the auction is not
among the conditions, so the bid is accepted however close it is to the
current price.  After every accepted such bid the owner of the token is the
bidder (its other fields as before), one unit of balance of the category of
the token has moved from the seller to the bidder, the token is out of the
lock table and the auction row is gone; other tokens and the categories are as
before. -/
theorem C14_instant_buy (env : Env) (s : State) (id bidder : Nat) (price : asset)
    (au : auction) (hr : Reachable s) (hau : tfind auction_key s.auctions id = some au)
    (hge : price.amount ≥ au.target_price.amount) :
    ((bid env id bidder price s).isSome = true ↔
      env.self ∈ env.auths ∧ (∃ u, tfind user_key s.users bidder = some u) ∧
      bidder ≠ au.seller ∧ price.symbol = COME ∧ env.now % 4294967296 < au.expiration ∧
      settleable env s au.seller bidder id) ∧
    price.amount > au.current_price.amount ∧
    (∀ s', bid env id bidder price s = some s' →
      (∃ t st, tfind nft_key s.nfts id = some t ∧
        tfind stat_key s.stats (t.event, t.nft_name) = some st ∧
        tfind nft_key s'.nfts id = some { t with owner := bidder } ∧
        (∀ o c, balance s' o c =
          balance s o c - (if o = au.seller ∧ c = st.2.nft_category_id then 1 else 0)
            + (if o = bidder ∧ c = st.2.nft_category_id then 1 else 0)) ∧
        balance s' au.seller st.2.nft_category_id =
          balance s au.seller st.2.nft_category_id - 1 ∧
        balance s' bidder st.2.nft_category_id = balance s bidder st.2.nft_category_id + 1) ∧
      id ∉ s'.lockednfts ∧ tfind auction_key s'.auctions id = none ∧
      (∀ k, k ≠ id → tfind nft_key s'.nfts k = tfind nft_key s.nfts k) ∧
      s'.stats = s.stats) := by
  have hi := Inv_of_reachable hr
  have hai := AuctInv_of_reachable hr
  obtain ⟨_, _, _, hct, _⟩ := hai.row_ok au (tfind_some hau).1
  have hshape : ∀ s', bid env id bidder price s = some s' →
      env.self ∈ env.auths ∧ (∃ u, tfind user_key s.users bidder = some u) ∧
      bidder ≠ au.seller ∧ price.symbol = COME ∧ env.now % 4294967296 < au.expiration ∧
      AcctInv s' ∧
      ∃ t st acc, tfind nft_key s.nfts id = some t ∧
        tfind stat_key s.stats (t.event, t.nft_name) = some st ∧ st.2.issuer ∈ env.auths ∧
        s' = { s with nfts := set_owner [id] bidder s.nfts, accounts := acc,
                      lockednfts := release [id] s.lockednfts,
                      auctions := terase auction_key s.auctions id } ∧
        (∀ o c, balance s' o c =
          balance s o c - (if o = au.seller ∧ c = st.2.nft_category_id then 1 else 0)
            + (if o = bidder ∧ c = st.2.nft_category_id then 1 else 0)) := by
    intro s' h
    obtain ⟨au0, hau0, hself, hu, _, hsym, hnow, hne, _, _, _, hcase⟩ :=
      bid_effect hi.supply hi.acct h
    rw [hau] at hau0
    cases hau0
    rcases hcase with ⟨_, acc, _, hs', ha', _, ⟨t, st, ht, hst, hauth⟩, hbal⟩ | ⟨hlt, _⟩
    · exact ⟨hself, hu, hne, hsym, hnow, ha', t, st, acc, ht, hst, hauth, hs',
        hbal st.2.nft_category_id ⟨t, st, ht, hst, rfl⟩⟩
    · omega
  refine ⟨⟨?_, ?_⟩, by omega, ?_⟩
  · intro h
    obtain ⟨s', hs'⟩ := Option.isSome_iff_exists.mp h
    obtain ⟨hself, hu, hne, hsym, hnow, ha', t, st, acc, ht, hst, hauth, _, hb⟩ := hshape s' hs'
    have hne' : ¬ au.seller = bidder := fun e => hne e.symm
    have h1 := hb au.seller st.2.nft_category_id
    have h2 := hb bidder st.2.nft_category_id
    simp only [and_self, if_true, hne', false_and, if_false] at h1
    simp only [and_self, if_true, hne, false_and, if_false] at h2
    have r1 := balance_range ha' au.seller st.2.nft_category_id
    have r2 := balance_range ha' bidder st.2.nft_category_id
    exact ⟨hself, hu, hne, hsym, hnow, t, st, ht, hst, hauth, by omega, by omega⟩
  · rintro ⟨hself, ⟨u, hu⟩, hne, hsym, hnow, hset⟩
    obtain ⟨s', hs'⟩ := bid_at_target_success hi hai hau hself hu hnow hne hsym hge hset
    rw [hs']
    rfl
  · intro s' h
    obtain ⟨_, _, hne, _, _, _, t, st, acc, ht, hst, _, rfl, hb⟩ := hshape s' h
    have hne' : ¬ au.seller = bidder := fun e => hne e.symm
    refine ⟨⟨t, st, ht, hst, ?_, hb, ?_, ?_⟩, ?_, tfind_terase_self _ _, ?_, rfl⟩
    · show tfind nft_key (set_owner [id] bidder s.nfts) id = _
      rw [tfind_set_owner_single, if_pos rfl, ht, Option.map_some']
    · rw [hb]
      simp only [and_self, if_true, hne', false_and, if_false]
      omega
    · rw [hb]
      simp only [and_self, if_true, hne, false_and, if_false]
      omega
    · intro hin
      exact (mem_release.mp hin).2 (List.mem_singleton.mpr rfl)
    · intro k hk
      show tfind nft_key (set_owner [id] bidder s.nfts) k = _
      rw [tfind_set_owner_single, if_neg hk]

theorem demo_bid98_reachable : Reachable (state_after demo_env demo_bid98) :=
  reachable_state_after demo_env demo_bid98 (by decide)

/-- C14 on the auction of token 2 with target 100, minimum step 5 and a
standing bid of 98: the bid of 100 by user 11, only 2 above the standing bid,
is accepted and settles at once; token 2 goes to user 11 with one unit of
balance, and lock and auction are gone. -/
theorem C14_instant_buy_witness :
    tfind auction_key (state_after demo_env demo_bid98).auctions 2 = some demo_bid98_row ∧
    demo_bid98_row.current_price.amount = 98 ∧ demo_bid98_row.target_price.amount = 100 ∧
    100 - demo_bid98_row.current_price.amount < demo_bid98_row.min_bid_price.amount ∧
    (bid demo_env 2 11 ⟨100, COME⟩ (state_after demo_env demo_bid98)).isSome = true ∧
    bid demo_env 2 11 ⟨100, COME⟩ (state_after demo_env demo_bid98) =
      some (state_after demo_env demo_bid98_target) ∧
    owner_of (state_after demo_env demo_bid98) 2 = some 10 ∧
    owner_of (state_after demo_env demo_bid98_target) 2 = some 11 ∧
    balance (state_after demo_env demo_bid98_target) 10 0 = 2 ∧
    balance (state_after demo_env demo_bid98_target) 11 0 = 1 ∧
    (2 ∉ (state_after demo_env demo_bid98_target).lockednfts ∧
      tfind auction_key (state_after demo_env demo_bid98_target).auctions 2 = none) :=
  ⟨by decide, rfl, rfl, by decide,
    (C14_instant_buy demo_env (state_after demo_env demo_bid98) 2 11 ⟨100, COME⟩
      demo_bid98_row demo_bid98_reachable (by decide) (by decide)).1.mpr
      ⟨by decide, ⟨⟨11, 0⟩, by decide⟩, by decide, rfl, by decide,
        demo_token2, demo_issued_row, by decide, by decide, by decide, by decide, by decide⟩,
    by decide, by decide, by decide, by decide, by decide,
    ((C14_instant_buy demo_env (state_after demo_env demo_bid98) 2 11 ⟨100, COME⟩
      demo_bid98_row demo_bid98_reachable (by decide) (by decide)).2.2
      (state_after demo_env demo_bid98_target) (by decide)).2.1,
    ((C14_instant_buy demo_env (state_after demo_env demo_bid98) 2 11 ⟨100, COME⟩
      demo_bid98_row demo_bid98_reachable (by decide) (by decide)).2.2
      (state_after demo_env demo_bid98_target) (by decide)).2.2.1⟩

end Nfts

/-!
# The claim on direct transfers
-/

namespace Nfts

/-- Handing tokens to a new owner and rewriting balances does not change the
category of any token. -/
theorem category_of_set_owner (s : State) (ids : List Nat) (to_ : Nat)
    (acc : List (Nat × account)) (id : Nat) :
    category_of { s with nfts := set_owner ids to_ s.nfts, accounts := acc } id =
      category_of s id := by
  unfold category_of
  simp only [tfind_set_owner]
  cases tfind nft_key s.nfts id with
  | none => rfl
  | some t => simp only [Option.map_some', andThen_some, owner_ite_key]

theorem count_in_set_owner (s : State) (ids : List Nat) (to_ : Nat)
    (acc : List (Nat × account)) (l : List Nat) (c : Nat) :
    count_in { s with nfts := set_owner ids to_ s.nfts, accounts := acc } l c =
      count_in s l c := by
  unfold count_in
  simp only [category_of_set_owner]

theorem count_in_cons (s : State) (x : Nat) (l : List Nat) (c : Nat) :
    count_in s (x :: l) c = (if category_of s x = some c then 1 else 0) + count_in s l c := by
  unfold count_in
  by_cases h : category_of s x = some c
  · simp [List.filter_cons, h]
    omega
  · simp [List.filter_cons, h]

theorem category_of_eq {s : State} {id : Nat} {t : nft} {st : Nat × nft_stat}
    (ht : tfind nft_key s.nfts id = some t)
    (hst : tfind stat_key s.stats (t.event, t.nft_name) = some st) :
    category_of s id = some st.2.nft_category_id := by
  unfold category_of
  rw [ht, andThen_some, hst, andThen_some]

/-- The ownership loop moves, for each category, as many units of balance
from `from_` to `to_` as the list has tokens of that category. -/
theorem changeowner_balance {env : Env} {from_ to_ : Nat} {ist : Bool} :
    ∀ (ids : List Nat) (s s' : State), SupplyInv s → AcctInv s →
      forEach (changeowner_step env from_ to_ ist) ids s = some s' →
      ∀ o c, balance s' o c =
        balance s o c - (if o = from_ then (count_in s ids c : Int) else 0)
          + (if o = to_ then (count_in s ids c : Int) else 0)
  | [], s, s', _, _, h, o, c => by
    simp only [forEach_nil, Option.some.injEq] at h
    subst h
    simp [count_in]
  | x :: l, s, s', hs, ha, h, o, c => by
    obtain ⟨s1, h1, h2⟩ := forEach_cons_eq_some.mp h
    obtain ⟨t, st, acc1, ht, hst, _, _, rfl, ha1, _, hbal1, _⟩ :=
      changeowner_step_effect hs ha h1
    have hs1 : SupplyInv { s with nfts := set_owner [x] to_ s.nfts, accounts := acc1 } :=
      SupplyInv_of_stats (s := s) rfl hs
    have ih := changeowner_balance l _ s' hs1 ha1 h2 o c
    rw [ih, hbal1 o c, count_in_set_owner, count_in_cons, category_of_eq ht hst]
    by_cases e3 : c = st.2.nft_category_id
    · subst e3
      by_cases e1 : o = from_ <;> by_cases e2 : o = to_ <;> simp [e1, e2] <;> omega
    · have e3' : ¬ some st.2.nft_category_id = some c := by
        intro e
        exact e3 (Option.some.inj e).symm
      by_cases e1 : o = from_ <;> by_cases e2 : o = to_ <;> simp [e1, e2, e3, e3']

/-- A direct transfer goes through only on a list without repetition of
tokens that `from_` owns and whose categories are transferable. -/
theorem transfer_requires {env : Env} {from_ to_ : Nat} (hne : from_ ≠ to_) :
    ∀ (ids : List Nat) (s s' : State), SupplyInv s → AcctInv s →
      forEach (changeowner_step env from_ to_ true) ids s = some s' →
      ids.Nodup ∧ ∀ id ∈ ids, ∃ t st, tfind nft_key s.nfts id = some t ∧ t.owner = from_ ∧
        tfind stat_key s.stats (t.event, t.nft_name) = some st ∧ st.2.transferable = true
  | [], _, _, _, _, _ => ⟨List.nodup_nil, fun id hid => by cases hid⟩
  | x :: l, s, s', hs, ha, h => by
    obtain ⟨s1, h1, h2⟩ := forEach_cons_eq_some.mp h
    obtain ⟨t, st, acc1, ht, hst, _, hist, rfl, ha1, _, _, _⟩ :=
      changeowner_step_effect hs ha h1
    have hs1 : SupplyInv { s with nfts := set_owner [x] to_ s.nfts, accounts := acc1 } :=
      SupplyInv_of_stats (s := s) rfl hs
    obtain ⟨hnd, hall⟩ := transfer_requires hne l _ s' hs1 ha1 h2
    obtain ⟨hown, htr, _⟩ := hist rfl
    have hback : ∀ id ∈ l, id ≠ x ∧ ∃ t st, tfind nft_key s.nfts id = some t ∧
        t.owner = from_ ∧ tfind stat_key s.stats (t.event, t.nft_name) = some st ∧
        st.2.transferable = true := by
      intro id hid
      obtain ⟨t', st', ht', hown', hst', htr'⟩ := hall id hid
      have ht'' : tfind nft_key (set_owner [x] to_ s.nfts) id = some t' := ht'
      rw [tfind_set_owner_single] at ht''
      by_cases e : id = x
      · rw [if_pos e] at ht''
        cases hf : tfind nft_key s.nfts id with
        | none => rw [hf] at ht''; cases ht''
        | some t0 =>
          rw [hf, Option.map_some'] at ht''
          have e' := Option.some.inj ht''
          rw [← e'] at hown'
          exact absurd hown' (fun e0 => hne e0.symm)
      · rw [if_neg e] at ht''
        exact ⟨e, t', st', ht'', hown', hst', htr'⟩
    refine ⟨List.nodup_cons.mpr ⟨fun hin => (hback x hin).1 rfl, hnd⟩, ?_⟩
    intro id hid
    rcases List.mem_cons.mp hid with rfl | hid'
    · exact ⟨t, st, ht, hown, hst, htr⟩
    · exact (hback id hid').2

/-- C15: in a reachable ledger a direct `transfer` fails, and the ledger is
then as before, whenever `from_` equals `to_`, or some listed id is not a
token owned by `from_`, or some listed token belongs to a category that is not
transferable, or the list repeats an id.  On success every listed token has
owner `to_` and its other fields as before, every other token is as before,
for each category `from_` holds as many units less and `to_` as many more as
the list has tokens of that category, and categories, locks, asks and auctions
are as before. -/
theorem C15_transfer (env : Env) (s : State) (from_ to_ : Nat) (ids : List Nat) (memo : String)
    (hr : Reachable s) :
    ((from_ = to_ ∨ (∃ id ∈ ids, owner_of s id ≠ some from_) ∨
        (∃ id ∈ ids, ∃ t st, tfind nft_key s.nfts id = some t ∧
          tfind stat_key s.stats (t.event, t.nft_name) = some st ∧
          st.2.transferable = false) ∨
        ¬ ids.Nodup) →
      transfer env from_ to_ ids memo s = none ∧
        commit (transfer env from_ to_ ids memo s) s = s) ∧
    (∀ s', transfer env from_ to_ ids memo s = some s' →
      (∀ id ∈ ids, ∃ t, tfind nft_key s.nfts id = some t ∧
        tfind nft_key s'.nfts id = some { t with owner := to_ }) ∧
      (∀ k, k ∉ ids → tfind nft_key s'.nfts k = tfind nft_key s.nfts k) ∧
      s'.nfts.length = s.nfts.length ∧
      (∀ o c, balance s' o c =
        balance s o c - (if o = from_ then (count_in s ids c : Int) else 0)
          + (if o = to_ then (count_in s ids c : Int) else 0)) ∧
      s'.stats = s.stats ∧ s'.lockednfts = s.lockednfts ∧ s'.asks = s.asks ∧
      s'.auctions = s.auctions) := by
  have hi := Inv_of_reachable hr
  have hreq : ∀ s', transfer env from_ to_ ids memo s = some s' →
      from_ ≠ to_ ∧ forEach (changeowner_step env from_ to_ true) ids s = some s' := by
    intro s' h
    unfold transfer at h
    obtain ⟨h0, h1⟩ := check_eq_some.mp h
    obtain ⟨_, _, h2⟩ := andThen_eq_some.mp h1
    obtain ⟨_, _, h3⟩ := andThen_eq_some.mp h2
    obtain ⟨_, h4⟩ := check_eq_some.mp h3
    exact ⟨h0, h4⟩
  constructor
  · intro hbad
    have hnone : transfer env from_ to_ ids memo s = none := by
      apply none_of_not_some
      intro s' h
      obtain ⟨hne, hloop⟩ := hreq s' h
      obtain ⟨hnd, hall⟩ := transfer_requires hne ids s s' hi.supply hi.acct hloop
      rcases hbad with e | ⟨id, hid, hown⟩ | ⟨id, hid, t, st, ht, hst, htr⟩ | hdup
      · exact hne e
      · obtain ⟨t, st, ht, hown', _, _⟩ := hall id hid
        apply hown
        unfold owner_of
        rw [ht, Option.map_some', hown']
      · obtain ⟨t', st', ht', _, hst', htr'⟩ := hall id hid
        rw [ht] at ht'
        cases ht'
        rw [hst] at hst'
        cases hst'
        rw [htr] at htr'
        cases htr'
      · exact hdup hnd
    rw [hnone]
    exact ⟨rfl, rfl⟩
  · intro s' h
    obtain ⟨hne, hloop⟩ := hreq s' h
    obtain ⟨_, hall⟩ := transfer_requires hne ids s s' hi.supply hi.acct hloop
    have hbal := changeowner_balance ids s s' hi.supply hi.acct hloop
    obtain ⟨_, acc, rfl, _, _, _⟩ := transfer_effect hi.supply hi.acct h
    refine ⟨?_, ?_, ?_, hbal, rfl, rfl, rfl, rfl⟩
    · intro id hid
      obtain ⟨t, _, ht, _, _, _⟩ := hall id hid
      refine ⟨t, ht, ?_⟩
      show tfind nft_key (set_owner ids to_ s.nfts) id = _
      have hk : t.id ∈ ids := by
        have e : t.id = id := (tfind_some ht).2
        rw [e]
        exact hid
      rw [tfind_set_owner, ht, Option.map_some', if_pos hk]
    · intro k hk
      show tfind nft_key (set_owner ids to_ s.nfts) k = _
      rw [tfind_set_owner]
      cases hf : tfind nft_key s.nfts k with
      | none => rfl
      | some t =>
        have hk' : ¬ t.id ∈ ids := by
          have e : t.id = k := (tfind_some hf).2
          rw [e]
          exact hk
        rw [Option.map_some', if_neg hk']
    · show (set_owner ids to_ s.nfts).length = _
      unfold set_owner
      rw [List.length_map]

theorem demo_transferred_reachable : Reachable (state_after demo_env demo_transferred) :=
  reachable_state_after demo_env demo_transferred (by decide)

/-- C15 at the ledger with tokens 0, 1 and 2 of user 10: the transfer of
tokens 0 and 1 to user 11 moves two units of balance; a transfer to oneself, a
transfer by user 11 who owns none of them, and a transfer that lists token 0
twice all fail. -/
theorem C15_transfer_witness :
    transfer demo_env 10 11 [0, 1] "" (state_after demo_env demo_issued) =
      some (state_after demo_env demo_transferred) ∧
    count_in (state_after demo_env demo_issued) [0, 1] 0 = 2 ∧
    (∀ o c, balance (state_after demo_env demo_transferred) o c =
      balance (state_after demo_env demo_issued) o c
        - (if o = 10 then (count_in (state_after demo_env demo_issued) [0, 1] c : Int) else 0)
        + (if o = 11 then (count_in (state_after demo_env demo_issued) [0, 1] c : Int) else 0)) ∧
    owner_of (state_after demo_env demo_transferred) 0 = some 11 ∧
    owner_of (state_after demo_env demo_transferred) 2 = some 10 ∧
    (transfer demo_env 10 10 [0] "" (state_after demo_env demo_issued) = none ∧
      commit (transfer demo_env 10 10 [0] "" (state_after demo_env demo_issued))
        (state_after demo_env demo_issued) = state_after demo_env demo_issued) ∧
    (transfer demo_env 11 10 [0] "" (state_after demo_env demo_issued) = none ∧
      commit (transfer demo_env 11 10 [0] "" (state_after demo_env demo_issued))
        (state_after demo_env demo_issued) = state_after demo_env demo_issued) ∧
    (transfer demo_env 10 11 [0, 0] "" (state_after demo_env demo_issued) = none ∧
      commit (transfer demo_env 10 11 [0, 0] "" (state_after demo_env demo_issued))
        (state_after demo_env demo_issued) = state_after demo_env demo_issued) :=
  ⟨by decide, by decide,
    ((C15_transfer demo_env (state_after demo_env demo_issued) 10 11 [0, 1] ""
      demo_issued_reachable).2 (state_after demo_env demo_transferred) (by decide)).2.2.2.1,
    by decide, by decide,
    (C15_transfer demo_env (state_after demo_env demo_issued) 10 10 [0] ""
      demo_issued_reachable).1 (Or.inl rfl),
    (C15_transfer demo_env (state_after demo_env demo_issued) 11 10 [0] ""
      demo_issued_reachable).1 (Or.inr (Or.inl ⟨0, by decide, by decide⟩)),
    (C15_transfer demo_env (state_after demo_env demo_issued) 10 11 [0, 0] ""
      demo_issued_reachable).1 (Or.inr (Or.inr (Or.inr (by decide))))⟩

end Nfts

/-!
# The claims on delegated tokens and on category ids
-/

namespace Nfts

/-- Lookup in a table whose rows were rewritten without touching the keys. -/
theorem tfind_map_key {α κ : Type} [DecidableEq κ] {key : α → κ} (g : α → α)
    (hg : ∀ r, key (g r) = key r) (t : List α) (k : κ) :
    tfind key (t.map g) k = (tfind key t k).map g := by
  induction t with
  | nil => rfl
  | cons a t ih =>
    rw [List.map_cons, tfind_cons, tfind_cons, hg]
    by_cases h : key a = k
    · simp [h]
    · simp only [h, if_false]
      exact ih

/-- A rewrite of the token rows that keeps keys, and keeps the delegate of
the token `id` set, keeps the token delegated. -/
theorem delegated_map {s s' : State} {id : Nat} {g : nft → nft}
    (hk : ∀ t, nft_key (g t) = nft_key t)
    (hsh : ∀ t, nft_key t = id → t.shared_with ≠ 0 → (g t).shared_with ≠ 0)
    (h : s'.nfts = s.nfts.map g) (hd : delegated s id) : delegated s' id := by
  obtain ⟨t, ht, hne⟩ := hd
  refine ⟨g t, ?_, hsh t (tfind_some ht).2 hne⟩
  rw [h, tfind_map_key g hk, ht]
  rfl

theorem delegated_map_same {s s' : State} {id : Nat} {g : nft → nft}
    (hk : ∀ t, nft_key (g t) = nft_key t) (hsh : ∀ t, (g t).shared_with = t.shared_with)
    (h : s'.nfts = s.nfts.map g) (hd : delegated s id) : delegated s' id :=
  delegated_map hk (fun t _ hne => by rw [hsh]; exact hne) h hd

theorem delegated_frame {s s' : State} {id : Nat} (h : s'.nfts = s.nfts)
    (hd : delegated s id) : delegated s' id := by
  unfold delegated at hd ⊢
  rw [h]
  exact hd

theorem owner_ite_nft_key (c : Prop) [Decidable c] (t : nft) (o : Nat) :
    nft_key (if c then { t with owner := o } else t) = nft_key t := by
  split <;> rfl

theorem owner_ite_shared (c : Prop) [Decidable c] (t : nft) (o : Nat) :
    (if c then { t with owner := o } else t).shared_with = t.shared_with := by
  split <;> rfl

theorem price_ite_nft_key (c : Prop) [Decidable c] (t : nft) (p : asset) :
    nft_key (if c then { t with resale_price := p } else t) = nft_key t := by
  split <;> rfl

theorem price_ite_shared_with (c : Prop) [Decidable c] (t : nft) (p : asset) :
    (if c then { t with resale_price := p } else t).shared_with = t.shared_with := by
  split <;> rfl

theorem shared_ite_nft_key (c : Prop) [Decidable c] (t : nft) (o : Nat) :
    nft_key (if c then { t with shared_with := o } else t) = nft_key t := by
  split <;> rfl

/-- After a successful `share` with an identity other than 0 the token is
delegated. -/
theorem delegated_of_share {env : Env} {from_ id to_ : Nat} {s s1 : State}
    (h : share env from_ id to_ s = some s1) (hto : to_ ≠ 0) : delegated s1 id := by
  obtain ⟨_, _, ⟨t, _, ht, _, _⟩, rfl⟩ := share_eq_some.mp h
  refine ⟨{ t with shared_with := to_ }, ?_, hto⟩
  refine Eq.trans (tfind_tmodify s.nfts id id _ ?_) ?_
  · intro r
    rfl
  · rw [ht, Option.map_some', if_pos (tfind_some ht).2]

/-- A delegated token stays delegated through every successful action other
than an `unshare` of it and a `share` of it with identity 0. -/
theorem delegated_step {env : Env} {a : Action} {s s' : State} {id : Nat} (hi : Inv s)
    (hd : delegated s id) (hkeep : a.clears_share id = false) (h : a.run env s = some s') :
    delegated s' id := by
  cases a with
  | setconfig version =>
    obtain ⟨cfg, rfl, _⟩ := setconfig_effect h
    exact delegated_frame rfl hd
  | createacc i signature caller =>
    have := createacc_effect h
    subst this
    exact delegated_frame rfl hd
  | createnft issuer event nft_name burnable sellable transferable price max_per_account
      sale_split base_uri max_supply =>
    obtain ⟨cfg, events, _, _, _, _, _, _, _, _, _, _, _, _, rfl⟩ := createnft_effect h
    exact delegated_frame rfl hd
  | deleteeve event =>
    have := deleteeve_effect h
    subst this
    exact delegated_frame rfl hd
  | deletestats event nft_name =>
    obtain ⟨st, cfg, _, _, _, rfl⟩ := deletestats_effect h
    exact delegated_frame rfl hd
  | issue to_ event nft_name quantity relative_uri memo =>
    obtain ⟨st, acc, _, _, _, _, _, _, _, _, _, _, rfl, _, _, _⟩ :=
      issue_effect hi.token.keys hi.supply hi.acct h
    obtain ⟨t, ht, hne⟩ := hd
    refine ⟨t, ?_, hne⟩
    show tfind nft_key (s.nfts ++ _) id = some t
    rw [tfind_append, ht]
    rfl
  | transfer from_ to_ nft_ids memo =>
    obtain ⟨_, acc, rfl, _, _, _⟩ := transfer_effect hi.supply hi.acct h
    exact delegated_map_same (fun t => owner_ite_nft_key _ t to_)
      (fun t => owner_ite_shared _ t to_) (set_owner_eq_map nft_ids to_ s.nfts) hd
  | listsale seller event nft_name nft_ids net_sale_price =>
    obtain ⟨_, _, _, b, _, _, _, _, _, rfl⟩ := listsale_eq_some.mp h
    exact delegated_map_same (fun t => price_ite_nft_key _ t _)
      (fun t => price_ite_shared_with _ t _) (set_price_eq_map nft_ids _ s.nfts) hd
  | closesale seller batch_id =>
    obtain ⟨a, _, _, _, _, _, _, rfl⟩ := closesale_eq_some.mp h
    exact delegated_map_same (fun t => price_ite_nft_key _ t _)
      (fun t => price_ite_shared_with _ t _) (set_price_eq_map a.nft_ids _ s.nfts) hd
  | share from_ i to_ =>
    obtain ⟨_, _, _, rfl⟩ := share_eq_some.mp h
    refine delegated_map (fun t => shared_ite_nft_key _ t to_) ?_ (tmodify_eq_map s.nfts i _) hd
    intro t hk hne
    by_cases e : i = id
    · have hto : to_ ≠ 0 := by
        intro e0
        simp [Action.clears_share, e, e0] at hkeep
      have hk' : nft_key t = i := by rw [hk, e]
      rw [if_pos hk']
      exact hto
    · have hk' : ¬ nft_key t = i := by
        rw [hk]
        exact fun e0 => e e0.symm
      rw [if_neg hk']
      exact hne
  | unshare i =>
    obtain ⟨_, rfl⟩ := unshare_eq_some.mp h
    refine delegated_map (fun t => shared_ite_nft_key _ t 0) ?_ (tmodify_eq_map s.nfts i _) hd
    intro t hk hne
    have e : ¬ i = id := by
      intro e0
      simp [Action.clears_share, e0] at hkeep
    have hk' : ¬ nft_key t = i := by
      rw [hk]
      exact fun e0 => e e0.symm
    rw [if_neg hk']
    exact hne
  | buy to_ batch_id memo =>
    obtain ⟨a, acc, _, _, _, _, _, _, _, rfl, _, _, _⟩ := buy_effect hi.supply hi.acct h
    have h1 : delegated { s with nfts := set_owner a.nft_ids to_ s.nfts } id :=
      delegated_map_same (fun t => owner_ite_nft_key _ t to_)
        (fun t => owner_ite_shared _ t to_) (set_owner_eq_map a.nft_ids to_ s.nfts) hd
    refine delegated_map_same ?_ ?_
      (set_price_eq_map a.nft_ids zero_price (set_owner a.nft_ids to_ s.nfts)) h1
    · intro t
      exact price_ite_nft_key _ t _
    · intro t
      exact price_ite_shared_with _ t _
  | createauctn seller event nft_id target_price min_bid_price expiration =>
    obtain ⟨_, _, _, _, _, _, _, rfl⟩ := createauctn_eq_some.mp h
    exact delegated_frame rfl hd
  | closeauctn seller nft_id =>
    obtain ⟨_, au, _, _, _, _, _, rfl⟩ := closeauctn_eq_some.mp h
    exact delegated_frame rfl hd
  | bid nft_id bidder bid_price =>
    obtain ⟨au, _, _, _, _, _, _, _, _, _, _, hcase⟩ := bid_effect hi.supply hi.acct h
    rcases hcase with ⟨_, acc, _, rfl, _, _, _, _⟩ | ⟨_, _, rfl⟩
    · exact delegated_map_same (fun t => owner_ite_nft_key _ t bidder)
        (fun t => owner_ite_shared _ t bidder) (set_owner_eq_map [nft_id] bidder s.nfts) hd
    · exact delegated_frame rfl hd
  | finalize nft_id seller =>
    obtain ⟨au, acc, _, _, _, _, _, _, rfl, _, _, _, _⟩ :=
      finalize_effect hi.supply hi.acct h
    by_cases hb : au.bidder ≠ 0
    · have e : (if au.bidder ≠ 0 then set_owner [nft_id] au.bidder s.nfts else s.nfts) =
          s.nfts.map (fun t => if t.id ∈ [nft_id] then { t with owner := au.bidder } else t) := by
        rw [if_pos hb, set_owner_eq_map]
      exact delegated_map_same (fun t => owner_ite_nft_key _ t au.bidder)
        (fun t => owner_ite_shared _ t au.bidder) e hd
    · refine delegated_frame ?_ hd
      show (if au.bidder ≠ 0 then _ else _) = _
      rw [if_neg hb]

/-- A delegated token stays delegated along every run without an `unshare`
of it and without a `share` of it with identity 0. -/
theorem delegated_of_runs {s1 s2 : State} {id : Nat} (hr : Reachable s1)
    (hd : delegated s1 id) (h : RunsBy (fun a => a.clears_share id = false) s1 s2) :
    delegated s2 id := by
  induction h with
  | here => exact hd
  | step env a hruns hallow hrun ih =>
    exact delegated_step (Inv_of_reachable (reachable_of_runs hr hruns)) ih hallow hrun

/-- A delegated token can be neither listed nor auctioned. -/
theorem delegated_blocks {s : State} {id : Nat} (hd : delegated s id) :
    (∀ env seller ev nm ids P, id ∈ ids → listsale env seller ev nm ids P s = none) ∧
    (∀ env seller ev target minbid expiration,
      createauctn env seller ev id target minbid expiration s = none) := by
  obtain ⟨t, ht, hne⟩ := hd
  constructor
  · intro env seller ev nm ids P hin
    apply none_of_not_some
    intro s' h
    obtain ⟨_, _, _, b, _, _, hlist, _, _, _⟩ := listsale_eq_some.mp h
    obtain ⟨t', _, ht', _, _, hsh, _⟩ := hlist id hin
    rw [ht] at ht'
    cases ht'
    exact hne hsh
  · intro env seller ev target minbid expiration
    apply none_of_not_some
    intro s' h
    obtain ⟨_, _, _, _, ⟨t', _, ht', _, hsh, _⟩, _, _, _⟩ := createauctn_eq_some.mp h
    rw [ht] at ht'
    cases ht'
    exact hne hsh

/-- C16 fails as stated for the delegate identity 0: user 10 shares token 2
with identity 0 (`from != to`), the `share` succeeds, and right after it both a
`listsale` of the token and a `createauctn` on it succeed. -/
theorem C16_share_with_zero_counterexample :
    Reachable (state_after demo_env demo_issued) ∧ (10 : Nat) ≠ 0 ∧
    share demo_env 10 2 0 (state_after demo_env demo_issued) =
      some (state_after demo_env demo_shared_zero) ∧
    (listsale demo_env 10 100 5 [2] ⟨50, COME⟩
      (state_after demo_env demo_shared_zero)).isSome = true ∧
    (createauctn demo_env 10 100 2 ⟨100, COME⟩ ⟨5, COME⟩ 5000
      (state_after demo_env demo_shared_zero)).isSome = true :=
  ⟨demo_issued_reachable, by decide, by decide, by decide, by decide⟩

/-- C16 (amended): after a successful `share` of a token with an identity
`to_` other than 0 in a reachable ledger, and along every run of successful
actions that contains neither an `unshare` of the token nor a `share` of it
with identity 0, every `listsale` whose id list contains the token and every
`createauctn` on the token fails; and `share` itself (which requires
`from_ != to_`) changes no balance and the owner of no token. -/
theorem C16_share_blocks_listing (env : Env) (s s1 s2 : State) (from_ id to_ : Nat)
    (hr : Reachable s) (hshare : share env from_ id to_ s = some s1) (hto : to_ ≠ 0)
    (hruns : RunsBy (fun a => a.clears_share id = false) s1 s2) :
    (∀ env2 seller ev nm ids P, id ∈ ids → listsale env2 seller ev nm ids P s2 = none) ∧
    (∀ env2 seller ev target minbid expiration,
      createauctn env2 seller ev id target minbid expiration s2 = none) ∧
    from_ ≠ to_ ∧ s1.accounts = s.accounts ∧ (∀ k, owner_of s1 k = owner_of s k) ∧
    s1.stats = s.stats := by
  have hr1 : Reachable s1 := reachable_step (a := Action.share from_ id to_) hr hshare
  have hd := delegated_of_runs hr1 (delegated_of_share hshare hto) hruns
  obtain ⟨hne, _, _, rfl⟩ := share_eq_some.mp hshare
  refine ⟨(delegated_blocks hd).1, (delegated_blocks hd).2, hne, rfl, ?_, rfl⟩
  intro k
  unfold owner_of
  show (tfind nft_key (tmodify nft_key s.nfts id _) k).map nft.owner = _
  rw [tmodify_eq_map, tfind_map_key _ (fun t => shared_ite_nft_key _ t to_), Option.map_map]
  congr 1
  funext t
  simp only [Function.comp]
  split <;> rfl

theorem demo_shared_runs :
    RunsBy (fun a => a.clears_share 2 = false) (state_after demo_env demo_shared)
      (state_after demo_env demo_shared_then) :=
  RunsBy.step demo_env (Action.transfer 10 11 [0] "") RunsBy.here rfl (by decide)

/-- C16 (amended) at the share of token 2 of user 10 with user 11: after it,
and after a transfer of token 0 that follows, a `listsale` of token 2 and a
`createauctn` on it fail; the share moved no balance. -/
theorem C16_share_blocks_listing_witness :
    share demo_env 10 2 11 (state_after demo_env demo_issued) =
      some (state_after demo_env demo_shared) ∧
    listsale demo_env 10 100 5 [2] ⟨50, COME⟩ (state_after demo_env demo_shared_then) = none ∧
    createauctn demo_env 10 100 2 ⟨100, COME⟩ ⟨5, COME⟩ 5000
      (state_after demo_env demo_shared_then) = none ∧
    (state_after demo_env demo_shared).accounts = (state_after demo_env demo_issued).accounts :=
  ⟨by decide,
    (C16_share_blocks_listing demo_env (state_after demo_env demo_issued)
      (state_after demo_env demo_shared) (state_after demo_env demo_shared_then) 10 2 11
      demo_issued_reachable (by decide) (by decide) demo_shared_runs).1
      demo_env 10 100 5 [2] ⟨50, COME⟩ (by decide),
    (C16_share_blocks_listing demo_env (state_after demo_env demo_issued)
      (state_after demo_env demo_shared) (state_after demo_env demo_shared_then) 10 2 11
      demo_issued_reachable (by decide) (by decide) demo_shared_runs).2.1
      demo_env 10 100 ⟨100, COME⟩ ⟨5, COME⟩ 5000,
    (C16_share_blocks_listing demo_env (state_after demo_env demo_issued)
      (state_after demo_env demo_shared) (state_after demo_env demo_shared_then) 10 2 11
      demo_issued_reachable (by decide) (by decide) demo_shared_runs).2.2.2.1⟩

/-- C17 fails as stated: categories 5 and 6 are created with ids 0 and 1,
category 5 is deleted, and the category 8 created next is given id 1 again, so
that two different stored categories carry the same `nft_category_id`. -/
theorem C17_category_id_reused_counterexample :
    Reachable (state_after demo_env demo_two_ids) ∧
    demo_two_ids_first ∈ (state_after demo_env demo_two_ids).stats ∧
    demo_two_ids_second ∈ (state_after demo_env demo_two_ids).stats ∧
    demo_two_ids_first ≠ demo_two_ids_second ∧
    demo_two_ids_first.2.nft_category_id = 1 ∧
    demo_two_ids_second.2.nft_category_id = 1 :=
  ⟨demo_two_ids_reachable, by decide, by decide, by decide, rfl, rfl⟩

/-- C17 (amended): in every ledger reached without `deletestats` that stores
fewer than `2^64` categories, different stored categories have different
`nft_category_id` values, and every successful `createnft` stores the new
category (after the ones stored before) with an id strictly greater than the
id of every category stored before, that is, of every category created
earlier. -/
theorem C17_ids_increase_while_kept (s : State) (hk : ReachableKeeping s)
    (hlen : s.stats.length < 18446744073709551616) :
    (∀ r ∈ s.stats, ∀ r2 ∈ s.stats, r.2.nft_category_id = r2.2.nft_category_id → r = r2) ∧
    (∀ env issuer ev nm burnable sellable transferable price cap split uri max_supply s',
      createnft env issuer ev nm burnable sellable transferable price cap split uri max_supply
        s = some s' →
      ∃ r, s'.stats = s.stats ++ [r] ∧ stat_key r = (ev, nm) ∧
        r.2.nft_category_id = s.stats.length ∧
        ∀ r0 ∈ s.stats, r0.2.nft_category_id < r.2.nft_category_id) := by
  have hc := CatInv_of_keeping hk hlen
  constructor
  · intro r hr r2 hr2 e
    exact stat_id_inj hc hr hr2 e
  · intro env issuer ev nm burnable sellable transferable price cap split uri max_supply s' h
    obtain ⟨cfg, events, hcfg, _, _, _, _, _, _, _, _, _, _, _, rfl⟩ := createnft_effect h
    have hcount := hc.counter cfg hcfg
    refine ⟨_, rfl, rfl, hcount, ?_⟩
    intro r0 hr0
    show r0.2.nft_category_id < cfg.nft_category_id
    rw [hcount]
    exact stat_id_lt hc hr0

/-- C17 (amended) at the ledger with the one category 5 of id 0: the
category 6 created next is given id 1. -/
theorem C17_ids_increase_while_kept_witness :
    ReachableKeeping (state_after demo_env demo_setup) ∧
    (state_after demo_env demo_setup).stats = [demo_setup_row] ∧
    demo_setup_row.2.nft_category_id = 0 ∧
    ∃ r, (state_after demo_env demo_second).stats =
        (state_after demo_env demo_setup).stats ++ [r] ∧ stat_key r = (100, 6) ∧
      r.2.nft_category_id = (state_after demo_env demo_setup).stats.length ∧
      ∀ r0 ∈ (state_after demo_env demo_setup).stats,
        r0.2.nft_category_id < r.2.nft_category_id :=
  ⟨demo_setup_keeping, by decide, rfl,
    (C17_ids_increase_while_kept (state_after demo_env demo_setup) demo_setup_keeping
      (by decide)).2 demo_env 7 100 6 false true true ⟨100, COME⟩ 3 0 "uri" ⟨5, CTT⟩
      (state_after demo_env demo_second) (by decide)⟩

end Nfts

/-!
# The claims on amount symbols, on closing a sale and on new categories
-/

namespace Nfts

/-- What the actions do check of the symbols of their amounts: the price and
`max_supply` of `createnft`, the quantity of `issue`, the price of `listsale`,
the target price of `createauctn` and the price of `bid`. -/
theorem amount_symbols_checked (env : Env) (s : State) :
    (∀ issuer ev nm burnable sellable transferable price cap split uri max_supply,
      price.symbol ≠ COME ∨ max_supply.symbol ≠ CTT →
      createnft env issuer ev nm burnable sellable transferable price cap split uri max_supply
        s = none) ∧
    (∀ to_ ev nm q uri memo st, tfind stat_key s.stats (ev, nm) = some st →
      q.symbol ≠ CTT ∨ q.symbol ≠ st.2.max_supply.symbol →
      issue env to_ ev nm q uri memo s = none) ∧
    (∀ seller ev nm ids P, P.symbol ≠ COME → listsale env seller ev nm ids P s = none) ∧
    (∀ seller ev id target minbid expiration, target.symbol ≠ COME →
      createauctn env seller ev id target minbid expiration s = none) ∧
    (∀ id bidder price, price.symbol ≠ COME → bid env id bidder price s = none) := by
  refine ⟨?_, ?_, ?_, ?_, ?_⟩
  · intro issuer ev nm burnable sellable transferable price cap split uri max_supply hbad
    apply none_of_not_some
    intro s' h
    obtain ⟨_, _, _, _, _, _, _, hp, hm, _⟩ := createnft_effect h
    rcases hbad with hbad | hbad
    · exact hbad hp
    · exact hbad hm
  · intro to_ ev nm q uri memo st hst hbad
    apply none_of_not_some
    intro s' h
    unfold issue at h
    obtain ⟨_, h1⟩ := check_eq_some.mp h
    obtain ⟨_, _, h2⟩ := andThen_eq_some.mp h1
    obtain ⟨st0, hst0, h3⟩ := andThen_eq_some.mp h2
    obtain ⟨_, h4⟩ := check_eq_some.mp h3
    obtain ⟨_, h5⟩ := require_auth_eq_some.mp h4
    obtain ⟨⟨hq, _, _⟩, h6⟩ := checkasset_iff.mp h5
    obtain ⟨hqs, _⟩ := check_eq_some.mp h6
    rw [hst] at hst0
    cases hst0
    rcases hbad with hbad | hbad
    · exact hbad hq
    · exact hbad hqs
  · intro seller ev nm ids P hbad
    apply none_of_not_some
    intro s' h
    obtain ⟨_, _, hp, _⟩ := listsale_eq_some.mp h
    exact hbad hp
  · intro seller ev id target minbid expiration hbad
    apply none_of_not_some
    intro s' h
    obtain ⟨_, _, _, hp, _⟩ := createauctn_eq_some.mp h
    exact hbad hp
  · intro id bidder price hbad
    apply none_of_not_some
    intro s' h
    unfold bid at h
    obtain ⟨_, h1⟩ := require_auth_eq_some.mp h
    obtain ⟨_, _, h2⟩ := andThen_eq_some.mp h1
    obtain ⟨_, _, h3⟩ := andThen_eq_some.mp h2
    obtain ⟨_, h4⟩ := check_eq_some.mp h3
    obtain ⟨hp, _⟩ := check_eq_some.mp h4
    exact hbad hp

/-- C18 does not hold of `createauctn`: on token 2 of user 10, with a
`min_bid_price` of 5 `CTT` (precision 0) instead of a `COME` amount, the action
succeeds; the auction is stored with that minimum bid price, the token is
locked, and the ledger has changed. -/
theorem C18_createauctn_min_bid_unchecked :
    (⟨5, CTT⟩ : asset).symbol ≠ COME ∧
    createauctn demo_env 10 100 2 ⟨100, COME⟩ ⟨5, CTT⟩ 5000 (state_after demo_env demo_issued) =
      some (state_after demo_env demo_auction_ctt) ∧
    tfind auction_key (state_after demo_env demo_auction_ctt).auctions 2 =
      some demo_auction_ctt_row ∧
    demo_auction_ctt_row.min_bid_price = ⟨5, CTT⟩ ∧
    (state_after demo_env demo_auction_ctt).lockednfts = [2] ∧
    state_after demo_env demo_auction_ctt ≠ state_after demo_env demo_issued :=
  ⟨by decide, by decide, by decide, rfl, by decide, by decide⟩

/-- The event branch of `createnft` in closed form. -/
theorem createnft_event_eq_some {issuer : name} {ev : Nat} {events events2 : List Nfts.event} :
    createnft_event issuer ev events = some events2 ↔
      (tfind event_key events ev = none ∧
        events2 = events ++ [{ event := ev, creator := issuer }]) ∨
      (∃ e, tfind event_key events ev = some e ∧ e.creator = issuer ∧ events2 = events) := by
  unfold createnft_event
  cases hf : tfind event_key events ev with
  | none =>
    simp only [templace_eq_some, true_and, false_and, exists_false, or_false,
      reduceCtorEq]
    constructor
    · rintro ⟨_, e⟩
      exact e
    · intro e
      exact ⟨fun x hx => tfind_eq_none.mp hf x hx, e⟩
  | some e0 =>
    simp only [check_eq_some, Option.some.injEq, false_and, false_or, exists_eq_left',
      reduceCtorEq]
    constructor
    · rintro ⟨h1, h2⟩
      exact ⟨h1, h2.symm⟩
    · rintro ⟨h1, h2⟩
      exact ⟨h1, h2.symm⟩

/-- `createnft` goes through on valid arguments when the name is free in the
event and the event, if stored, was created by the issuer. -/
theorem createnft_success {env : Env} {issuer : name} {ev : Nat} {nm : name}
    {burnable sellable transferable : Bool} {price : asset} {cap : Fin 256} {split : double}
    {uri : String} {max_supply : asset} {s : State}
    (hauth : issuer ∈ env.auths) (hcap : cap.val > 0) (hp1 : price.amount > 0)
    (hp2 : price.symbol = COME) (hm : max_supply.symbol = CTT) (hm1 : 1 ≤ max_supply.amount)
    (hm2 : max_supply.amount ≤ max_amount) (hacc : issuer ∈ env.chain_accounts)
    (hsplit : double_in_unit split) (hcfg : s.config.isSome = true)
    (hfree : tfind stat_key s.stats (ev, nm) = none)
    (hev : ∀ e, tfind event_key s.events ev = some e → e.creator = issuer) :
    (createnft env issuer ev nm burnable sellable transferable price cap split uri max_supply
      s).isSome = true := by
  obtain ⟨cfg, hcfg'⟩ := Option.isSome_iff_exists.mp hcfg
  have hevents : ∃ events2, createnft_event issuer ev s.events = some events2 := by
    cases hf : tfind event_key s.events ev with
    | none => exact ⟨_, createnft_event_eq_some.mpr (Or.inl ⟨hf, rfl⟩)⟩
    | some e => exact ⟨_, createnft_event_eq_some.mpr (Or.inr ⟨e, hf, hev e hf, rfl⟩)⟩
  obtain ⟨events2, hevents2⟩ := hevents
  have hca : ∀ k : Option State, checkasset max_supply k = k := by
    intro k
    cases hk' : k with
    | none =>
      cases hc : checkasset max_supply none with
      | none => rfl
      | some r => exact absurd (checkasset_iff.mp hc).2 (by simp)
    | some r => exact checkasset_iff.mpr ⟨⟨hm, hm1, hm2⟩, rfl⟩
  have hprec : max_supply.symbol.precision = 0 := (symbol_eq_CTT.mp hm).1
  unfold createnft require_auth
  rw [check_true hauth, check_true hcap, check_true hp1, check_true hp2, hca, check_true hacc,
    check_true hsplit, hcfg', andThen_some, hevents2, andThen_some, hprec, asset_make_zero_CTT,
    andThen_some, andThen_some, check_true hfree,
    templace_of_fresh (fun x hx => tfind_eq_none.mp hfree x hx), andThen_some]
  rfl

/-- C20: in any ledger `createnft` fails, and the ledger is then as before,
when a category of that name is stored under the event, and when the event is
stored with a creator other than the issuer.  On success: an event that was
not stored is stored with the issuer as creator, a stored one is left as it
was; and the new category row is stored under the event and name with
`current_supply` and `issued_supply` zero and the issuer, flags, price, caps,
split, uri and `max_supply` given.  With valid arguments and a stored
configuration the action does succeed when the name is free and the event, if
stored, is one the issuer created. -/
theorem C20_createnft (env : Env) (s : State) (issuer : name) (ev : Nat) (nm : name)
    (burnable sellable transferable : Bool) (price : asset) (cap : Fin 256) (split : double)
    (uri : String) (max_supply : asset) :
    ((∃ st, tfind stat_key s.stats (ev, nm) = some st) →
      createnft env issuer ev nm burnable sellable transferable price cap split uri max_supply
        s = none ∧
      commit (createnft env issuer ev nm burnable sellable transferable price cap split uri
        max_supply s) s = s) ∧
    ((∃ e, tfind event_key s.events ev = some e ∧ e.creator ≠ issuer) →
      createnft env issuer ev nm burnable sellable transferable price cap split uri max_supply
        s = none ∧
      commit (createnft env issuer ev nm burnable sellable transferable price cap split uri
        max_supply s) s = s) ∧
    (∀ s', createnft env issuer ev nm burnable sellable transferable price cap split uri
        max_supply s = some s' →
      (tfind event_key s.events ev = none →
        s'.events = s.events ++ [{ event := ev, creator := issuer }]) ∧
      ((∃ e, tfind event_key s.events ev = some e) → s'.events = s.events) ∧
      (∃ e, tfind event_key s'.events ev = some e ∧ e.creator = issuer) ∧
      ∃ cfg, s.config = some cfg ∧
        tfind stat_key s'.stats (ev, nm) = some (ev,
          { nft_category_id := cfg.nft_category_id, issuer := issuer, nft_name := nm,
            burnable := burnable, sellable := sellable, transferable := transferable,
            price := price, max_per_account := cap, current_supply := ⟨0, CTT⟩,
            issued_supply := ⟨0, CTT⟩, sale_split := split, base_uri := uri,
            max_supply := max_supply }) ∧
        s'.stats.length = s.stats.length + 1 ∧
        (∀ k, k ≠ (ev, nm) → tfind stat_key s'.stats k = tfind stat_key s.stats k)) ∧
    (issuer ∈ env.auths → cap.val > 0 → price.amount > 0 → price.symbol = COME →
      max_supply.symbol = CTT → 1 ≤ max_supply.amount → max_supply.amount ≤ max_amount →
      issuer ∈ env.chain_accounts → double_in_unit split → s.config.isSome = true →
      tfind stat_key s.stats (ev, nm) = none →
      (∀ e, tfind event_key s.events ev = some e → e.creator = issuer) →
      (createnft env issuer ev nm burnable sellable transferable price cap split uri max_supply
        s).isSome = true) := by
  have hc : ∀ r : Option State, r = none → r = none ∧ commit r s = s := by
    intro r hr
    subst hr
    exact ⟨rfl, rfl⟩
  refine ⟨?_, ?_, ?_, createnft_success⟩
  · rintro ⟨st, hst⟩
    apply hc
    apply none_of_not_some
    intro s' h
    obtain ⟨_, _, _, _, _, _, _, _, _, _, _, _, _, hfresh, _⟩ := createnft_effect h
    obtain ⟨hm, hk⟩ := tfind_some hst
    exact hfresh st hm hk
  · rintro ⟨e, he, hne⟩
    apply hc
    apply none_of_not_some
    intro s' h
    obtain ⟨_, _, _, hev, _⟩ := createnft_effect h
    rcases createnft_event_eq_some.mp hev with ⟨hnone, _⟩ | ⟨e0, he0, hcr, _⟩
    · rw [he] at hnone
      cases hnone
    · rw [he] at he0
      cases he0
      exact hne hcr
  · intro s' h
    obtain ⟨cfg, events, hcfg, hev, _, _, _, _, _, _, _, _, _, hfresh, rfl⟩ :=
      createnft_effect h
    have hnone : tfind stat_key s.stats (ev, nm) = none := tfind_eq_none.mpr hfresh
    refine ⟨?_, ?_, ?_, cfg, hcfg, ?_, ?_, ?_⟩
    · intro hf
      rcases createnft_event_eq_some.mp hev with ⟨_, e⟩ | ⟨e0, he0, _, _⟩
      · exact e
      · rw [hf] at he0
        cases he0
    · rintro ⟨e, he⟩
      rcases createnft_event_eq_some.mp hev with ⟨hf, _⟩ | ⟨_, _, _, e1⟩
      · rw [he] at hf
        cases hf
      · exact e1
    · rcases createnft_event_eq_some.mp hev with ⟨hf, e⟩ | ⟨e0, he0, hcr, e1⟩
      · refine ⟨{ event := ev, creator := issuer }, ?_, rfl⟩
        show tfind event_key events ev = _
        rw [e, tfind_append, hf, Option.none_or, tfind_cons]
        simp only [event_key, if_true]
      · refine ⟨e0, ?_, hcr⟩
        show tfind event_key events ev = _
        rw [e1]
        exact he0
    · show tfind stat_key (s.stats ++ _) (ev, nm) = _
      rw [tfind_append, hnone, Option.none_or, tfind_cons]
      simp only [stat_key, if_true]
    · show (s.stats ++ _).length = _
      rw [List.length_append, List.length_singleton]
    · intro k hk
      show tfind stat_key (s.stats ++ _) k = _
      rw [tfind_append, tfind_cons]
      have hne : ¬ stat_key ((ev,
          { nft_category_id := cfg.nft_category_id, issuer := issuer, nft_name := nm,
            burnable := burnable, sellable := sellable, transferable := transferable,
            price := price, max_per_account := cap, current_supply := ⟨0, CTT⟩,
            issued_supply := ⟨0, CTT⟩, sale_split := split, base_uri := uri,
            max_supply := max_supply }) : Nat × nft_stat) = k := fun e => hk e.symm
      rw [if_neg hne, tfind_nil]
      cases tfind stat_key s.stats k <;> rfl

/-- C20 at the ledger with category 5 of event 100 created by issuer 7: a
second category named 5 is refused, an issuer other than the creator of event
100 is refused, and the category named 6 is stored with id 1 and nothing
issued. -/
theorem C20_createnft_witness :
    (createnft demo_env 7 100 5 false true true ⟨100, COME⟩ 3 0 "uri" ⟨5, CTT⟩
        (state_after demo_env demo_setup) = none ∧
      commit (createnft demo_env 7 100 5 false true true ⟨100, COME⟩ 3 0 "uri" ⟨5, CTT⟩
        (state_after demo_env demo_setup)) (state_after demo_env demo_setup) =
          state_after demo_env demo_setup) ∧
    (createnft demo_env 1 100 6 false true true ⟨100, COME⟩ 3 0 "uri" ⟨5, CTT⟩
        (state_after demo_env demo_setup) = none ∧
      commit (createnft demo_env 1 100 6 false true true ⟨100, COME⟩ 3 0 "uri" ⟨5, CTT⟩
        (state_after demo_env demo_setup)) (state_after demo_env demo_setup) =
          state_after demo_env demo_setup) ∧
    (createnft demo_env 7 100 6 false true true ⟨100, COME⟩ 3 0 "uri" ⟨5, CTT⟩
      (state_after demo_env demo_setup)).isSome = true ∧
    tfind stat_key (state_after demo_env demo_second).stats (100, 6) = some demo_second_row ∧
    demo_second_row.2.current_supply = ⟨0, CTT⟩ ∧ demo_second_row.2.issued_supply = ⟨0, CTT⟩ :=
  ⟨(C20_createnft demo_env (state_after demo_env demo_setup) 7 100 5 false true true
      ⟨100, COME⟩ 3 0 "uri" ⟨5, CTT⟩).1 ⟨demo_setup_row, by decide⟩,
    (C20_createnft demo_env (state_after demo_env demo_setup) 1 100 6 false true true
      ⟨100, COME⟩ 3 0 "uri" ⟨5, CTT⟩).2.1 ⟨⟨100, 7⟩, by decide, by decide⟩,
    (C20_createnft demo_env (state_after demo_env demo_setup) 7 100 6 false true true
      ⟨100, COME⟩ 3 0 "uri" ⟨5, CTT⟩).2.2.2 (by decide) (by decide) (by decide) (by decide)
      (by decide) (by decide) (by decide) (by decide) (by decide) (by decide) (by decide)
      (by decide),
    by decide, rfl, rfl⟩

end Nfts

/-!
# The claims on the prices of a listing and on closing an auction
-/

namespace Nfts

theorem demo_closed_reachable : Reachable (state_after demo_env demo_closed) :=
  reachable_state_after demo_env demo_closed (by decide)

end Nfts

/-!
# The claim on the category counter
-/

namespace Nfts

/-- Erasing the row found under a key of a table with distinct keys removes
exactly one row. -/
theorem terase_length {α κ : Type} [DecidableEq κ] {key : α → κ} {k : κ} :
    ∀ (t : List α) (r : α), (t.map key).Nodup → tfind key t k = some r →
      (terase key t k).length + 1 = t.length
  | [], r, _, h => by cases h
  | a :: t, r, hnd, h => by
    rw [List.map_cons, List.nodup_cons] at hnd
    rw [tfind_cons] at h
    by_cases hk : key a = k
    · have habsent : ∀ x ∈ t, key x ≠ k := by
        intro x hx e
        apply hnd.1
        rw [hk, ← e]
        exact List.mem_map_of_mem key hx
      have e1 : terase key (a :: t) k = terase key t k := by
        unfold terase
        simp [List.filter_cons, hk]
      rw [e1, terase_of_absent key t k habsent, List.length_cons]
    · rw [if_neg hk] at h
      have e1 : terase key (a :: t) k = a :: terase key t k := by
        unfold terase
        simp [List.filter_cons, hk]
      rw [e1, List.length_cons, List.length_cons, terase_length t r hnd.2 h]

theorem CountInv_empty : CountInv State.empty :=
  ⟨fun _ => rfl, fun cfg h => by cases h⟩

/-- Configuration and number of categories as before. -/
theorem CountInv_frame {s s' : State} (hc : CountInv s) (h1 : s'.config = s.config)
    (h2 : s'.stats.length = s.stats.length) : CountInv s' := by
  constructor
  · intro h
    rw [h1] at h
    have := hc.no_config h
    rw [this] at h2
    exact List.length_eq_zero.mp h2
  · intro cfg h
    rw [h1] at h
    rw [h2]
    exact hc.counter cfg h

/-- Every successful action keeps the counter level with the number of
stored categories. -/
theorem CountInv_step {env : Env} {a : Action} {s s' : State} (hi : Inv s) (hc : CountInv s)
    (h : a.run env s = some s') : CountInv s' := by
  cases a with
  | setconfig version =>
    obtain ⟨cfg, rfl, hcfg⟩ := setconfig_effect h
    constructor
    · intro h0
      cases h0
    · intro cfg' hcfg'
      simp only [Option.some.injEq] at hcfg'
      subst hcfg'
      cases hs : s.config with
      | none =>
        rw [hs] at hcfg
        rw [hcfg]
        show 0 = s.stats.length % 18446744073709551616
        rw [hc.no_config hs]
        rfl
      | some c0 =>
        rw [hs] at hcfg
        rw [hcfg]
        exact hc.counter c0 hs
  | createacc id signature caller =>
    have := createacc_effect h
    subst this
    exact CountInv_frame hc rfl rfl
  | createnft issuer event nft_name burnable sellable transferable price max_per_account
      sale_split base_uri max_supply =>
    obtain ⟨cfg, events, hcfg, _, _, _, _, _, _, _, _, _, _, _, rfl⟩ := createnft_effect h
    have hcount := hc.counter cfg hcfg
    constructor
    · intro h0
      cases h0
    · intro cfg' hcfg'
      simp only [Option.some.injEq] at hcfg'
      subst hcfg'
      show (cfg.nft_category_id + 1) % 18446744073709551616 =
        (s.stats ++ _).length % 18446744073709551616
      rw [List.length_append, List.length_singleton, hcount]
      omega
  | deleteeve event =>
    have := deleteeve_effect h
    subst this
    exact CountInv_frame hc rfl rfl
  | deletestats event nft_name =>
    obtain ⟨st, cfg, hst, hcfg, _, rfl⟩ := deletestats_effect h
    have hcount := hc.counter cfg hcfg
    have hlen := terase_length s.stats st hi.supply.keys_nodup hst
    constructor
    · intro h0
      cases h0
    · intro cfg' hcfg'
      simp only [Option.some.injEq] at hcfg'
      subst hcfg'
      show (cfg.nft_category_id + 18446744073709551615) % 18446744073709551616 =
        (terase stat_key s.stats (event, nft_name)).length % 18446744073709551616
      rw [hcount]
      omega
  | issue to_ event nft_name quantity relative_uri memo =>
    obtain ⟨st, acc, _, _, _, _, _, _, _, _, _, _, rfl, _, _, _⟩ :=
      issue_effect hi.token.keys hi.supply hi.acct h
    exact CountInv_frame hc rfl (tmodify_length _ _ _ _)
  | transfer from_ to_ nft_ids memo =>
    obtain ⟨_, acc, rfl, _, _, _⟩ := transfer_effect hi.supply hi.acct h
    exact CountInv_frame hc rfl rfl
  | listsale seller event nft_name nft_ids net_sale_price =>
    obtain ⟨_, _, _, b, _, _, _, _, _, rfl⟩ := listsale_eq_some.mp h
    exact CountInv_frame hc rfl rfl
  | closesale seller batch_id =>
    obtain ⟨a, _, _, _, _, _, _, rfl⟩ := closesale_eq_some.mp h
    exact CountInv_frame hc rfl rfl
  | share from_ nft_id to_ =>
    obtain ⟨_, _, _, rfl⟩ := share_eq_some.mp h
    exact CountInv_frame hc rfl rfl
  | unshare nft_id =>
    obtain ⟨_, rfl⟩ := unshare_eq_some.mp h
    exact CountInv_frame hc rfl rfl
  | buy to_ batch_id memo =>
    obtain ⟨a, acc, _, _, _, _, _, _, _, rfl, _, _, _⟩ := buy_effect hi.supply hi.acct h
    exact CountInv_frame hc rfl rfl
  | createauctn seller event nft_id target_price min_bid_price expiration =>
    obtain ⟨_, _, _, _, _, _, _, rfl⟩ := createauctn_eq_some.mp h
    exact CountInv_frame hc rfl rfl
  | closeauctn seller nft_id =>
    obtain ⟨_, au, _, _, _, _, _, rfl⟩ := closeauctn_eq_some.mp h
    exact CountInv_frame hc rfl rfl
  | bid nft_id bidder bid_price =>
    obtain ⟨au, _, _, _, _, _, _, _, _, _, _, hcase⟩ := bid_effect hi.supply hi.acct h
    rcases hcase with ⟨_, acc, _, rfl, _, _, _, _⟩ | ⟨_, _, rfl⟩
    · exact CountInv_frame hc rfl rfl
    · exact CountInv_frame hc rfl rfl
  | finalize nft_id seller =>
    obtain ⟨au, acc, _, _, _, _, _, _, rfl, _, _, _, _⟩ :=
      finalize_effect hi.supply hi.acct h
    exact CountInv_frame hc rfl rfl

/-- In every reachable ledger the counter is the number of stored
categories, as a 64-bit value. -/
theorem CountInv_of_reachable {s : State} (h : Reachable s) : CountInv s := by
  unfold Reachable at h
  induction h with
  | start => exact CountInv_empty
  | step env a hr _ hrun ih => exact CountInv_step (Inv_of_reachableBy hr) ih hrun

theorem demo_non_lifo_reachable : Reachable (state_after demo_env demo_non_lifo) :=
  reachable_state_after demo_env demo_non_lifo (by decide)

/-- C23 fails as stated: after categories 5 and 6 are created in that order
and category 5, the earlier one, is deleted, one category is stored and the
counter is 1; and no reachable ledger with fewer than `2^64` stored categories
has a counter that differs from the number of stored categories. -/
theorem C23_counter_drift_counterexample :
    (Reachable (state_after demo_env demo_non_lifo) ∧
      (state_after demo_env demo_second).stats = [demo_setup_row, demo_second_row] ∧
      (state_after demo_env demo_non_lifo).stats = [demo_second_row] ∧
      (state_after demo_env demo_non_lifo).config.map tokenconfigs.nft_category_id = some 1) ∧
    ¬ ∃ s cfg, Reachable s ∧ s.stats.length < 18446744073709551616 ∧ s.config = some cfg ∧
        cfg.nft_category_id ≠ s.stats.length :=
  ⟨⟨demo_non_lifo_reachable, by decide, by decide, by decide⟩,
    fun ⟨s, cfg, hr, hlen, hcfg, hne⟩ =>
      hne (((CountInv_of_reachable hr).counter cfg hcfg).trans (Nat.mod_eq_of_lt hlen))⟩

/-- C23 (amended): in every reachable ledger the counter `nft_category_id`
is the number of stored categories modulo `2^64`, hence equal to it when fewer
than `2^64` categories are stored, in whatever order categories were deleted;
and every successful `deletestats` removes one category and, with it, releases
one slot of the counter. -/
theorem C23_counter_is_live_count (s : State) (hr : Reachable s) :
    (∀ cfg, s.config = some cfg →
      cfg.nft_category_id = s.stats.length % 18446744073709551616) ∧
    (s.stats.length < 18446744073709551616 → ∀ cfg, s.config = some cfg →
      cfg.nft_category_id = s.stats.length) ∧
    (∀ env ev nm s', deletestats env ev nm s = some s' →
      s'.stats.length + 1 = s.stats.length ∧
      ∃ cfg cfg2, s.config = some cfg ∧ s'.config = some cfg2 ∧
        (s.stats.length < 18446744073709551616 →
          cfg2.nft_category_id + 1 = cfg.nft_category_id ∧
          cfg2.nft_category_id = s'.stats.length)) := by
  have hc := CountInv_of_reachable hr
  have hi := Inv_of_reachable hr
  refine ⟨hc.counter, fun hlen cfg hcfg => (hc.counter cfg hcfg).trans (Nat.mod_eq_of_lt hlen),
    ?_⟩
  intro env ev nm s' h
  obtain ⟨st, cfg, hst, hcfg, _, rfl⟩ := deletestats_effect h
  have hlen := terase_length s.stats st hi.supply.keys_nodup hst
  refine ⟨hlen, cfg, _, hcfg, rfl, ?_⟩
  intro hlt
  have hcount := hc.counter cfg hcfg
  show (cfg.nft_category_id + 18446744073709551615) % 18446744073709551616 + 1 =
      cfg.nft_category_id ∧
    (cfg.nft_category_id + 18446744073709551615) % 18446744073709551616 =
      (terase stat_key s.stats (ev, nm)).length
  omega

/-- C23 (amended) at the ledger in which category 5 was deleted before
category 6: the counter is 1 and one category is stored. -/
theorem C23_counter_is_live_count_witness :
    Reachable (state_after demo_env demo_non_lifo) ∧
    (state_after demo_env demo_non_lifo).stats.length = 1 ∧
    (∀ cfg, (state_after demo_env demo_non_lifo).config = some cfg →
      cfg.nft_category_id = (state_after demo_env demo_non_lifo).stats.length) ∧
    deletestats demo_env 100 5 (state_after demo_env demo_second) =
      some (state_after demo_env demo_non_lifo) :=
  ⟨demo_non_lifo_reachable, by decide,
    (C23_counter_is_live_count (state_after demo_env demo_non_lifo)
      demo_non_lifo_reachable).2.1 (by decide),
    by decide⟩

end Nfts

/-!
# The claim that sellers own what they list
-/

namespace Nfts

theorem owner_of_frame {s s' : State} (h : s'.nfts = s.nfts) (id : Nat) :
    owner_of s' id = owner_of s id := by
  unfold owner_of
  rw [h]

/-- A rewrite of the token rows that keeps keys, and keeps the owner of the
token `id`, keeps the owner recorded for `id`. -/
theorem owner_of_map {s s' : State} {g : nft → nft} {id : Nat}
    (hk : ∀ t, nft_key (g t) = nft_key t) (ho : ∀ t, nft_key t = id → (g t).owner = t.owner)
    (h : s'.nfts = s.nfts.map g) : owner_of s' id = owner_of s id := by
  unfold owner_of
  rw [h, tfind_map_key g hk]
  cases hf : tfind nft_key s.nfts id with
  | none => rfl
  | some t =>
    simp only [Option.map_some']
    rw [ho t (tfind_some hf).2]

theorem owner_of_append {s s' : State} {m : List nft} {id x : Nat}
    (h : s'.nfts = s.nfts ++ m) (ho : owner_of s id = some x) : owner_of s' id = some x := by
  unfold owner_of at ho ⊢
  rw [h, tfind_append]
  cases hf : tfind nft_key s.nfts id with
  | none => rw [hf] at ho; cases ho
  | some t =>
    rw [hf] at ho
    exact ho

theorem owner_ite_owner_of_not_mem {ids : List Nat} {to_ : Nat} {t : nft} (h : t.id ∉ ids) :
    (if t.id ∈ ids then { t with owner := to_ } else t).owner = t.owner := by
  rw [if_neg h]

theorem price_ite_owner_same (c : Prop) [Decidable c] (t : nft) (p : asset) :
    (if c then { t with resale_price := p } else t).owner = t.owner := by
  split <;> rfl

theorem shared_ite_owner_same (c : Prop) [Decidable c] (t : nft) (o : Nat) :
    (if c then { t with shared_with := o } else t).owner = t.owner := by
  split <;> rfl

/-- Handing the tokens `ids` to a new owner keeps the owner of every other
token. -/
theorem owner_of_set_owner {s s' : State} {ids : List Nat} {to_ : Nat} {id : Nat}
    (h : s'.nfts = set_owner ids to_ s.nfts) (hid : id ∉ ids) :
    owner_of s' id = owner_of s id := by
  refine owner_of_map (fun t => owner_ite_nft_key _ t to_) ?_
    (h.trans (set_owner_eq_map ids to_ s.nfts))
  intro t hk
  apply owner_ite_owner_of_not_mem
  have e : t.id = id := hk
  rw [e]
  exact hid

theorem owner_of_set_price {s s' : State} {ids : List Nat} {p : asset} (id : Nat)
    (h : s'.nfts = set_price ids p s.nfts) : owner_of s' id = owner_of s id :=
  owner_of_map (fun t => price_ite_nft_key _ t p) (fun t _ => price_ite_owner_same _ t p)
    (h.trans (set_price_eq_map ids p s.nfts))

theorem OwnInv_empty : OwnInv State.empty :=
  ⟨fun a h => (by cases h), fun au h => (by cases h)⟩

/-- Asks and auctions that were stored before with the same tokens and
sellers, and owners of held tokens as before: sellers still own what they
hold. -/
theorem OwnInv_keep {s s' : State} (ho : OwnInv s) (ha : ∀ a ∈ s'.asks, a ∈ s.asks)
    (hu : ∀ au ∈ s'.auctions, ∃ au0 ∈ s.auctions,
      au0.nft_id = au.nft_id ∧ au0.seller = au.seller)
    (hown : ∀ id x, id ∈ held s' → owner_of s id = some x → owner_of s' id = some x) :
    OwnInv s' := by
  constructor
  · intro a hm id hid
    exact hown id _ (mem_held.mpr (Or.inl ⟨a, hm, hid⟩)) (ho.asks a (ha a hm) id hid)
  · intro au hm
    obtain ⟨au0, hm0, e1, e2⟩ := hu au hm
    have := ho.auctions au0 hm0
    rw [e1, e2] at this
    exact hown _ _ (mem_held.mpr (Or.inr ⟨au, hm, rfl⟩)) this

theorem auctions_same {s s' : State} (h : s'.auctions = s.auctions) :
    ∀ au ∈ s'.auctions, ∃ au0 ∈ s.auctions, au0.nft_id = au.nft_id ∧ au0.seller = au.seller := by
  intro au hm
  rw [h] at hm
  exact ⟨au, hm, rfl, rfl⟩

theorem auctions_erased {s s' : State} {id : Nat}
    (h : s'.auctions = terase auction_key s.auctions id) :
    ∀ au ∈ s'.auctions, ∃ au0 ∈ s.auctions, au0.nft_id = au.nft_id ∧ au0.seller = au.seller := by
  intro au hm
  rw [h] at hm
  exact ⟨au, (mem_terase.mp hm).1, rfl, rfl⟩

theorem asks_same {s s' : State} (h : s'.asks = s.asks) : ∀ a ∈ s'.asks, a ∈ s.asks := by
  intro a hm
  rw [h] at hm
  exact hm

/-- Nothing held, nothing owned changes. -/
theorem OwnInv_frame {s s' : State} (ho : OwnInv s) (h1 : s'.nfts = s.nfts)
    (h2 : s'.asks = s.asks) (h3 : s'.auctions = s.auctions) : OwnInv s' :=
  OwnInv_keep ho (asks_same h2) (auctions_same h3)
    (fun id x _ hx => by rw [owner_of_frame h1]; exact hx)

/-- Every successful action keeps the sellers the owners of what they hold. -/
theorem OwnInv_step {env : Env} {a : Action} {s s' : State} (hi : Inv s) (ho : OwnInv s)
    (h : a.run env s = some s') : OwnInv s' := by
  have hi' : Inv s' := Inv_step hi h
  have hlocked : ∀ id, id ∈ held s' → id ∈ s'.lockednfts :=
    fun id hid => (hi'.lock.lock_iff id).mpr hid
  cases a with
  | setconfig version =>
    obtain ⟨cfg, rfl, _⟩ := setconfig_effect h
    exact OwnInv_frame ho rfl rfl rfl
  | createacc id signature caller =>
    have := createacc_effect h
    subst this
    exact OwnInv_frame ho rfl rfl rfl
  | createnft issuer event nft_name burnable sellable transferable price max_per_account
      sale_split base_uri max_supply =>
    obtain ⟨cfg, events, _, _, _, _, _, _, _, _, _, _, _, _, rfl⟩ := createnft_effect h
    exact OwnInv_frame ho rfl rfl rfl
  | deleteeve event =>
    have := deleteeve_effect h
    subst this
    exact OwnInv_frame ho rfl rfl rfl
  | deletestats event nft_name =>
    obtain ⟨st, cfg, _, _, _, rfl⟩ := deletestats_effect h
    exact OwnInv_frame ho rfl rfl rfl
  | issue to_ event nft_name quantity relative_uri memo =>
    obtain ⟨st, acc, _, _, _, _, _, _, _, _, _, _, rfl, _, _, _⟩ :=
      issue_effect hi.token.keys hi.supply hi.acct h
    exact OwnInv_keep ho (asks_same rfl) (auctions_same rfl)
      (fun id x _ hx => owner_of_append rfl hx)
  | transfer from_ to_ nft_ids memo =>
    obtain ⟨_, acc, rfl, _, _, hfree⟩ := transfer_effect hi.supply hi.acct h
    refine OwnInv_keep ho (asks_same rfl) (auctions_same rfl) ?_
    intro id x hid hx
    have hnot : id ∉ nft_ids := fun hin => hfree id hin (hlocked id hid)
    rw [owner_of_set_owner rfl hnot]
    exact hx
  | listsale seller event nft_name nft_ids net_sale_price =>
    obtain ⟨_, _, _, b, _, _, hlist, _, _, rfl⟩ := listsale_eq_some.mp h
    constructor
    · intro a hm id hid
      rw [owner_of_set_price id rfl]
      rcases List.mem_append.mp hm with hm | hm
      · exact ho.asks a hm id hid
      · rw [List.mem_singleton] at hm
        subst hm
        obtain ⟨t, _, ht, _, _, _, _, hown, _⟩ := hlist id hid
        unfold owner_of
        rw [ht, Option.map_some', hown]
    · intro au hm
      rw [owner_of_set_price au.nft_id rfl]
      exact ho.auctions au hm
  | closesale seller batch_id =>
    obtain ⟨a, _, _, _, _, _, _, rfl⟩ := closesale_eq_some.mp h
    refine OwnInv_keep ho (fun x hx => (mem_terase.mp hx).1) (auctions_same rfl) ?_
    intro id x _ hx
    rw [owner_of_set_price id rfl]
    exact hx
  | share from_ nft_id to_ =>
    obtain ⟨_, _, _, rfl⟩ := share_eq_some.mp h
    refine OwnInv_keep ho (asks_same rfl) (auctions_same rfl) ?_
    intro id x _ hx
    rw [owner_of_map (fun t => shared_ite_nft_key _ t to_)
      (fun t _ => shared_ite_owner_same _ t to_) (tmodify_eq_map s.nfts nft_id _)]
    exact hx
  | unshare nft_id =>
    obtain ⟨_, rfl⟩ := unshare_eq_some.mp h
    refine OwnInv_keep ho (asks_same rfl) (auctions_same rfl) ?_
    intro id x _ hx
    rw [owner_of_map (fun t => shared_ite_nft_key _ t 0)
      (fun t _ => shared_ite_owner_same _ t 0) (tmodify_eq_map s.nfts nft_id _)]
    exact hx
  | buy to_ batch_id memo =>
    obtain ⟨a, acc, _, _, _, _, _, _, _, rfl, _, _, _⟩ := buy_effect hi.supply hi.acct h
    refine OwnInv_keep ho (fun x hx => (mem_terase.mp hx).1) (auctions_same rfl) ?_
    intro id x hid hx
    have hnot : id ∉ a.nft_ids := (mem_release.mp (hlocked id hid)).2
    have e1 : owner_of
        { s with nfts := set_price a.nft_ids zero_price (set_owner a.nft_ids to_ s.nfts),
                 accounts := acc, lockednfts := release a.nft_ids s.lockednfts,
                 asks := terase ask_key s.asks batch_id } id =
        owner_of { s with nfts := set_owner a.nft_ids to_ s.nfts } id :=
      owner_of_set_price id rfl
    rw [e1, owner_of_set_owner rfl hnot]
    exact hx
  | createauctn seller event nft_id target_price min_bid_price expiration =>
    obtain ⟨_, _, _, _, ⟨t, _, ht, _, _, _, hown, _⟩, _, _, rfl⟩ := createauctn_eq_some.mp h
    constructor
    · intro a hm id hid
      exact ho.asks a hm id hid
    · intro au hm
      rcases List.mem_append.mp hm with hm | hm
      · exact ho.auctions au hm
      · rw [List.mem_singleton] at hm
        subst hm
        show owner_of s nft_id = some seller
        unfold owner_of
        rw [ht, Option.map_some', hown]
  | closeauctn seller nft_id =>
    obtain ⟨_, au, _, _, _, _, _, rfl⟩ := closeauctn_eq_some.mp h
    exact OwnInv_keep ho (asks_same rfl) (auctions_erased rfl)
      (fun id x _ hx => by rw [owner_of_frame rfl]; exact hx)
  | bid nft_id bidder bid_price =>
    obtain ⟨au, _, _, _, _, _, _, _, _, _, _, hcase⟩ := bid_effect hi.supply hi.acct h
    rcases hcase with ⟨_, acc, _, rfl, _, _, _, _⟩ | ⟨_, _, rfl⟩
    · refine OwnInv_keep ho (asks_same rfl) (auctions_erased rfl) ?_
      intro id x hid hx
      have hnot : id ∉ [nft_id] := (mem_release.mp (hlocked id hid)).2
      rw [owner_of_set_owner rfl hnot]
      exact hx
    · refine OwnInv_keep ho (asks_same rfl) ?_
        (fun id x _ hx => by rw [owner_of_frame rfl]; exact hx)
      intro x hx
      obtain ⟨r, hr, rfl⟩ := mem_tmodify.mp hx
      refine ⟨r, hr, ?_, ?_⟩ <;> split <;> rfl
  | finalize nft_id seller =>
    obtain ⟨au, acc, _, _, _, _, _, _, rfl, _, _, _, _⟩ :=
      finalize_effect hi.supply hi.acct h
    refine OwnInv_keep ho (asks_same rfl) (auctions_erased rfl) ?_
    intro id x hid hx
    have hnot : id ∉ [nft_id] := (mem_release.mp (hlocked id hid)).2
    by_cases hb : au.bidder ≠ 0
    · have e : (if au.bidder ≠ 0 then set_owner [nft_id] au.bidder s.nfts else s.nfts) =
          set_owner [nft_id] au.bidder s.nfts := if_pos hb
      rw [owner_of_set_owner e hnot]
      exact hx
    · have e : (if au.bidder ≠ 0 then set_owner [nft_id] au.bidder s.nfts else s.nfts) =
          s.nfts := if_neg hb
      rw [owner_of_frame e]
      exact hx

/-- In every reachable ledger sellers own what they hold. -/
theorem OwnInv_of_reachable {s : State} (h : Reachable s) : OwnInv s := by
  unfold Reachable at h
  induction h with
  | start => exact OwnInv_empty
  | step env a hr _ hrun ih => exact OwnInv_step (Inv_of_reachableBy hr) ih hrun

/-- C24: in every reachable ledger every token listed in a stored ask is
owned by the seller of the ask, and every token with a stored auction is
owned by the seller of the auction.  So the ask that `buy` looks up, and the
auction that `bid` and `finalize` look up, name as seller (the identity that
settlement debits) the owner of each of their tokens. -/
theorem C24_sellers_own_listed (s : State) (hr : Reachable s) :
    (∀ a ∈ s.asks, ∀ id ∈ a.nft_ids, owner_of s id = some a.seller) ∧
    (∀ au ∈ s.auctions, owner_of s au.nft_id = some au.seller) ∧
    (∀ b a, tfind ask_key s.asks b = some a → ∀ id ∈ a.nft_ids,
      ∃ t, tfind nft_key s.nfts id = some t ∧ t.owner = a.seller) ∧
    (∀ id au, tfind auction_key s.auctions id = some au →
      ∃ t, tfind nft_key s.nfts id = some t ∧ t.owner = au.seller) := by
  have ho := OwnInv_of_reachable hr
  have hget : ∀ id x, owner_of s id = some x → ∃ t, tfind nft_key s.nfts id = some t ∧
      t.owner = x := by
    intro id x h
    unfold owner_of at h
    cases hf : tfind nft_key s.nfts id with
    | none => rw [hf] at h; cases h
    | some t =>
      rw [hf] at h
      exact ⟨t, rfl, Option.some.inj h⟩
  refine ⟨ho.asks, ho.auctions, ?_, ?_⟩
  · intro b a ha id hid
    exact hget id _ (ho.asks a (tfind_some ha).1 id hid)
  · intro id au hau
    obtain ⟨hm, hk⟩ := tfind_some hau
    have e : au.nft_id = id := hk
    have := ho.auctions au hm
    rw [e] at this
    exact hget id _ this

/-- C24 at the ledger with tokens 0 and 1 listed by user 10, and at the one
with token 2 put up for auction by user 10. -/
theorem C24_sellers_own_listed_witness :
    demo_ask ∈ (state_after demo_env demo_listed).asks ∧ demo_ask.seller = 10 ∧
    (∀ id ∈ demo_ask.nft_ids, owner_of (state_after demo_env demo_listed) id = some 10) ∧
    demo_auction_row ∈ (state_after demo_env demo_auction).auctions ∧
    owner_of (state_after demo_env demo_auction) demo_auction_row.nft_id =
      some demo_auction_row.seller :=
  ⟨by decide, rfl,
    (C24_sellers_own_listed (state_after demo_env demo_listed) demo_listed_reachable).1
      demo_ask (by decide),
    by decide,
    (C24_sellers_own_listed (state_after demo_env demo_auction) demo_auction_reachable).2.1
      demo_auction_row (by decide)⟩

end Nfts

/-!
# The claim on the prices and accepted bids of auctions
-/

namespace Nfts

theorem logged_reachable {s : State} {log : Nat → List Int} (h : Logged s log) :
    Reachable s := by
  induction h with
  | start => exact ReachableBy.start
  | step env a _ hrun ih => exact reachable_step ih hrun

/-- Every reachable ledger is reached by a run with its accepted bids. -/
theorem reachable_logged {s : State} (h : Reachable s) : ∃ log, Logged s log := by
  unfold Reachable at h
  induction h with
  | start => exact ⟨_, Logged.start⟩
  | step env a _ _ hrun ih =>
    obtain ⟨log, hl⟩ := ih
    exact ⟨_, Logged.step env a hl hrun⟩

theorem logged_run_all (env : Env) :
    ∀ (l : List Action) (s s' : State) (log : Nat → List Int), Logged s log →
      run_all env l s = some s' → Logged s' (log_all l log)
  | [], s, s', log, hl, h => by
    simp only [run_all, Option.some.injEq] at h
    subst h
    exact hl
  | a :: rest, s, s', log, hl, h => by
    simp only [run_all] at h
    obtain ⟨s1, h1, h2⟩ := andThen_eq_some.mp h
    exact logged_run_all env rest s1 s' (bid_log a log) (Logged.step env a hl h1) h2

theorem logged_state_after (env : Env) (l : List Action)
    (h : (run_all env l State.empty).isSome = true) :
    Logged (state_after env l) (log_all l (fun _ => [])) := by
  obtain ⟨s', hs'⟩ := Option.isSome_iff_exists.mp h
  have : state_after env l = s' := by
    unfold state_after commit
    rw [hs']
    rfl
  rw [this]
  exact logged_run_all env l State.empty s' _ Logged.start hs'

/-- The rows of the auctions that were stored before, with their accepted
bids as before, still agree with them. -/
theorem log_agrees_keep {s s' : State} {log log2 : Nat → List Int}
    (hl : ∀ au ∈ s.auctions, log_agrees au (log au.nft_id))
    (hsub : ∀ au ∈ s'.auctions, au ∈ s.auctions ∧ log2 au.nft_id = log au.nft_id) :
    ∀ au ∈ s'.auctions, log_agrees au (log2 au.nft_id) := by
  intro au hm
  obtain ⟨h1, h2⟩ := hsub au hm
  rw [h2]
  exact hl au h1

/-- Every successful action keeps the auction rows in agreement with the
accepted bids. -/
theorem log_agrees_step {env : Env} {a : Action} {s s' : State} {log : Nat → List Int}
    (hi : Inv s) (hl : ∀ au ∈ s.auctions, log_agrees au (log au.nft_id))
    (h : a.run env s = some s') :
    ∀ au ∈ s'.auctions, log_agrees au (bid_log a log au.nft_id) := by
  cases a with
  | setconfig version =>
    obtain ⟨cfg, rfl, _⟩ := setconfig_effect h
    exact hl
  | createacc id signature caller =>
    have := createacc_effect h
    subst this
    exact hl
  | createnft issuer event nft_name burnable sellable transferable price max_per_account
      sale_split base_uri max_supply =>
    obtain ⟨cfg, events, _, _, _, _, _, _, _, _, _, _, _, _, rfl⟩ := createnft_effect h
    exact hl
  | deleteeve event =>
    have := deleteeve_effect h
    subst this
    exact hl
  | deletestats event nft_name =>
    obtain ⟨st, cfg, _, _, _, rfl⟩ := deletestats_effect h
    exact hl
  | issue to_ event nft_name quantity relative_uri memo =>
    obtain ⟨st, acc, _, _, _, _, _, _, _, _, _, _, rfl, _, _, _⟩ :=
      issue_effect hi.token.keys hi.supply hi.acct h
    exact hl
  | transfer from_ to_ nft_ids memo =>
    obtain ⟨_, acc, rfl, _, _, _⟩ := transfer_effect hi.supply hi.acct h
    exact hl
  | listsale seller event nft_name nft_ids net_sale_price =>
    obtain ⟨_, _, _, b, _, _, _, _, _, rfl⟩ := listsale_eq_some.mp h
    exact hl
  | closesale seller batch_id =>
    obtain ⟨a, _, _, _, _, _, _, rfl⟩ := closesale_eq_some.mp h
    exact hl
  | share from_ nft_id to_ =>
    obtain ⟨_, _, _, rfl⟩ := share_eq_some.mp h
    exact hl
  | unshare nft_id =>
    obtain ⟨_, rfl⟩ := unshare_eq_some.mp h
    exact hl
  | buy to_ batch_id memo =>
    obtain ⟨a, acc, _, _, _, _, _, _, _, rfl, _, _, _⟩ := buy_effect hi.supply hi.acct h
    exact hl
  | createauctn seller event nft_id target_price min_bid_price expiration =>
    obtain ⟨_, _, _, _, _, _, hfresh, rfl⟩ := createauctn_eq_some.mp h
    intro au hm
    rcases List.mem_append.mp hm with hm | hm
    · have hne : ¬ au.nft_id = nft_id := hfresh au hm
      show log_agrees au (if au.nft_id = nft_id then [] else log au.nft_id)
      rw [if_neg hne]
      exact hl au hm
    · rw [List.mem_singleton] at hm
      subst hm
      show log_agrees _ (if nft_id = nft_id then [] else log nft_id)
      rw [if_pos rfl]
      exact ⟨Or.inl ⟨rfl, rfl⟩, List.Pairwise.nil, fun x hx => by cases hx⟩
  | closeauctn seller nft_id =>
    obtain ⟨_, au, _, _, _, _, _, rfl⟩ := closeauctn_eq_some.mp h
    exact log_agrees_keep hl (fun x hx => ⟨(mem_terase.mp hx).1, rfl⟩)
  | bid nft_id bidder bid_price =>
    obtain ⟨au, hau, _, _, hpos, _, _, _, _, hgt, _, hcase⟩ := bid_effect hi.supply hi.acct h
    rcases hcase with ⟨_, acc, _, rfl, _, _, _, _⟩ | ⟨_, _, rfl⟩
    · refine log_agrees_keep hl (fun x hx => ⟨(mem_terase.mp hx).1, ?_⟩)
      have hne : ¬ x.nft_id = nft_id := (mem_terase.mp hx).2
      show (if x.nft_id = nft_id then bid_price.amount :: log x.nft_id else log x.nft_id) = _
      rw [if_neg hne]
    · intro x hx
      obtain ⟨r, hr, rfl⟩ := mem_tmodify.mp hx
      by_cases hk : auction_key r = nft_id
      · have e := tfind_unique (auction_keys_nodup hi.lock) hau hr hk
        subst e
        have hk' : r.nft_id = nft_id := hk
        obtain ⟨hhead, hpair, hall⟩ := hl r hr
        rw [if_pos hk]
        show log_agrees _ (if r.nft_id = nft_id then bid_price.amount :: log r.nft_id
          else log r.nft_id)
        rw [if_pos hk']
        have hbelow : ∀ y ∈ log r.nft_id, bid_price.amount > y := by
          intro y hy
          rcases hhead with ⟨e0, _⟩ | ⟨rest, e0, _⟩
          · rw [e0] at hy
            cases hy
          · rw [e0] at hy hpair
            rcases List.mem_cons.mp hy with e1 | hy'
            · rw [e1]
              exact hgt
            · have := (List.pairwise_cons.mp hpair).1 y hy'
              omega
        refine ⟨Or.inr ⟨log r.nft_id, rfl, hpos⟩, List.pairwise_cons.mpr ⟨hbelow, hpair⟩, ?_⟩
        intro y hy
        rcases List.mem_cons.mp hy with e1 | hy'
        · rw [e1]
          exact hpos
        · exact hall y hy'
      · have hk' : ¬ r.nft_id = nft_id := hk
        rw [if_neg hk]
        show log_agrees r (if r.nft_id = nft_id then bid_price.amount :: log r.nft_id
          else log r.nft_id)
        rw [if_neg hk']
        exact hl r hr
  | finalize nft_id seller =>
    obtain ⟨au, acc, _, _, _, _, _, _, rfl, _, _, _, _⟩ :=
      finalize_effect hi.supply hi.acct h
    exact log_agrees_keep hl (fun x hx => ⟨(mem_terase.mp hx).1, rfl⟩)

/-- Along every run the auction rows agree with the accepted bids. -/
theorem log_agrees_of_logged {s : State} {log : Nat → List Int} (h : Logged s log) :
    ∀ au ∈ s.auctions, log_agrees au (log au.nft_id) := by
  induction h with
  | start => intro au hm; cases hm
  | step env a hl hrun ih =>
    exact log_agrees_step (Inv_of_reachable (logged_reachable hl)) ih hrun

/-- C25: in every reachable ledger every stored auction has
`0 <= current_price < target_price`.  Every reachable ledger is reached by a
run that comes with the accepted bids of its open auctions, and along every
such run, for every stored auction: the current price is positive exactly when
a bid was accepted on it; the latest accepted bid, if any, is the current
price; and the accepted bids are positive and each is strictly above the one
accepted before it. -/
theorem C25_auction_prices (s : State) :
    (Reachable s → ∀ au ∈ s.auctions,
      0 ≤ au.current_price.amount ∧ au.current_price.amount < au.target_price.amount) ∧
    (Reachable s → ∃ log, Logged s log) ∧
    (∀ log, Logged s log → ∀ au ∈ s.auctions,
      (0 < au.current_price.amount ↔ log au.nft_id ≠ []) ∧
      (∀ x, (log au.nft_id).head? = some x → x = au.current_price.amount) ∧
      (log au.nft_id).Pairwise (fun later earlier => later > earlier) ∧
      (∀ x ∈ log au.nft_id, 0 < x ∧ x ≤ au.current_price.amount)) := by
  refine ⟨?_, reachable_logged, ?_⟩
  · intro hr au hm
    obtain ⟨_, _, h1, h2, _⟩ := (AuctInv_of_reachable hr).row_ok au hm
    exact ⟨h1, h2⟩
  · intro log hl au hm
    obtain ⟨hhead, hpair, hall⟩ := log_agrees_of_logged hl au hm
    rcases hhead with ⟨e0, e1⟩ | ⟨rest, e0, hpos⟩
    · rw [e0, e1]
      refine ⟨⟨fun h => absurd h (by decide), fun h => absurd rfl h⟩, ?_, List.Pairwise.nil, ?_⟩
      · intro x hx
        cases hx
      · intro x hx
        cases hx
    · refine ⟨⟨fun _ => ?_, fun _ => hpos⟩, ?_, hpair, ?_⟩
      · rw [e0]
        exact List.cons_ne_nil _ _
      · intro x hx
        rw [e0] at hx
        exact (Option.some.inj hx).symm
      · intro x hx
        refine ⟨hall x hx, ?_⟩
        rw [e0] at hx hpair
        rcases List.mem_cons.mp hx with e1 | hx'
        · rw [e1]
        · have := (List.pairwise_cons.mp hpair).1 x hx'
          omega

theorem demo_bid60_logged :
    Logged (state_after demo_env demo_bid60) (log_all demo_bid60 (fun _ => [])) :=
  logged_state_after demo_env demo_bid60 (by decide)

/-- C25 at the auction of token 2 after the accepted bids of 50 and then 60:
the current price is 60, below the target 100, and the accepted bids are 60
and 50, latest first. -/
theorem C25_auction_prices_witness :
    demo_bid60_row ∈ (state_after demo_env demo_bid60).auctions ∧
    log_all demo_bid60 (fun _ => []) demo_bid60_row.nft_id = [60, 50] ∧
    (0 ≤ demo_bid60_row.current_price.amount ∧
      demo_bid60_row.current_price.amount < demo_bid60_row.target_price.amount) ∧
    ((0 < demo_bid60_row.current_price.amount ↔
        log_all demo_bid60 (fun _ => []) demo_bid60_row.nft_id ≠ []) ∧
      (∀ x, (log_all demo_bid60 (fun _ => []) demo_bid60_row.nft_id).head? = some x →
        x = demo_bid60_row.current_price.amount) ∧
      (log_all demo_bid60 (fun _ => []) demo_bid60_row.nft_id).Pairwise
        (fun later earlier => later > earlier) ∧
      (∀ x ∈ log_all demo_bid60 (fun _ => []) demo_bid60_row.nft_id,
        0 < x ∧ x ≤ demo_bid60_row.current_price.amount)) :=
  ⟨by decide, by decide,
    (C25_auction_prices (state_after demo_env demo_bid60)).1
      (logged_reachable demo_bid60_logged) demo_bid60_row (by decide),
    (C25_auction_prices (state_after demo_env demo_bid60)).2.2 _ demo_bid60_logged
      demo_bid60_row (by decide)⟩

end Nfts

/-!
# The claims on the expiration instant and on the per-account cap
-/

namespace Nfts

theorem demo_two_holders_reachable : Reachable (state_after demo_env demo_two_holders) :=
  reachable_state_after demo_env demo_two_holders (by decide)

theorem demo_over_cap_reachable : Reachable (state_after demo_env demo_over_cap) :=
  reachable_state_after demo_env demo_over_cap (by decide)

/-- C27: there is a reachable ledger, made by successful `issue` calls and
one successful direct `transfer`, in which a balance is above the cap of its
category.  In the category capped at three per account, two tokens are issued
to user 10 and two to user 11; an `issue` of two more to user 11 is refused by
the cap, but the transfer of the two tokens of user 10 to user 11 succeeds and
leaves user 11 with a balance of four. -/
theorem C27_balance_above_cap :
    Reachable (state_after demo_env demo_over_cap) ∧
    issue demo_env 11 100 6 ⟨2, CTT⟩ "" "" (state_after demo_env demo_capped) =
      some (state_after demo_env demo_two_holders) ∧
    balance (state_after demo_env demo_two_holders) 10 1 = 2 ∧
    balance (state_after demo_env demo_two_holders) 11 1 = 2 ∧
    issue demo_env 11 100 6 ⟨2, CTT⟩ "" "" (state_after demo_env demo_two_holders) = none ∧
    transfer demo_env 10 11 [0, 1] "" (state_after demo_env demo_two_holders) =
      some (state_after demo_env demo_over_cap) ∧
    demo_over_cap_row ∈ (state_after demo_env demo_over_cap).stats ∧
    demo_over_cap_row.2.nft_category_id = 1 ∧
    (demo_over_cap_row.2.max_per_account.val : Int) = 3 ∧
    balance (state_after demo_env demo_over_cap) 11 demo_over_cap_row.2.nft_category_id = 4 ∧
    balance (state_after demo_env demo_over_cap) 11 demo_over_cap_row.2.nft_category_id >
      (demo_over_cap_row.2.max_per_account.val : Int) :=
  ⟨demo_over_cap_reachable, by decide, by decide, by decide, by decide, by decide, by decide,
    rfl, by decide, by decide, by decide⟩

end Nfts
